import Mathlib

/-!
Verification of the generic set library `sets` (package kkhmel/sets): two shallow embeddings of
the Go package `sets` and proofs of its contract.

The first embedding (namespace `sets`) is the package on key types on which `==` is the
equality of values and every value can be hashed (integers, strings, structs of such), with
sizes as numbers without bound:

* `Set E` embeds the Go type `map[E]struct{}` (and every `S ~map[E]struct{}`): a flag that
  tells the nil map from an allocated one, and the keys of the map in the order in which one
  `range` over the map visits them.  On these key types a map never holds a key twice and the
  nil map holds no key; both facts are fields of the structure.  Go leaves the iteration order
  open; a statement that holds for every `Set E` therefore holds for every order `range` may
  choose.
* A Go `panic` is the `error` case of `Except Panic`.  Every function whose body can reach a
  panicking statement (`panic(...)`, a write to a map, an index expression) returns
  `Except Panic _`; functions whose bodies consist of map reads, `len`, `delete`, `clear` and
  `range` only (none of which panics on these key types, also on the nil map) are plain
  functions.
* A function that mutates its map argument returns the content of that map after the call.
  Where a statement is about two maps that share or do not share their content (`Clone`,
  `Grow`), the functions are embedded a second time on references into a memory of allocated
  maps (section "Maps as references").
* `len` is a natural number and a capacity hint is an integer; `make` takes every hint.
* `iter.Seq[V]` is `Seq V`, a push iterator: a function that feeds the elements to the loop body
  of the consumer (`yield`), which threads the state of the consumer and says whether to go on.
* The order of the keys of a set that an operation returns is a choice of the embedding (the
  order of insertion); the statements about a result speak of its elements and its size only.

The second embedding (namespace `sets.Go`, section "The package on every key type and on 64-bit
integers") is the package on every `comparable` key type and with the arithmetic of the 64-bit
`int`: a key can be unequal to itself (a floating-point NaN) or impossible to hash (a slice
inside an interface value), map reads, writes and `delete` can panic, a sum or product of sizes
wraps, and a map remembers the hint it was made with.  The statements about NaN keys, about keys
that cannot be hashed and about capacities are statements on this embedding; on maps without a
NaN the two embeddings agree (`Go_Equal_asSet`, `Go_Subset_asSet`).
-/

namespace sets

/-! ## Panics and the builtin operations of Go maps -/

/-- The ways in which code of the package can abort: `panic("cannot be negative")`,
`panic("cannot be less than 1")`, and the runtime errors of an assignment to an entry of the nil
map, of an index out of range, and of hashing a key whose dynamic type cannot be hashed (a
slice, map or function inside an interface value). -/
inductive Panic where
  | cannotBeNegative
  | cannotBeLessThanOne
  | assignmentToEntryInNilMap
  | indexOutOfRange
  | hashOfUnhashableType
  deriving DecidableEq, Repr

/-- The Go type `map[E]struct{}`: `isNil` tells the nil map, `keys` lists the keys in iteration
order. -/
structure Set (E : Type) where
  isNil : Bool
  keys : List E
  nodup : keys.Nodup
  nil_keys : isNil = true → keys = []
  deriving DecidableEq

variable {E : Type}

/-- Two results of a call are compared case by case: a returned value with a returned value, a
panic with a panic. -/
instance {ε α : Type} [DecidableEq ε] [DecidableEq α] : DecidableEq (Except ε α) := fun x y =>
  match x, y with
  | .ok a, .ok b => decidable_of_iff (a = b) ⟨congrArg Except.ok, Except.ok.inj⟩
  | .error p, .error q => decidable_of_iff (p = q) ⟨congrArg Except.error, Except.error.inj⟩
  | .ok _, .error _ => isFalse Except.noConfusion
  | .error _, .ok _ => isFalse Except.noConfusion

/-- The nil map (`var s Set[E]`, or the literal `nil`). -/
def nilSet : Set E := ⟨true, [], List.nodup_nil, fun _ => rfl⟩

instance : Inhabited (Set E) := ⟨nilSet⟩

/-- The builtin `make(S, hint)`: a fresh, allocated, empty map.  The runtime takes the hint for
a map as advice only (it never panics on it), and the capacity of a map cannot be observed. -/
def make (_hint : Int) : Set E := ⟨false, [], List.nodup_nil, fun _ => rfl⟩

/-- The builtin `len(s)`; `0` on the nil map. -/
def len (s : Set E) : Nat := s.keys.length

/-- The map read `_, ok := s[e]`; `false` on the nil map. -/
def lookup [DecidableEq E] (s : Set E) (e : E) : Bool := decide (e ∈ s.keys)

/-- The map write `s[e] = struct{}{}`: panics on the nil map, keeps a map that holds `e`
already, and otherwise adds the key `e`. -/
def store [DecidableEq E] (s : Set E) (e : E) : Except Panic (Set E) :=
  if hn : s.isNil = true then .error .assignmentToEntryInNilMap
  else if he : e ∈ s.keys then .ok s
  else .ok ⟨false, s.keys ++ [e],
    List.Nodup.append s.nodup (List.nodup_singleton e)
      (by intro x hx hx1; rw [List.mem_singleton] at hx1; exact he (hx1 ▸ hx)),
    fun h => by cases h⟩

/-- The builtin `delete(s, e)`: no-op on the nil map and on a map without `e`. -/
def delete [DecidableEq E] (s : Set E) (e : E) : Set E :=
  ⟨s.isNil, s.keys.erase e, s.nodup.erase e,
    fun h => by rw [s.nil_keys h]; rfl⟩

/-- The builtin `clear(s)`: removes every key; the nil map stays nil. -/
def clear (s : Set E) : Set E := ⟨s.isNil, [], List.nodup_nil, fun _ => rfl⟩

/-- The index expression `xs[i]` on a slice: panics when `i` is out of range. -/
def index {α : Type} (xs : List α) (i : Nat) : Except Panic α :=
  match xs.get? i with
  | some x => .ok x
  | none => .error .indexOutOfRange

/-- A Go slice `[]A` where the code tells the nil slice from the others: `none` is the nil
slice.  A variadic parameter is embedded as a `List`: of such a slice the code uses `len`,
`range` and indexing only, which do not tell the nil slice from the empty one. -/
abbrev Slice (A : Type) := Option (List A)

/-- The elements of a slice, in order; the nil slice has none. -/
def Slice.elems {A : Type} : Slice A → List A
  | none => []
  | some xs => xs

/-! ## mutate.go -/

/-- `Insert(s, v...)`: `for _, e := range v { s[e] = struct{}{} }`. -/
def Insert [DecidableEq E] (s : Set E) (v : List E) : Except Panic (Set E) :=
  v.foldlM store s

/-- `Delete(s, v...)`: `for _, e := range v { delete(s, e) }`. -/
def Delete [DecidableEq E] (s : Set E) (v : List E) : Set E :=
  v.foldl delete s

/-- `maps.DeleteFunc` of the standard library at value type `struct{}`:
`for k, v := range m { if del(k, v) { delete(m, k) } }`. -/
def mapsDeleteFunc [DecidableEq E] (m : Set E) (del : E → Bool) : Set E :=
  m.keys.foldl (fun acc k => if del k then delete acc k else acc) m

/-- `DeleteFunc(s, del)`. -/
def DeleteFunc [DecidableEq E] (s : Set E) (del : E → Bool) : Set E :=
  mapsDeleteFunc s (fun e => del e)

/-- `Replace(s, old, new)`. -/
def Replace [DecidableEq E] (s : Set E) (old new : E) : Except Panic (Set E) :=
  if !lookup s old then .ok s
  else store (delete s old) new

/-- `ReplaceFunc(s, f)`: snapshot of the keys, `clear(s)`, then `s[f(e)] = struct{}{}` for every
key of the snapshot. -/
def ReplaceFunc [DecidableEq E] (s : Set E) (f : E → E) : Except Panic (Set E) :=
  let keys := s.keys.foldl (fun ks e => ks ++ [e]) []
  keys.foldlM (fun acc e => store acc (f e)) (clear s)

/-! ## set.go -/

/-- `New`: panics on a negative capacity, otherwise `make(Set[E], capacity)`. -/
def New (capacity : Int) : Except Panic (Set E) :=
  if capacity < 0 then .error .cannotBeNegative
  else .ok (make capacity)

/-- `FromSlice(slice)`. -/
def FromSlice [DecidableEq E] (slice : Slice E) : Except Panic (Set E) := do
  let s ← New (slice.elems.length : Int)
  Insert s slice.elems

/-- `From(vals...)`, which hands its variadic slice over to `FromSlice`. -/
def From [DecidableEq E] (vals : Slice E) : Except Panic (Set E) :=
  FromSlice vals

/-- `FromSliceFunc(slice, f)`. -/
def FromSliceFunc {A : Type} [DecidableEq E] (slice : Slice A) (f : A → E) :
    Except Panic (Set E) := do
  let s ← New (slice.elems.length : Int)
  slice.elems.foldlM (fun s a => Insert s [f a]) s

/-- The order `a <= b` of Go strings, on the characters of the two strings: Go compares the
bytes of the UTF-8 encoding, which orders strings as the lexicographic comparison of their
code points does. -/
def stringLE : List Char → List Char → Bool
  | [], _ => true
  | _ :: _, [] => false
  | a :: as, b :: bs =>
    if a.toNat < b.toNat then true
    else if b.toNat < a.toNat then false
    else stringLE as bs

/-- `sort.Strings(elements)`: the strings in increasing order. -/
def sortStrings (elements : List String) : List String :=
  elements.insertionSort (fun a b => stringLE a.data b.data = true)

/-- The method `String`.  `sprint` stands for `fmt.Sprintf("%v", e)`. -/
def Set.String (sprint : E → String) (s : Set E) : String :=
  if len s = 0 then "\x7b\x7d"
  else
    let elements := s.keys.foldl (fun elements e => elements ++ [sprint e]) []
    let elements := sortStrings elements
    "\x7b" ++ ", ".intercalate elements ++ "\x7d"

/-- `Copy(dst, src)`: `for e := range src { dst[e] = struct{}{} }`; the content of `dst`
after the call. -/
def Copy [DecidableEq E] (dst src : Set E) : Except Panic (Set E) :=
  src.keys.foldlM store dst

/-- `Clone(s)`. -/
def Clone [DecidableEq E] (s : Set E) : Except Panic (Set E) :=
  if s.isNil then .ok nilSet
  else do
    let clone : Set E := make (len s)
    Copy clone s

/-- `maps.Copy(dst, src)` of the standard library: `for k, v := range src { dst[k] = v }`. -/
def mapsCopy [DecidableEq E] (dst src : Set E) : Except Panic (Set E) :=
  src.keys.foldlM store dst

/-- `Grow(s, n)`. -/
def Grow [DecidableEq E] (s : Set E) (n : Int) : Except Panic (Set E) :=
  if n < 0 then .error .cannotBeNegative
  else do
    let newSet : Set E := make (len s + n)
    mapsCopy newSet s

/-- `ToSlice(s)`. -/
def ToSlice (s : Set E) : Slice E :=
  if s.isNil then none
  else some (s.keys.foldl (fun r e => r ++ [e]) [])

/-- `ToSliceFunc(s, f)`. -/
def ToSliceFunc {A : Type} (s : Set E) (f : E → A) : Slice A :=
  if s.isNil then none
  else some (s.keys.foldl (fun r e => r ++ [f e]) [])

/-! ## math_operations.go -/

/-- `Pair`: an ordered pair, the element type of `CartesianProduct`. -/
structure Pair (T U : Type) where
  First : T
  Second : U
  deriving DecidableEq, Repr

/-- `Union(sets...)`. -/
def Union [DecidableEq E] (sets : List (Set E)) : Except Panic (Set E) := do
  let maxSize := sets.foldl (fun maxSize s => maxSize + len s) 0
  let r ← New (maxSize : Int)
  sets.foldlM (fun r s => s.keys.foldlM store r) r

/-- The loop `smallest := 0; for i := 1; i < len(sets); i++ { if len(sets[i]) <
len(sets[smallest]) { smallest = i } }` of `Intersection`. -/
def smallestIndex (sets : List (Set E)) : Except Panic Nat :=
  (List.range' 1 (sets.length - 1)).foldlM
    (fun smallest i => do
      let si ← index sets i
      let ss ← index sets smallest
      if len si < len ss then pure i else pure smallest)
    0

/-- The inner loop of `Intersection`: `true` when no set other than the one at index
`smallest` lacks `e`, that is, when the loop ends without `continue elementsLoop`. -/
def inAllOthers [DecidableEq E] (sets : List (Set E)) (smallest : Nat) (e : E) : Bool :=
  sets.enum.all (fun p => p.1 == smallest || lookup p.2 e)

/-- `Intersection(sets...)`. -/
def Intersection [DecidableEq E] (sets : List (Set E)) : Except Panic (Set E) :=
  if sets.length = 0 then New 0
  else if sets.length = 1 then do
    let s0 ← index sets 0
    let r ← New (len s0 : Int)
    let s0 ← index sets 0
    s0.keys.foldlM store r
  else do
    let smallest ← smallestIndex sets
    let ss ← index sets smallest
    let r ← New (len ss : Int)
    let ss ← index sets smallest
    ss.keys.foldlM (fun r e => if inAllOthers sets smallest e then store r e else pure r) r

/-- `Difference(minuend, subtrahends...)`. -/
def Difference [DecidableEq E] (minuend : Set E) (subtrahends : List (Set E)) :
    Except Panic (Set E) :=
  if len minuend = 0 then New 0
  else if subtrahends.length = 0 then do
    let r ← New (len minuend : Int)
    minuend.keys.foldlM store r
  else if subtrahends.length = 1 then do
    let r ← New (len minuend : Int)
    minuend.keys.foldlM
      (fun r e => do
        let s0 ← index subtrahends 0
        if !lookup s0 e then store r e else pure r)
      r
  else do
    let combinedMaxSize :=
      subtrahends.foldl (fun combinedMaxSize subtrahend => combinedMaxSize + len subtrahend) 0
    let combined ← New (combinedMaxSize : Int)
    let combined ← subtrahends.foldlM (fun combined s => s.keys.foldlM store combined) combined
    let r ← New (len minuend : Int)
    minuend.keys.foldlM (fun r e => if !lookup combined e then store r e else pure r) r

/-- `SymmetricDifference(sets...)`. -/
def SymmetricDifference [DecidableEq E] (sets : List (Set E)) : Except Panic (Set E) :=
  if sets.length = 0 then New 0
  else if sets.length = 1 then do
    let s0 ← index sets 0
    let r ← New (len s0 : Int)
    let s0 ← index sets 0
    s0.keys.foldlM store r
  else do
    let maxSize := sets.foldl (fun maxSize s => maxSize + len s) 0
    let r ← New (maxSize : Int)
    sets.foldlM
      (fun r s => s.keys.foldlM
        (fun r e => if lookup r e then pure (delete r e) else store r e) r)
      r

/-- `CartesianProduct(set1, set2)`.  The capacity `len(set1) * len(set2)` is the product of
the two sizes as integers without bound; `Go.CartesianProduct` below takes the product in 64
bits (`intMul`). -/
def CartesianProduct {E1 E2 : Type} [DecidableEq E1] [DecidableEq E2]
    (set1 : Set E1) (set2 : Set E2) : Except Panic (Set (Pair E1 E2)) :=
  if len set1 = 0 || len set2 = 0 then New 0
  else do
    let r ← New ((len set1 : Int) * (len set2 : Int))
    set1.keys.foldlM
      (fun r e1 => set2.keys.foldlM (fun r e2 => store r ⟨e1, e2⟩) r)
      r

/-! ## predicates.go -/

/-- `Contains(s, v)`. -/
def Contains [DecidableEq E] (s : Set E) (v : E) : Bool :=
  lookup s v

/-- `ContainsAny(s, v...)`. -/
def ContainsAny [DecidableEq E] (s : Set E) (v : List E) : Bool :=
  if len s = 0 then false
  else v.any (fun e => Contains s e)

/-- `ContainsAll(s, v...)`. -/
def ContainsAll [DecidableEq E] (s : Set E) (v : List E) : Bool :=
  if v.length = 0 then true
  else if len s = 0 then false
  else v.all (fun e => Contains s e)

/-- `Some(s, f)`: the loop returns `true` at the first element that satisfies `f`. -/
def Some (s : Set E) (f : E → Bool) : Bool :=
  s.keys.any f

/-- `Every(s, f)`: the loop returns `false` at the first element that fails `f`. -/
def Every (s : Set E) (f : E → Bool) : Bool :=
  s.keys.all f

/-- `Equal(s1, s2)`. -/
def Equal [DecidableEq E] (s1 s2 : Set E) : Bool :=
  if len s1 ≠ len s2 then false
  else s1.keys.all (fun e => lookup s2 e)

/-- `Overlaps(s1, s2)`: after the swap `s1` is the smaller of the two sets. -/
def Overlaps [DecidableEq E] (s1 s2 : Set E) : Bool :=
  if len s1 = 0 || len s2 = 0 then false
  else
    let (s1, s2) := if len s1 > len s2 then (s2, s1) else (s1, s2)
    s1.keys.any (fun e => lookup s2 e)

/-- `Subset(subset, superset)`. -/
def Subset [DecidableEq E] (subset superset : Set E) : Bool :=
  if len subset = 0 then true
  else if len superset = 0 then false
  else subset.keys.all (fun e => lookup superset e)

/-- `ProperSubset(subset, superset)`. -/
def ProperSubset [DecidableEq E] (subset superset : Set E) : Bool :=
  if len subset ≥ len superset then false
  else Subset subset superset

/-! ## functional.go -/

/-- `Map(s, f)`. -/
def Map {To : Type} [DecidableEq To] (s : Set E) (f : E → To) : Except Panic (Set To) := do
  let r ← New (len s : Int)
  s.keys.foldlM (fun r e => store r (f e)) r

/-- `Filter(s, f)`. -/
def Filter [DecidableEq E] (s : Set E) (f : E → Bool) : Except Panic (Set E) := do
  let r ← New (len s : Int)
  s.keys.foldlM (fun r e => if f e then store r e else pure r) r

/-- `Reduce(s, acc, f)`. -/
def Reduce {A : Type} (s : Set E) (acc : A) (f : A → E → A) : A :=
  s.keys.foldl (fun acc e => f acc e) acc

/-! ## iter.go -/

/-- The loop body of a consumer, as the function `yield` that a `for ... range seq` statement
hands to the iterator: from the state of the consumer and the element it computes the next
state and whether the iteration goes on (`false` after `break` or `return`), or it panics. -/
abbrev Yield (σ V : Type) := σ → V → Except Panic (σ × Bool)

/-- The type `iter.Seq[V]`, `func(yield func(V) bool)`: run on the loop body of a consumer and
the state of the consumer, an iterator returns the state of the consumer at its end. -/
def Seq (V : Type) : Type 1 := (σ : Type) → Yield σ V → σ → Except Panic σ

/-- The statement `for x := range xs { ... }` over the keys of a map or the elements of a slice,
with a body that may stop the loop: the state at the end of the loop, and `true` when the loop
ran to its end, `false` when the body stopped it. -/
def rangeLoop {σ V : Type} (body : Yield σ V) : List V → σ → Except Panic (σ × Bool)
  | [], st => .ok (st, true)
  | x :: xs, st =>
    match body st x with
    | .error p => .error p
    | .ok (st, true) => rangeLoop body xs st
    | .ok (st, false) => .ok (st, false)

/-- `All(s)`. -/
def All (s : Set E) : Seq E :=
  fun _ yield st => do
    let (st, _) ← rangeLoop (fun st e => do
      let (st, more) ← yield st e
      if !more then pure (st, false) else pure (st, true)) s.keys st
    pure st

/-- `InsertSeq(s, seq)`: `for e := range seq { s[e] = struct{}{} }`; the content of `s` after
the call. -/
def InsertSeq [DecidableEq E] (s : Set E) (seq : Seq E) : Except Panic (Set E) :=
  seq (Set E) (fun s e => do
    let s ← store s e
    pure (s, true)) s

/-- `Collect(seq)`. -/
def Collect [DecidableEq E] (seq : Seq E) : Except Panic (Set E) := do
  let s ← New 0
  InsertSeq s seq

/-- `Chunk(s, n)`: the check of `n` happens at the call; the iterator that is returned keeps
the current chunk and its element count next to the state of the consumer. -/
def Chunk [DecidableEq E] (s : Set E) (n : Int) : Except Panic (Seq (Set E)) :=
  if n < 1 then .error .cannotBeLessThanOne
  else .ok (fun _ yield st => do
    let chunk : Set E := make n
    let cnt : Int := 0
    let ((chunk, cnt, st), completed) ← rangeLoop (fun (chunk, cnt, st) e => do
      let chunk ← store chunk e
      let cnt := cnt + 1
      if cnt = n then
        let (st, more) ← yield st chunk
        if !more then pure ((chunk, cnt, st), false)
        else pure ((make n, 0, st), true)
      else pure ((chunk, cnt, st), true)) s.keys (chunk, cnt, st)
    if completed && cnt > 0 then
      let (st, _) ← yield st chunk
      pure st
    else pure st)

/-- `UnionSeq(seq)`: the set `seen` lives next to the state of the consumer; a `return` in the
inner loop stops the outer loop as well. -/
def UnionSeq [DecidableEq E] (seq : Seq (Set E)) : Seq E :=
  fun _ yield st => do
    let seen : Set E := make 0
    let (_, st) ← seq _ (fun (seen, st) s =>
      rangeLoop (fun (seen, st) e =>
        if !lookup seen e then do
          let seen ← store seen e
          let (st, more) ← yield st e
          if !more then pure ((seen, st), false) else pure ((seen, st), true)
        else pure ((seen, st), true)) s.keys (seen, st)) (seen, st)
    pure st

/-- `slices.Values(xs)` of the standard library, the iterator over the elements of a slice:
`for _, v := range s { if !yield(v) { return } }`. -/
def slicesValues {V : Type} (xs : List V) : Seq V :=
  fun _ yield st => do
    let (st, _) ← rangeLoop (fun st v => do
      let (st, more) ← yield st v
      if !more then pure (st, false) else pure (st, true)) xs st
    pure st

/-- `slices.Collect(seq)` of the standard library, the consumer that runs an iterator to its
end and appends every element to a slice: `for v := range seq { s = append(s, v) }`. -/
def slicesCollect {V : Type} (seq : Seq V) : Except Panic (List V) :=
  seq (List V) (fun acc v => pure (acc ++ [v], true)) []

/-- The consumer `for v := range seq { s = append(s, v); if len(s) == k { break } }`, which
stops the iteration after `k` elements. -/
def takeSeq {V : Type} (k : Nat) (seq : Seq V) : Except Panic (List V) :=
  seq (List V) (fun acc v =>
    let acc := acc ++ [v]
    if acc.length = k then pure (acc, false) else pure (acc, true)) []

/-- A loop body under watch: next to the state of the consumer it keeps whether the body has
asked to stop, and the number of calls that came after that.  Such a late call is counted, leaves
the state of the consumer as it is, and asks to stop again. -/
def watch {σ V : Type} (yield : Yield σ V) : Yield (σ × Bool × Nat) V :=
  fun (st, stopped, late) v =>
    if stopped then pure ((st, stopped, late + 1), false)
    else do
      let (st, more) ← yield st v
      pure ((st, !more, late), more)

/-- Early termination of an iterator.  No loop body is called again once it has asked to stop:
run on a watched loop body, the iterator ends with no late call (and it does end when the loop
body does not panic).  And the consumer that stops at its `k`-th item, for `k` from 1 up to the
number of items of the fully consumed iterator, gets `k` items, the first `k` ones. -/
def StopsEarly {V : Type} (seq : Seq V) : Prop :=
  (∀ (σ : Type) (yield : Yield σ V) (st : σ) (r : σ × Bool × Nat),
    seq _ (watch yield) (st, false, 0) = .ok r → r.2.2 = 0) ∧
  (∀ (σ : Type) (yield : Yield σ V) (st : σ), (∀ st v, ∃ r, yield st v = .ok r) →
    ∃ r, seq _ (watch yield) (st, false, 0) = .ok r) ∧
  ∃ items, slicesCollect seq = .ok items ∧
    ∀ k, 1 ≤ k → k ≤ items.length →
      ∃ got, takeSeq k seq = .ok got ∧ got.length = k ∧ got = items.take k

/-! ## Maps as references

A Go map value is a reference: two variables may hold the same map, and a write through one
of them shows through the other.  The functions above describe what a call does to the content
of the map it writes to.  To state that a function returns a map of its own, the functions that
allocate (`Clone`, `Grow`) and the ones that write (`Insert`, `Delete`, `Copy`) are embedded a
second time, on references into a memory of allocated maps. -/

/-- The content of an allocated map: its keys in iteration order, no key twice. -/
structure Cell (E : Type) where
  keys : List E
  nodup : keys.Nodup

/-- The memory: the maps allocated so far, by address. -/
structure Heap (E : Type) where
  cells : List (Cell E)

/-- A value of a map type: `none` is the nil map, `some a` the map allocated at address `a`. -/
abbrev Ref := Option Nat

/-- A reference is valid in a memory when it is nil or the address of an allocated map. -/
def Heap.valid (h : Heap E) : Ref → Prop
  | none => True
  | some a => a < h.cells.length

instance (h : Heap E) (r : Ref) : Decidable (h.valid r) :=
  match r with
  | none => isTrue trivial
  | some a => inferInstanceAs (Decidable (a < h.cells.length))

/-- The map that a reference stands for: the nil map, or the content at its address. -/
def Heap.deref (h : Heap E) : Ref → Set E
  | none => nilSet
  | some a =>
    match h.cells.get? a with
    | some c => ⟨false, c.keys, c.nodup, fun hn => by cases hn⟩
    | none => nilSet

/-- The memory after the content of the map at a reference has become `s`; there is nothing to
update for the nil map. -/
def Heap.write (h : Heap E) (r : Ref) (s : Set E) : Heap E :=
  match r with
  | none => h
  | some a => ⟨h.cells.set a ⟨s.keys, s.nodup⟩⟩

/-- The builtin `make(S, hint)` on the memory: a new map without keys at the next address. -/
def makeRef (h : Heap E) (_hint : Int) : Heap E × Ref :=
  (⟨h.cells ++ [⟨[], List.nodup_nil⟩]⟩, some h.cells.length)

/-- `Copy(dst, src)` on references: the loop of `Copy` runs on the contents of the two maps
and leaves its result at `dst`. -/
def CopyRef [DecidableEq E] (h : Heap E) (dst src : Ref) : Except Panic (Heap E) := do
  let r ← Copy (h.deref dst) (h.deref src)
  pure (h.write dst r)

/-- `maps.Copy(dst, src)` on references. -/
def mapsCopyRef [DecidableEq E] (h : Heap E) (dst src : Ref) : Except Panic (Heap E) := do
  let r ← mapsCopy (h.deref dst) (h.deref src)
  pure (h.write dst r)

/-- `Insert(s, v...)` on references. -/
def InsertRef [DecidableEq E] (h : Heap E) (s : Ref) (v : List E) : Except Panic (Heap E) := do
  let r ← Insert (h.deref s) v
  pure (h.write s r)

/-- `Delete(s, v...)` on references. -/
def DeleteRef [DecidableEq E] (h : Heap E) (s : Ref) (v : List E) : Heap E :=
  h.write s (Delete (h.deref s) v)

/-- `Clone(s)` on references: `nil` for the nil map, otherwise a map from `make`, filled by
`Copy(clone, s)`. -/
def CloneRef [DecidableEq E] (h : Heap E) (s : Ref) : Except Panic (Heap E × Ref) :=
  if s = none then pure (h, none)
  else do
    let (h, clone) := makeRef h (len (h.deref s))
    let h ← CopyRef h clone s
    pure (h, clone)

/-- `Grow(s, n)` on references: a map from `make`, filled by `maps.Copy(newSet, s)`. -/
def GrowRef [DecidableEq E] (h : Heap E) (s : Ref) (n : Int) : Except Panic (Heap E × Ref) :=
  if n < 0 then .error .cannotBeNegative
  else do
    let (h, newSet) := makeRef h (len (h.deref s) + n)
    let h ← mapsCopyRef h newSet s
    pure (h, newSet)

/-- `New(capacity)` on references: panics on a negative capacity, otherwise a map from
`make`. -/
def NewRef (h : Heap E) (capacity : Int) : Except Panic (Heap E × Ref) :=
  if capacity < 0 then .error .cannotBeNegative
  else .ok (makeRef h capacity)

/-- `Filter(s, f)` on references: a map `r` from `New(len(s))`; the loop over the keys of `s`
runs on the contents and leaves its result at `r`. -/
def FilterRef [DecidableEq E] (h : Heap E) (s : Ref) (f : E → Bool) :
    Except Panic (Heap E × Ref) := do
  let (h, r) ← NewRef h (len (h.deref s) : Int)
  let c ← (h.deref s).keys.foldlM (fun r e => if f e then store r e else pure r) (h.deref r)
  pure (h.write r c, r)

/-- A memory with the set `From(1, 2, 3)` at address 0. -/
def exampleHeap : Heap Nat :=
  ⟨[⟨[1, 2, 3], by decide⟩]⟩

/-! ## Relations used in the statements -/

/-- Two sets with the same keys in the same iteration order: such sets differ at most in that
one is the nil set and the other one an allocated set without elements. -/
abbrev SameKeys (a b : Set E) : Prop := a.keys = b.keys

/-- The set `numbers` of `ExampleChunk`, `From(1, 2, 3, 4, 5, 6, 7)`, with its keys in the
order of insertion. -/
def exampleNumbers : Set Nat :=
  ⟨false, [1, 2, 3, 4, 5, 6, 7], by decide, fun h => by cases h⟩

/-- The keys of `ks` that are neither in `seen` nor earlier in `ks`, in the order of `ks`. -/
def newKeys [DecidableEq E] : List E → List E → List E
  | _, [] => []
  | seen, e :: ks => if e ∈ seen then newKeys seen ks else e :: newKeys (seen ++ [e]) ks

/-- The elements of the sets that are not in `seen`, each one once, in the order in which a
run through the sets, one set after the other and each set in its iteration order, meets them
first. -/
def firstSeenFrom [DecidableEq E] : List E → List (Set E) → List E
  | _, [] => []
  | seen, s :: rest =>
    newKeys seen s.keys ++ firstSeenFrom (seen ++ newKeys seen s.keys) rest

/-- The elements of the sets in first-seen order, each one once. -/
def firstSeen [DecidableEq E] (sets : List (Set E)) : List E :=
  firstSeenFrom [] sets

/-- The set `From(1, 2, 3, 4, 5, 6, 7)` again, with its keys in the opposite iteration
order. -/
def exampleNumbersReversed : Set Nat :=
  ⟨false, [7, 6, 5, 4, 3, 2, 1], by decide, fun h => by cases h⟩

/-- A list with every occurrence of an element after its first one removed: the head stays,
and its later occurrences go from the rest, which is treated in the same way. -/
def removeRepeats [DecidableEq E] : List E → List E
  | [] => []
  | x :: xs => x :: (removeRepeats xs).filter (fun y => decide (y ≠ x))

/-- The product `a * b` of two values of the Go type `int` on a 64-bit platform: the product of
the integers, wrapped into the range from `-2^63` to `2^63 - 1`. -/
def intMul (a b : Int) : Int :=
  (a * b + 2 ^ 63) % 2 ^ 64 - 2 ^ 63

/-! ## The package on every key type and on 64-bit integers

The definitions above embed the package for key types on which `==` is the equality of values
and every value can be hashed, and with sizes as numbers without bound.  Go's `comparable`
admits more: a floating-point NaN is a key that is not equal to itself, so that a map read of it
misses, a map write of it adds an entry every time, and `delete` of it removes nothing; and an
interface value can hold a slice, for which hashing panics, in a read and a `delete` also on the
nil map.  Go's `int` has 64 bits, and a sum or product of sizes can wrap.  The namespace `Go`
embeds the package a second time with both: keys come with `Key.selfEq` and `Key.hashable`, every
function whose body has a map read, write or `delete` returns `Except Panic _`, the sum and the
product of sizes wrap, and a map remembers the hint it was made with. -/

/-- The sum `a + b` of two values of the Go type `int` on a 64-bit platform: the sum of the
integers, wrapped into the range from `-2^63` to `2^63 - 1`. -/
def intAdd (a b : Int) : Int :=
  (a + b + 2 ^ 63) % 2 ^ 64 - 2 ^ 63

/-- What a key type tells a Go map about its values: `selfEq e` is the value of `e == e`, which
is false for a NaN (and for a struct or interface value that holds one); `hashable e` is false
for an interface value whose dynamic type is a slice, map or function.  Two values that are equal
to themselves are `==` exactly when they are equal. -/
class Key (E : Type) where
  selfEq : E → Bool
  hashable : E → Bool

instance : Key Nat := ⟨fun _ => true, fun _ => true⟩

instance : Key Int := ⟨fun _ => true, fun _ => true⟩

instance : Key String := ⟨fun _ => true, fun _ => true⟩

/-- The values of `float64` that the statements use: the numbers `num n` and `math.NaN()`. -/
inductive Float64 where
  | num (n : Int)
  | nan
  deriving DecidableEq, Repr

instance : Key Float64 := ⟨fun x => decide (x ≠ Float64.nan), fun _ => true⟩

/-- The values of the interface type `any` that the statements use: an `int`, and a slice
`[]int`, which cannot be hashed. -/
inductive AnyValue where
  | int (n : Int)
  | ints (xs : List Int)
  deriving DecidableEq, Repr

instance : Key AnyValue :=
  ⟨fun _ => true, fun x => match x with
    | .int _ => true
    | .ints _ => false⟩

/-- A `Pair` is equal to itself when both components are, and it can be hashed when both
can. -/
instance {T U : Type} [Key T] [Key U] : Key (Pair T U) :=
  ⟨fun p => Key.selfEq p.First && Key.selfEq p.Second,
    fun p => Key.hashable p.First && Key.hashable p.Second⟩

namespace Go

/-- The Go type `map[E]struct{}` for every key type: `isNil` tells the nil map, `hint` is the
hint that `make` got, `keys` lists the keys in iteration order.  Two keys of a map are different
or not equal to themselves (a map can hold several NaN keys), every key can be hashed, and the
nil map holds no key. -/
structure Set (E : Type) [DecidableEq E] [Key E] where
  isNil : Bool
  hint : Int
  keys : List E
  distinct : keys.Pairwise (fun a b => a ≠ b ∨ Key.selfEq a = false)
  hashed : ∀ k ∈ keys, Key.hashable k = true
  nil_keys : isNil = true → keys = []

/-- Two maps are the same value when they agree in the three data fields. -/
instance [DecidableEq E] [Key E] : DecidableEq (Set E) := fun a b =>
  decidable_of_iff (a.isNil = b.isNil ∧ a.hint = b.hint ∧ a.keys = b.keys)
    ⟨fun h => by
      cases a
      cases b
      simp only at h
      obtain ⟨h1, h2, h3⟩ := h
      subst h1
      subst h2
      subst h3
      rfl,
    fun h => by
      subst h
      exact ⟨rfl, rfl, rfl⟩⟩

/-- The nil map. -/
def nilSet [DecidableEq E] [Key E] : Set E :=
  ⟨true, 0, [], List.Pairwise.nil, fun _ h => absurd h (List.not_mem_nil _), fun _ => rfl⟩

/-- The builtin `make(S, hint)`: a fresh, allocated, empty map.  The runtime takes every hint
(also a negative one) and does not panic. -/
def make [DecidableEq E] [Key E] (hint : Int) : Set E :=
  ⟨false, hint, [], List.Pairwise.nil, fun _ h => absurd h (List.not_mem_nil _), fun _ => rfl⟩

/-- The builtin `len(s)`; `0` on the nil map. -/
def len [DecidableEq E] [Key E] (s : Set E) : Nat := s.keys.length

/-- The map read `_, ok := s[e]`: hashing `e` panics when `e` cannot be hashed, also on the nil
map and on a map without keys; a key that is not equal to itself is never found. -/
def lookup [DecidableEq E] [Key E] (s : Set E) (e : E) : Except Panic Bool :=
  if Key.hashable e = false then .error .hashOfUnhashableType
  else .ok (Key.selfEq e && decide (e ∈ s.keys))

/-- The map write `s[e] = struct{}{}`: panics on the nil map, then on a key that cannot be
hashed; keeps a map in which `e` is found, and otherwise adds the key `e` (a key that is not
equal to itself is added every time). -/
def store [DecidableEq E] [Key E] (s : Set E) (e : E) : Except Panic (Set E) :=
  if s.isNil = true then .error .assignmentToEntryInNilMap
  else if hh : Key.hashable e = false then .error .hashOfUnhashableType
  else if hf : Key.selfEq e = true ∧ e ∈ s.keys then .ok s
  else .ok ⟨false, s.hint, s.keys ++ [e],
    List.pairwise_append.mpr ⟨s.distinct, List.pairwise_singleton _ _, by
      intro a ha b hb
      rw [List.mem_singleton] at hb
      subst hb
      by_cases hab : a = b
      · subst hab
        right
        by_contra hs
        exact hf ⟨by simpa using hs, ha⟩
      · exact Or.inl hab⟩,
    by
      intro k hk
      rw [List.mem_append, List.mem_singleton] at hk
      rcases hk with hk | hk
      · exact s.hashed k hk
      · subst hk
        simpa using hh,
    fun h => by cases h⟩

/-- The builtin `delete(s, e)`: hashing `e` panics when `e` cannot be hashed, also on the nil
map; a key that is not equal to itself is not found, so that nothing is removed. -/
def delete [DecidableEq E] [Key E] (s : Set E) (e : E) : Except Panic (Set E) :=
  if Key.hashable e = false then .error .hashOfUnhashableType
  else if Key.selfEq e = true then
    .ok ⟨s.isNil, s.hint, s.keys.erase e, s.distinct.sublist (List.erase_sublist e s.keys),
      fun k hk => s.hashed k (List.mem_of_mem_erase hk),
      fun h => by rw [s.nil_keys h]; rfl⟩
  else .ok s

/-- The builtin `clear(s)`: removes every key; the nil map stays nil. -/
def clear [DecidableEq E] [Key E] (s : Set E) : Set E :=
  ⟨s.isNil, s.hint, [], List.Pairwise.nil, fun _ h => absurd h (List.not_mem_nil _),
    fun _ => rfl⟩

/-- The loop `for _, x := range xs { if p(x) { return true } }; return false`, with a test
that may panic. -/
def loopAny {α : Type} (p : α → Except Panic Bool) : List α → Except Panic Bool
  | [] => .ok false
  | x :: xs => do
    if (← p x) then pure true else loopAny p xs

/-- The loop `for _, x := range xs { if !p(x) { return false } }; return true`, with a test
that may panic. -/
def loopAll {α : Type} (p : α → Except Panic Bool) : List α → Except Panic Bool
  | [] => .ok true
  | x :: xs => do
    if (← p x) then loopAll p xs else pure false

/-! ### mutate.go -/

/-- `Insert(s, v...)`. -/
def Insert [DecidableEq E] [Key E] (s : Set E) (v : List E) : Except Panic (Set E) :=
  v.foldlM store s

/-- `Delete(s, v...)`. -/
def Delete [DecidableEq E] [Key E] (s : Set E) (v : List E) : Except Panic (Set E) :=
  v.foldlM delete s

/-- `maps.DeleteFunc` of the standard library at value type `struct{}`. -/
def mapsDeleteFunc [DecidableEq E] [Key E] (m : Set E) (del : E → Bool) :
    Except Panic (Set E) :=
  m.keys.foldlM (fun acc k => if del k then delete acc k else pure acc) m

/-- `DeleteFunc(s, del)`. -/
def DeleteFunc [DecidableEq E] [Key E] (s : Set E) (del : E → Bool) : Except Panic (Set E) :=
  mapsDeleteFunc s (fun e => del e)

/-- `Replace(s, old, new)`. -/
def Replace [DecidableEq E] [Key E] (s : Set E) (old new : E) : Except Panic (Set E) := do
  let ok ← lookup s old
  if !ok then pure s
  else do
    let s ← delete s old
    store s new

/-- `ReplaceFunc(s, f)`. -/
def ReplaceFunc [DecidableEq E] [Key E] (s : Set E) (f : E → E) : Except Panic (Set E) :=
  let keys := s.keys.foldl (fun ks e => ks ++ [e]) []
  keys.foldlM (fun acc e => store acc (f e)) (clear s)

/-! ### set.go -/

/-- `New(capacity)`. -/
def New [DecidableEq E] [Key E] (capacity : Int) : Except Panic (Set E) :=
  if capacity < 0 then .error .cannotBeNegative
  else .ok (make capacity)

/-- `FromSlice(slice)`. -/
def FromSlice [DecidableEq E] [Key E] (slice : Slice E) : Except Panic (Set E) := do
  let s ← New (slice.elems.length : Int)
  Insert s slice.elems

/-- `From(vals...)`. -/
def From [DecidableEq E] [Key E] (vals : Slice E) : Except Panic (Set E) :=
  FromSlice vals

/-- `FromSliceFunc(slice, f)`. -/
def FromSliceFunc {A : Type} [DecidableEq E] [Key E] (slice : Slice A) (f : A → E) :
    Except Panic (Set E) := do
  let s ← New (slice.elems.length : Int)
  slice.elems.foldlM (fun s a => Insert s [f a]) s

/-- The method `String`.  `sprint` stands for `fmt.Sprintf("%v", e)`. -/
def Set.String [DecidableEq E] [Key E] (sprint : E → String) (s : Set E) : String :=
  if len s = 0 then "\x7b\x7d"
  else
    let elements := s.keys.foldl (fun elements e => elements ++ [sprint e]) []
    let elements := sortStrings elements
    "\x7b" ++ ", ".intercalate elements ++ "\x7d"

/-- `Copy(dst, src)`; the content of `dst` after the call. -/
def Copy [DecidableEq E] [Key E] (dst src : Set E) : Except Panic (Set E) :=
  src.keys.foldlM store dst

/-- `Clone(s)`. -/
def Clone [DecidableEq E] [Key E] (s : Set E) : Except Panic (Set E) :=
  if s.isNil then .ok nilSet
  else do
    let clone : Set E := make (len s)
    Copy clone s

/-- `maps.Copy(dst, src)` of the standard library. -/
def mapsCopy [DecidableEq E] [Key E] (dst src : Set E) : Except Panic (Set E) :=
  src.keys.foldlM store dst

/-- `Grow(s, n)`: the hint `len(s)+n` is a sum of two `int`. -/
def Grow [DecidableEq E] [Key E] (s : Set E) (n : Int) : Except Panic (Set E) :=
  if n < 0 then .error .cannotBeNegative
  else do
    let newSet : Set E := make (intAdd (len s) n)
    mapsCopy newSet s

/-- `ToSlice(s)`. -/
def ToSlice [DecidableEq E] [Key E] (s : Set E) : Slice E :=
  if s.isNil then none
  else some (s.keys.foldl (fun r e => r ++ [e]) [])

/-- `ToSliceFunc(s, f)`. -/
def ToSliceFunc {A : Type} [DecidableEq E] [Key E] (s : Set E) (f : E → A) : Slice A :=
  if s.isNil then none
  else some (s.keys.foldl (fun r e => r ++ [f e]) [])

/-! ### math_operations.go -/

/-- `Union(sets...)`: `maxSize += len(s)` is a sum of `int`. -/
def Union [DecidableEq E] [Key E] (sets : List (Set E)) : Except Panic (Set E) := do
  let maxSize := sets.foldl (fun maxSize s => intAdd maxSize (len s)) 0
  let r ← New maxSize
  sets.foldlM (fun r s => s.keys.foldlM store r) r

/-- The loop of `Intersection` that finds the index of the first smallest set. -/
def smallestIndex [DecidableEq E] [Key E] (sets : List (Set E)) : Except Panic Nat :=
  (List.range' 1 (sets.length - 1)).foldlM
    (fun smallest i => do
      let si ← index sets i
      let ss ← index sets smallest
      if len si < len ss then pure i else pure smallest)
    0

/-- The inner loop of `Intersection`: `true` when the loop ends without
`continue elementsLoop`; the sets are read in order, up to the first one that lacks `e`. -/
def inAllOthers [DecidableEq E] [Key E] (sets : List (Set E)) (smallest : Nat) (e : E) :
    Except Panic Bool :=
  loopAll (fun p => if p.1 = smallest then pure true else lookup p.2 e) sets.enum

/-- `Intersection(sets...)`. -/
def Intersection [DecidableEq E] [Key E] (sets : List (Set E)) : Except Panic (Set E) :=
  if sets.length = 0 then New 0
  else if sets.length = 1 then do
    let s0 ← index sets 0
    let r ← New (len s0 : Int)
    let s0 ← index sets 0
    s0.keys.foldlM store r
  else do
    let smallest ← smallestIndex sets
    let ss ← index sets smallest
    let r ← New (len ss : Int)
    let ss ← index sets smallest
    ss.keys.foldlM
      (fun r e => do
        if (← inAllOthers sets smallest e) then store r e else pure r)
      r

/-- `Difference(minuend, subtrahends...)`: `combinedMaxSize += len(subtrahend)` is a sum of
`int`. -/
def Difference [DecidableEq E] [Key E] (minuend : Set E) (subtrahends : List (Set E)) :
    Except Panic (Set E) :=
  if len minuend = 0 then New 0
  else if subtrahends.length = 0 then do
    let r ← New (len minuend : Int)
    minuend.keys.foldlM store r
  else if subtrahends.length = 1 then do
    let r ← New (len minuend : Int)
    minuend.keys.foldlM
      (fun r e => do
        let s0 ← index subtrahends 0
        if !(← lookup s0 e) then store r e else pure r)
      r
  else do
    let combinedMaxSize :=
      subtrahends.foldl
        (fun combinedMaxSize subtrahend => intAdd combinedMaxSize (len subtrahend)) 0
    let combined ← New combinedMaxSize
    let combined ← subtrahends.foldlM (fun combined s => s.keys.foldlM store combined) combined
    let r ← New (len minuend : Int)
    minuend.keys.foldlM
      (fun r e => do
        if !(← lookup combined e) then store r e else pure r)
      r

/-- `SymmetricDifference(sets...)`: `maxSize += len(s)` is a sum of `int`. -/
def SymmetricDifference [DecidableEq E] [Key E] (sets : List (Set E)) :
    Except Panic (Set E) :=
  if sets.length = 0 then New 0
  else if sets.length = 1 then do
    let s0 ← index sets 0
    let r ← New (len s0 : Int)
    let s0 ← index sets 0
    s0.keys.foldlM store r
  else do
    let maxSize := sets.foldl (fun maxSize s => intAdd maxSize (len s)) 0
    let r ← New maxSize
    sets.foldlM
      (fun r s => s.keys.foldlM
        (fun r e => do
          if (← lookup r e) then delete r e else store r e) r)
      r

/-- `CartesianProduct(set1, set2)`: the capacity `len(set1) * len(set2)` is a product of
`int`. -/
def CartesianProduct {E1 E2 : Type} [DecidableEq E1] [Key E1] [DecidableEq E2] [Key E2]
    (set1 : Set E1) (set2 : Set E2) : Except Panic (Set (Pair E1 E2)) :=
  if len set1 = 0 || len set2 = 0 then New 0
  else do
    let r ← New (intMul (len set1) (len set2))
    set1.keys.foldlM
      (fun r e1 => set2.keys.foldlM (fun r e2 => store r ⟨e1, e2⟩) r)
      r

/-! ### predicates.go -/

/-- `Contains(s, v)`. -/
def Contains [DecidableEq E] [Key E] (s : Set E) (v : E) : Except Panic Bool :=
  lookup s v

/-- `ContainsAny(s, v...)`. -/
def ContainsAny [DecidableEq E] [Key E] (s : Set E) (v : List E) : Except Panic Bool :=
  if len s = 0 then pure false
  else loopAny (fun e => Contains s e) v

/-- `ContainsAll(s, v...)`. -/
def ContainsAll [DecidableEq E] [Key E] (s : Set E) (v : List E) : Except Panic Bool :=
  if v.length = 0 then pure true
  else if len s = 0 then pure false
  else loopAll (fun e => Contains s e) v

/-- `Some(s, f)`. -/
def Some [DecidableEq E] [Key E] (s : Set E) (f : E → Bool) : Bool :=
  s.keys.any f

/-- `Every(s, f)`. -/
def Every [DecidableEq E] [Key E] (s : Set E) (f : E → Bool) : Bool :=
  s.keys.all f

/-- `Equal(s1, s2)`. -/
def Equal [DecidableEq E] [Key E] (s1 s2 : Set E) : Except Panic Bool :=
  if len s1 ≠ len s2 then pure false
  else loopAll (fun e => lookup s2 e) s1.keys

/-- `Overlaps(s1, s2)`: after the swap `s1` is the smaller of the two sets. -/
def Overlaps [DecidableEq E] [Key E] (s1 s2 : Set E) : Except Panic Bool :=
  if len s1 = 0 || len s2 = 0 then pure false
  else
    let (s1, s2) := if len s1 > len s2 then (s2, s1) else (s1, s2)
    loopAny (fun e => lookup s2 e) s1.keys

/-- `Subset(subset, superset)`. -/
def Subset [DecidableEq E] [Key E] (subset superset : Set E) : Except Panic Bool :=
  if len subset = 0 then pure true
  else if len superset = 0 then pure false
  else loopAll (fun e => lookup superset e) subset.keys

/-- `ProperSubset(subset, superset)`. -/
def ProperSubset [DecidableEq E] [Key E] (subset superset : Set E) : Except Panic Bool :=
  if len subset ≥ len superset then pure false
  else Subset subset superset

/-! ### functional.go -/

/-- `Map(s, f)`. -/
def Map {To : Type} [DecidableEq E] [Key E] [DecidableEq To] [Key To] (s : Set E)
    (f : E → To) : Except Panic (Set To) := do
  let r ← New (len s : Int)
  s.keys.foldlM (fun r e => store r (f e)) r

/-- `Filter(s, f)`. -/
def Filter [DecidableEq E] [Key E] (s : Set E) (f : E → Bool) : Except Panic (Set E) := do
  let r ← New (len s : Int)
  s.keys.foldlM (fun r e => if f e then store r e else pure r) r

/-- `Reduce(s, acc, f)`. -/
def Reduce {A : Type} [DecidableEq E] [Key E] (s : Set E) (acc : A) (f : A → E → A) : A :=
  s.keys.foldl (fun acc e => f acc e) acc

/-! ### iter.go -/

/-- `All(s)`. -/
def All [DecidableEq E] [Key E] (s : Set E) : Seq E :=
  fun _ yield st => do
    let (st, _) ← rangeLoop (fun st e => do
      let (st, more) ← yield st e
      if !more then pure (st, false) else pure (st, true)) s.keys st
    pure st

/-- `InsertSeq(s, seq)`; the content of `s` after the call. -/
def InsertSeq [DecidableEq E] [Key E] (s : Set E) (seq : Seq E) : Except Panic (Set E) :=
  seq (Set E) (fun s e => do
    let s ← store s e
    pure (s, true)) s

/-- `Collect(seq)`. -/
def Collect [DecidableEq E] [Key E] (seq : Seq E) : Except Panic (Set E) := do
  let s ← New 0
  InsertSeq s seq

/-- `Chunk(s, n)`. -/
def Chunk [DecidableEq E] [Key E] (s : Set E) (n : Int) : Except Panic (Seq (Set E)) :=
  if n < 1 then .error .cannotBeLessThanOne
  else .ok (fun _ yield st => do
    let chunk : Set E := make n
    let cnt : Int := 0
    let ((chunk, cnt, st), completed) ← rangeLoop (fun (chunk, cnt, st) e => do
      let chunk ← store chunk e
      let cnt := cnt + 1
      if cnt = n then
        let (st, more) ← yield st chunk
        if !more then pure ((chunk, cnt, st), false)
        else pure ((make n, 0, st), true)
      else pure ((chunk, cnt, st), true)) s.keys (chunk, cnt, st)
    if completed && cnt > 0 then
      let (st, _) ← yield st chunk
      pure st
    else pure st)

/-- `UnionSeq(seq)`. -/
def UnionSeq [DecidableEq E] [Key E] (seq : Seq (Set E)) : Seq E :=
  fun _ yield st => do
    let seen : Set E := make 0
    let (_, st) ← seq _ (fun (seen, st) s =>
      rangeLoop (fun (seen, st) e => do
        if !(← lookup seen e) then do
          let seen ← store seen e
          let (st, more) ← yield st e
          if !more then pure ((seen, st), false) else pure ((seen, st), true)
        else pure ((seen, st), true)) s.keys (seen, st)) (seen, st)
    pure st

end Go

/-! ## Relations between the two embeddings, and example values -/

/-- A map without a NaN: every key is equal to itself. -/
def Go.Set.Regular [DecidableEq E] [Key E] (g : Go.Set E) : Prop :=
  ∀ k ∈ g.keys, Key.selfEq k = true

instance [DecidableEq E] [Key E] (g : Go.Set E) : Decidable g.Regular :=
  inferInstanceAs (Decidable (∀ k ∈ g.keys, Key.selfEq k = true))

/-- The set of the first embedding with the keys of `g`, each one once. -/
def asSet [DecidableEq E] [Key E] (g : Go.Set E) : Set E :=
  ⟨g.isNil, g.keys.dedup, List.nodup_dedup _, fun h => by rw [g.nil_keys h]; rfl⟩

/-- An iterator that behaves: run on a loop body that does not panic on the values that satisfy
`P` and keeps an invariant, it does not panic, returns, and keeps the invariant.  So it yields
only values that satisfy `P`, it ends, and it hands the state of the consumer through. -/
def SafeSeq {V : Type} (P : V → Prop) (seq : Seq V) : Prop :=
  ∀ (σ : Type) (I : σ → Prop) (yield : Yield σ V) (st : σ), I st →
    (∀ st v, I st → P v → ∃ st' b, yield st v = .ok (st', b) ∧ I st') →
    ∃ st', seq σ yield st = .ok st' ∧ I st'

/-- The value of `maxSize` after `maxSize := 0; for _, s := range sets { maxSize += len(s) }`,
the capacity that `Union`, `SymmetricDifference` and `Difference` ask `New` for. -/
def Go.sizeSum [DecidableEq E] [Key E] (sets : List (Go.Set E)) : Int :=
  sets.foldl (fun maxSize s => intAdd maxSize (Go.len s)) 0

/-- The set `From(math.NaN())` of type `Set[float64]`. -/
def nanSet : Go.Set Float64 :=
  ⟨false, 1, [Float64.nan], List.pairwise_singleton _ _, fun _ _ => rfl, fun h => by cases h⟩

/-- The set `From(0, 1, ..., n-1)` of type `Set[int]`, in increasing iteration order. -/
def rangeSet (n : Nat) : Go.Set Nat :=
  ⟨false, n, List.range n, (List.nodup_range n).imp Or.inl, fun _ _ => rfl,
    fun h => by cases h⟩

/-! ## Lemmas on the panic monad and on loops -/

theorem ok_bind {α β : Type} (a : α) (f : α → Except Panic β) :
    (Except.ok a >>= f) = f a := rfl

theorem pure_eq_ok {α : Type} (a : α) : (pure a : Except Panic α) = Except.ok a := rfl

theorem New_ok (capacity : Int) (h : 0 ≤ capacity) :
    (New capacity : Except Panic (Set E)) = .ok (make capacity) := by
  unfold New
  rw [if_neg (not_lt.mpr h)]

theorem New_natCast (n : Nat) : (New (n : Int) : Except Panic (Set E)) = .ok (make n) :=
  New_ok _ (Int.natCast_nonneg n)

theorem make_isNil (hint : Int) : (make hint : Set E).isNil = false := rfl

theorem make_keys (hint : Int) : (make hint : Set E).keys = [] := rfl

/-- Invariant rule for a loop over a list in the panic monad: an invariant on the elements done
so far and the state, established at the start and carried by every run of the body, which does
not panic under the invariant, holds at the end, and the loop does not panic. -/
theorem foldlM_inv {α σ : Type} (body : σ → α → Except Panic σ) (I : List α → σ → Prop)
    (xs : List α) (init : σ) (h0 : I [] init)
    (hstep : ∀ done x rest st, xs = done ++ x :: rest → I done st →
      ∃ st', body st x = .ok st' ∧ I (done ++ [x]) st') :
    ∃ r, xs.foldlM body init = .ok r ∧ I xs r := by
  suffices H : ∀ (todo done : List α) (st : σ), xs = done ++ todo → I done st →
      ∃ r, todo.foldlM body st = .ok r ∧ I xs r from H xs [] init rfl h0
  intro todo
  induction todo with
  | nil =>
    intro done st hxs hI
    refine ⟨st, rfl, ?_⟩
    rw [hxs, List.append_nil]
    exact hI
  | cons x rest ih =>
    intro done st hxs hI
    obtain ⟨st', hb, hI'⟩ := hstep done x rest st hxs hI
    have hxs' : xs = (done ++ [x]) ++ rest := by rw [hxs, List.append_assoc]; rfl
    obtain ⟨r, hr, hIr⟩ := ih (done ++ [x]) st' hxs' hI'
    refine ⟨r, ?_, hIr⟩
    rw [List.foldlM_cons, hb]
    exact hr

/-- In a list without duplicates, an element is not among those before it. -/
theorem not_mem_done {α : Type} {xs done rest : List α} {x : α} (hnd : xs.Nodup)
    (hxs : xs = done ++ x :: rest) : x ∉ done := by
  subst hxs
  intro hx
  have := (List.nodup_append.mp hnd).2.2
  exact this hx (List.mem_cons_self x rest) 

theorem mem_of_split {α : Type} {xs done rest : List α} {x : α}
    (hxs : xs = done ++ x :: rest) : x ∈ xs := by
  subst hxs
  simp

/-! ## Lemmas on the builtin map operations -/

theorem lookup_iff [DecidableEq E] (s : Set E) (e : E) : lookup s e = true ↔ e ∈ s.keys := by
  simp [lookup]

theorem Contains_iff [DecidableEq E] (s : Set E) (e : E) : Contains s e = true ↔ e ∈ s.keys := by
  simp [Contains, lookup]

theorem len_eq_zero_iff (s : Set E) : len s = 0 ↔ s.keys = [] := by
  simp [len]

/-- A write to an allocated map does not panic; the map stays allocated and gains the key. -/
theorem store_ok [DecidableEq E] (s : Set E) (e : E) (hs : s.isNil = false) :
    ∃ r, store s e = .ok r ∧ r.isNil = false ∧ ∀ x, x ∈ r.keys ↔ x ∈ s.keys ∨ x = e := by
  unfold store
  have hn : ¬ s.isNil = true := by simp [hs]
  rw [dif_neg hn]
  by_cases he : e ∈ s.keys
  · rw [dif_pos he]
    refine ⟨s, rfl, hs, fun x => ⟨Or.inl, ?_⟩⟩
    rintro (h | rfl)
    · exact h
    · exact he
  · rw [dif_neg he]
    exact ⟨_, rfl, rfl, fun x => by simp⟩

theorem store_nil [DecidableEq E] (s : Set E) (e : E) (hs : s.isNil = true) :
    store s e = .error .assignmentToEntryInNilMap := by
  unfold store
  rw [dif_pos hs]

theorem delete_isNil [DecidableEq E] (s : Set E) (e : E) : (delete s e).isNil = s.isNil := rfl

theorem mem_delete [DecidableEq E] (s : Set E) (e x : E) :
    x ∈ (delete s e).keys ↔ x ∈ s.keys ∧ x ≠ e := by
  show x ∈ s.keys.erase e ↔ _
  rw [s.nodup.mem_erase_iff]
  exact and_comm

/-- The loop `for e := range xs { r[g(e)] = struct{}{} }` with a guard: on an allocated `r` it
does not panic, and it adds the keys `g e` of the elements `e` that pass the guard. -/
theorem storeLoop_ok {α : Type} [DecidableEq E] (xs : List α) (g : α → E) (p : α → Bool)
    (r : Set E) (hr : r.isNil = false) :
    ∃ r', xs.foldlM (fun r e => if p e then store r (g e) else pure r) r = .ok r' ∧
      r'.isNil = false ∧
      ∀ x, x ∈ r'.keys ↔ x ∈ r.keys ∨ ∃ e ∈ xs, p e = true ∧ g e = x := by
  have := foldlM_inv (fun r e => if p e then store r (g e) else pure r)
    (fun done st => st.isNil = false ∧
      ∀ x, x ∈ st.keys ↔ x ∈ r.keys ∨ ∃ e ∈ done, p e = true ∧ g e = x)
    xs r ⟨hr, fun x => by simp⟩
    (by
      intro done a rest st _ hI
      obtain ⟨hst, hmem⟩ := hI
      by_cases hp : p a = true
      · obtain ⟨st', h1, h2, h3⟩ := store_ok st (g a) hst
        refine ⟨st', by simp only [hp, if_true]; exact h1, h2, fun x => ?_⟩
        rw [h3, hmem]
        constructor
        · rintro ((h | ⟨e, he, hpe, hge⟩) | rfl)
          · exact Or.inl h
          · exact Or.inr ⟨e, by simp [he], hpe, hge⟩
          · exact Or.inr ⟨a, by simp, hp, rfl⟩
        · rintro (h | ⟨e, he, hpe, hge⟩)
          · exact Or.inl (Or.inl h)
          · rw [List.mem_append, List.mem_singleton] at he
            rcases he with he | rfl
            · exact Or.inl (Or.inr ⟨e, he, hpe, hge⟩)
            · exact Or.inr hge.symm
      · refine ⟨st, by simp only [hp]; rfl, hst, fun x => ?_⟩
        rw [hmem]
        constructor
        · rintro (h | ⟨e, he, hpe, hge⟩)
          · exact Or.inl h
          · exact Or.inr ⟨e, by simp [he], hpe, hge⟩
        · rintro (h | ⟨e, he, hpe, hge⟩)
          · exact Or.inl h
          · rw [List.mem_append, List.mem_singleton] at he
            rcases he with he | rfl
            · exact Or.inr ⟨e, he, hpe, hge⟩
            · exact absurd hpe hp)
  exact this

/-- The loop `for e := range xs { r[e] = struct{}{} }` on an allocated `r`. -/
theorem storeAll_ok [DecidableEq E] (xs : List E) (r : Set E) (hr : r.isNil = false) :
    ∃ r', xs.foldlM store r = .ok r' ∧ r'.isNil = false ∧
      ∀ x, x ∈ r'.keys ↔ x ∈ r.keys ∨ x ∈ xs := by
  obtain ⟨r', h1, h2, h3⟩ := storeLoop_ok xs (fun e => e) (fun _ => true) r hr
  refine ⟨r', ?_, h2, fun x => ?_⟩
  · simpa using h1
  · rw [h3]; simp

/-- The loop `for _, s := range sets { for e := range s { r[e] = struct{}{} } }` on an
allocated `r`. -/
theorem unionLoop_ok [DecidableEq E] (sets : List (Set E)) (r : Set E) (hr : r.isNil = false) :
    ∃ r', sets.foldlM (fun r s => s.keys.foldlM store r) r = .ok r' ∧ r'.isNil = false ∧
      ∀ x, x ∈ r'.keys ↔ x ∈ r.keys ∨ ∃ s ∈ sets, x ∈ s.keys := by
  refine foldlM_inv (fun r s => s.keys.foldlM store r)
    (fun done st => st.isNil = false ∧ ∀ x, x ∈ st.keys ↔ x ∈ r.keys ∨ ∃ s ∈ done, x ∈ s.keys)
    sets r ⟨hr, fun x => by simp⟩ ?_
  intro done s rest st _ hI
  obtain ⟨hst, hmem⟩ := hI
  obtain ⟨st', h1, h2, h3⟩ := storeAll_ok s.keys st hst
  refine ⟨st', h1, h2, fun x => ?_⟩
  rw [h3, hmem]
  constructor
  · rintro ((h | ⟨t, ht, hx⟩) | h)
    · exact Or.inl h
    · exact Or.inr ⟨t, by simp [ht], hx⟩
    · exact Or.inr ⟨s, by simp, h⟩
  · rintro (h | ⟨t, ht, hx⟩)
    · exact Or.inl (Or.inl h)
    · rw [List.mem_append, List.mem_singleton] at ht
      rcases ht with ht | rfl
      · exact Or.inl (Or.inr ⟨t, ht, hx⟩)
      · exact Or.inr hx

/-- The inner loop of `SymmetricDifference`: every key of the set that is ranged over is
toggled once in `r`. -/
theorem toggleLoop_ok [DecidableEq E] (xs : List E) (hnd : xs.Nodup) (r : Set E)
    (hr : r.isNil = false) :
    ∃ r', xs.foldlM (fun r e => if lookup r e then pure (delete r e) else store r e) r = .ok r' ∧
      r'.isNil = false ∧ ∀ x, x ∈ r'.keys ↔ (x ∈ r.keys ↔ x ∉ xs) := by
  refine foldlM_inv (fun r e => if lookup r e then pure (delete r e) else store r e)
    (fun done st => st.isNil = false ∧ ∀ x, x ∈ st.keys ↔ (x ∈ r.keys ↔ x ∉ done))
    xs r ⟨hr, fun x => by simp⟩ ?_
  intro done a rest st hxs hI
  obtain ⟨hst, hmem⟩ := hI
  have ha : a ∉ done := not_mem_done hnd hxs
  by_cases hl : lookup st a = true
  · refine ⟨delete st a, by simp only [hl, if_true]; rfl, hst, fun x => ?_⟩
    have hast : a ∈ st.keys := (lookup_iff st a).mp hl
    have har : a ∈ r.keys := ((hmem a).mp hast).mpr ha
    rw [mem_delete, hmem, List.mem_append, List.mem_singleton]
    by_cases hx : x = a
    · subst hx
      simp [har]
    · simp [hx]
  · obtain ⟨st', h1, h2, h3⟩ := store_ok st a hst
    refine ⟨st', by simp only [hl]; exact h1, h2, fun x => ?_⟩
    have hast : a ∉ st.keys := fun h => hl ((lookup_iff st a).mpr h)
    have har : a ∉ r.keys := fun h => hast ((hmem a).mpr ⟨fun _ => ha, fun _ => h⟩)
    rw [h3, hmem, List.mem_append, List.mem_singleton]
    by_cases hx : x = a
    · subst hx
      simp [har]
    · simp [hx]

/-- The outer loop of `SymmetricDifference` on an allocated, empty `r`: a key ends up in `r`
exactly when an odd number of the sets hold it. -/
theorem symDiffLoop_ok [DecidableEq E] (sets : List (Set E)) (r : Set E) (hr : r.isNil = false)
    (hk : r.keys = []) :
    ∃ r', sets.foldlM (fun r s => s.keys.foldlM
        (fun r e => if lookup r e then pure (delete r e) else store r e) r) r = .ok r' ∧
      r'.isNil = false ∧
      ∀ x, x ∈ r'.keys ↔ List.countP (fun s => Contains s x) sets % 2 = 1 := by
  refine foldlM_inv _
    (fun done st => st.isNil = false ∧
      ∀ x, x ∈ st.keys ↔ List.countP (fun s => Contains s x) done % 2 = 1)
    sets r ⟨hr, fun x => by simp [hk]⟩ ?_
  intro done s rest st _ hI
  obtain ⟨hst, hmem⟩ := hI
  obtain ⟨st', h1, h2, h3⟩ := toggleLoop_ok s.keys s.nodup st hst
  refine ⟨st', h1, h2, fun x => ?_⟩
  rw [h3, hmem, List.countP_append]
  by_cases hx : x ∈ s.keys
  · have hc : Contains s x = true := (Contains_iff s x).mpr hx
    simp only [List.countP_cons, List.countP_nil, hc, if_true, hx, not_true_eq_false, iff_false]
    omega
  · have hc : ¬ Contains s x = true := fun h => hx ((Contains_iff s x).mp h)
    simp only [List.countP_cons, List.countP_nil, hc, hx, not_false_eq_true, iff_true]
    simp

/-- `Equal` decides that the two sets have the same elements. -/
theorem Equal_iff [DecidableEq E] (s1 s2 : Set E) :
    Equal s1 s2 = true ↔ ∀ e, e ∈ s1.keys ↔ e ∈ s2.keys := by
  unfold Equal len
  constructor
  · intro h
    by_cases hlen : s1.keys.length = s2.keys.length
    · rw [if_neg (not_not.mpr hlen), List.all_eq_true] at h
      have hsub : s1.keys ⊆ s2.keys := fun e he => (lookup_iff s2 e).mp (h e he)
      have hperm : s1.keys.Perm s2.keys :=
        (List.subperm_of_subset s1.nodup hsub).perm_of_length_le (le_of_eq hlen.symm)
      exact fun e => hperm.mem_iff
    · rw [if_pos hlen] at h
      exact absurd h (by simp)
  · intro h
    have hperm : s1.keys.Perm s2.keys := (List.perm_ext_iff_of_nodup s1.nodup s2.nodup).mpr h
    rw [if_neg (not_not.mpr hperm.length_eq), List.all_eq_true]
    exact fun e he => (lookup_iff s2 e).mpr ((h e).mp he)

/-- The single-argument path of `Intersection` and `SymmetricDifference`, and the
no-subtrahend path of `Difference`: a fresh set with the keys of `s`. -/
theorem copyPath_ok [DecidableEq E] (s : Set E) (hint : Int) :
    ∃ r, s.keys.foldlM store (make hint) = .ok r ∧ r.isNil = false ∧
      ∀ x, x ∈ r.keys ↔ x ∈ s.keys := by
  obtain ⟨r, h1, h2, h3⟩ := storeAll_ok s.keys (make hint) (make_isNil hint)
  exact ⟨r, h1, h2, fun x => by rw [h3, make_keys]; simp⟩

/-- `SymmetricDifference` does not panic, returns an allocated set, and that set holds the
elements that an odd number of the arguments hold. -/
theorem SymmetricDifference_ok [DecidableEq E] (sets : List (Set E)) :
    ∃ r, SymmetricDifference sets = .ok r ∧ r.isNil = false ∧
      ∀ x, x ∈ r.keys ↔ List.countP (fun s => Contains s x) sets % 2 = 1 := by
  unfold SymmetricDifference
  match sets with
  | [] => exact ⟨make 0, rfl, rfl, fun x => by simp [make_keys]⟩
  | [s] =>
    obtain ⟨r, h1, h2, h3⟩ := copyPath_ok s (len s)
    refine ⟨r, ?_, h2, fun x => ?_⟩
    · simpa [index, New_natCast, ok_bind] using h1
    · rw [h3]
      by_cases hx : x ∈ s.keys
      · simp [(Contains_iff s x).mpr hx, hx]
      · have hc : ¬ Contains s x = true := fun h => hx ((Contains_iff s x).mp h)
        simp [hc, hx]
  | s :: t :: rest =>
    obtain ⟨r, h1, h2, h3⟩ := symDiffLoop_ok (s :: t :: rest)
      (make ((s :: t :: rest).foldl (fun maxSize s => maxSize + len s) 0 : Nat))
      (make_isNil _) (make_keys _)
    refine ⟨r, ?_, h2, h3⟩
    rw [if_neg (by simp), if_neg (by simp)]
    dsimp only
    rw [New_natCast, ok_bind]
    exact h1

/-- `Union` does not panic, returns an allocated set, and that set holds the elements of the
arguments. -/
theorem Union_ok [DecidableEq E] (sets : List (Set E)) :
    ∃ r, Union sets = .ok r ∧ r.isNil = false ∧
      ∀ x, x ∈ r.keys ↔ ∃ s ∈ sets, x ∈ s.keys := by
  obtain ⟨r, h1, h2, h3⟩ := unionLoop_ok sets
    (make (sets.foldl (fun maxSize s => maxSize + len s) 0 : Nat)) (make_isNil _)
  refine ⟨r, ?_, h2, fun x => ?_⟩
  · unfold Union
    dsimp only
    rw [New_natCast, ok_bind]
    exact h1
  · rw [h3, make_keys]
    simp

theorem index_ok {α : Type} (xs : List α) (i : Nat) (h : i < xs.length) :
    index xs i = .ok (xs.get ⟨i, h⟩) := by
  unfold index
  rw [List.get?_eq_get h]

theorem index_error {α : Type} (xs : List α) (i : Nat) (h : xs.length ≤ i) :
    index xs i = .error .indexOutOfRange := by
  unfold index
  rw [List.get?_eq_none.mpr h]

/-- The search for the smallest set stays within the argument list: no index expression of
the loop panics, and the index that is found is in range. -/
theorem smallestIndex_ok (sets : List (Set E)) (h : 0 < sets.length) :
    ∃ i, smallestIndex sets = .ok i ∧ i < sets.length := by
  unfold smallestIndex
  refine foldlM_inv _ (fun _ st => st < sets.length) _ 0 h ?_
  intro done i rest st hxs hI
  have hi : i ∈ List.range' 1 (sets.length - 1) := mem_of_split hxs
  rw [List.mem_range'_1] at hi
  have hi' : i < sets.length := by omega
  rw [index_ok sets i hi', ok_bind, index_ok sets st hI, ok_bind]
  by_cases hlt : len (sets.get ⟨i, hi'⟩) < len (sets.get ⟨st, hI⟩)
  · exact ⟨i, by rw [if_pos hlt]; rfl, hi'⟩
  · exact ⟨st, by rw [if_neg hlt]; rfl, hI⟩

/-- The inner loop of `Intersection` passes `e` exactly when every set other than the one at
index `smallest` holds `e`. -/
theorem inAllOthers_iff [DecidableEq E] (sets : List (Set E)) (smallest : Nat) (e : E) :
    inAllOthers sets smallest e = true ↔
      ∀ i s, sets.get? i = some s → i ≠ smallest → e ∈ s.keys := by
  unfold inAllOthers
  rw [List.all_eq_true]
  constructor
  · intro h i s his hne
    have := h (i, s)
      (List.mk_mem_enum_iff_getElem?.mpr (by rw [← List.get?_eq_getElem?]; exact his))
    simp only [Bool.or_eq_true, beq_iff_eq, lookup_iff] at this
    rcases this with h1 | h1
    · exact absurd h1 hne
    · exact h1
  · rintro h ⟨i, s⟩ hmem
    have his : sets.get? i = some s := by
      rw [List.get?_eq_getElem?]
      exact List.mk_mem_enum_iff_getElem?.mp hmem
    simp only [Bool.or_eq_true, beq_iff_eq, lookup_iff]
    by_cases hi : i = smallest
    · exact Or.inl hi
    · exact Or.inr (h i s his hi)

/-- `Intersection` does not panic and returns an allocated set; for a non-empty argument list
that set holds the elements that all arguments hold, and for the empty list it is empty. -/
theorem Intersection_ok [DecidableEq E] (sets : List (Set E)) :
    ∃ r, Intersection sets = .ok r ∧ r.isNil = false ∧
      (sets = [] → r.keys = []) ∧
      (sets ≠ [] → ∀ x, x ∈ r.keys ↔ ∀ s ∈ sets, x ∈ s.keys) := by
  unfold Intersection
  match sets with
  | [] => exact ⟨make 0, rfl, rfl, fun _ => rfl, fun h => absurd rfl h⟩
  | [s] =>
    obtain ⟨r, h1, h2, h3⟩ := copyPath_ok s (len s)
    refine ⟨r, ?_, h2, fun h => (by cases h), fun _ x => ?_⟩
    · simpa [index, New_natCast, ok_bind] using h1
    · rw [h3]
      simp
  | s :: t :: rest =>
    obtain ⟨i, hi, hlt⟩ := smallestIndex_ok (s :: t :: rest) (by simp)
    obtain ⟨r, h1, h2, h3⟩ := storeLoop_ok ((s :: t :: rest).get ⟨i, hlt⟩).keys (fun e => e)
      (fun e => inAllOthers (s :: t :: rest) i e)
      (make (len ((s :: t :: rest).get ⟨i, hlt⟩) : Nat)) (make_isNil _)
    refine ⟨r, ?_, h2, fun h => (by cases h), fun _ x => ?_⟩
    · rw [if_neg (by simp), if_neg (by simp), hi, ok_bind, index_ok _ i hlt, ok_bind,
        New_natCast, ok_bind, ok_bind]
      exact h1
    · rw [h3, make_keys]
      simp only [List.not_mem_nil, false_or, exists_eq_right_right, inAllOthers_iff]
      constructor
      · rintro ⟨hx, hall⟩ u hu
        obtain ⟨j, hj⟩ := List.mem_iff_get?.mp hu
        by_cases hji : j = i
        · subst hji
          rw [List.get?_eq_get hlt] at hj
          cases hj
          exact hx
        · exact hall j u hj hji
      · intro hall
        exact ⟨hall _ (List.get_mem _ _ _), fun j u hj _ => hall u (List.mem_iff_get?.mpr ⟨j, hj⟩)⟩

/-- `Difference` does not panic, returns an allocated set, and that set holds the elements of
the minuend that no subtrahend holds. -/
theorem Difference_ok [DecidableEq E] (minuend : Set E) (subtrahends : List (Set E)) :
    ∃ r, Difference minuend subtrahends = .ok r ∧ r.isNil = false ∧
      ∀ x, x ∈ r.keys ↔ x ∈ minuend.keys ∧ ∀ s ∈ subtrahends, x ∉ s.keys := by
  unfold Difference
  by_cases hm : len minuend = 0
  · rw [if_pos hm]
    refine ⟨make 0, rfl, rfl, fun x => ?_⟩
    rw [(len_eq_zero_iff minuend).mp hm, make_keys]
    simp
  · rw [if_neg hm]
    match subtrahends with
    | [] =>
      obtain ⟨r, h1, h2, h3⟩ := copyPath_ok minuend (len minuend)
      refine ⟨r, ?_, h2, fun x => ?_⟩
      · simpa [New_natCast, ok_bind] using h1
      · rw [h3]
        simp
    | [s0] =>
      obtain ⟨r, h1, h2, h3⟩ := storeLoop_ok minuend.keys (fun e => e)
        (fun e => !lookup s0 e) (make (len minuend : Nat)) (make_isNil _)
      refine ⟨r, ?_, h2, fun x => ?_⟩
      · rw [if_neg (by simp), if_pos (by simp), New_natCast, ok_bind]
        exact h1
      · rw [h3, make_keys]
        simp [lookup]
    | s0 :: s1 :: rest =>
      obtain ⟨combined, hc1, hc2, hc3⟩ := unionLoop_ok (s0 :: s1 :: rest)
        (make ((s0 :: s1 :: rest).foldl
          (fun combinedMaxSize subtrahend => combinedMaxSize + len subtrahend) 0 : Nat))
        (make_isNil _)
      obtain ⟨r, h1, h2, h3⟩ := storeLoop_ok minuend.keys (fun e => e)
        (fun e => !lookup combined e) (make (len minuend : Nat)) (make_isNil _)
      refine ⟨r, ?_, h2, fun x => ?_⟩
      · rw [if_neg (by simp), if_neg (by simp)]
        dsimp only
        rw [New_natCast, ok_bind, hc1, ok_bind, New_natCast, ok_bind]
        exact h1
      · rw [h3, make_keys]
        have hcx : x ∈ combined.keys ↔ ∃ s ∈ s0 :: s1 :: rest, x ∈ s.keys := by
          rw [hc3, make_keys]
          simp
        simp only [List.not_mem_nil, false_or, exists_eq_right_right, Bool.not_eq_true_eq_eq_false,
          Bool.not_eq_true, lookup, decide_eq_false_iff_not, hcx]
        constructor
        · rintro ⟨hx, hn⟩
          exact ⟨hx, fun s hs hxs => hn ⟨s, hs, hxs⟩⟩
        · rintro ⟨hx, hn⟩
          exact ⟨hx, fun ⟨s, hs, hxs⟩ => hn s hs hxs⟩

/-- `Subset` decides that every element of the first set is in the second. -/
theorem Subset_iff [DecidableEq E] (subset superset : Set E) :
    Subset subset superset = true ↔ ∀ e, e ∈ subset.keys → e ∈ superset.keys := by
  unfold Subset
  by_cases h1 : len subset = 0
  · rw [if_pos h1, (len_eq_zero_iff subset).mp h1]
    simp
  · rw [if_neg h1]
    by_cases h2 : len superset = 0
    · rw [if_pos h2, (len_eq_zero_iff superset).mp h2]
      have hne : subset.keys ≠ [] := fun h => h1 ((len_eq_zero_iff subset).mpr h)
      obtain ⟨e, he⟩ := List.exists_mem_of_ne_nil _ hne
      simp only [Bool.false_eq_true, List.not_mem_nil, imp_false, false_iff, not_forall,
        not_not]
      exact ⟨e, he⟩
    · rw [if_neg h2, List.all_eq_true]
      simp only [lookup_iff]

/-- The size test of `ProperSubset` agrees with the definition of a proper subset:
`ProperSubset` is `Subset` without `Equal`. -/
theorem ProperSubset_eq [DecidableEq E] (subset superset : Set E) :
    ProperSubset subset superset = (Subset subset superset && !Equal subset superset) := by
  unfold ProperSubset
  by_cases hlen : len subset ≥ len superset
  · rw [if_pos hlen]
    by_cases hsub : Subset subset superset = true
    · have hsub' := (Subset_iff subset superset).mp hsub
      have hperm : subset.keys.Perm superset.keys :=
        (List.subperm_of_subset subset.nodup hsub').perm_of_length_le hlen
      have heq : Equal subset superset = true :=
        (Equal_iff subset superset).mpr (fun e => hperm.mem_iff)
      rw [hsub, heq]
      rfl
    · rw [Bool.not_eq_true] at hsub
      rw [hsub]
      rfl
  · rw [if_neg hlen]
    have hne : Equal subset superset = false := by
      unfold Equal
      rw [if_pos (by omega)]
    rw [hne]
    simp

/-! ## The contract of the set algebra and of the predicates -/

/-- Claim C2: `Intersection` returns a set for every list of sets; for a non-empty list an
element is in the result if and only if it is in every set of the list, so that with two or
more arguments an empty or nil argument makes the result empty; for the empty list the result
is the empty set. -/
theorem intersection_mem_iff_all [DecidableEq E] (sets : List (Set E)) :
    ∃ r, Intersection sets = .ok r ∧
      (∀ e, Contains r e = true ↔ sets ≠ [] ∧ ∀ s ∈ sets, Contains s e = true) ∧
      ((∃ s ∈ sets, len s = 0) ∧ 2 ≤ sets.length → len r = 0) ∧
      (sets = [] → len r = 0) := by
  obtain ⟨r, h1, _, h3, h4⟩ := Intersection_ok sets
  have hmem : ∀ e, Contains r e = true ↔ sets ≠ [] ∧ ∀ s ∈ sets, Contains s e = true := by
    intro e
    rw [Contains_iff]
    by_cases hs : sets = []
    · rw [h3 hs]
      simp [hs]
    · rw [h4 hs e]
      simp [hs, Contains_iff]
  refine ⟨r, h1, hmem, ?_, fun hs => by rw [len_eq_zero_iff]; exact h3 hs⟩
  rintro ⟨⟨s, hs, hlen⟩, _⟩
  rw [len_eq_zero_iff]
  apply List.eq_nil_iff_forall_not_mem.mpr
  intro x hx
  have hxs := ((hmem x).mp ((Contains_iff r x).mpr hx)).2 s hs
  rw [Contains_iff, (len_eq_zero_iff s).mp hlen] at hxs
  exact absurd hxs (List.not_mem_nil x)

/-! ## Panic freedom -/

/-- Invariant rule for a loop that its body may stop: an invariant on the state, established at
the start and carried by every run of the body, which does not panic under the invariant, holds
when the loop ends or is stopped, and the loop does not panic. -/
theorem rangeLoop_inv {σ V : Type} (body : Yield σ V) (I : σ → Prop) (xs : List V) (st : σ)
    (h0 : I st)
    (hstep : ∀ st x, I st → x ∈ xs → ∃ st' b, body st x = .ok (st', b) ∧ I st') :
    ∃ st' b, rangeLoop body xs st = .ok (st', b) ∧ I st' := by
  induction xs generalizing st with
  | nil => exact ⟨st, true, rfl, h0⟩
  | cons x xs ih =>
    obtain ⟨st', b, hb, hI⟩ := hstep st x h0 (List.mem_cons_self x xs)
    cases b with
    | true =>
      obtain ⟨st'', b', hr, hI'⟩ :=
        ih st' hI (fun st y hy hmem => hstep st y hy (List.mem_cons_of_mem x hmem))
      refine ⟨st'', b', ?_, hI'⟩
      simp only [rangeLoop, hb]
      exact hr
    | false =>
      refine ⟨st', false, ?_, hI⟩
      simp only [rangeLoop, hb]

theorem Insert_singleton [DecidableEq E] (s : Set E) (e : E) : Insert s [e] = store s e := by
  show (store s e >>= fun s' => pure s') = store s e
  cases store s e <;> rfl

/-- The loops `for e := range s { keys = append(keys, f(e)) }` of `ReplaceFunc`, `ToSlice`,
`ToSliceFunc` and `String` build the list of the `f e`, in iteration order. -/
theorem foldl_append_singleton {α β : Type} (f : α → β) (xs : List α) (acc : List β) :
    xs.foldl (fun r e => r ++ [f e]) acc = acc ++ xs.map f := by
  induction xs generalizing acc with
  | nil => simp
  | cons x xs ih => rw [List.foldl_cons, ih]; simp

/-- `Insert` on an allocated set does not panic and adds the elements of `v`. -/
theorem Insert_ok [DecidableEq E] (s : Set E) (v : List E) (hs : s.isNil = false) :
    ∃ r, Insert s v = .ok r ∧ r.isNil = false ∧ ∀ x, x ∈ r.keys ↔ x ∈ s.keys ∨ x ∈ v :=
  storeAll_ok v s hs

/-- `FromSlice` does not panic; the result is allocated and holds the elements of the slice. -/
theorem FromSlice_ok [DecidableEq E] (slice : Slice E) :
    ∃ r, FromSlice slice = .ok r ∧ r.isNil = false ∧ ∀ x, x ∈ r.keys ↔ x ∈ slice.elems := by
  obtain ⟨r, h1, h2, h3⟩ := Insert_ok (make (slice.elems.length : Nat)) slice.elems (make_isNil _)
  refine ⟨r, ?_, h2, fun x => ?_⟩
  · unfold FromSlice
    rw [New_natCast, ok_bind]
    exact h1
  · rw [h3, make_keys]
    simp

/-- `FromSliceFunc` does not panic; the result is allocated and holds the images of the
elements of the slice. -/
theorem FromSliceFunc_ok {A : Type} [DecidableEq E] (slice : Slice A) (f : A → E) :
    ∃ r, FromSliceFunc slice f = .ok r ∧ r.isNil = false ∧
      ∀ x, x ∈ r.keys ↔ ∃ a ∈ slice.elems, f a = x := by
  obtain ⟨r, h1, h2, h3⟩ := storeLoop_ok slice.elems f (fun _ => true)
    (make (slice.elems.length : Nat)) (make_isNil _)
  refine ⟨r, ?_, h2, fun x => ?_⟩
  · unfold FromSliceFunc
    rw [New_natCast, ok_bind]
    simpa [Insert_singleton] using h1
  · rw [h3, make_keys]
    simp

/-- `Copy` into an allocated set does not panic and adds the elements of `src`. -/
theorem Copy_ok [DecidableEq E] (dst src : Set E) (hd : dst.isNil = false) :
    ∃ r, Copy dst src = .ok r ∧ r.isNil = false ∧ ∀ x, x ∈ r.keys ↔ x ∈ dst.keys ∨ x ∈ src.keys :=
  storeAll_ok src.keys dst hd

/-- `Clone` does not panic: the clone of the nil set is nil, the clone of an allocated set is
allocated, and the clone has the elements of the set. -/
theorem Clone_ok [DecidableEq E] (s : Set E) :
    ∃ r, Clone s = .ok r ∧ r.isNil = s.isNil ∧ ∀ x, x ∈ r.keys ↔ x ∈ s.keys := by
  unfold Clone
  by_cases hs : s.isNil = true
  · rw [if_pos hs]
    refine ⟨nilSet, rfl, hs.symm, fun x => ?_⟩
    rw [s.nil_keys hs]
    rfl
  · rw [if_neg hs]
    obtain ⟨r, h1, h2, h3⟩ := Copy_ok (make (len s : Nat)) s (make_isNil _)
    refine ⟨r, h1, ?_, fun x => ?_⟩
    · rw [h2]
      simpa using hs
    · rw [h3, make_keys]
      simp

/-- `Grow` with `n >= 0` does not panic; the result is allocated and has the elements of the
set. -/
theorem Grow_ok [DecidableEq E] (s : Set E) (n : Int) (hn : 0 ≤ n) :
    ∃ r, Grow s n = .ok r ∧ r.isNil = false ∧ ∀ x, x ∈ r.keys ↔ x ∈ s.keys := by
  unfold Grow
  rw [if_neg (not_lt.mpr hn)]
  obtain ⟨r, h1, h2, h3⟩ := storeAll_ok s.keys (make ((len s : Int) + n)) (make_isNil _)
  refine ⟨r, h1, h2, fun x => ?_⟩
  rw [h3, make_keys]
  simp

/-- `Replace` does not panic, also on the nil set. -/
theorem Replace_total [DecidableEq E] (s : Set E) (old new : E) :
    ∃ r, Replace s old new = .ok r := by
  unfold Replace
  by_cases h : lookup s old = true
  · have hmem : old ∈ s.keys := (lookup_iff s old).mp h
    have hs : s.isNil = false := by
      by_contra hn
      rw [s.nil_keys (by simpa using hn)] at hmem
      exact absurd hmem (List.not_mem_nil old)
    obtain ⟨r, h1, _⟩ := store_ok (delete s old) new hs
    exact ⟨r, by simp only [h, Bool.not_true, Bool.false_eq_true, if_false]; exact h1⟩
  · exact ⟨s, by simp only [h, Bool.not_eq_true] at *; simp [h]⟩

/-- `ReplaceFunc` does not panic, also on the nil set. -/
theorem ReplaceFunc_total [DecidableEq E] (s : Set E) (f : E → E) :
    ∃ r, ReplaceFunc s f = .ok r := by
  unfold ReplaceFunc
  dsimp only
  rw [foldl_append_singleton (fun e => e) s.keys [], List.map_id', List.nil_append]
  by_cases hs : s.isNil = true
  · rw [s.nil_keys hs]
    exact ⟨clear s, rfl⟩
  · obtain ⟨r, h1, _⟩ := storeLoop_ok s.keys f (fun _ => true) (clear s)
      (by show s.isNil = false; simpa using hs)
    exact ⟨r, by simpa using h1⟩

/-- `Map` does not panic; the result is allocated and is the image of the set. -/
theorem Map_ok {To : Type} [DecidableEq To] (s : Set E) (f : E → To) :
    ∃ r, Map s f = .ok r ∧ r.isNil = false ∧ ∀ y, y ∈ r.keys ↔ ∃ e ∈ s.keys, f e = y := by
  obtain ⟨r, h1, h2, h3⟩ := storeLoop_ok s.keys f (fun _ => true)
    (make (len s : Nat)) (make_isNil _)
  refine ⟨r, ?_, h2, fun x => ?_⟩
  · unfold Map
    rw [New_natCast, ok_bind]
    simpa using h1
  · rw [h3, make_keys]
    simp

/-- `Filter` does not panic; the result is allocated and holds the elements that satisfy the
predicate. -/
theorem Filter_ok [DecidableEq E] (s : Set E) (f : E → Bool) :
    ∃ r, Filter s f = .ok r ∧ r.isNil = false ∧ ∀ x, x ∈ r.keys ↔ x ∈ s.keys ∧ f x = true := by
  obtain ⟨r, h1, h2, h3⟩ := storeLoop_ok s.keys (fun e => e) f
    (make (len s : Nat)) (make_isNil _)
  refine ⟨r, ?_, h2, fun x => ?_⟩
  · unfold Filter
    rw [New_natCast, ok_bind]
    exact h1
  · rw [h3, make_keys]
    simp

/-- `CartesianProduct` does not panic; the result is allocated and holds the pairs of an
element of the first set and an element of the second. -/
theorem CartesianProduct_ok {E1 E2 : Type} [DecidableEq E1] [DecidableEq E2]
    (set1 : Set E1) (set2 : Set E2) :
    ∃ r, CartesianProduct set1 set2 = .ok r ∧ r.isNil = false ∧
      ∀ x, x ∈ r.keys ↔ x.First ∈ set1.keys ∧ x.Second ∈ set2.keys := by
  unfold CartesianProduct
  by_cases h0 : (len set1 = 0 || len set2 = 0) = true
  · rw [if_pos h0]
    refine ⟨make 0, rfl, rfl, fun x => ?_⟩
    rw [Bool.or_eq_true, decide_eq_true_eq, decide_eq_true_eq, len_eq_zero_iff,
      len_eq_zero_iff] at h0
    rcases h0 with h | h <;> simp [h, make_keys]
  · rw [if_neg h0, New_ok _ (Int.mul_nonneg (Int.natCast_nonneg _) (Int.natCast_nonneg _)),
      ok_bind]
    obtain ⟨r, h1, h2, h3⟩ := foldlM_inv
      (fun r e1 => set2.keys.foldlM (fun r e2 => store r (⟨e1, e2⟩ : Pair E1 E2)) r)
      (fun done (st : Set (Pair E1 E2)) => st.isNil = false ∧
        ∀ x, x ∈ st.keys ↔ x.First ∈ done ∧ x.Second ∈ set2.keys)
      set1.keys (make ((len set1 : Int) * (len set2 : Int)))
      ⟨make_isNil _, fun x => by simp [make_keys]⟩
      (by
        intro done e1 rest st _ hI
        obtain ⟨hst, hmem⟩ := hI
        obtain ⟨st', k1, k2, k3⟩ := storeLoop_ok set2.keys
          (fun e2 => (⟨e1, e2⟩ : Pair E1 E2)) (fun _ => true) st hst
        refine ⟨st', by simpa using k1, k2, fun x => ?_⟩
        rw [k3, hmem, List.mem_append, List.mem_singleton]
        constructor
        · rintro (⟨ha, hb⟩ | ⟨e2, he2, _, rfl⟩)
          · exact ⟨Or.inl ha, hb⟩
          · exact ⟨Or.inr rfl, he2⟩
        · rintro ⟨ha | ha, hb⟩
          · exact Or.inl ⟨ha, hb⟩
          · refine Or.inr ⟨x.Second, hb, rfl, ?_⟩
            rw [← ha])
    exact ⟨r, h1, h2, h3⟩

/-- Run on a loop body that keeps an invariant and does not panic under it, the iterator
`slices.Values(xs)` does not panic and keeps the invariant. -/
theorem slicesValues_inv {V σ : Type} (xs : List V) (yield : Yield σ V) (I : σ → Prop) (st : σ)
    (h0 : I st)
    (hy : ∀ st v, I st → v ∈ xs → ∃ st' b, yield st v = .ok (st', b) ∧ I st') :
    ∃ st', slicesValues xs σ yield st = .ok st' ∧ I st' := by
  unfold slicesValues
  obtain ⟨st', b, h, hI⟩ := rangeLoop_inv (fun st v => do
      let (st, more) ← yield st v
      if !more then pure (st, false) else pure (st, true)) I xs st h0
    (by
      intro st x hst hx
      obtain ⟨st', b, hr, hI⟩ := hy st x hst hx
      refine ⟨st', b, ?_, hI⟩
      dsimp only
      rw [hr, ok_bind]
      cases b <;> rfl)
  exact ⟨st', by rw [h]; rfl, hI⟩

/-- `All(s)` is the iterator over the keys of `s`. -/
theorem All_eq_slicesValues (s : Set E) : All s = slicesValues s.keys := rfl

/-- `InsertSeq` on the iterator over a slice is the loop that stores the elements of the
slice. -/
theorem InsertSeq_slicesValues [DecidableEq E] (s : Set E) (xs : List E) :
    InsertSeq s (slicesValues xs) = xs.foldlM store s := by
  unfold InsertSeq slicesValues
  induction xs generalizing s with
  | nil => rfl
  | cons x xs ih =>
    rw [List.foldlM_cons]
    cases h : store s x with
    | error p =>
      simp only [rangeLoop, h]
      rfl
    | ok s' =>
      rw [ok_bind, ← ih s']
      simp only [rangeLoop, h, ok_bind, pure_eq_ok]
      rfl

/-- `Collect` of the iterator over a slice does not panic; the result is allocated and holds
the elements of the slice. -/
theorem Collect_slicesValues_ok [DecidableEq E] (xs : List E) :
    ∃ r, Collect (slicesValues xs) = .ok r ∧ r.isNil = false ∧ ∀ x, x ∈ r.keys ↔ x ∈ xs := by
  obtain ⟨r, h1, h2, h3⟩ := storeAll_ok xs (make 0) (make_isNil 0)
  refine ⟨r, ?_, h2, fun x => ?_⟩
  · unfold Collect
    rw [New_ok 0 (le_refl 0), ok_bind, InsertSeq_slicesValues]
    exact h1
  · rw [h3, make_keys]
    simp

/-- A loop that keeps an invariant and does not panic, followed by a continuation that does
not panic under the invariant, does not panic. -/
theorem rangeLoop_bind_ok {σ V β : Type} (body : Yield σ V) (I : σ → Prop) (xs : List V)
    (st : σ) (k : σ × Bool → Except Panic β) (h0 : I st)
    (hstep : ∀ st x, I st → x ∈ xs → ∃ st' b, body st x = .ok (st', b) ∧ I st')
    (hk : ∀ st' b, I st' → ∃ r, k (st', b) = .ok r) :
    ∃ r, (rangeLoop body xs st >>= k) = .ok r := by
  obtain ⟨st', b, h, hI⟩ := rangeLoop_inv body I xs st h0 hstep
  rw [h, ok_bind]
  exact hk st' b hI

/-- The iterator `slices.Values(xs)` on a loop body that keeps an invariant and does not panic,
followed by a continuation that does not panic under the invariant, does not panic. -/
theorem slicesValues_bind_ok {V σ β : Type} (xs : List V) (yield : Yield σ V) (I : σ → Prop)
    (st : σ) (k : σ → Except Panic β) (h0 : I st)
    (hy : ∀ st v, I st → v ∈ xs → ∃ st' b, yield st v = .ok (st', b) ∧ I st')
    (hk : ∀ st', I st' → ∃ r, k st' = .ok r) :
    ∃ r, (slicesValues xs σ yield st >>= k) = .ok r := by
  obtain ⟨st', h, hI⟩ := slicesValues_inv xs yield I st h0 hy
  rw [h, ok_bind]
  exact hk st' hI

/-- `Chunk` with `n >= 1` returns an iterator, and that iterator does not panic when the loop
body of the consumer does not. -/
theorem Chunk_total [DecidableEq E] (s : Set E) (n : Int) (hn : 1 ≤ n) :
    ∃ seq, Chunk s n = .ok seq ∧
      ∀ (σ : Type) (yield : Yield σ (Set E)) (st : σ),
        (∀ st v, ∃ r, yield st v = .ok r) → ∃ st', seq σ yield st = .ok st' := by
  unfold Chunk
  rw [if_neg (not_lt.mpr hn)]
  refine ⟨_, rfl, ?_⟩
  intro σ yield st hy
  dsimp only
  refine rangeLoop_bind_ok _ (fun (p : Set E × Int × σ) => p.1.isNil = false) _ _ _
    (make_isNil n) ?_ ?_
  · rintro ⟨chunk, cnt, st⟩ e hI _
    obtain ⟨chunk', h1, h2, _⟩ := store_ok chunk e hI
    dsimp only
    rw [h1, ok_bind]
    by_cases hc : cnt + 1 = n
    · rw [if_pos hc]
      obtain ⟨⟨st', more⟩, hr⟩ := hy st chunk'
      rw [hr, ok_bind]
      cases more
      · exact ⟨_, _, rfl, h2⟩
      · exact ⟨_, _, rfl, make_isNil n⟩
    · rw [if_neg hc]
      exact ⟨_, _, rfl, h2⟩
  · rintro ⟨chunk, cnt, st'⟩ b _
    dsimp only
    by_cases hfin : (b && decide (cnt > 0)) = true
    · rw [if_pos hfin]
      obtain ⟨⟨st'', more⟩, hr⟩ := hy st' chunk
      rw [hr]
      exact ⟨st'', rfl⟩
    · rw [if_neg hfin]
      exact ⟨st', rfl⟩

/-- `UnionSeq` of the iterator over a slice of sets does not panic when the loop body of the
consumer does not. -/
theorem UnionSeq_total [DecidableEq E] (sets : List (Set E)) (σ : Type) (yield : Yield σ E)
    (st : σ) (hy : ∀ st v, ∃ r, yield st v = .ok r) :
    ∃ st', UnionSeq (slicesValues sets) σ yield st = .ok st' := by
  unfold UnionSeq
  dsimp only
  refine slicesValues_bind_ok sets _ (fun (p : Set E × σ) => p.1.isNil = false) _ _
    (make_isNil 0) ?_ ?_
  · rintro ⟨seen, st⟩ s hI _
    dsimp only
    refine rangeLoop_inv _ (fun (p : Set E × σ) => p.1.isNil = false) s.keys (seen, st) hI ?_
    rintro ⟨seen, st⟩ e hI _
    dsimp only
    by_cases hl : lookup seen e = true
    · simp only [hl, Bool.not_true, Bool.false_eq_true, if_false]
      exact ⟨_, _, rfl, hI⟩
    · simp only [hl, Bool.not_false, if_true]
      obtain ⟨seen', h1, h2, _⟩ := store_ok seen e hI
      obtain ⟨⟨st', more⟩, hr⟩ := hy st e
      rw [h1, ok_bind, hr, ok_bind]
      cases more
      · exact ⟨_, _, rfl, h2⟩
      · exact ⟨_, _, rfl, h2⟩
  · rintro ⟨seen, st'⟩ _
    exact ⟨st', rfl⟩

/-- `Insert` of no element does not write to the set, so that it does not panic on the nil
set either. -/
theorem Insert_total [DecidableEq E] (s : Set E) (v : List E) (h : s.isNil = false ∨ v = []) :
    ∃ r, Insert s v = .ok r := by
  rcases h with h | h
  · obtain ⟨r, h1, _⟩ := Insert_ok s v h
    exact ⟨r, h1⟩
  · subst h
    exact ⟨s, rfl⟩

/-- `Copy` from a set without elements does not write to `dst`, so that it does not panic on
the nil set either. -/
theorem Copy_total [DecidableEq E] (dst src : Set E) (h : dst.isNil = false ∨ len src = 0) :
    ∃ r, Copy dst src = .ok r := by
  rcases h with h | h
  · obtain ⟨r, h1, _⟩ := Copy_ok dst src h
    exact ⟨r, h1⟩
  · unfold Copy
    rw [(len_eq_zero_iff src).mp h]
    exact ⟨dst, rfl⟩

/-- Claim C9: `New(capacity)` panics if and only if `capacity < 0`, and otherwise returns an
allocated set of size 0; `Grow(s, n)` panics if and only if `n < 0`; `Chunk(s, n)` panics if and
only if `n < 1`, and it is the call of `Chunk` that panics: no iterator is returned, so that no
element is iterated. -/
theorem validation_panics_iff_bad_argument [DecidableEq E] :
    (∀ capacity : Int,
      ((∃ p, (New capacity : Except Panic (Set E)) = .error p) ↔ capacity < 0) ∧
      ((New capacity : Except Panic (Set E)) = .error .cannotBeNegative ↔ capacity < 0) ∧
      (¬ capacity < 0 ↔ ∃ r : Set E, New capacity = .ok r ∧ r.isNil = false ∧ len r = 0)) ∧
    (∀ (s : Set E) (n : Int),
      ((∃ p, Grow s n = .error p) ↔ n < 0) ∧
      (Grow s n = .error .cannotBeNegative ↔ n < 0)) ∧
    (∀ (s : Set E) (n : Int),
      ((∃ p, Chunk s n = .error p) ↔ n < 1) ∧
      (Chunk s n = .error .cannotBeLessThanOne ↔ n < 1) ∧
      (¬ n < 1 ↔ ∃ seq, Chunk s n = .ok seq)) := by
  refine ⟨fun capacity => ?_, fun s n => ?_, fun s n => ?_⟩
  · by_cases hc : capacity < 0
    · have h : (New capacity : Except Panic (Set E)) = .error .cannotBeNegative := by
        unfold New
        rw [if_pos hc]
      refine ⟨⟨fun _ => hc, fun _ => ⟨_, h⟩⟩, ⟨fun _ => hc, fun _ => h⟩, ?_⟩
      constructor
      · intro hn
        exact absurd hc hn
      · rintro ⟨r, hr, _⟩
        rw [h] at hr
        cases hr
    · have h : (New capacity : Except Panic (Set E)) = .ok (make capacity) :=
        New_ok capacity (not_lt.mp hc)
      refine ⟨⟨?_, fun h' => absurd h' hc⟩, ⟨?_, fun h' => absurd h' hc⟩,
        ⟨fun _ => ⟨make capacity, h, rfl, rfl⟩, fun _ => hc⟩⟩
      · rintro ⟨p, hp⟩
        rw [h] at hp
        cases hp
      · intro hp
        rw [h] at hp
        cases hp
  · by_cases hn : n < 0
    · have h : Grow s n = .error .cannotBeNegative := by
        unfold Grow
        rw [if_pos hn]
      exact ⟨⟨fun _ => hn, fun _ => ⟨_, h⟩⟩, ⟨fun _ => hn, fun _ => h⟩⟩
    · obtain ⟨r, h, _⟩ := Grow_ok s n (not_lt.mp hn)
      refine ⟨⟨?_, fun h' => absurd h' hn⟩, ⟨?_, fun h' => absurd h' hn⟩⟩
      · rintro ⟨p, hp⟩
        rw [h] at hp
        cases hp
      · intro hp
        rw [h] at hp
        cases hp
  · by_cases hn : n < 1
    · have h : Chunk s n = .error .cannotBeLessThanOne := by
        unfold Chunk
        rw [if_pos hn]
      refine ⟨⟨fun _ => hn, fun _ => ⟨_, h⟩⟩, ⟨fun _ => hn, fun _ => h⟩, ?_⟩
      constructor
      · intro h'
        exact absurd hn h'
      · rintro ⟨seq, hseq⟩
        rw [h] at hseq
        cases hseq
    · obtain ⟨seq, h, _⟩ := Chunk_total s n (not_lt.mp hn)
      refine ⟨⟨?_, fun h' => absurd h' hn⟩, ⟨?_, fun h' => absurd h' hn⟩,
        ⟨fun _ => ⟨seq, h⟩, fun _ => hn⟩⟩
      · rintro ⟨p, hp⟩
        rw [h] at hp
        cases hp
      · intro hp
        rw [h] at hp
        cases hp

/-! ## Nil sets and empty sets -/

theorem SameKeys.len_eq {a b : Set E} (h : SameKeys a b) : len a = len b := by
  unfold len
  rw [h]

theorem SameKeys.lookup_eq [DecidableEq E] {a b : Set E} (h : SameKeys a b) (e : E) :
    lookup a e = lookup b e := by
  unfold lookup
  rw [h]

/-- Replacing a nil set of an argument list by an allocated set without elements keeps the keys
of every argument. -/
theorem forall₂_sameKeys_replace (pre post : List (Set E)) :
    List.Forall₂ SameKeys (pre ++ nilSet :: post) (pre ++ make 0 :: post) := by
  induction pre with
  | nil =>
    refine List.Forall₂.cons rfl ?_
    induction post with
    | nil => exact List.Forall₂.nil
    | cons x xs ih => exact List.Forall₂.cons rfl ih
  | cons x xs ih => exact List.Forall₂.cons rfl ih

theorem foldl_congr_sameKeys {σ : Type} {sets sets' : List (Set E)}
    (h : List.Forall₂ SameKeys sets sets') (body body' : σ → Set E → σ)
    (hb : ∀ st s s', SameKeys s s' → body st s = body' st s') (init : σ) :
    sets.foldl body init = sets'.foldl body' init := by
  induction h generalizing init with
  | nil => rfl
  | cons hs _ ih =>
    rw [List.foldl_cons, List.foldl_cons, hb _ _ _ hs]
    exact ih _

theorem foldlM_congr_sameKeys {σ : Type} {sets sets' : List (Set E)}
    (h : List.Forall₂ SameKeys sets sets') (body body' : σ → Set E → Except Panic σ)
    (hb : ∀ st s s', SameKeys s s' → body st s = body' st s') (init : σ) :
    sets.foldlM body init = sets'.foldlM body' init := by
  induction h generalizing init with
  | nil => rfl
  | cons hs _ ih =>
    rw [List.foldlM_cons, List.foldlM_cons, hb _ _ _ hs]
    congr 1
    funext st
    exact ih st

theorem rangeLoop_congr_sameKeys {σ : Type} {sets sets' : List (Set E)}
    (h : List.Forall₂ SameKeys sets sets') (body body' : Yield σ (Set E))
    (hb : ∀ st s s', SameKeys s s' → body st s = body' st s') (init : σ) :
    rangeLoop body sets init = rangeLoop body' sets' init := by
  induction h generalizing init with
  | nil => rfl
  | cons hs _ ih =>
    simp only [rangeLoop, hb _ _ _ hs]
    cases hr : body' init _ with
    | error p => rfl
    | ok r =>
      obtain ⟨st, b⟩ := r
      cases b
      · rfl
      · exact ih st

theorem index_bind_congr_sameKeys {β : Type} {sets sets' : List (Set E)}
    (h : List.Forall₂ SameKeys sets sets') (i : Nat) (k k' : Set E → Except Panic β)
    (hk : ∀ s s', SameKeys s s' → k s = k' s') :
    (index sets i >>= k) = (index sets' i >>= k') := by
  induction h generalizing i with
  | nil => rfl
  | cons hs _ ih =>
    cases i with
    | zero => exact hk _ _ hs
    | succ j => exact ih j

theorem sizeSum_congr_sameKeys {sets sets' : List (Set E)}
    (h : List.Forall₂ SameKeys sets sets') :
    sets.foldl (fun maxSize s => maxSize + len s) 0 =
      sets'.foldl (fun maxSize s => maxSize + len s) 0 :=
  foldl_congr_sameKeys h _ _ (fun st s s' hs => by rw [hs.len_eq]) 0

theorem unionLoop_congr_sameKeys [DecidableEq E] {sets sets' : List (Set E)}
    (h : List.Forall₂ SameKeys sets sets') (r : Set E) :
    sets.foldlM (fun r s => s.keys.foldlM store r) r =
      sets'.foldlM (fun r s => s.keys.foldlM store r) r :=
  foldlM_congr_sameKeys h _ _
    (fun st s s' hs => by
      have hk : s.keys = s'.keys := hs
      rw [hk]) r

theorem Union_congr_sameKeys [DecidableEq E] {sets sets' : List (Set E)}
    (h : List.Forall₂ SameKeys sets sets') : Union sets = Union sets' := by
  unfold Union
  dsimp only
  rw [sizeSum_congr_sameKeys h]
  congr 1
  funext r
  exact unionLoop_congr_sameKeys h r

theorem SymmetricDifference_congr_sameKeys [DecidableEq E] {sets sets' : List (Set E)}
    (h : List.Forall₂ SameKeys sets sets') :
    SymmetricDifference sets = SymmetricDifference sets' := by
  unfold SymmetricDifference
  rw [h.length_eq]
  dsimp only
  rw [sizeSum_congr_sameKeys h]
  have h1 : (index sets 0 >>= fun s0 => New (len s0 : Int) >>= fun r =>
      index sets 0 >>= fun s0 => s0.keys.foldlM store r) =
      (index sets' 0 >>= fun s0 => New (len s0 : Int) >>= fun r =>
      index sets' 0 >>= fun s0 => s0.keys.foldlM store r) := by
    refine index_bind_congr_sameKeys h 0 _ _ (fun s s' hs => ?_)
    rw [hs.len_eq]
    congr 1
    funext r
    refine index_bind_congr_sameKeys h 0 _ _ (fun a a' ha => ?_)
    have hk : a.keys = a'.keys := ha
    rw [hk]
  have h2 : ∀ r : Set E, sets.foldlM (fun r s => s.keys.foldlM
        (fun r e => if lookup r e then pure (delete r e) else store r e) r) r =
      sets'.foldlM (fun r s => s.keys.foldlM
        (fun r e => if lookup r e then pure (delete r e) else store r e) r) r := by
    intro r
    refine foldlM_congr_sameKeys h _ _ (fun st s s' hs => ?_) r
    have hk : s.keys = s'.keys := hs
    rw [hk]
  by_cases c0 : sets'.length = 0
  · rw [if_pos c0, if_pos c0]
  · rw [if_neg c0, if_neg c0]
    by_cases c1 : sets'.length = 1
    · rw [if_pos c1, if_pos c1]
      exact h1
    · rw [if_neg c1, if_neg c1]
      congr 1
      funext r
      exact h2 r

theorem smallestIndex_congr_sameKeys {sets sets' : List (Set E)}
    (h : List.Forall₂ SameKeys sets sets') : smallestIndex sets = smallestIndex sets' := by
  unfold smallestIndex
  rw [h.length_eq]
  congr 1
  funext smallest i
  refine index_bind_congr_sameKeys h i _ _ (fun s s' hs => ?_)
  refine index_bind_congr_sameKeys h smallest _ _ (fun a a' ha => ?_)
  rw [hs.len_eq, ha.len_eq]

theorem enumFrom_all_congr_sameKeys [DecidableEq E] {sets sets' : List (Set E)}
    (h : List.Forall₂ SameKeys sets sets') (smallest : Nat) (e : E) (n : Nat) :
    (sets.enumFrom n).all (fun p => p.1 == smallest || lookup p.2 e) =
      (sets'.enumFrom n).all (fun p => p.1 == smallest || lookup p.2 e) := by
  induction h generalizing n with
  | nil => rfl
  | cons hs _ ih =>
    simp only [List.enumFrom_cons, List.all_cons]
    rw [hs.lookup_eq, ih]

theorem inAllOthers_congr_sameKeys [DecidableEq E] {sets sets' : List (Set E)}
    (h : List.Forall₂ SameKeys sets sets') (smallest : Nat) (e : E) :
    inAllOthers sets smallest e = inAllOthers sets' smallest e :=
  enumFrom_all_congr_sameKeys h smallest e 0

theorem Intersection_congr_sameKeys [DecidableEq E] {sets sets' : List (Set E)}
    (h : List.Forall₂ SameKeys sets sets') : Intersection sets = Intersection sets' := by
  unfold Intersection
  rw [h.length_eq, smallestIndex_congr_sameKeys h]
  by_cases c0 : sets'.length = 0
  · rw [if_pos c0, if_pos c0]
  · rw [if_neg c0, if_neg c0]
    by_cases c1 : sets'.length = 1
    · rw [if_pos c1, if_pos c1]
      refine index_bind_congr_sameKeys h 0 _ _ (fun s s' hs => ?_)
      rw [hs.len_eq]
      congr 1
      funext r
      refine index_bind_congr_sameKeys h 0 _ _ (fun a a' ha => ?_)
      have hk : a.keys = a'.keys := ha
      rw [hk]
    · rw [if_neg c1, if_neg c1]
      congr 1
      funext smallest
      refine index_bind_congr_sameKeys h smallest _ _ (fun s s' hs => ?_)
      rw [hs.len_eq]
      congr 1
      funext r
      refine index_bind_congr_sameKeys h smallest _ _ (fun a a' ha => ?_)
      have hk : a.keys = a'.keys := ha
      rw [hk]
      congr 1
      funext r e
      rw [inAllOthers_congr_sameKeys h]

theorem Difference_congr_sameKeys [DecidableEq E] (minuend : Set E)
    {subtrahends subtrahends' : List (Set E)}
    (h : List.Forall₂ SameKeys subtrahends subtrahends') :
    Difference minuend subtrahends = Difference minuend subtrahends' := by
  unfold Difference
  rw [h.length_eq]
  by_cases cm : len minuend = 0
  · rw [if_pos cm, if_pos cm]
  · rw [if_neg cm, if_neg cm]
    by_cases c0 : subtrahends'.length = 0
    · rw [if_pos c0, if_pos c0]
    · rw [if_neg c0, if_neg c0]
      by_cases c1 : subtrahends'.length = 1
      · rw [if_pos c1, if_pos c1]
        congr 1
        funext r
        congr 1
        funext r e
        refine index_bind_congr_sameKeys h 0 _ _ (fun s s' hs => ?_)
        rw [hs.lookup_eq]
      · rw [if_neg c1, if_neg c1]
        dsimp only
        rw [foldl_congr_sameKeys h (fun combinedMaxSize subtrahend => combinedMaxSize + len subtrahend)
          (fun combinedMaxSize subtrahend => combinedMaxSize + len subtrahend)
          (fun st s s' hs => by dsimp only; rw [hs.len_eq]) 0]
        congr 1
        funext combined
        rw [unionLoop_congr_sameKeys h combined]

theorem UnionSeq_congr_sameKeys [DecidableEq E] {sets sets' : List (Set E)}
    (h : List.Forall₂ SameKeys sets sets') :
    UnionSeq (slicesValues sets) = UnionSeq (slicesValues sets') := by
  funext σ yield st
  unfold UnionSeq slicesValues
  dsimp only
  rw [rangeLoop_congr_sameKeys h _ _ (fun st s s' hs => by
    have hk : s.keys = s'.keys := hs
    rw [hk])]

theorem Overlaps_congr_sameKeys [DecidableEq E] {a a' b b' : Set E} (ha : SameKeys a a')
    (hb : SameKeys b b') : Overlaps a b = Overlaps a' b' := by
  have hka : a.keys = a'.keys := ha
  have hkb : b.keys = b'.keys := hb
  unfold Overlaps
  rw [ha.len_eq, hb.len_eq]
  by_cases c0 : (len a' = 0 || len b' = 0) = true
  · rw [if_pos c0, if_pos c0]
  · rw [if_neg c0, if_neg c0]
    by_cases c1 : len a' > len b'
    · simp only [c1, if_true]
      unfold lookup
      rw [hka, hkb]
    · simp only [c1, if_false]
      unfold lookup
      rw [hka, hkb]

/-- Claim C10: for each of the read operations `Contains`, `ContainsAny`, `ContainsAll`,
`Some`, `Every`, `Equal`, `Overlaps`, `Subset`, `ProperSubset`, `Union`, `Intersection`,
`Difference`, `SymmetricDifference`, `CartesianProduct`, `Map`, `Filter`, `Reduce`, `All`,
`Chunk`, `UnionSeq` and `String`, and for every choice of the other arguments, the result with
the nil set as a set argument (at each argument position, and at each position of a variadic
argument list or of a sequence of sets) is the result with an allocated set without elements
in its place. -/
theorem nil_set_reads_as_empty_set {E A : Type} [DecidableEq E] [DecidableEq A] :
    (∀ v : E, Contains nilSet v = Contains (make 0) v) ∧
    (∀ v : List E, ContainsAny nilSet v = ContainsAny (make 0) v) ∧
    (∀ v : List E, ContainsAll nilSet v = ContainsAll (make 0) v) ∧
    (∀ f : E → Bool, Some nilSet f = Some (make 0) f) ∧
    (∀ f : E → Bool, Every nilSet f = Every (make 0) f) ∧
    (∀ t : Set E, Equal nilSet t = Equal (make 0) t ∧ Equal t nilSet = Equal t (make 0)) ∧
    (∀ t : Set E, Overlaps nilSet t = Overlaps (make 0) t ∧
      Overlaps t nilSet = Overlaps t (make 0)) ∧
    (∀ t : Set E, Subset nilSet t = Subset (make 0) t ∧ Subset t nilSet = Subset t (make 0)) ∧
    (∀ t : Set E, ProperSubset nilSet t = ProperSubset (make 0) t ∧
      ProperSubset t nilSet = ProperSubset t (make 0)) ∧
    (∀ pre post : List (Set E),
      Union (pre ++ nilSet :: post) = Union (pre ++ make 0 :: post)) ∧
    (∀ pre post : List (Set E),
      Intersection (pre ++ nilSet :: post) = Intersection (pre ++ make 0 :: post)) ∧
    (∀ (t : Set E) (pre post : List (Set E)),
      Difference nilSet pre = Difference (make 0) pre ∧
      Difference t (pre ++ nilSet :: post) = Difference t (pre ++ make 0 :: post)) ∧
    (∀ pre post : List (Set E),
      SymmetricDifference (pre ++ nilSet :: post) =
        SymmetricDifference (pre ++ make 0 :: post)) ∧
    (∀ t : Set A, CartesianProduct (nilSet : Set E) t = CartesianProduct (make 0) t ∧
      CartesianProduct t (nilSet : Set E) = CartesianProduct t (make 0)) ∧
    (∀ f : E → A, Map nilSet f = Map (make 0) f) ∧
    (∀ f : E → Bool, Filter nilSet f = Filter (make 0) f) ∧
    (∀ (acc : A) (f : A → E → A), Reduce nilSet acc f = Reduce (make 0) acc f) ∧
    All (nilSet : Set E) = All (make 0) ∧
    (∀ n : Int, Chunk (nilSet : Set E) n = Chunk (make 0) n) ∧
    (∀ pre post : List (Set E),
      UnionSeq (slicesValues (pre ++ nilSet :: post)) =
        UnionSeq (slicesValues (pre ++ make 0 :: post))) ∧
    (∀ sprint : E → String, Set.String sprint nilSet = Set.String sprint (make 0)) := by
  refine ⟨fun _ => rfl, fun _ => rfl, fun _ => rfl, fun _ => rfl, fun _ => rfl,
    fun _ => ⟨rfl, rfl⟩,
    fun t => ⟨Overlaps_congr_sameKeys rfl rfl, Overlaps_congr_sameKeys rfl rfl⟩,
    fun _ => ⟨rfl, rfl⟩, fun _ => ⟨rfl, rfl⟩,
    fun pre post => Union_congr_sameKeys (forall₂_sameKeys_replace pre post),
    fun pre post => Intersection_congr_sameKeys (forall₂_sameKeys_replace pre post),
    fun t pre post => ⟨rfl, Difference_congr_sameKeys t (forall₂_sameKeys_replace pre post)⟩,
    fun pre post => SymmetricDifference_congr_sameKeys (forall₂_sameKeys_replace pre post),
    fun _ => ⟨rfl, rfl⟩, fun _ => rfl, fun _ => rfl, fun _ _ => rfl, rfl, fun _ => rfl,
    fun pre post => UnionSeq_congr_sameKeys (forall₂_sameKeys_replace pre post),
    fun _ => rfl⟩

/-! ## Mutation -/

/-- A write of a key that the allocated map does not hold appends the key. -/
theorem store_new [DecidableEq E] (s : Set E) (e : E) (hs : s.isNil = false)
    (he : e ∉ s.keys) :
    ∃ r, store s e = .ok r ∧ r.isNil = false ∧ r.keys = s.keys ++ [e] := by
  unfold store
  have hn : ¬ s.isNil = true := by simp [hs]
  rw [dif_neg hn, dif_neg he]
  exact ⟨_, rfl, rfl, rfl⟩

/-- `Delete` keeps the nil flag and removes the elements of `v`. -/
theorem Delete_spec [DecidableEq E] (s : Set E) (v : List E) :
    (Delete s v).isNil = s.isNil ∧ ∀ x, x ∈ (Delete s v).keys ↔ x ∈ s.keys ∧ x ∉ v := by
  unfold Delete
  induction v generalizing s with
  | nil => exact ⟨rfl, fun x => by simp⟩
  | cons a v ih =>
    rw [List.foldl_cons]
    obtain ⟨h1, h2⟩ := ih (delete s a)
    refine ⟨h1, fun x => ?_⟩
    rw [h2, mem_delete, List.mem_cons]
    constructor
    · rintro ⟨⟨hx, hne⟩, hv⟩
      exact ⟨hx, fun h => h.elim hne hv⟩
    · rintro ⟨hx, hn⟩
      exact ⟨⟨hx, fun h => hn (Or.inl h)⟩, fun h => hn (Or.inr h)⟩

/-- The loop of `maps.DeleteFunc` over the keys `ks`, started on the map `acc`. -/
theorem deleteFuncLoop_spec [DecidableEq E] (del : E → Bool) (ks : List E) (acc : Set E) :
    (ks.foldl (fun acc k => if del k then delete acc k else acc) acc).isNil = acc.isNil ∧
    ∀ x, x ∈ (ks.foldl (fun acc k => if del k then delete acc k else acc) acc).keys ↔
      x ∈ acc.keys ∧ ¬ (x ∈ ks ∧ del x = true) := by
  induction ks generalizing acc with
  | nil => exact ⟨rfl, fun x => by simp⟩
  | cons a ks ih =>
    rw [List.foldl_cons]
    by_cases ha : del a = true
    · rw [if_pos ha]
      obtain ⟨h1, h2⟩ := ih (delete acc a)
      refine ⟨h1, fun x => ?_⟩
      rw [h2, mem_delete, List.mem_cons]
      constructor
      · rintro ⟨⟨hx, hne⟩, hn⟩
        refine ⟨hx, ?_⟩
        rintro ⟨h | h, hd⟩
        · exact hne h
        · exact hn ⟨h, hd⟩
      · rintro ⟨hx, hn⟩
        refine ⟨⟨hx, ?_⟩, fun h => hn ⟨Or.inr h.1, h.2⟩⟩
        rintro rfl
        exact hn ⟨Or.inl rfl, ha⟩
    · rw [if_neg ha]
      obtain ⟨h1, h2⟩ := ih acc
      refine ⟨h1, fun x => ?_⟩
      rw [h2, List.mem_cons]
      constructor
      · rintro ⟨hx, hn⟩
        refine ⟨hx, ?_⟩
        rintro ⟨h | h, hd⟩
        · subst h
          exact ha hd
        · exact hn ⟨h, hd⟩
      · rintro ⟨hx, hn⟩
        exact ⟨hx, fun h => hn ⟨Or.inr h.1, h.2⟩⟩

/-- `DeleteFunc` keeps the nil flag and removes the elements that satisfy `del`. -/
theorem DeleteFunc_spec [DecidableEq E] (s : Set E) (del : E → Bool) :
    (DeleteFunc s del).isNil = s.isNil ∧
    ∀ x, x ∈ (DeleteFunc s del).keys ↔ x ∈ s.keys ∧ del x = false := by
  unfold DeleteFunc mapsDeleteFunc
  obtain ⟨h1, h2⟩ := deleteFuncLoop_spec del s.keys s
  refine ⟨h1, fun x => ?_⟩
  rw [h2]
  constructor
  · rintro ⟨hx, hn⟩
    refine ⟨hx, ?_⟩
    cases hd : del x
    · rfl
    · exact absurd ⟨hx, hd⟩ hn
  · rintro ⟨hx, hd⟩
    exact ⟨hx, fun h => by rw [hd] at h; exact absurd h.2 (by decide)⟩

/-- A set that holds an element is allocated. -/
theorem isNil_eq_false_of_mem (s : Set E) (e : E) (he : e ∈ s.keys) : s.isNil = false := by
  by_contra hn
  rw [s.nil_keys (by simpa using hn)] at he
  exact absurd he (List.not_mem_nil e)

/-- `Replace` on a set that holds `old`: the result holds `new` and the elements other than
`old`. -/
theorem Replace_ok [DecidableEq E] (s : Set E) (old new : E) (h : old ∈ s.keys) :
    ∃ r, Replace s old new = .ok r ∧ r.isNil = false ∧
      ∀ x, x ∈ r.keys ↔ (x ∈ s.keys ∧ x ≠ old) ∨ x = new := by
  unfold Replace
  have hl : lookup s old = true := (lookup_iff s old).mpr h
  obtain ⟨r, h1, h2, h3⟩ := store_ok (delete s old) new (isNil_eq_false_of_mem s old h)
  refine ⟨r, ?_, h2, fun x => ?_⟩
  · simp only [hl, Bool.not_true, Bool.false_eq_true, if_false]
    exact h1
  · rw [h3, mem_delete]

/-- `ReplaceFunc` does not panic, keeps the nil flag, and leaves the images of the elements. -/
theorem ReplaceFunc_ok [DecidableEq E] (s : Set E) (f : E → E) :
    ∃ r, ReplaceFunc s f = .ok r ∧ r.isNil = s.isNil ∧
      ∀ x, x ∈ r.keys ↔ ∃ e ∈ s.keys, f e = x := by
  unfold ReplaceFunc
  dsimp only
  rw [foldl_append_singleton (fun e => e) s.keys [], List.map_id', List.nil_append]
  by_cases hs : s.isNil = true
  · rw [s.nil_keys hs]
    exact ⟨clear s, rfl, rfl, fun x => by simp [clear]⟩
  · have hs' : s.isNil = false := by simpa using hs
    obtain ⟨r, h1, h2, h3⟩ := storeLoop_ok s.keys f (fun _ => true) (clear s) hs'
    refine ⟨r, by simpa using h1, by rw [h2, hs'], fun x => ?_⟩
    rw [h3]
    simp [clear]

/-- Two maps with the same nil flag and the same keys in the same order are the same value. -/
theorem Set.eq_of_keys {a b : Set E} (h₁ : a.isNil = b.isNil) (h₂ : a.keys = b.keys) :
    a = b := by
  cases a
  cases b
  cases h₁
  cases h₂
  rfl

/-- A nil map is the value `nilSet`. -/
theorem eq_nilSet_of_isNil (s : Set E) (h : s.isNil = true) : s = nilSet :=
  Set.eq_of_keys h (s.nil_keys h)

/-- Claim C15: `Replace(s, old, new)` leaves `s` unchanged when `old` is not in `s`; when `old`
is in `s`, afterwards `s` has the elements of `s` other than `old`, and `new`: it has the same
elements as before when `old = new`, and it has lost `old` and nothing else when `new` was in
`s` already. -/
theorem replace_removes_old_adds_new [DecidableEq E] (s : Set E) (old new : E) :
    (Contains s old = false → Replace s old new = .ok s) ∧
    (Contains s old = true → ∃ r, Replace s old new = .ok r ∧
      (∀ e, Contains r e = true ↔ (Contains s e = true ∧ e ≠ old) ∨ e = new) ∧
      (old = new → Equal r s = true) ∧
      (old ≠ new ∧ Contains s new = true →
        ∀ e, Contains r e = true ↔ Contains s e = true ∧ e ≠ old)) := by
  constructor
  · intro h
    unfold Replace
    have hl : lookup s old = false := h
    rw [hl]
    rfl
  · intro h
    have hmem : old ∈ s.keys := (Contains_iff s old).mp h
    obtain ⟨r, h1, _, h3⟩ := Replace_ok s old new hmem
    refine ⟨r, h1, fun e => ?_, fun heq => ?_, fun hne e => ?_⟩
    · rw [Contains_iff, h3, Contains_iff]
    · rw [Equal_iff]
      intro e
      rw [h3]
      subst heq
      constructor
      · rintro (⟨he, _⟩ | rfl)
        · exact he
        · exact hmem
      · intro he
        by_cases hx : e = old
        · exact Or.inr hx
        · exact Or.inl ⟨he, hx⟩
    · rw [Contains_iff, h3, Contains_iff]
      have hnew : new ∈ s.keys := (Contains_iff s new).mp hne.2
      constructor
      · rintro (h' | rfl)
        · exact h'
        · exact ⟨hnew, fun h' => hne.1 h'.symm⟩
      · exact Or.inl

/-! ## Sizes -/

/-- The size of a set is the number of its elements. -/
theorem len_eq_card [DecidableEq E] (s : Set E) : len s = s.keys.toFinset.card :=
  (List.toFinset_card_of_nodup s.nodup).symm

/-- Claim C20: for all sets `A` and `B` (nil sets included), `Union(A, B)` and
`Intersection(A, B)` return sets whose sizes add up to `|A| + |B|`. -/
theorem union_size_plus_intersection_size [DecidableEq E] (A B : Set E) :
    ∃ u i, Union [A, B] = .ok u ∧ Intersection [A, B] = .ok i ∧
      len u + len i = len A + len B := by
  obtain ⟨u, h1, _, h3⟩ := Union_ok [A, B]
  obtain ⟨i, k1, _, _, k4⟩ := Intersection_ok [A, B]
  refine ⟨u, i, h1, k1, ?_⟩
  have hu : u.keys.toFinset = A.keys.toFinset ∪ B.keys.toFinset := by
    ext x
    rw [List.mem_toFinset, h3, Finset.mem_union, List.mem_toFinset, List.mem_toFinset]
    simp
  have hi : i.keys.toFinset = A.keys.toFinset ∩ B.keys.toFinset := by
    ext x
    rw [List.mem_toFinset, k4 (by simp), Finset.mem_inter, List.mem_toFinset,
      List.mem_toFinset]
    simp
  rw [len_eq_card u, len_eq_card i, len_eq_card A, len_eq_card B, hu, hi]
  exact Finset.card_union_add_card_inter _ _

/-! ## Iterators -/

/-- The wrapper that `slices.Values` and `All` put around the loop body of the consumer (stop
when the body says so) is the loop body itself. -/
theorem yieldWrap_eq {σ V : Type} (yield : Yield σ V) :
    (fun st v => do
      let (st, more) ← yield st v
      if !more then pure (st, false) else pure (st, true)) = yield := by
  funext st v
  dsimp only
  cases yield st v with
  | error p => rfl
  | ok r =>
    obtain ⟨st', b⟩ := r
    cases b <;> rfl

/-- The iterator `slices.Values(xs)` runs the loop body of the consumer over `xs`. -/
theorem slicesValues_eq_rangeLoop {σ V : Type} (xs : List V) (yield : Yield σ V) (st : σ) :
    slicesValues xs σ yield st = (do
      let (st, _) ← rangeLoop yield xs st
      pure st) := by
  unfold slicesValues
  rw [yieldWrap_eq]

/-- Invariant rule for a loop whose body never stops it: an invariant on the elements done so
far and the state, carried by every run of the body, holds at the end of the loop, which runs
to its end. -/
theorem rangeLoop_inv_done {σ V : Type} (body : Yield σ V) (I : List V → σ → Prop)
    (xs : List V) (st : σ) (h0 : I [] st)
    (hstep : ∀ done x rest st, xs = done ++ x :: rest → I done st →
      ∃ st', body st x = .ok (st', true) ∧ I (done ++ [x]) st') :
    ∃ st', rangeLoop body xs st = .ok (st', true) ∧ I xs st' := by
  suffices H : ∀ (todo done : List V) (st : σ), xs = done ++ todo → I done st →
      ∃ st', rangeLoop body todo st = .ok (st', true) ∧ I xs st' from H xs [] st rfl h0
  intro todo
  induction todo with
  | nil =>
    intro done st hxs hI
    refine ⟨st, rfl, ?_⟩
    rw [hxs, List.append_nil]
    exact hI
  | cons x rest ih =>
    intro done st hxs hI
    obtain ⟨st', hb, hI'⟩ := hstep done x rest st hxs hI
    obtain ⟨r, hr, hIr⟩ := ih (done ++ [x]) st' (by rw [hxs, List.append_assoc]; rfl) hI'
    refine ⟨r, ?_, hIr⟩
    simp only [rangeLoop, hb]
    exact hr

/-- A loop whose body never stops it, followed by a continuation. -/
theorem rangeLoop_done_bind {σ V β : Type} (body : Yield σ V) (I : List V → σ → Prop)
    (xs : List V) (st : σ) (k : σ × Bool → Except Panic β) (P : β → Prop) (h0 : I [] st)
    (hstep : ∀ done x rest st, xs = done ++ x :: rest → I done st →
      ∃ st', body st x = .ok (st', true) ∧ I (done ++ [x]) st')
    (hk : ∀ st', I xs st' → ∃ r, k (st', true) = .ok r ∧ P r) :
    ∃ r, (rangeLoop body xs st >>= k) = .ok r ∧ P r := by
  obtain ⟨st', h, hI⟩ := rangeLoop_inv_done body I xs st h0 hstep
  rw [h, ok_bind]
  exact hk st' hI

/-- The chunks that a fully consumed `Chunk(s, n)` yields, for `n >= 1`: first chunks with `n`
keys each, then at most one chunk with at least one and less than `n` keys; all chunks are
allocated, and their keys, one chunk after the other, are the keys of `s` in iteration order. -/
theorem Chunk_collect [DecidableEq E] (s : Set E) (n : Int) (hn : 1 ≤ n) :
    ∃ seq, Chunk s n = .ok seq ∧ ∃ chunks, slicesCollect seq = .ok chunks ∧
      ∃ full rest, chunks = full ++ rest ∧
        (full.map Set.keys).flatten ++ (rest.map Set.keys).flatten = s.keys ∧
        (∀ c ∈ full, c.isNil = false ∧ (len c : Int) = n) ∧
        (rest = [] ∨ ∃ c, rest = [c] ∧ c.isNil = false ∧ 1 ≤ len c ∧ (len c : Int) < n) := by
  unfold Chunk
  rw [if_neg (not_lt.mpr hn)]
  refine ⟨_, rfl, ?_⟩
  unfold slicesCollect
  dsimp only
  refine rangeLoop_done_bind _
    (fun done (p : Set E × Int × List (Set E)) =>
      p.1.isNil = false ∧ p.2.1 = (p.1.keys.length : Int) ∧ p.2.1 < n ∧
      (p.2.2.map Set.keys).flatten ++ p.1.keys = done ∧
      ∀ c ∈ p.2.2, c.isNil = false ∧ (len c : Int) = n)
    s.keys _ _ _
    ⟨make_isNil n, rfl, by dsimp only; omega, rfl, fun c hc => by simp at hc⟩ ?_ ?_
  · rintro done e rest ⟨chunk, cnt, acc⟩ hxs ⟨h1, h2, h3, h4, h5⟩
    dsimp only at h1 h2 h3 h4 h5
    have he : e ∉ chunk.keys := by
      intro hmem
      exact not_mem_done s.nodup hxs (by rw [← h4]; exact List.mem_append_right _ hmem)
    obtain ⟨chunk', k1, k2, k3⟩ := store_new chunk e h1 he
    have hlen : (len chunk' : Int) = cnt + 1 := by
      unfold len
      rw [k3, List.length_append, List.length_singleton]
      push_cast
      omega
    dsimp only
    rw [k1, ok_bind]
    by_cases hc : cnt + 1 = n
    · rw [if_pos hc]
      refine ⟨_, rfl, make_isNil n, rfl, ?_, ?_, ?_⟩
      · dsimp only
        omega
      · simp only [List.map_append, List.flatten_append, List.map_cons, List.map_nil,
          List.flatten_cons, List.flatten_nil, List.append_nil, k3, make_keys]
        rw [← List.append_assoc, h4]
      · intro c hc'
        rw [List.mem_append, List.mem_singleton] at hc'
        rcases hc' with hc' | rfl
        · exact h5 c hc'
        · exact ⟨k2, by rw [hlen, hc]⟩
    · rw [if_neg hc]
      refine ⟨_, rfl, k2, hlen.symm, ?_, ?_, h5⟩
      · dsimp only
        omega
      · show (acc.map Set.keys).flatten ++ chunk'.keys = done ++ [e]
        rw [k3, ← List.append_assoc, h4]
  · rintro ⟨chunk, cnt, acc⟩ ⟨h1, h2, h3, h4, h5⟩
    dsimp only at h1 h2 h3 h4 h5 ⊢
    by_cases hpos : cnt > 0
    · refine ⟨acc ++ [chunk], ?_, acc, [chunk], rfl, ?_, h5,
        Or.inr ⟨chunk, rfl, h1, ?_, ?_⟩⟩
      · simp only [hpos, decide_True, Bool.and_self, if_true]
        rfl
      · simpa using h4
      · unfold len
        omega
      · unfold len
        omega
    · refine ⟨acc, ?_, acc, [], by simp, ?_, h5, Or.inl rfl⟩
      · simp only [hpos, decide_False, Bool.and_false, Bool.false_eq_true, if_false]
        rfl
      · have hk : chunk.keys = [] := List.length_eq_zero.mp (by omega)
        simpa [hk] using h4

/-- The keys of chunks with `n` keys each. -/
theorem flatten_length_full (full : List (Set E)) (n : Int)
    (h : ∀ c ∈ full, c.isNil = false ∧ (len c : Int) = n) :
    (((full.map Set.keys).flatten.length : Nat) : Int) = (full.length : Int) * n := by
  induction full with
  | nil => simp
  | cons c full ih =>
    have hc := (h c (List.mem_cons_self c full)).2
    have ih' := ih (fun d hd => h d (List.mem_cons_of_mem c hd))
    unfold len at hc
    simp only [List.map_cons, List.flatten_cons, List.length_append, List.length_cons]
    push_cast
    rw [ih', hc]
    ring

/-- Claim C11: for `n >= 1` a fully consumed `Chunk(s, n)` yields `ceil(|s| / n)` chunks; every
chunk but the last has exactly `n` elements, a last chunk with less than `n` elements has
`|s| mod n` elements, no chunk is empty, a set without elements (nil or allocated) yields no
chunk, and for `|s| = 7` and `n = 3` the sizes of the chunks are 3, 3, 1 in this order. -/
theorem chunk_count_and_sizes [DecidableEq E] (s : Set E) (n : Int) (hn : 1 ≤ n) :
    ∃ seq, Chunk s n = .ok seq ∧ ∃ chunks, slicesCollect seq = .ok chunks ∧
      (chunks.length : Int) = ((len s : Int) + n - 1) / n ∧
      (∀ c ∈ chunks.dropLast, (len c : Int) = n) ∧
      (∀ c, chunks.getLast? = some c → (len c : Int) < n →
        (len c : Int) = (len s : Int) % n) ∧
      (∀ c ∈ chunks, 1 ≤ len c) ∧
      (len s = 0 → chunks = []) ∧
      (len s = 7 ∧ n = 3 → chunks.map len = [3, 3, 1]) := by
  obtain ⟨seq, hseq, chunks, hcol, full, rest, hch, hflat, hfull, hrest⟩ := Chunk_collect s n hn
  refine ⟨seq, hseq, chunks, hcol, ?_⟩
  have hL : (len s : Int) =
      (full.length : Int) * n + (((rest.map Set.keys).flatten.length : Nat) : Int) := by
    unfold len
    rw [← hflat, List.length_append]
    push_cast
    rw [flatten_length_full full n hfull]
  have hk : (0 : Int) ≤ (full.length : Int) := Int.natCast_nonneg _
  have hfull1 : ∀ c ∈ full, 1 ≤ len c := by
    intro c hc
    have := (hfull c hc).2
    omega
  have hzero : len s = 0 → full = [] := by
    intro h0
    cases full with
    | nil => rfl
    | cons c full =>
      have hc := hfull1 c (List.mem_cons_self c full)
      have hcs : c.keys.length ≤ s.keys.length := by
        rw [← hflat]
        simp only [List.map_cons, List.flatten_cons, List.length_append]
        omega
      unfold len at h0 hc
      omega
  subst hch
  rcases hrest with rfl | ⟨c, rfl, _, hc1, hc2⟩
  · simp only [List.map_nil, List.flatten_nil, List.length_nil, Nat.cast_zero, add_zero] at hL
    rw [List.append_nil]
    refine ⟨?_, ?_, ?_, hfull1, hzero, ?_⟩
    · have := (Int.ediv_emod_unique (by omega : 0 < n)).mpr
        (⟨by rw [hL]; ring, by omega, by omega⟩ :
          (n - 1) + n * (full.length : Int) = (len s : Int) + n - 1 ∧ 0 ≤ n - 1 ∧ n - 1 < n)
      rw [this.1]
    · intro c hc
      exact (hfull c (List.mem_of_mem_dropLast hc)).2
    · intro c hc hlt
      have := (hfull c (List.mem_of_mem_getLast? hc)).2
      omega
    · rintro ⟨h7, h3⟩
      subst h3
      rw [h7] at hL
      omega
  · simp only [List.map_cons, List.map_nil, List.flatten_cons, List.flatten_nil,
      List.append_nil] at hL
    have hcl : ((c.keys.length : Nat) : Int) = (len c : Int) := rfl
    rw [hcl] at hL
    refine ⟨?_, ?_, ?_, ?_, ?_, ?_⟩
    · have := (Int.ediv_emod_unique (by omega : 0 < n)).mpr
        (⟨by rw [hL]; ring, by omega, by omega⟩ :
          ((len c : Int) - 1) + n * ((full.length : Int) + 1) = (len s : Int) + n - 1 ∧
          0 ≤ (len c : Int) - 1 ∧ (len c : Int) - 1 < n)
      rw [this.1, List.length_append, List.length_singleton]
      push_cast
      rfl
    · intro d hd
      rw [List.dropLast_concat] at hd
      exact (hfull d hd).2
    · intro d hd _
      rw [List.getLast?_concat] at hd
      cases hd
      have := (Int.ediv_emod_unique (by omega : 0 < n)).mpr
        (⟨by rw [hL]; ring, by omega, hc2⟩ :
          (len c : Int) + n * (full.length : Int) = (len s : Int) ∧
          0 ≤ (len c : Int) ∧ (len c : Int) < n)
      rw [this.2]
    · intro d hd
      rw [List.mem_append, List.mem_singleton] at hd
      rcases hd with hd | rfl
      · exact hfull1 d hd
      · exact hc1
    · intro h0
      rw [h0] at hL
      have : (0 : Int) ≤ (full.length : Int) * n := Int.mul_nonneg hk (by omega)
      omega
    · rintro ⟨h7, h3⟩
      subst h3
      rw [h7] at hL
      have hlen : full.length = 2 := by omega
      have hc3 : len c = 1 := by omega
      obtain ⟨a, b, rfl⟩ := List.length_eq_two.mp hlen
      have ha := (hfull a (by simp)).2
      have hb := (hfull b (by simp)).2
      have ha' : len a = 3 := by omega
      have hb' : len b = 3 := by omega
      simp [ha', hb', hc3]

/-- Witness of claim C11: the set `From(1, 2, 3, 4, 5, 6, 7)` of `ExampleChunk` with `n = 3`. -/
theorem chunk_count_and_sizes_witness :
    (1 : Int) ≤ 3 ∧
    ∃ seq, Chunk exampleNumbers 3 = .ok seq ∧ ∃ chunks, slicesCollect seq = .ok chunks ∧
      (chunks.length : Int) = ((len exampleNumbers : Int) + 3 - 1) / 3 ∧
      (∀ c ∈ chunks.dropLast, (len c : Int) = 3) ∧
      (∀ c, chunks.getLast? = some c → (len c : Int) < 3 →
        (len c : Int) = (len exampleNumbers : Int) % 3) ∧
      (∀ c ∈ chunks, 1 ≤ len c) ∧
      (len exampleNumbers = 0 → chunks = []) ∧
      (len exampleNumbers = 7 ∧ (3 : Int) = 3 → chunks.map len = [3, 3, 1]) :=
  ⟨by decide, chunk_count_and_sizes exampleNumbers 3 (by decide)⟩

/-- `Overlaps` decides that the two sets have an element in common. -/
theorem Overlaps_iff [DecidableEq E] (s1 s2 : Set E) :
    Overlaps s1 s2 = true ↔ ∃ e, e ∈ s1.keys ∧ e ∈ s2.keys := by
  unfold Overlaps
  by_cases c0 : (len s1 = 0 || len s2 = 0) = true
  · rw [if_pos c0]
    rw [Bool.or_eq_true, decide_eq_true_eq, decide_eq_true_eq, len_eq_zero_iff,
      len_eq_zero_iff] at c0
    rcases c0 with h | h <;> simp [h]
  · rw [if_neg c0]
    by_cases c1 : len s1 > len s2
    · simp only [c1, if_true, List.any_eq_true, lookup_iff]
      exact ⟨fun ⟨e, h1, h2⟩ => ⟨e, h2, h1⟩, fun ⟨e, h1, h2⟩ => ⟨e, h2, h1⟩⟩
    · simp only [c1, if_false, List.any_eq_true, lookup_iff]

/-! ## The stream of `UnionSeq` -/

theorem newKeys_spec [DecidableEq E] (ks seen : List E) (hs : seen.Nodup) :
    (seen ++ newKeys seen ks).Nodup ∧ ∀ x, x ∈ newKeys seen ks ↔ x ∈ ks ∧ x ∉ seen := by
  induction ks generalizing seen with
  | nil => exact ⟨by simpa [newKeys] using hs, fun x => by simp [newKeys]⟩
  | cons e ks ih =>
    by_cases he : e ∈ seen
    · obtain ⟨h1, h2⟩ := ih seen hs
      simp only [newKeys, he, if_true]
      refine ⟨h1, fun x => ?_⟩
      rw [h2, List.mem_cons]
      constructor
      · rintro ⟨hx, hn⟩
        exact ⟨Or.inr hx, hn⟩
      · rintro ⟨hx | hx, hn⟩
        · subst hx
          exact absurd he hn
        · exact ⟨hx, hn⟩
    · have hs' : (seen ++ [e]).Nodup :=
        List.Nodup.append hs (List.nodup_singleton e)
          (by intro x hx hx1; rw [List.mem_singleton] at hx1; exact he (hx1 ▸ hx))
      obtain ⟨h1, h2⟩ := ih (seen ++ [e]) hs'
      simp only [newKeys, he, if_false]
      refine ⟨by simpa using h1, fun x => ?_⟩
      rw [List.mem_cons, h2, List.mem_cons, List.mem_append, List.mem_singleton]
      constructor
      · rintro (rfl | ⟨hx, hn⟩)
        · exact ⟨Or.inl rfl, he⟩
        · exact ⟨Or.inr hx, fun h => hn (Or.inl h)⟩
      · rintro ⟨hx | hx, hn⟩
        · exact Or.inl hx
        · by_cases hxe : x = e
          · exact Or.inl hxe
          · exact Or.inr ⟨hx, fun h => h.elim hn hxe⟩

theorem firstSeenFrom_spec [DecidableEq E] (sets : List (Set E)) (seen : List E)
    (hs : seen.Nodup) :
    (seen ++ firstSeenFrom seen sets).Nodup ∧
    ∀ x, x ∈ firstSeenFrom seen sets ↔ (∃ s ∈ sets, x ∈ s.keys) ∧ x ∉ seen := by
  induction sets generalizing seen with
  | nil => exact ⟨by simpa [firstSeenFrom] using hs, fun x => by simp [firstSeenFrom]⟩
  | cons s rest ih =>
    obtain ⟨n1, n2⟩ := newKeys_spec s.keys seen hs
    obtain ⟨h1, h2⟩ := ih (seen ++ newKeys seen s.keys) n1
    simp only [firstSeenFrom]
    refine ⟨by simpa using h1, fun x => ?_⟩
    rw [List.mem_append, h2, n2, List.mem_append, n2]
    constructor
    · rintro (⟨hx, hn⟩ | ⟨⟨t, ht, hx⟩, hn⟩)
      · exact ⟨⟨s, List.mem_cons_self s rest, hx⟩, hn⟩
      · exact ⟨⟨t, List.mem_cons_of_mem s ht, hx⟩, fun h => hn (Or.inl h)⟩
    · rintro ⟨⟨t, ht, hx⟩, hn⟩
      by_cases hxs : x ∈ s.keys
      · exact Or.inl ⟨hxs, hn⟩
      · rw [List.mem_cons] at ht
        rcases ht with rfl | ht
        · exact absurd hx hxs
        · exact Or.inr ⟨⟨t, ht, hx⟩, fun h => h.elim hn (fun h' => hxs h'.1)⟩

/-- The elements in first-seen order are the elements of the sets, each one once. -/
theorem firstSeen_spec [DecidableEq E] (sets : List (Set E)) :
    (firstSeen sets).Nodup ∧ ∀ x, x ∈ firstSeen sets ↔ ∃ s ∈ sets, x ∈ s.keys := by
  obtain ⟨h1, h2⟩ := firstSeenFrom_spec sets [] List.nodup_nil
  exact ⟨by simpa using h1, fun x => by rw [firstSeen, h2]; simp⟩

/-- A loop over two lists, one after the other. -/
theorem rangeLoop_append {σ V : Type} (body : Yield σ V) (xs ys : List V) (st : σ) :
    rangeLoop body (xs ++ ys) st =
      match rangeLoop body xs st with
      | .error p => .error p
      | .ok (st', true) => rangeLoop body ys st'
      | .ok (st', false) => .ok (st', false) := by
  induction xs generalizing st with
  | nil => rfl
  | cons x xs ih =>
    simp only [List.cons_append, rangeLoop]
    cases h : body st x with
    | error p => rfl
    | ok r =>
      obtain ⟨st', b⟩ := r
      cases b
      · rfl
      · exact ih st'

/-- The inner loop of `UnionSeq` over the keys `ks` of one set: the loop body of the consumer
runs over the keys that are new, in order, and when the loop runs to its end, `seen` has gained
these keys. -/
theorem unionSeqInner_sim [DecidableEq E] {σ : Type} (yield : Yield σ E) (ks : List E)
    (seen : Set E) (st : σ) (hs : seen.isNil = false) :
    (rangeLoop (fun (seen, st) e =>
        if !lookup seen e then do
          let seen ← store seen e
          let (st, more) ← yield st e
          if !more then pure ((seen, st), false) else pure ((seen, st), true)
        else pure ((seen, st), true)) ks (seen, st)).map (fun r => (r.1.2, r.2)) =
      rangeLoop yield (newKeys seen.keys ks) st ∧
    ∀ seen' st', rangeLoop (fun (seen, st) e =>
        if !lookup seen e then do
          let seen ← store seen e
          let (st, more) ← yield st e
          if !more then pure ((seen, st), false) else pure ((seen, st), true)
        else pure ((seen, st), true)) ks (seen, st) = .ok ((seen', st'), true) →
      seen'.isNil = false ∧ seen'.keys = seen.keys ++ newKeys seen.keys ks := by
  induction ks generalizing seen st with
  | nil =>
    refine ⟨rfl, fun seen' st' h => ?_⟩
    simp only [rangeLoop, Except.ok.injEq, Prod.mk.injEq, and_true] at h
    obtain ⟨rfl, rfl⟩ := h
    exact ⟨hs, by simp [newKeys]⟩
  | cons e ks ih =>
    by_cases he : e ∈ seen.keys
    · have hl : lookup seen e = true := (lookup_iff seen e).mpr he
      obtain ⟨h1, h2⟩ := ih seen st hs
      simp only [rangeLoop, newKeys, he, hl, if_true, Bool.not_true, Bool.false_eq_true,
        if_false, pure_eq_ok]
      exact ⟨h1, h2⟩
    · have hl : lookup seen e = false := by
        rw [← Bool.not_eq_true, lookup_iff]
        exact he
      obtain ⟨seen1, k1, k2, k3⟩ := store_new seen e hs he
      simp only [rangeLoop, newKeys, he, hl, if_false, Bool.not_false, if_true, k1, ok_bind]
      cases hy : yield st e with
      | error p => exact ⟨rfl, fun seen' st' h => by cases h⟩
      | ok r =>
        obtain ⟨st1, more⟩ := r
        cases more
        · refine ⟨rfl, fun seen' st' h => ?_⟩
          simp only [ok_bind, Bool.not_false, if_true, pure_eq_ok, Except.ok.injEq,
            Prod.mk.injEq] at h
          exact absurd h.2 (by decide)
        · obtain ⟨h1, h2⟩ := ih seen1 st1 k2
          rw [k3] at h1 h2
          simp only [ok_bind, Bool.not_true, Bool.false_eq_true, if_false, pure_eq_ok]
          refine ⟨h1, fun seen' st' h => ?_⟩
          obtain ⟨g1, g2⟩ := h2 seen' st' h
          exact ⟨g1, by rw [g2, List.append_assoc]; rfl⟩

/-- The outer loop of `UnionSeq` over a list of sets: the loop body of the consumer runs over
the elements that are new, in first-seen order, and when the loop runs to its end, `seen` has
gained these elements. -/
theorem unionSeqOuter_sim [DecidableEq E] {σ : Type} (yield : Yield σ E) (sets : List (Set E))
    (seen : Set E) (st : σ) (hs : seen.isNil = false) :
    (rangeLoop (fun (seen, st) s =>
        rangeLoop (fun (seen, st) e =>
          if !lookup seen e then do
            let seen ← store seen e
            let (st, more) ← yield st e
            if !more then pure ((seen, st), false) else pure ((seen, st), true)
          else pure ((seen, st), true)) s.keys (seen, st)) sets (seen, st)).map
        (fun r => (r.1.2, r.2)) =
      rangeLoop yield (firstSeenFrom seen.keys sets) st := by
  induction sets generalizing seen st with
  | nil => rfl
  | cons s rest ih =>
    obtain ⟨h1, h2⟩ := unionSeqInner_sim yield s.keys seen st hs
    simp only [rangeLoop, firstSeenFrom]
    rw [rangeLoop_append, ← h1]
    cases hin : rangeLoop (fun (seen, st) e =>
        if !lookup seen e then do
          let seen ← store seen e
          let (st, more) ← yield st e
          if !more then pure ((seen, st), false) else pure ((seen, st), true)
        else pure ((seen, st), true)) s.keys (seen, st) with
    | error p => rfl
    | ok r =>
      obtain ⟨⟨seen', st'⟩, b⟩ := r
      cases b
      · rfl
      · obtain ⟨g1, g2⟩ := h2 seen' st' hin
        have := ih seen' st' g1
        rw [g2] at this
        exact this

/-- The iterator `UnionSeq` over a slice of sets is the iterator over the elements of the sets
in first-seen order, each one once: the two iterators do the same with every loop body of a
consumer, also with one that stops the iteration or panics. -/
theorem UnionSeq_slicesValues [DecidableEq E] (sets : List (Set E)) :
    UnionSeq (slicesValues sets) = slicesValues (firstSeen sets) := by
  funext σ yield st
  unfold UnionSeq
  dsimp only
  rw [slicesValues_eq_rangeLoop, slicesValues_eq_rangeLoop]
  have h := unionSeqOuter_sim yield sets (make 0) st (make_isNil 0)
  rw [make_keys] at h
  unfold firstSeen
  rw [← h]
  cases rangeLoop (fun (seen, st) s =>
        rangeLoop (fun (seen, st) e =>
          if !lookup seen e then do
            let seen ← store seen e
            let (st, more) ← yield st e
            if !more then pure ((seen, st), false) else pure ((seen, st), true)
          else pure ((seen, st), true)) s.keys (seen, st)) sets ((make 0 : Set E), st) with
  | error p => rfl
  | ok r => rfl

/-- A fully consumed iterator over a slice yields the elements of the slice, in order. -/
theorem slicesCollect_slicesValues {V : Type} (xs : List V) :
    slicesCollect (slicesValues xs) = .ok xs := by
  unfold slicesCollect
  rw [slicesValues_eq_rangeLoop]
  suffices H : ∀ acc : List V,
      rangeLoop (fun acc v => (pure (acc ++ [v], true) : Except Panic (List V × Bool))) xs acc =
        .ok (acc ++ xs, true) by
    rw [H []]
    rfl
  induction xs with
  | nil => intro acc; simp [rangeLoop]
  | cons x xs ih =>
    intro acc
    have h := ih (acc ++ [x])
    simp only [pure_eq_ok] at h
    simp only [rangeLoop, pure_eq_ok]
    rw [h, List.append_assoc]
    rfl

/-! ## Relations between the operations -/

/-- Claim C21: for all sets `A` and `B` (nil sets included), `Overlaps(A, B)` is true if and
only if `Intersection(A, B)` is not empty, whichever of the two sets is the smaller one that
`Overlaps` ranges over. -/
theorem overlaps_iff_intersection_nonempty [DecidableEq E] (A B : Set E) :
    ∃ i, Intersection [A, B] = .ok i ∧
      (Overlaps A B = true ↔ len i ≠ 0) ∧
      (Overlaps A B = true ↔ ∃ e, Contains i e = true) ∧
      Overlaps A B = Overlaps B A := by
  obtain ⟨i, h1, _, _, h4⟩ := Intersection_ok [A, B]
  have hmem : ∀ x, x ∈ i.keys ↔ x ∈ A.keys ∧ x ∈ B.keys := by
    intro x
    rw [h4 (by simp) x]
    simp
  have hex : Overlaps A B = true ↔ ∃ e, e ∈ i.keys := by
    rw [Overlaps_iff]
    exact ⟨fun ⟨e, ha, hb⟩ => ⟨e, (hmem e).mpr ⟨ha, hb⟩⟩,
      fun ⟨e, he⟩ => ⟨e, (hmem e).mp he⟩⟩
  refine ⟨i, h1, ?_, ?_, ?_⟩
  · rw [hex, Ne, len_eq_zero_iff]
    constructor
    · rintro ⟨e, he⟩ h0
      rw [h0] at he
      exact absurd he (List.not_mem_nil e)
    · intro hne
      exact List.exists_mem_of_ne_nil _ hne
  · rw [hex]
    simp only [Contains_iff]
  · rw [Bool.eq_iff_iff, Overlaps_iff, Overlaps_iff]
    exact ⟨fun ⟨e, ha, hb⟩ => ⟨e, hb, ha⟩, fun ⟨e, ha, hb⟩ => ⟨e, hb, ha⟩⟩

/-- `ToSlice` of an allocated set is the slice of its keys in iteration order; `ToSlice` of the
nil set is the nil slice. -/
theorem ToSlice_eq (s : Set E) : ToSlice s = if s.isNil then none else some s.keys := by
  unfold ToSlice
  rw [foldl_append_singleton (fun e => e) s.keys [], List.map_id', List.nil_append]

/-- The elements of the slice `ToSlice s` are the keys of `s`. -/
theorem ToSlice_elems (s : Set E) : Slice.elems (ToSlice s) = s.keys := by
  rw [ToSlice_eq]
  by_cases hs : s.isNil = true
  · rw [if_pos hs, s.nil_keys hs]
    rfl
  · rw [if_neg hs]
    rfl

/-- Claim C29: for every set `s` (the nil set included) and every list `v` (the empty list
included), `ContainsAll(s, v...)` is true if and only if every element of `v` is in `s`, and
`ContainsAny(s, v...)` is true if and only if some element of `v` is in `s`; hence `ContainsAll`
is true for the empty `v` on every set, and `ContainsAny` is false for the empty `v` and on a
set without elements. -/
theorem containsAll_and_containsAny_iff [DecidableEq E] (s : Set E) (v : List E) :
    (ContainsAll s v = true ↔ ∀ e ∈ v, Contains s e = true) ∧
    (ContainsAny s v = true ↔ ∃ e ∈ v, Contains s e = true) ∧
    ContainsAll s [] = true ∧ ContainsAny s [] = false ∧
    (len s = 0 → ContainsAny s v = false) ∧
    (len s = 0 ∧ v ≠ [] → ContainsAll s v = false) := by
  have hany : ContainsAny s v = true ↔ ∃ e ∈ v, Contains s e = true := by
    unfold ContainsAny
    by_cases h0 : len s = 0
    · rw [if_pos h0]
      have hk := (len_eq_zero_iff s).mp h0
      simp [Contains_iff, hk]
    · rw [if_neg h0, List.any_eq_true]
  have hall : ContainsAll s v = true ↔ ∀ e ∈ v, Contains s e = true := by
    unfold ContainsAll
    by_cases hv : v.length = 0
    · rw [if_pos hv, List.length_eq_zero.mp hv]
      simp
    · rw [if_neg hv]
      by_cases h0 : len s = 0
      · rw [if_pos h0]
        have hk := (len_eq_zero_iff s).mp h0
        obtain ⟨e, he⟩ := List.exists_mem_of_ne_nil v (fun h => hv (by rw [h]; rfl))
        simp only [Bool.false_eq_true, false_iff, not_forall]
        exact ⟨e, he, by rw [Contains_iff, hk]; exact List.not_mem_nil e⟩
      · rw [if_neg h0, List.all_eq_true]
  refine ⟨hall, hany, rfl, ?_, fun h0 => ?_, fun h => ?_⟩
  · unfold ContainsAny
    split <;> rfl
  · unfold ContainsAny
    rw [if_pos h0]
  · unfold ContainsAll
    rw [if_neg (fun hv => h.2 (List.length_eq_zero.mp hv)), if_pos h.1]

/-- Claim C30: for every set `s` (the nil set included) and every predicate `f`, `Some(s, f)`
is true if and only if `f` holds for at least one element of `s`, and `Every(s, f)` is true if
and only if `f` holds for all elements of `s`; so `Some` is false and `Every` is true on a set
without elements, and `Every(s, f)` is the negation of `Some(s, not f)`. -/
theorem some_and_every_iff [DecidableEq E] (s : Set E) (f : E → Bool) :
    (Some s f = true ↔ ∃ e, Contains s e = true ∧ f e = true) ∧
    (Every s f = true ↔ ∀ e, Contains s e = true → f e = true) ∧
    (len s = 0 → Some s f = false ∧ Every s f = true) ∧
    Every s f = !Some s (fun e => !f e) := by
  refine ⟨?_, ?_, fun h0 => ?_, ?_⟩
  · unfold Some
    rw [List.any_eq_true]
    simp only [Contains_iff]
  · unfold Every
    rw [List.all_eq_true]
    simp only [Contains_iff]
  · unfold Some Every
    rw [(len_eq_zero_iff s).mp h0]
    exact ⟨rfl, rfl⟩
  · unfold Some Every
    rw [List.not_any_eq_all_not]
    simp

/-! ## Rendering -/

/-- The comparison by code points in `stringLE` is the order of the characters. -/
theorem char_toNat_lt_iff (a b : Char) : a.toNat < b.toNat ↔ a < b := by
  rw [Char.lt_def]
  exact Iff.rfl

theorem char_eq_of_not_lt (a b : Char) (h1 : ¬ a < b) (h2 : ¬ b < a) : a = b :=
  le_antisymm (not_lt.mp h2) (not_lt.mp h1)

/-- `stringLE` decides the lexicographic order of two lists of characters. -/
theorem stringLE_iff_not_lex (as bs : List Char) :
    stringLE as bs = true ↔ ¬ List.Lex (· < ·) bs as := by
  induction as generalizing bs with
  | nil => simp [stringLE, List.Lex.not_nil_right]
  | cons a as ih =>
    cases bs with
    | nil =>
      simp only [stringLE, Bool.false_eq_true, false_iff, not_not]
      exact List.Lex.nil
    | cons b bs =>
      unfold stringLE
      by_cases hab : a < b
      · rw [if_pos ((char_toNat_lt_iff a b).mpr hab)]
        simp only [true_iff]
        intro hlex
        cases hlex with
        | cons h => exact lt_irrefl a hab
        | rel h => exact lt_asymm hab h
      · rw [if_neg (fun h => hab ((char_toNat_lt_iff a b).mp h))]
        by_cases hba : b < a
        · rw [if_pos ((char_toNat_lt_iff b a).mpr hba)]
          simp only [Bool.false_eq_true, false_iff, not_not]
          exact List.Lex.rel hba
        · rw [if_neg (fun h => hba ((char_toNat_lt_iff b a).mp h))]
          have heq : a = b := char_eq_of_not_lt a b hab hba
          subst heq
          rw [ih bs, List.Lex.cons_iff]

/-- `stringLE` on the characters of two strings decides the lexicographic order `≤` of the
strings. -/
theorem stringLE_iff_le (a b : String) : stringLE a.data b.data = true ↔ a ≤ b := by
  rw [stringLE_iff_not_lex, String.le_iff_toList_le, ← not_lt]
  exact Iff.rfl

/-- `sort.Strings` returns a permutation of its argument that is sorted in the lexicographic
order of strings. -/
theorem sortStrings_spec (elements : List String) :
    (sortStrings elements).Perm elements ∧ (sortStrings elements).Sorted (· ≤ ·) := by
  unfold sortStrings
  haveI : IsTotal String (fun a b => stringLE a.data b.data = true) :=
    ⟨fun a b => by simp only [stringLE_iff_le]; exact le_total a b⟩
  haveI : IsTrans String (fun a b => stringLE a.data b.data = true) :=
    ⟨fun a b c => by simp only [stringLE_iff_le]; exact le_trans⟩
  refine ⟨List.perm_insertionSort _ _, ?_⟩
  have h := List.sorted_insertionSort (fun a b => stringLE a.data b.data = true) elements
  exact h.imp (fun hab => (stringLE_iff_le _ _).mp hab)

/-- `sort.Strings` does not depend on the order of its argument. -/
theorem sortStrings_perm {l₁ l₂ : List String} (h : l₁.Perm l₂) :
    sortStrings l₁ = sortStrings l₂ := by
  obtain ⟨p1, s1⟩ := sortStrings_spec l₁
  obtain ⟨p2, s2⟩ := sortStrings_spec l₂
  exact List.eq_of_perm_of_sorted (p1.trans (h.trans p2.symm)) s1 s2

/-- The result of `String` on a set with elements. -/
theorem String_eq_of_len_ne_zero (sprint : E → String) (s : Set E) (h : len s ≠ 0) :
    Set.String sprint s =
      "\x7b" ++ ", ".intercalate (sortStrings (s.keys.map sprint)) ++ "\x7d" := by
  unfold Set.String
  rw [if_neg h]
  dsimp only
  rw [foldl_append_singleton sprint s.keys [], List.nil_append]

/-- Claim C24: `String(s)` is `"{}"` when `s` has no element (nil or allocated); otherwise it
is `"{"`, then the renderings of the elements of `s`, sorted in the lexicographic order of
strings and joined by `", "`, then `"}"`.  The order is not the numeric one: a set with the
elements 2 and 10, rendered as `"2"` and `"10"`, gives `"{10, 2}"`. -/
theorem string_renders_sorted_elements (sprint : E → String) (s : Set E) :
    (len s = 0 → Set.String sprint s = "\x7b\x7d") ∧
    (len s ≠ 0 → ∃ L : List String, L.Perm (s.keys.map sprint) ∧ L.Sorted (· ≤ ·) ∧
      Set.String sprint s = "\x7b" ++ ", ".intercalate L ++ "\x7d") ∧
    (∀ (t : Set Nat) (r : Nat → String), t.keys.Perm [2, 10] → r 2 = "2" → r 10 = "10" →
      Set.String r t = "\x7b10, 2\x7d") := by
  refine ⟨fun h => ?_, fun h => ?_, fun t r ht h2 h10 => ?_⟩
  · unfold Set.String
    rw [if_pos h]
  · obtain ⟨p, hs⟩ := sortStrings_spec (s.keys.map sprint)
    exact ⟨_, p, hs, String_eq_of_len_ne_zero sprint s h⟩
  · have hlen : len t ≠ 0 := by
      unfold len
      rw [ht.length_eq]
      decide
    rw [String_eq_of_len_ne_zero r t hlen, sortStrings_perm (ht.map r)]
    simp only [List.map_cons, List.map_nil, h2, h10]
    decide

/-- Claim C25: `String` is deterministic: two sets with the same elements, that is, two
enumerations of one set in any two iteration orders, give the same string. -/
theorem string_is_independent_of_iteration_order [DecidableEq E] (sprint : E → String)
    (s s' : Set E) (h : Equal s s' = true) :
    Set.String sprint s = Set.String sprint s' := by
  have hperm : s.keys.Perm s'.keys :=
    (List.perm_ext_iff_of_nodup s.nodup s'.nodup).mpr ((Equal_iff s s').mp h)
  have hlen : len s = len s' := hperm.length_eq
  by_cases h0 : len s = 0
  · unfold Set.String
    rw [if_pos h0, if_pos (hlen ▸ h0)]
  · rw [String_eq_of_len_ne_zero sprint s h0,
      String_eq_of_len_ne_zero sprint s' (hlen ▸ h0), sortStrings_perm (hperm.map sprint)]

/-- Witness of claim C25: the set `From(1, 2, 3, 4, 5, 6, 7)` in two iteration orders, with the
decimal rendering of the numbers. -/
theorem string_is_independent_of_iteration_order_witness :
    Equal exampleNumbers exampleNumbersReversed = true ∧
    Set.String (fun n : Nat => toString n) exampleNumbers =
      Set.String (fun n : Nat => toString n) exampleNumbersReversed :=
  ⟨by decide,
    string_is_independent_of_iteration_order _ exampleNumbers exampleNumbersReversed
      (by decide)⟩

/-! ## Maps as references: a returned map of its own -/

theorem deref_valid_isNil (h : Heap E) (a : Nat) (ha : a < h.cells.length) :
    (h.deref (some a)).isNil = false := by
  simp only [Heap.deref, List.get?_eq_get ha]

/-- A write at one address does not show at another reference. -/
theorem deref_write_of_ne (h : Heap E) (a : Nat) (s : Set E) (r : Ref) (hr : r ≠ some a) :
    (h.write (some a) s).deref r = h.deref r := by
  cases r with
  | none => rfl
  | some b =>
    have hab : a ≠ b := fun h' => hr (by rw [h'])
    simp only [Heap.write, Heap.deref, List.get?_eq_getElem?, List.getElem?_set_ne hab]

/-- A write of the content of an allocated set at a valid address shows at that address. -/
theorem deref_write_self (h : Heap E) (a : Nat) (s : Set E) (ha : a < h.cells.length)
    (hs : s.isNil = false) : (h.write (some a) s).deref (some a) = s := by
  simp only [Heap.write, Heap.deref, List.get?_eq_getElem?, List.getElem?_set_self ha]
  exact Set.eq_of_keys hs.symm rfl

/-- The map from `make` is allocated and has no key. -/
theorem deref_makeRef_new (h : Heap E) (hint : Int) :
    (makeRef h hint).1.deref (makeRef h hint).2 = make hint := by
  simp only [makeRef, Heap.deref, List.get?_eq_getElem?, List.getElem?_concat_length]
  rfl

/-- `make` leaves the maps that were allocated before as they are. -/
theorem deref_makeRef_old (h : Heap E) (hint : Int) (r : Ref) (hr : h.valid r) :
    (makeRef h hint).1.deref r = h.deref r := by
  cases r with
  | none => rfl
  | some a =>
    have ha : a < h.cells.length := hr
    simp only [makeRef, Heap.deref, List.get?_eq_getElem?, List.getElem?_append_left ha]

/-- The address of the map from `make` is not the one of a map allocated before. -/
theorem makeRef_ne (h : Heap E) (hint : Int) (r : Ref) (hr : h.valid r) :
    r ≠ (makeRef h hint).2 := by
  cases r with
  | none => exact fun h' => by cases h'
  | some a =>
    have ha : a < h.cells.length := hr
    intro h'
    have : a = h.cells.length := Option.some.inj h'
    omega

/-- The two steps that `Clone` and `Grow` share, `make` and then the copy loop into the new
map: the new map gets the keys of `s`, at an address of its own, and `s` stays as it is. -/
theorem makeRef_then_CopyRef [DecidableEq E] (h : Heap E) (s : Ref) (hs : h.valid s)
    (hint : Int) :
    ∃ r h', Copy (make hint) (h.deref s) = .ok r ∧
      CopyRef (makeRef h hint).1 (makeRef h hint).2 s = .ok h' ∧
      r.isNil = false ∧ (∀ x, x ∈ r.keys ↔ x ∈ (h.deref s).keys) ∧
      h'.deref (makeRef h hint).2 = r ∧ h'.deref s = h.deref s ∧
      s ≠ (makeRef h hint).2 ∧ h'.valid (makeRef h hint).2 ∧
      ∃ a, (makeRef h hint).2 = some a ∧ a < h'.cells.length := by
  obtain ⟨r, h1, h2, h3⟩ := Copy_ok (make hint) (h.deref s) (make_isNil hint)
  have hne := makeRef_ne h hint s hs
  have hlen : h.cells.length < (makeRef h hint).1.cells.length := by
    unfold makeRef
    simp
  refine ⟨r, (makeRef h hint).1.write (makeRef h hint).2 r, h1, ?_, h2, ?_, ?_, ?_, hne, ?_,
    ⟨h.cells.length, rfl, ?_⟩⟩
  · unfold CopyRef
    rw [deref_makeRef_new, deref_makeRef_old h hint s hs, h1]
    rfl
  · intro x
    rw [h3, make_keys]
    simp
  · exact deref_write_self _ _ r hlen h2
  · rw [show (makeRef h hint).2 = some h.cells.length from rfl,
      deref_write_of_ne _ _ r s hne, deref_makeRef_old h hint s hs]
  · show h.cells.length < (((makeRef h hint).1.cells.set h.cells.length ⟨r.keys, r.nodup⟩)).length
    rw [List.length_set]
    exact hlen
  · show h.cells.length < (((makeRef h hint).1.cells.set h.cells.length ⟨r.keys, r.nodup⟩)).length
    rw [List.length_set]
    exact hlen

/-- A later `Insert` into a map at a valid address shows in that map and in no other one. -/
theorem InsertRef_frame [DecidableEq E] (h : Heap E) (c : Nat) (hc : c < h.cells.length)
    (s : Ref) (hne : s ≠ some c) (v : List E) :
    ∃ h', InsertRef h (some c) v = .ok h' ∧ h'.deref s = h.deref s ∧
      ∀ x, x ∈ (h'.deref (some c)).keys ↔ x ∈ (h.deref (some c)).keys ∨ x ∈ v := by
  obtain ⟨r, h1, h2, h3⟩ := Insert_ok (h.deref (some c)) v (deref_valid_isNil h c hc)
  refine ⟨h.write (some c) r, ?_, deref_write_of_ne h c r s hne, fun x => ?_⟩
  · unfold InsertRef
    rw [h1]
    rfl
  · rw [deref_write_self h c r hc h2, h3]

/-- A later `Delete` from a map shows in no other map. -/
theorem DeleteRef_frame [DecidableEq E] (h : Heap E) (c : Nat) (s : Ref) (hne : s ≠ some c)
    (v : List E) : (DeleteRef h (some c) v).deref s = h.deref s :=
  deref_write_of_ne h c _ s hne

/-- Claim C26: `Clone(s)` is nil if and only if `s` is nil; the clone of an allocated `s` has
exactly the elements of `s`, `s` itself stays as it is, and a later `Insert` into the clone or
`Delete` from the clone leaves the elements of `s` unchanged.  The reference `s` is one that is
valid in the memory `h`; `Clone` on references returns what `Clone` on contents returns. -/
theorem clone_is_a_map_of_its_own [DecidableEq E] (h : Heap E) (s : Ref) (hs : h.valid s) :
    ∃ h' c, CloneRef h s = .ok (h', c) ∧
      (c = none ↔ s = none) ∧
      Clone (h.deref s) = .ok (h'.deref c) ∧
      ((h'.deref c).isNil = true ↔ (h.deref s).isNil = true) ∧
      (∀ e, Contains (h'.deref c) e = true ↔ Contains (h.deref s) e = true) ∧
      h'.deref s = h.deref s ∧
      (s ≠ none →
        (∀ v : List E, ∃ h'', InsertRef h' c v = .ok h'' ∧ h''.deref s = h.deref s ∧
          ∀ e, Contains (h''.deref c) e = true ↔ Contains (h.deref s) e = true ∨ e ∈ v) ∧
        (∀ v : List E, (DeleteRef h' c v).deref s = h.deref s)) := by
  cases s with
  | none =>
    refine ⟨h, none, ?_, Iff.rfl, rfl, Iff.rfl, fun _ => Iff.rfl, rfl,
      fun hne => absurd rfl hne⟩
    unfold CloneRef
    rw [if_pos rfl]
    rfl
  | some a =>
    have ha : a < h.cells.length := hs
    have hnil : (h.deref (some a)).isNil = false := deref_valid_isNil h a ha
    obtain ⟨r, h', k1, k2, k3, k4, k5, k6, k7, _, c, hc, hclt⟩ :=
      makeRef_then_CopyRef h (some a) hs (len (h.deref (some a)))
    refine ⟨h', (makeRef h (len (h.deref (some a)))).2, ?_, ?_, ?_, ?_, ?_, k6, fun _ => ?_⟩
    · unfold CloneRef
      rw [if_neg (by simp)]
      dsimp only
      rw [k2]
      rfl
    · exact ⟨fun h0 => (by cases h0), fun h0 => (by cases h0)⟩
    · unfold Clone
      rw [hnil, k5]
      exact k1
    · rw [k5, k3, hnil]
    · intro e
      rw [Contains_iff, Contains_iff, k5, k4]
    · rw [hc] at k7 k5 ⊢
      constructor
      · intro v
        obtain ⟨h'', g1, g2, g3⟩ := InsertRef_frame h' c hclt (some a) k7 v
        refine ⟨h'', g1, g2.trans k6, fun e => ?_⟩
        rw [Contains_iff, Contains_iff, g3, k5, k4]
      · intro v
        exact (DeleteRef_frame h' c (some a) k7 v).trans k6

/-- Witness of claim C26: the set `From(1, 2, 3)` at address 0 of `exampleHeap`. -/
theorem clone_is_a_map_of_its_own_witness :
    exampleHeap.valid (some 0) ∧
    ∃ h' c, CloneRef exampleHeap (some 0) = .ok (h', c) ∧
      (c = none ↔ (some 0 : Ref) = none) ∧
      Clone (exampleHeap.deref (some 0)) = .ok (h'.deref c) ∧
      ((h'.deref c).isNil = true ↔ (exampleHeap.deref (some 0)).isNil = true) ∧
      (∀ e, Contains (h'.deref c) e = true ↔ Contains (exampleHeap.deref (some 0)) e = true) ∧
      h'.deref (some 0) = exampleHeap.deref (some 0) ∧
      ((some 0 : Ref) ≠ none →
        (∀ v : List Nat, ∃ h'', InsertRef h' c v = .ok h'' ∧
          h''.deref (some 0) = exampleHeap.deref (some 0) ∧
          ∀ e, Contains (h''.deref c) e = true ↔
            Contains (exampleHeap.deref (some 0)) e = true ∨ e ∈ v) ∧
        (∀ v : List Nat, (DeleteRef h' c v).deref (some 0) = exampleHeap.deref (some 0))) :=
  ⟨by decide, clone_is_a_map_of_its_own exampleHeap (some 0) (by decide)⟩

/-- Claim C27: for every set `s` (the nil set included) and every `n >= 0`, `Grow(s, n)`
returns an allocated set with exactly the elements of `s`; `s` itself stays as it is, and a
later `Insert` into the returned set leaves the elements of `s` unchanged.  The reference `s` is
one that is valid in the memory `h`; `Grow` on references returns what `Grow` on contents
returns. -/
theorem grow_returns_a_map_of_its_own [DecidableEq E] (h : Heap E) (s : Ref) (n : Int)
    (hs : h.valid s) (hn : 0 ≤ n) :
    ∃ h' g, GrowRef h s n = .ok (h', g) ∧
      g ≠ none ∧ g ≠ s ∧ (h'.deref g).isNil = false ∧
      Grow (h.deref s) n = .ok (h'.deref g) ∧
      (∀ e, Contains (h'.deref g) e = true ↔ Contains (h.deref s) e = true) ∧
      h'.deref s = h.deref s ∧
      (∀ v : List E, ∃ h'', InsertRef h' g v = .ok h'' ∧ h''.deref s = h.deref s ∧
        ∀ e, Contains (h''.deref g) e = true ↔ Contains (h.deref s) e = true ∨ e ∈ v) := by
  obtain ⟨r, h', k1, k2, k3, k4, k5, k6, k7, _, c, hc, hclt⟩ :=
    makeRef_then_CopyRef h s hs ((len (h.deref s) : Int) + n)
  refine ⟨h', (makeRef h ((len (h.deref s) : Int) + n)).2, ?_, ?_, fun h0 => k7 h0.symm, ?_, ?_,
    ?_, k6, fun v => ?_⟩
  · unfold GrowRef
    rw [if_neg (not_lt.mpr hn)]
    dsimp only
    have hk : mapsCopyRef (makeRef h ((len (h.deref s) : Int) + n)).1
        (makeRef h ((len (h.deref s) : Int) + n)).2 s = .ok h' := k2
    rw [hk]
    rfl
  · exact fun h0 => by cases h0
  · rw [k5, k3]
  · unfold Grow
    rw [if_neg (not_lt.mpr hn), k5]
    exact k1
  · intro e
    rw [Contains_iff, Contains_iff, k5, k4]
  · rw [hc] at k7 k5 ⊢
    obtain ⟨h'', g1, g2, g3⟩ := InsertRef_frame h' c hclt s k7 v
    refine ⟨h'', g1, g2.trans k6, fun e => ?_⟩
    rw [Contains_iff, Contains_iff, g3, k5, k4]

/-- Witness of claim C27: the set `From(1, 2, 3)` at address 0 of `exampleHeap`, with `n = 5`. -/
theorem grow_returns_a_map_of_its_own_witness :
    exampleHeap.valid (some 0) ∧ (0 : Int) ≤ 5 ∧
    ∃ h' g, GrowRef exampleHeap (some 0) 5 = .ok (h', g) ∧
      g ≠ none ∧ g ≠ some 0 ∧ (h'.deref g).isNil = false ∧
      Grow (exampleHeap.deref (some 0)) 5 = .ok (h'.deref g) ∧
      (∀ e, Contains (h'.deref g) e = true ↔ Contains (exampleHeap.deref (some 0)) e = true) ∧
      h'.deref (some 0) = exampleHeap.deref (some 0) ∧
      (∀ v : List Nat, ∃ h'', InsertRef h' g v = .ok h'' ∧
        h''.deref (some 0) = exampleHeap.deref (some 0) ∧
        ∀ e, Contains (h''.deref g) e = true ↔
          Contains (exampleHeap.deref (some 0)) e = true ∨ e ∈ v) :=
  ⟨by decide, by decide,
    grow_returns_a_map_of_its_own exampleHeap (some 0) 5 (by decide) (by decide)⟩

/-! ## The functional operations and the conversions -/

/-- Claim C31: `Map(s, f)` is the image of `s` under `f`: an element is in it if and only if
it is `f(e)` for some element `e` of `s`; hence its size is at most `|s|`, and it is `|s|` when
`f` is injective on `s`. -/
theorem map_is_the_image {A : Type} [DecidableEq E] [DecidableEq A] (s : Set E) (f : E → A) :
    ∃ r, Map s f = .ok r ∧
      (∀ y, Contains r y = true ↔ ∃ e, Contains s e = true ∧ f e = y) ∧
      len r ≤ len s ∧
      ((∀ a b, Contains s a = true → Contains s b = true → f a = f b → a = b) →
        len r = len s) := by
  obtain ⟨r, h1, _, h3⟩ := Map_ok s f
  have himg : r.keys.toFinset = s.keys.toFinset.image f := by
    ext y
    rw [List.mem_toFinset, h3, Finset.mem_image]
    simp only [List.mem_toFinset]
  refine ⟨r, h1, fun y => ?_, ?_, fun hinj => ?_⟩
  · rw [Contains_iff, h3]
    simp only [Contains_iff, exists_prop]
  · rw [len_eq_card r, len_eq_card s, himg]
    exact Finset.card_image_le
  · rw [len_eq_card r, len_eq_card s, himg]
    apply Finset.card_image_of_injOn
    intro a ha b hb hab
    rw [Finset.mem_coe, List.mem_toFinset] at ha hb
    exact hinj a b ((Contains_iff s a).mpr ha) ((Contains_iff s b).mpr hb) hab

/-- `ToSliceFunc` of an allocated set is the slice of the images of its keys, in iteration
order; `ToSliceFunc` of the nil set is the nil slice. -/
theorem ToSliceFunc_eq {A : Type} (s : Set E) (f : E → A) :
    ToSliceFunc s f = if s.isNil then none else some (s.keys.map f) := by
  unfold ToSliceFunc
  rw [foldl_append_singleton f s.keys [], List.nil_append]

/-- Claim C35: `ToSlice(s)` and `ToSliceFunc(s, f)` are the nil slice when `s` is nil; for an
allocated `s`, `ToSlice(s)` is a slice of length `|s|` without duplicates that holds exactly the
elements of `s`, and `ToSliceFunc(s, f)` is the slice of the values of `f` on the entries of
`ToSlice(s)`, one per element of `s`, so that it has length `|s|` also when values of `f`
coincide. -/
theorem toSlice_and_toSliceFunc_spec {A : Type} [DecidableEq E] (s : Set E) (f : E → A) :
    (s.isNil = true → ToSlice s = none ∧ ToSliceFunc s f = none) ∧
    (s.isNil = false → ∃ xs, ToSlice s = some xs ∧ xs.length = len s ∧ xs.Nodup ∧
      (∀ e, e ∈ xs ↔ Contains s e = true) ∧
      ToSliceFunc s f = some (xs.map f) ∧ (xs.map f).length = len s) := by
  constructor
  · intro h
    rw [ToSlice_eq, ToSliceFunc_eq, h]
    exact ⟨rfl, rfl⟩
  · intro h
    refine ⟨s.keys, ?_, rfl, s.nodup, fun e => (Contains_iff s e).symm, ?_, ?_⟩
    · rw [ToSlice_eq, h]
      rfl
    · rw [ToSliceFunc_eq, h]
      rfl
    · rw [List.length_map]
      rfl

/-- `Reduce` with a combiner that counts its calls next to the accumulator: the accumulator is
the one of `Reduce` with the plain combiner, and the combiner is called once per element. -/
theorem Reduce_counting {A : Type} (s : Set E) (acc : A) (f : A → E → A) :
    Reduce s (acc, 0) (fun (p : A × Nat) e => (f p.1 e, p.2 + 1)) = (Reduce s acc f, len s) := by
  unfold Reduce len
  have key : ∀ (ks : List E) (a : A) (n : Nat),
      ks.foldl (fun (p : A × Nat) e => (f p.1 e, p.2 + 1)) (a, n) =
        (ks.foldl (fun acc e => f acc e) a, n + ks.length) := by
    intro ks
    induction ks with
    | nil => intro a n; rfl
    | cons k ks ih =>
      intro a n
      rw [List.foldl_cons, ih, List.foldl_cons, List.length_cons, Nat.add_assoc,
        Nat.add_comm 1]
  rw [key s.keys acc 0, Nat.zero_add]

/-- Claim C33: for a combiner `f` with `f(f(a, x), y) = f(f(a, y), x)` for all `a`, `x`, `y`,
`Reduce(s, acc, f)` returns the same value on every enumeration of the elements of `s` (two sets
with the same elements are two iteration orders of one set); and on a set without elements, the
nil set included, `Reduce` returns `acc` and the combiner is not called. -/
theorem reduce_is_independent_of_iteration_order {A : Type} [DecidableEq E] (s s' : Set E)
    (acc : A) (f : A → E → A) (hf : ∀ a x y, f (f a x) y = f (f a y) x)
    (h : Equal s s' = true) :
    Reduce s acc f = Reduce s' acc f ∧
    (len s = 0 → Reduce s acc f = acc ∧
      Reduce s (acc, 0) (fun (p : A × Nat) e => (f p.1 e, p.2 + 1)) = (acc, 0)) := by
  have hperm : s.keys.Perm s'.keys :=
    (List.perm_ext_iff_of_nodup s.nodup s'.nodup).mpr ((Equal_iff s s').mp h)
  refine ⟨?_, fun h0 => ?_⟩
  · unfold Reduce
    exact hperm.foldl_eq' (fun x _ y _ z => hf z x y) acc
  · have hacc : Reduce s acc f = acc := by
      unfold Reduce
      rw [(len_eq_zero_iff s).mp h0]
      rfl
    rw [Reduce_counting, hacc, h0]
    exact ⟨rfl, rfl⟩

/-- Witness of claim C33: the sum of the set `From(1, 2, 3, 4, 5, 6, 7)` in two iteration
orders. -/
theorem reduce_is_independent_of_iteration_order_witness :
    Equal exampleNumbers exampleNumbersReversed = true ∧
    Reduce exampleNumbers 0 (fun a x : Nat => a + x) =
      Reduce exampleNumbersReversed 0 (fun a x : Nat => a + x) ∧
    Reduce exampleNumbers 0 (fun a x : Nat => a + x) = 28 :=
  ⟨by decide,
    (reduce_is_independent_of_iteration_order exampleNumbers exampleNumbersReversed 0
      (fun a x : Nat => a + x) (fun a x y => Nat.add_right_comm a x y) (by decide)).1,
    by decide⟩

/-- The number of elements of `CartesianProduct(set1, set2)`. -/
theorem CartesianProduct_len {A : Type} [DecidableEq E] [DecidableEq A] (set1 : Set E)
    (set2 : Set A) (r : Set (Pair E A)) (h : CartesianProduct set1 set2 = .ok r) :
    len r = len set1 * len set2 := by
  obtain ⟨r', h1, _, h3⟩ := CartesianProduct_ok set1 set2
  rw [h] at h1
  cases h1
  have himg : r.keys.toFinset =
      (set1.keys.toFinset ×ˢ set2.keys.toFinset).image (fun p => (⟨p.1, p.2⟩ : Pair E A)) := by
    ext x
    rw [List.mem_toFinset, h3, Finset.mem_image]
    constructor
    · intro hx
      exact ⟨(x.First, x.Second),
        Finset.mem_product.mpr ⟨List.mem_toFinset.mpr hx.1, List.mem_toFinset.mpr hx.2⟩, rfl⟩
    · rintro ⟨p, hp, rfl⟩
      obtain ⟨hp1, hp2⟩ := Finset.mem_product.mp hp
      exact ⟨List.mem_toFinset.mp hp1, List.mem_toFinset.mp hp2⟩
  rw [len_eq_card r, himg, Finset.card_image_of_injective, Finset.card_product,
    ← len_eq_card, ← len_eq_card]
  intro p q hpq
  cases p
  cases q
  cases hpq
  rfl

/-- A write loop on the nil map panics at its first element. -/
theorem storeLoop_nil [DecidableEq E] (x : E) (xs : List E) :
    (x :: xs).foldlM store (nilSet : Set E) = .error .assignmentToEntryInNilMap := by
  rw [List.foldlM_cons, store_nil nilSet x rfl]
  rfl

/-- `Filter` on references: the result is a new map that holds what `Filter` on contents
returns, and the map `s` stays as it is. -/
theorem FilterRef_ok [DecidableEq E] (h : Heap E) (s : Ref) (hs : h.valid s) (f : E → Bool) :
    ∃ h' r, FilterRef h s f = .ok (h', r) ∧ Filter (h.deref s) f = .ok (h'.deref r) ∧
      r ≠ s ∧ h'.deref s = h.deref s := by
  obtain ⟨c, h1, h2, _⟩ := Filter_ok (h.deref s) f
  have hne := makeRef_ne h (len (h.deref s) : Int) s hs
  have hlen : h.cells.length < (makeRef h (len (h.deref s) : Int)).1.cells.length := by
    unfold makeRef
    simp
  have hloop : (h.deref s).keys.foldlM (fun r e => if f e then store r e else pure r)
      (make (len (h.deref s) : Int)) = .ok c := by
    unfold Filter at h1
    rw [New_natCast, ok_bind] at h1
    exact h1
  refine ⟨(makeRef h (len (h.deref s) : Int)).1.write (makeRef h (len (h.deref s) : Int)).2 c,
    (makeRef h (len (h.deref s) : Int)).2, ?_, ?_, fun h0 => hne h0.symm, ?_⟩
  · unfold FilterRef NewRef
    rw [if_neg (not_lt.mpr (Int.natCast_nonneg _)), ok_bind]
    dsimp only
    rw [deref_makeRef_new, deref_makeRef_old h _ s hs, hloop]
    rfl
  · rw [h1]
    exact congrArg Except.ok (deref_write_self _ _ c hlen h2).symm
  · rw [show (makeRef h (len (h.deref s) : Int)).2 = some h.cells.length from rfl,
      deref_write_of_ne _ _ c s hne, deref_makeRef_old h _ s hs]

/-- Claim C32: an element is in `Filter(s, f)` if and only if it is in `s` and `f` holds of
it; the result is a subset of `s`, and `s` itself is not changed: on references, where `s` is a
reference that is valid in the memory `h`, `Filter` returns a map other than `s` with the content
that `Filter` on contents returns, and the content of `s` after the call is the one before. -/
theorem filter_mem_iff_and_frame [DecidableEq E] (h : Heap E) (s : Ref) (f : E → Bool)
    (hs : h.valid s) :
    ∃ h' r, FilterRef h s f = .ok (h', r) ∧ Filter (h.deref s) f = .ok (h'.deref r) ∧
      (∀ e, Contains (h'.deref r) e = true ↔ Contains (h.deref s) e = true ∧ f e = true) ∧
      Subset (h'.deref r) (h.deref s) = true ∧
      r ≠ s ∧ h'.deref s = h.deref s := by
  obtain ⟨h', r, k1, k2, k3, k4⟩ := FilterRef_ok h s hs f
  obtain ⟨c, h1, _, h3⟩ := Filter_ok (h.deref s) f
  rw [k2] at h1
  cases h1
  refine ⟨h', r, k1, k2, fun e => ?_, ?_, k3, k4⟩
  · rw [Contains_iff, Contains_iff, h3]
  · rw [Subset_iff]
    intro e he
    exact ((h3 e).mp he).1

/-- Witness of claim C32: the odd elements of the set `From(1, 2, 3)` at address 0 of
`exampleHeap`. -/
theorem filter_mem_iff_and_frame_witness :
    exampleHeap.valid (some 0) ∧
    ∃ h' r, FilterRef exampleHeap (some 0) (fun n => n % 2 == 1) = .ok (h', r) ∧
      Filter (exampleHeap.deref (some 0)) (fun n => n % 2 == 1) = .ok (h'.deref r) ∧
      (∀ e, Contains (h'.deref r) e = true ↔
        Contains (exampleHeap.deref (some 0)) e = true ∧ (e % 2 == 1) = true) ∧
      Subset (h'.deref r) (exampleHeap.deref (some 0)) = true ∧
      r ≠ some 0 ∧ h'.deref (some 0) = exampleHeap.deref (some 0) :=
  ⟨by decide, filter_mem_iff_and_frame exampleHeap (some 0) (fun n => n % 2 == 1) (by decide)⟩

/-! ## First-seen order -/

theorem mem_removeRepeats [DecidableEq E] (xs : List E) (y : E) :
    y ∈ removeRepeats xs ↔ y ∈ xs := by
  induction xs with
  | nil => rfl
  | cons x xs ih =>
    simp only [removeRepeats, List.mem_cons, List.mem_filter, ih, decide_eq_true_eq]
    by_cases h : y = x
    · simp [h]
    · simp [h]

/-- The keys that a set adds to the elements seen so far. -/
theorem newKeys_eq_filter [DecidableEq E] (ks seen : List E) :
    newKeys seen ks = (removeRepeats ks).filter (fun y => decide (y ∉ seen)) := by
  induction ks generalizing seen with
  | nil => rfl
  | cons e ks ih =>
    by_cases he : e ∈ seen
    · simp only [newKeys, he, if_true, removeRepeats, List.filter_cons, not_true_eq_false,
        decide_False, Bool.false_eq_true, if_false, ih, List.filter_filter]
      apply List.filter_congr
      intro y _
      by_cases hy : y ∈ seen
      · simp [hy]
      · have hne : y ≠ e := fun h => hy (h ▸ he)
        simp [hy, hne]
    · simp only [newKeys, he, if_false, removeRepeats, List.filter_cons, not_false_eq_true,
        decide_True, if_true, ih, List.filter_filter]
      congr 1
      apply List.filter_congr
      intro y _
      simp only [List.mem_append, List.mem_singleton, not_or, Bool.decide_and]

theorem removeRepeats_cons [DecidableEq E] (x : E) (xs : List E) :
    removeRepeats (x :: xs) = x :: (removeRepeats xs).filter (fun y => decide (y ≠ x)) := rfl

theorem removeRepeats_append [DecidableEq E] (xs ys : List E) :
    removeRepeats (xs ++ ys) =
      removeRepeats xs ++ (removeRepeats ys).filter (fun y => decide (y ∉ xs)) := by
  induction xs with
  | nil => simp [removeRepeats]
  | cons x xs ih =>
    rw [List.cons_append, removeRepeats_cons, ih, removeRepeats_cons, List.filter_append,
      List.filter_filter, List.cons_append]
    congr 2
    apply List.filter_congr
    intro y _
    simp only [List.mem_cons, not_or, Bool.decide_and]

/-- The position-wise reading of `removeRepeats`: an occurrence stays if and only if the
element does not occur before it. -/
theorem removeRepeats_append_singleton [DecidableEq E] (xs : List E) (y : E) :
    removeRepeats (xs ++ [y]) = removeRepeats xs ++ (if y ∈ xs then [] else [y]) := by
  rw [removeRepeats_append]
  by_cases hy : y ∈ xs
  · simp [removeRepeats, hy]
  · simp [removeRepeats, hy]

theorem firstSeenFrom_eq_filter [DecidableEq E] (sets : List (Set E)) (seen : List E) :
    firstSeenFrom seen sets =
      (removeRepeats (sets.map Set.keys).flatten).filter (fun y => decide (y ∉ seen)) := by
  induction sets generalizing seen with
  | nil => rfl
  | cons s rest ih =>
    simp only [firstSeenFrom, ih, List.map_cons, List.flatten_cons, removeRepeats_append,
      List.filter_append, List.filter_filter, newKeys_eq_filter]
    congr 1
    apply List.filter_congr
    intro y _
    simp only [List.mem_append, List.mem_filter, mem_removeRepeats, decide_eq_true_eq, not_or,
      not_and, not_not, Bool.decide_and]
    by_cases h1 : y ∈ seen
    · simp [h1]
    · by_cases h2 : y ∈ s.keys
      · simp [h1, h2]
      · simp [h1, h2]

/-- The first-seen order of the code, which keeps the set `seen`, is the concatenation of the
enumerations without the repeated occurrences. -/
theorem firstSeen_eq_removeRepeats [DecidableEq E] (sets : List (Set E)) :
    firstSeen sets = removeRepeats (sets.map Set.keys).flatten := by
  unfold firstSeen
  rw [firstSeenFrom_eq_filter]
  simp

/-! ## Early termination -/

/-- The loop of `Chunk` over the keys `ks`, from a current chunk and its count: there is a list
of chunks, the same for every consumer, over which the loop body of the consumer runs; when the
loop runs to its end, the current chunk and its count are the same for every consumer as
well. -/
theorem chunkLoop_sim [DecidableEq E] (n : Int) (ks : List E) (chunk : Set E) (cnt : Int)
    (hc : chunk.isNil = false) :
    ∃ (chunks : List (Set E)) (chunkF : Set E) (cntF : Int),
      ∀ (σ : Type) (yield : Yield σ (Set E)) (st : σ),
        (rangeLoop (fun (chunk, cnt, st) e => do
            let chunk ← store chunk e
            let cnt := cnt + 1
            if cnt = n then
              let (st, more) ← yield st chunk
              if !more then pure ((chunk, cnt, st), false)
              else pure ((make n, 0, st), true)
            else pure ((chunk, cnt, st), true)) ks (chunk, cnt, st)).map
          (fun r => (r.1.2.2, r.2)) = rangeLoop yield chunks st ∧
        ∀ c k st', rangeLoop (fun (chunk, cnt, st) e => do
            let chunk ← store chunk e
            let cnt := cnt + 1
            if cnt = n then
              let (st, more) ← yield st chunk
              if !more then pure ((chunk, cnt, st), false)
              else pure ((make n, 0, st), true)
            else pure ((chunk, cnt, st), true)) ks (chunk, cnt, st) = .ok ((c, k, st'), true) →
          c = chunkF ∧ k = cntF := by
  induction ks generalizing chunk cnt with
  | nil =>
    refine ⟨[], chunk, cnt, fun σ yield st => ⟨rfl, fun c k st' h => ?_⟩⟩
    simp only [rangeLoop, Except.ok.injEq, Prod.mk.injEq, and_true] at h
    exact ⟨h.1.symm, h.2.1.symm⟩
  | cons e ks ih =>
    obtain ⟨chunk1, k1, k2, _⟩ := store_ok chunk e hc
    by_cases hfull : cnt + 1 = n
    · obtain ⟨chunks, chunkF, cntF, H⟩ := ih (make n) 0 (make_isNil n)
      refine ⟨chunk1 :: chunks, chunkF, cntF, fun σ yield st => ?_⟩
      simp only [rangeLoop, k1, ok_bind, hfull, if_true]
      cases hy : yield st chunk1 with
      | error p => exact ⟨rfl, fun c k st' h => by cases h⟩
      | ok r =>
        obtain ⟨st1, more⟩ := r
        cases more
        · refine ⟨rfl, fun c k st' h => ?_⟩
          simp only [ok_bind, Bool.not_false, if_true, pure_eq_ok, Except.ok.injEq,
            Prod.mk.injEq] at h
          exact absurd h.2 (by decide)
        · simp only [ok_bind, Bool.not_true, Bool.false_eq_true, if_false, pure_eq_ok]
          exact H σ yield st1
    · obtain ⟨chunks, chunkF, cntF, H⟩ := ih chunk1 (cnt + 1) k2
      refine ⟨chunks, chunkF, cntF, fun σ yield st => ?_⟩
      simp only [rangeLoop, k1, ok_bind, hfull, if_false, pure_eq_ok]
      exact H σ yield st

/-- The iterator of `Chunk(s, n)`, for `n >= 1`, is the iterator over a slice of chunks: the
two iterators do the same with every loop body of a consumer, also with one that stops the
iteration or panics. -/
theorem Chunk_eq_slicesValues [DecidableEq E] (s : Set E) (n : Int) (hn : 1 ≤ n) :
    ∃ seq, Chunk s n = .ok seq ∧ ∃ chunks, seq = slicesValues chunks := by
  unfold Chunk
  rw [if_neg (not_lt.mpr hn)]
  refine ⟨_, rfl, ?_⟩
  obtain ⟨chunks, chunkF, cntF, H⟩ := chunkLoop_sim n s.keys (make n) 0 (make_isNil n)
  refine ⟨chunks ++ (if cntF > 0 then [chunkF] else []), ?_⟩
  funext σ yield st
  obtain ⟨h1, h2⟩ := H σ yield st
  rw [slicesValues_eq_rangeLoop, rangeLoop_append, ← h1]
  dsimp only
  cases hloop : rangeLoop (fun (chunk, cnt, st) e => do
      let chunk ← store chunk e
      let cnt := cnt + 1
      if cnt = n then
        let (st, more) ← yield st chunk
        if !more then pure ((chunk, cnt, st), false)
        else pure ((make n, 0, st), true)
      else pure ((chunk, cnt, st), true)) s.keys ((make n : Set E), (0 : Int), st) with
  | error p => rfl
  | ok r =>
    obtain ⟨⟨c, k, st1⟩, b⟩ := r
    cases b
    · rfl
    · obtain ⟨rfl, rfl⟩ := h2 c k st1 hloop
      by_cases hpos : k > 0
      · simp only [ok_bind, Except.map, hpos, decide_True, Bool.and_self, if_true, rangeLoop]
        cases yield st1 c with
        | error p => rfl
        | ok r =>
          obtain ⟨st2, more⟩ := r
          cases more <;> rfl
      · simp only [ok_bind, Except.map, hpos, decide_False, Bool.and_false,
          Bool.false_eq_true, if_false, rangeLoop]

/-- A watched loop body that has not asked to stop is in the state without late calls, and so
it is when the loop ends. -/
theorem watch_rangeLoop {σ V : Type} (yield : Yield σ V) (xs : List V) (st : σ)
    (r : σ × Bool × Nat) (b : Bool)
    (h : rangeLoop (watch yield) xs (st, false, 0) = .ok (r, b)) : r.2.2 = 0 := by
  induction xs generalizing st with
  | nil =>
    simp only [rangeLoop, Except.ok.injEq, Prod.mk.injEq] at h
    rw [← h.1]
  | cons x xs ih =>
    simp only [rangeLoop, watch, Bool.false_eq_true, if_false] at h
    cases hy : yield st x with
    | error p =>
      rw [hy] at h
      cases h
    | ok q =>
      obtain ⟨st1, more⟩ := q
      rw [hy] at h
      cases more
      · simp only [ok_bind, pure_eq_ok, Bool.not_false, Except.ok.injEq, Prod.mk.injEq] at h
        rw [← h.1]
      · simp only [ok_bind, pure_eq_ok, Bool.not_true] at h
        exact ih st1 h

/-- The consumer that stops at its `k`-th item, on the iterator over a slice. -/
theorem takeSeq_slicesValues {V : Type} (k : Nat) (hk : 1 ≤ k) (xs : List V) :
    takeSeq k (slicesValues xs) = .ok (xs.take k) := by
  unfold takeSeq
  rw [slicesValues_eq_rangeLoop]
  suffices H : ∀ (xs acc : List V), acc.length < k →
      ∃ b, rangeLoop (fun acc v =>
        let acc := acc ++ [v]
        if acc.length = k then (pure (acc, false) : Except Panic (List V × Bool))
        else pure (acc, true)) xs acc = .ok (acc ++ xs.take (k - acc.length), b) by
    obtain ⟨b, hb⟩ := H xs [] (by simpa using hk)
    rw [hb]
    rfl
  intro xs
  induction xs with
  | nil =>
    intro acc _
    exact ⟨true, by simp [rangeLoop]⟩
  | cons x xs ih =>
    intro acc hacc
    by_cases hlen : (acc ++ [x]).length = k
    · refine ⟨false, ?_⟩
      have h1 : k - acc.length = 1 := by
        rw [List.length_append, List.length_singleton] at hlen
        omega
      simp only [rangeLoop, hlen, if_true, pure_eq_ok, h1, List.take_succ_cons, List.take_zero]
    · have hlt : (acc ++ [x]).length < k := by
        rw [List.length_append, List.length_singleton] at hlen ⊢
        omega
      obtain ⟨b, hb⟩ := ih (acc ++ [x]) hlt
      refine ⟨b, ?_⟩
      have h1 : k - acc.length = (k - (acc ++ [x]).length) + 1 := by
        rw [List.length_append, List.length_singleton] at hlt ⊢
        omega
      simp only [pure_eq_ok] at hb
      simp only [rangeLoop, hlen, if_false, pure_eq_ok, hb]
      rw [h1, List.take_succ_cons, List.append_assoc]
      rfl

/-- The iterator over a slice terminates early. -/
theorem StopsEarly_slicesValues {V : Type} (xs : List V) : StopsEarly (slicesValues xs) := by
  refine ⟨fun σ yield st r h => ?_, fun σ yield st hy => ?_,
    xs, slicesCollect_slicesValues xs, fun k hk hle => ?_⟩
  · rw [slicesValues_eq_rangeLoop] at h
    cases hloop : rangeLoop (watch yield) xs (st, false, 0) with
    | error p =>
      rw [hloop] at h
      cases h
    | ok q =>
      obtain ⟨r', b⟩ := q
      rw [hloop] at h
      cases h
      exact watch_rangeLoop yield xs st _ b hloop
  · obtain ⟨r, hr, _⟩ := slicesValues_inv xs (watch yield) (fun _ => True) (st, false, 0)
      trivial (by
        rintro ⟨st1, stopped, late⟩ v _ _
        cases stopped
        · obtain ⟨q, hq⟩ := hy st1 v
          refine ⟨(q.1, !q.2, late), q.2, ?_, trivial⟩
          simp only [watch, Bool.false_eq_true, if_false, hq, ok_bind]
          rfl
        · exact ⟨(st1, true, late + 1), false, rfl, trivial⟩)
    exact ⟨r, hr⟩
  · exact ⟨xs.take k, takeSeq_slicesValues k hk xs, List.length_take_of_le hle, rfl⟩

/-- Claim C36: the iterators of `All(s)`, of `Chunk(s, n)` for `n >= 1`, and of `UnionSeq` on a
finite sequence of sets terminate early: once the loop body of the consumer has returned false,
the iterator does not call it again, and a consumer that stops at its `k`-th item, for `k` from 1
up to the number of items of the full stream, gets exactly `k` items. -/
theorem iterators_stop_when_asked [DecidableEq E] (s : Set E) (n : Int) (sets : List (Set E))
    (hn : 1 ≤ n) :
    StopsEarly (All s) ∧
    (∃ seq, Chunk s n = .ok seq ∧ StopsEarly seq) ∧
    StopsEarly (UnionSeq (slicesValues sets)) := by
  refine ⟨StopsEarly_slicesValues s.keys, ?_, ?_⟩
  · obtain ⟨seq, h1, chunks, h2⟩ := Chunk_eq_slicesValues s n hn
    exact ⟨seq, h1, h2 ▸ StopsEarly_slicesValues chunks⟩
  · rw [UnionSeq_slicesValues]
    exact StopsEarly_slicesValues _

/-- Witness of claim C36: the set `From(1, 2, 3, 4, 5, 6, 7)`, chunks of three elements, and
the sequence of this set in two iteration orders. -/
theorem iterators_stop_when_asked_witness :
    (1 : Int) ≤ 3 ∧
    StopsEarly (All exampleNumbers) ∧
    (∃ seq, Chunk exampleNumbers 3 = .ok seq ∧ StopsEarly seq) ∧
    StopsEarly (UnionSeq (slicesValues [exampleNumbers, exampleNumbersReversed])) :=
  ⟨by decide,
    iterators_stop_when_asked exampleNumbers 3 [exampleNumbers, exampleNumbersReversed]
      (by decide)⟩

/-- Claim C37: `UnionSeq` yields in first-seen order: on a finite sequence of sets, each one
enumerated in its iteration order (the stream of `All`), the iterator of `UnionSeq` is the
iterator over the concatenation of the enumerations with every occurrence of an element after its
first one removed; this list is the stream of the fully consumed iterator. -/
theorem unionSeq_yields_in_first_seen_order [DecidableEq E] (sets : List (Set E)) :
    (∀ s : Set E, slicesCollect (All s) = .ok s.keys) ∧
    UnionSeq (slicesValues sets) = slicesValues (removeRepeats (sets.map Set.keys).flatten) ∧
    slicesCollect (UnionSeq (slicesValues sets)) =
      .ok (removeRepeats (sets.map Set.keys).flatten) := by
  refine ⟨fun s => slicesCollect_slicesValues s.keys, ?_, ?_⟩
  · rw [UnionSeq_slicesValues, firstSeen_eq_removeRepeats]
  · rw [UnionSeq_slicesValues, firstSeen_eq_removeRepeats]
    exact slicesCollect_slicesValues _

/-! ## The builtins on every key type -/

theorem Go_lookup_ok [DecidableEq E] [Key E] (s : Go.Set E) (e : E)
    (hh : Key.hashable e = true) :
    Go.lookup s e = .ok (Key.selfEq e && decide (e ∈ s.keys)) := by
  unfold Go.lookup
  rw [if_neg (by simp [hh])]

/-- A map read of a key of some map: keys of maps can be hashed. -/
theorem Go_lookup_iff [DecidableEq E] [Key E] (s : Go.Set E) (e : E)
    (hh : Key.hashable e = true) :
    Go.lookup s e = .ok true ↔ Key.selfEq e = true ∧ e ∈ s.keys := by
  rw [Go_lookup_ok s e hh]
  simp

theorem Go_lookup_unhashable [DecidableEq E] [Key E] (s : Go.Set E) (e : E)
    (hh : Key.hashable e = false) : Go.lookup s e = .error .hashOfUnhashableType := by
  unfold Go.lookup
  rw [if_pos hh]

/-- A map write to an allocated map with a key that can be hashed. -/
theorem Go_store_ok [DecidableEq E] [Key E] (s : Go.Set E) (e : E) (hn : s.isNil = false)
    (hh : Key.hashable e = true) :
    ∃ r, Go.store s e = .ok r ∧ r.isNil = false ∧ r.hint = s.hint ∧
      (∀ x, x ∈ r.keys ↔ x ∈ s.keys ∨ x = e) ∧
      ((Key.selfEq e = true ∧ e ∈ s.keys) → r.keys = s.keys) ∧
      (¬ (Key.selfEq e = true ∧ e ∈ s.keys) → r.keys = s.keys ++ [e]) := by
  unfold Go.store
  rw [if_neg (by simp [hn]), dif_neg (by simp [hh])]
  by_cases hf : Key.selfEq e = true ∧ e ∈ s.keys
  · rw [dif_pos hf]
    refine ⟨s, rfl, hn, rfl, fun x => ?_, fun _ => rfl, fun h => absurd hf h⟩
    constructor
    · exact Or.inl
    · rintro (h | h)
      · exact h
      · rw [h]
        exact hf.2
  · rw [dif_neg hf]
    refine ⟨_, rfl, rfl, rfl, fun x => ?_, fun h => absurd h hf, fun _ => rfl⟩
    simp only [List.mem_append, List.mem_singleton]

theorem Go_store_nil [DecidableEq E] [Key E] (s : Go.Set E) (e : E) (hn : s.isNil = true) :
    Go.store s e = .error .assignmentToEntryInNilMap := by
  unfold Go.store
  rw [if_pos hn]

theorem Go_store_unhashable [DecidableEq E] [Key E] (s : Go.Set E) (e : E)
    (hn : s.isNil = false) (hh : Key.hashable e = false) :
    Go.store s e = .error .hashOfUnhashableType := by
  unfold Go.store
  rw [if_neg (by simp [hn]), dif_pos hh]

/-- The builtin `delete` with a key that can be hashed. -/
theorem Go_delete_ok [DecidableEq E] [Key E] (s : Go.Set E) (e : E)
    (hh : Key.hashable e = true) :
    ∃ r, Go.delete s e = .ok r ∧ r.isNil = s.isNil ∧ r.hint = s.hint ∧
      (Key.selfEq e = true → r.keys = s.keys.erase e) ∧
      (Key.selfEq e = false → r = s) := by
  unfold Go.delete
  rw [if_neg (by simp [hh])]
  by_cases hs : Key.selfEq e = true
  · rw [if_pos hs]
    exact ⟨_, rfl, rfl, rfl, fun _ => rfl, fun h => by rw [hs] at h; cases h⟩
  · rw [if_neg hs]
    exact ⟨s, rfl, rfl, rfl, fun h => absurd h hs, fun _ => rfl⟩

theorem Go_delete_unhashable [DecidableEq E] [Key E] (s : Go.Set E) (e : E)
    (hh : Key.hashable e = false) : Go.delete s e = .error .hashOfUnhashableType := by
  unfold Go.delete
  rw [if_pos hh]

theorem Go_New_ok [DecidableEq E] [Key E] (capacity : Int) (h : 0 ≤ capacity) :
    (Go.New capacity : Except Panic (Go.Set E)) = .ok (Go.make capacity) := by
  unfold Go.New
  rw [if_neg (not_lt.mpr h)]

theorem Go_New_neg [DecidableEq E] [Key E] (capacity : Int) (h : capacity < 0) :
    (Go.New capacity : Except Panic (Go.Set E)) = .error .cannotBeNegative := by
  unfold Go.New
  rw [if_pos h]

/-- A loop of map writes of keys that can be hashed into an allocated map: it does not panic,
the map stays allocated and keeps its hint, and it gains the keys. -/
theorem Go_storeLoop_ok [DecidableEq E] [Key E] {α : Type} (xs : List α) (f : α → E)
    (p : α → Bool) (r : Go.Set E) (hn : r.isNil = false)
    (hh : ∀ x ∈ xs, p x = true → Key.hashable (f x) = true) :
    ∃ r', xs.foldlM (fun r x => if p x then Go.store r (f x) else pure r) r = .ok r' ∧
      r'.isNil = false ∧ r'.hint = r.hint ∧
      ∀ y, y ∈ r'.keys ↔ y ∈ r.keys ∨ ∃ x ∈ xs, p x = true ∧ f x = y := by
  induction xs generalizing r with
  | nil => exact ⟨r, rfl, hn, rfl, fun y => by simp⟩
  | cons x xs ih =>
    rw [List.foldlM_cons]
    by_cases hp : p x = true
    · obtain ⟨r1, h1, h2, h3, h4, _⟩ :=
        Go_store_ok r (f x) hn (hh x (List.mem_cons_self x xs) hp)
      rw [if_pos hp, h1, ok_bind]
      obtain ⟨r', k1, k2, k3, k4⟩ :=
        ih r1 h2 (fun y hy => hh y (List.mem_cons_of_mem x hy))
      refine ⟨r', k1, k2, k3.trans h3, fun y => ?_⟩
      rw [k4, h4]
      constructor
      · rintro ((h | h) | ⟨z, hz, hpz, hfz⟩)
        · exact Or.inl h
        · exact Or.inr ⟨x, List.mem_cons_self x xs, hp, h.symm⟩
        · exact Or.inr ⟨z, List.mem_cons_of_mem x hz, hpz, hfz⟩
      · rintro (h | ⟨z, hz, hpz, hfz⟩)
        · exact Or.inl (Or.inl h)
        · rcases List.mem_cons.mp hz with rfl | hz
          · exact Or.inl (Or.inr hfz.symm)
          · exact Or.inr ⟨z, hz, hpz, hfz⟩
    · rw [if_neg hp]
      obtain ⟨r', k1, k2, k3, k4⟩ := ih r hn (fun y hy => hh y (List.mem_cons_of_mem x hy))
      refine ⟨r', k1, k2, k3, fun y => ?_⟩
      rw [k4]
      constructor
      · rintro (h | ⟨z, hz, hpz, hfz⟩)
        · exact Or.inl h
        · exact Or.inr ⟨z, List.mem_cons_of_mem x hz, hpz, hfz⟩
      · rintro (h | ⟨z, hz, hpz, hfz⟩)
        · exact Or.inl h
        · rcases List.mem_cons.mp hz with rfl | hz
          · exact absurd hpz hp
          · exact Or.inr ⟨z, hz, hpz, hfz⟩

/-- The loop `for e := range src { dst[e] = struct{}{} }` into an allocated map. -/
theorem Go_copyLoop_ok [DecidableEq E] [Key E] (src : Go.Set E) (r : Go.Set E)
    (hn : r.isNil = false) :
    ∃ r', src.keys.foldlM Go.store r = .ok r' ∧ r'.isNil = false ∧ r'.hint = r.hint ∧
      ∀ y, y ∈ r'.keys ↔ y ∈ r.keys ∨ y ∈ src.keys := by
  obtain ⟨r', h1, h2, h3, h4⟩ := Go_storeLoop_ok src.keys (fun e => e) (fun _ => true) r hn
    (fun x hx _ => src.hashed x hx)
  refine ⟨r', ?_, h2, h3, fun y => ?_⟩
  · simpa using h1
  · rw [h4]
    simp

/-! ## Sums and products of sizes in 64 bits -/

theorem intAdd_of_fits (a b : Int) (h0 : 0 ≤ a + b) (h1 : a + b < 2 ^ 63) :
    intAdd a b = a + b := by
  unfold intAdd
  norm_num at h1 ⊢
  omega

theorem intAdd_intAdd_zero (a b : Int) : intAdd (intAdd a 0) b = intAdd a b := by
  unfold intAdd
  norm_num
  omega

theorem intAdd_zero_of_fits (a : Int) (h0 : 0 ≤ a) (h1 : a < 2 ^ 63) : intAdd a 0 = a := by
  rw [intAdd_of_fits a 0 (by omega) (by omega), Int.add_zero]

theorem intMul_of_fits (a b : Int) (h0 : 0 ≤ a * b) (h1 : a * b < 2 ^ 63) :
    intMul a b = a * b := by
  unfold intMul
  norm_num at h1 ⊢
  generalize a * b = c at h0 h1 ⊢
  omega

/-- The loop that sums the sizes in 64 bits gives the sum of the sizes, wrapped once. -/
theorem foldl_intAdd_eq [DecidableEq E] [Key E] (sets : List (Go.Set E)) (acc : Int) :
    sets.foldl (fun maxSize s => intAdd maxSize (Go.len s)) (intAdd acc 0) =
      intAdd acc ((sets.map Go.len).sum : Nat) := by
  induction sets generalizing acc with
  | nil => simp
  | cons s rest ih =>
    rw [List.foldl_cons, intAdd_intAdd_zero]
    have h := ih (acc + (Go.len s : Int))
    rw [← intAdd_intAdd_zero (acc + (Go.len s : Int))] at h
    have e1 : intAdd (acc + (Go.len s : Int)) 0 = intAdd acc (Go.len s : Int) := by
      unfold intAdd
      rw [Int.add_zero]
    rw [e1] at h
    have e2 : intAdd (intAdd acc (Go.len s : Int)) 0 = intAdd acc (Go.len s : Int) := by
      unfold intAdd
      norm_num
    rw [e2] at h
    rw [h, List.map_cons, List.sum_cons]
    unfold intAdd
    push_cast
    rw [Int.add_assoc acc]

theorem sizeSum_eq [DecidableEq E] [Key E] (sets : List (Go.Set E)) :
    Go.sizeSum sets = intAdd 0 ((sets.map Go.len).sum : Nat) := by
  unfold Go.sizeSum
  have h := foldl_intAdd_eq sets 0
  have e : intAdd 0 0 = 0 := by
    unfold intAdd
    norm_num
  rw [e] at h
  exact h

/-- As long as the sizes sum to less than `2^63`, the 64-bit sum is the sum. -/
theorem sizeSum_of_fits [DecidableEq E] [Key E] (sets : List (Go.Set E))
    (h : (sets.map Go.len).sum < 2 ^ 63) :
    Go.sizeSum sets = ((sets.map Go.len).sum : Nat) := by
  have h1 : (((sets.map Go.len).sum : Nat) : Int) < 2 ^ 63 := by exact_mod_cast h
  rw [sizeSum_eq, intAdd_of_fits _ _ (by omega) (by rw [Int.zero_add]; exact h1), Int.zero_add]

theorem len_rangeSet (n : Nat) : Go.len (rangeSet n) = n := List.length_range n

theorem sizeSum_replicate [DecidableEq E] [Key E] (n : Nat) (s : Go.Set E) :
    Go.sizeSum (List.replicate n s) = intAdd 0 ((n * Go.len s : Nat) : Int) := by
  rw [sizeSum_eq, List.map_replicate, List.sum_replicate, smul_eq_mul]

/-! ## The operations on every key type do not panic, apart from the listed cases -/

theorem Go_unionLoop_ok [DecidableEq E] [Key E] (sets : List (Go.Set E)) (r : Go.Set E)
    (hn : r.isNil = false) :
    ∃ r', sets.foldlM (fun r s => s.keys.foldlM Go.store r) r = .ok r' ∧ r'.isNil = false ∧
      r'.hint = r.hint ∧ ∀ y, y ∈ r'.keys ↔ y ∈ r.keys ∨ ∃ s ∈ sets, y ∈ s.keys := by
  induction sets generalizing r with
  | nil => exact ⟨r, rfl, hn, rfl, fun y => by simp⟩
  | cons s rest ih =>
    obtain ⟨r1, h1, h2, h3, h4⟩ := Go_copyLoop_ok s r hn
    obtain ⟨r', k1, k2, k3, k4⟩ := ih r1 h2
    refine ⟨r', ?_, k2, k3.trans h3, fun y => ?_⟩
    · rw [List.foldlM_cons, h1, ok_bind]
      exact k1
    · rw [k4, h4]
      simp only [List.mem_cons, exists_eq_or_imp]
      tauto

/-- `Union` returns when the capacity it computes is not negative. -/
theorem Go_Union_ok [DecidableEq E] [Key E] (sets : List (Go.Set E))
    (h : 0 ≤ Go.sizeSum sets) :
    ∃ r, Go.Union sets = .ok r ∧ r.isNil = false ∧ r.hint = Go.sizeSum sets ∧
      ∀ y, y ∈ r.keys ↔ ∃ s ∈ sets, y ∈ s.keys := by
  obtain ⟨r, h1, h2, h3, h4⟩ := Go_unionLoop_ok sets (Go.make (Go.sizeSum sets)) rfl
  refine ⟨r, ?_, h2, h3, fun y => ?_⟩
  · unfold Go.Union
    dsimp only
    have hN := @Go_New_ok E _ _ (Go.sizeSum sets) h
    unfold Go.sizeSum at hN h1
    rw [hN, ok_bind]
    exact h1
  · rw [h4]
    simp [Go.make]

/-- `Union` panics in `New` when the capacity it computes is negative. -/
theorem Go_Union_neg [DecidableEq E] [Key E] (sets : List (Go.Set E))
    (h : Go.sizeSum sets < 0) : Go.Union sets = .error .cannotBeNegative := by
  unfold Go.Union
  dsimp only
  have hN := @Go_New_neg E _ _ (Go.sizeSum sets) h
  unfold Go.sizeSum at hN
  rw [hN]
  rfl

theorem Go_Insert_ok [DecidableEq E] [Key E] (s : Go.Set E) (v : List E)
    (hn : s.isNil = false) (hh : ∀ e ∈ v, Key.hashable e = true) :
    ∃ r, Go.Insert s v = .ok r ∧ r.isNil = false ∧ r.hint = s.hint ∧
      ∀ y, y ∈ r.keys ↔ y ∈ s.keys ∨ y ∈ v := by
  obtain ⟨r, h1, h2, h3, h4⟩ := Go_storeLoop_ok v (fun e => e) (fun _ => true) s hn
    (fun x hx _ => hh x hx)
  refine ⟨r, ?_, h2, h3, fun y => ?_⟩
  · unfold Go.Insert
    simpa using h1
  · rw [h4]
    simp

theorem Go_Copy_ok [DecidableEq E] [Key E] (dst src : Go.Set E) (hn : dst.isNil = false) :
    ∃ r, Go.Copy dst src = .ok r ∧ r.isNil = false ∧ r.hint = dst.hint ∧
      ∀ y, y ∈ r.keys ↔ y ∈ dst.keys ∨ y ∈ src.keys :=
  Go_copyLoop_ok src dst hn

/-- A loop of `delete` with keys that can be hashed does not panic; the map keeps being nil or
allocated, keeps its hint, and gains no key. -/
theorem Go_deleteLoop_ok [DecidableEq E] [Key E] (xs : List E) (p : E → Bool)
    (acc : Go.Set E) (hh : ∀ x ∈ xs, p x = true → Key.hashable x = true) :
    ∃ r, xs.foldlM (fun acc k => if p k then Go.delete acc k else pure acc) acc = .ok r ∧
      r.isNil = acc.isNil ∧ r.hint = acc.hint ∧ ∀ y, y ∈ r.keys → y ∈ acc.keys := by
  induction xs generalizing acc with
  | nil => exact ⟨acc, rfl, rfl, rfl, fun _ h => h⟩
  | cons x xs ih =>
    rw [List.foldlM_cons]
    by_cases hp : p x = true
    · obtain ⟨r1, h1, h2, h3, h4, h5⟩ :=
        Go_delete_ok acc x (hh x (List.mem_cons_self x xs) hp)
      obtain ⟨r, k1, k2, k3, k4⟩ := ih r1 (fun y hy => hh y (List.mem_cons_of_mem x hy))
      rw [if_pos hp, h1, ok_bind]
      refine ⟨r, k1, k2.trans h2, k3.trans h3, fun y hy => ?_⟩
      have hy1 := k4 y hy
      by_cases hs : Key.selfEq x = true
      · rw [h4 hs] at hy1
        exact List.mem_of_mem_erase hy1
      · rw [h5 (by simpa using hs)] at hy1
        exact hy1
    · rw [if_neg hp]
      exact ih acc (fun y hy => hh y (List.mem_cons_of_mem x hy))

theorem Go_Delete_ok [DecidableEq E] [Key E] (s : Go.Set E) (v : List E)
    (hh : ∀ e ∈ v, Key.hashable e = true) :
    ∃ r, Go.Delete s v = .ok r ∧ r.isNil = s.isNil ∧ r.hint = s.hint ∧
      ∀ y, y ∈ r.keys → y ∈ s.keys := by
  obtain ⟨r, h1, h2, h3, h4⟩ := Go_deleteLoop_ok v (fun _ => true) s (fun x hx _ => hh x hx)
  refine ⟨r, ?_, h2, h3, h4⟩
  unfold Go.Delete
  simpa using h1

theorem Go_DeleteFunc_ok [DecidableEq E] [Key E] (s : Go.Set E) (del : E → Bool) :
    ∃ r, Go.DeleteFunc s del = .ok r ∧ r.isNil = s.isNil ∧ r.hint = s.hint ∧
      ∀ y, y ∈ r.keys → y ∈ s.keys :=
  Go_deleteLoop_ok s.keys (fun e => del e) s (fun x hx _ => s.hashed x hx)

theorem Go_isNil_of_mem [DecidableEq E] [Key E] (s : Go.Set E) (e : E) (h : e ∈ s.keys) :
    s.isNil = false := by
  by_contra hn
  rw [s.nil_keys (by simpa using hn)] at h
  exact absurd h (List.not_mem_nil e)

/-- `Replace` with keys that can be hashed does not panic. -/
theorem Go_Replace_ok [DecidableEq E] [Key E] (s : Go.Set E) (old new : E)
    (ho : Key.hashable old = true) (hw : Key.hashable new = true) :
    ∃ r, Go.Replace s old new = .ok r ∧ r.isNil = s.isNil := by
  unfold Go.Replace
  rw [Go_lookup_ok s old ho, ok_bind]
  by_cases hf : (Key.selfEq old && decide (old ∈ s.keys)) = true
  · rw [hf]
    simp only [Bool.not_true, Bool.false_eq_true, if_false]
    have hmem : old ∈ s.keys := by
      simp only [Bool.and_eq_true, decide_eq_true_eq] at hf
      exact hf.2
    have hn := Go_isNil_of_mem s old hmem
    obtain ⟨r1, h1, h2, _⟩ := Go_delete_ok s old ho
    obtain ⟨r, k1, k2, _⟩ := Go_store_ok r1 new (h2.trans hn) hw
    rw [h1, ok_bind, k1]
    exact ⟨r, rfl, k2.trans hn.symm⟩
  · rw [Bool.not_eq_true] at hf
    rw [hf]
    exact ⟨s, rfl, rfl⟩

/-- `Replace` with an `old` that cannot be hashed panics in its map read, also on the nil
map. -/
theorem Go_Replace_unhashable [DecidableEq E] [Key E] (s : Go.Set E) (old new : E)
    (ho : Key.hashable old = false) :
    Go.Replace s old new = .error .hashOfUnhashableType := by
  unfold Go.Replace
  rw [Go_lookup_unhashable s old ho]
  rfl

theorem Go_ReplaceFunc_ok [DecidableEq E] [Key E] (s : Go.Set E) (f : E → E)
    (hh : ∀ e ∈ s.keys, Key.hashable (f e) = true) :
    ∃ r, Go.ReplaceFunc s f = .ok r ∧ r.isNil = s.isNil ∧ r.hint = s.hint ∧
      ∀ y, y ∈ r.keys ↔ ∃ e ∈ s.keys, f e = y := by
  unfold Go.ReplaceFunc
  dsimp only
  rw [foldl_append_singleton (fun e => e) s.keys [], List.map_id', List.nil_append]
  by_cases hs : s.isNil = true
  · rw [s.nil_keys hs]
    exact ⟨Go.clear s, rfl, rfl, rfl, fun y => by simp [Go.clear]⟩
  · obtain ⟨r, h1, h2, h3, h4⟩ := Go_storeLoop_ok s.keys f (fun _ => true) (Go.clear s)
      (by simpa [Go.clear] using hs) (fun x hx _ => hh x hx)
    refine ⟨r, by simpa using h1, ?_, h3, fun y => ?_⟩
    · rw [h2]
      simpa using hs
    · rw [h4]
      simp [Go.clear]

theorem Go_FromSlice_ok [DecidableEq E] [Key E] (slice : Slice E)
    (hh : ∀ e ∈ slice.elems, Key.hashable e = true) :
    ∃ r, Go.FromSlice slice = .ok r ∧ r.isNil = false ∧
      r.hint = (slice.elems.length : Int) ∧ ∀ y, y ∈ r.keys ↔ y ∈ slice.elems := by
  obtain ⟨r, h1, h2, h3, h4⟩ :=
    Go_Insert_ok (Go.make (slice.elems.length : Int)) slice.elems rfl hh
  refine ⟨r, ?_, h2, h3, fun y => ?_⟩
  · unfold Go.FromSlice
    rw [Go_New_ok _ (Int.natCast_nonneg _), ok_bind]
    exact h1
  · rw [h4]
    simp [Go.make]

theorem Go_FromSliceFunc_ok {A : Type} [DecidableEq E] [Key E] (slice : Slice A) (f : A → E)
    (hh : ∀ a ∈ slice.elems, Key.hashable (f a) = true) :
    ∃ r, Go.FromSliceFunc slice f = .ok r ∧ r.isNil = false ∧
      ∀ y, y ∈ r.keys ↔ ∃ a ∈ slice.elems, f a = y := by
  obtain ⟨r, h1, h2, _, h4⟩ := Go_storeLoop_ok slice.elems f (fun _ => true)
    (Go.make (slice.elems.length : Int)) rfl (fun x hx _ => hh x hx)
  refine ⟨r, ?_, h2, fun y => ?_⟩
  · unfold Go.FromSliceFunc
    rw [Go_New_ok _ (Int.natCast_nonneg _), ok_bind]
    have e : (fun (s : Go.Set E) a => Go.Insert s [f a]) = fun s a => Go.store s (f a) := by
      funext s a
      unfold Go.Insert
      rw [List.foldlM_cons]
      cases Go.store s (f a) <;> rfl
    rw [e]
    simpa using h1
  · rw [h4]
    simp [Go.make]

theorem Go_Clone_ok [DecidableEq E] [Key E] (s : Go.Set E) :
    ∃ r, Go.Clone s = .ok r ∧ r.isNil = s.isNil ∧ ∀ y, y ∈ r.keys ↔ y ∈ s.keys := by
  unfold Go.Clone
  by_cases hs : s.isNil = true
  · rw [if_pos hs]
    refine ⟨Go.nilSet, rfl, hs.symm, fun y => ?_⟩
    rw [s.nil_keys hs]
    rfl
  · rw [if_neg hs]
    obtain ⟨r, h1, h2, _, h4⟩ := Go_Copy_ok (Go.make (Go.len s : Int)) s rfl
    refine ⟨r, h1, ?_, fun y => ?_⟩
    · rw [h2]
      simpa using hs
    · rw [h4]
      simp [Go.make]

theorem Go_Grow_ok [DecidableEq E] [Key E] (s : Go.Set E) (n : Int) (hn : 0 ≤ n) :
    ∃ r, Go.Grow s n = .ok r ∧ r.isNil = false ∧ ∀ y, y ∈ r.keys ↔ y ∈ s.keys := by
  unfold Go.Grow
  rw [if_neg (not_lt.mpr hn)]
  obtain ⟨r, h1, h2, _, h4⟩ := Go_copyLoop_ok s (Go.make (intAdd (Go.len s : Int) n)) rfl
  refine ⟨r, h1, h2, fun y => ?_⟩
  rw [h4]
  simp [Go.make]

theorem Go_loopAll_ok {α : Type} (p : α → Except Panic Bool) (xs : List α)
    (h : ∀ x ∈ xs, ∃ b, p x = .ok b) : ∃ b, Go.loopAll p xs = .ok b := by
  induction xs with
  | nil => exact ⟨true, rfl⟩
  | cons x xs ih =>
    obtain ⟨b, hb⟩ := h x (List.mem_cons_self x xs)
    unfold Go.loopAll
    rw [hb, ok_bind]
    cases b
    · exact ⟨false, rfl⟩
    · exact ih (fun y hy => h y (List.mem_cons_of_mem x hy))

theorem Go_loopAny_ok {α : Type} (p : α → Except Panic Bool) (xs : List α)
    (h : ∀ x ∈ xs, ∃ b, p x = .ok b) : ∃ b, Go.loopAny p xs = .ok b := by
  induction xs with
  | nil => exact ⟨false, rfl⟩
  | cons x xs ih =>
    obtain ⟨b, hb⟩ := h x (List.mem_cons_self x xs)
    unfold Go.loopAny
    rw [hb, ok_bind]
    cases b
    · exact ih (fun y hy => h y (List.mem_cons_of_mem x hy))
    · exact ⟨true, rfl⟩

theorem Go_smallestIndex_ok [DecidableEq E] [Key E] (sets : List (Go.Set E))
    (h : 0 < sets.length) : ∃ i, Go.smallestIndex sets = .ok i ∧ i < sets.length := by
  unfold Go.smallestIndex
  refine foldlM_inv _ (fun _ st => st < sets.length) _ 0 h ?_
  intro done i rest st hxs hI
  have hi : i ∈ List.range' 1 (sets.length - 1) := mem_of_split hxs
  rw [List.mem_range'_1] at hi
  have hi' : i < sets.length := by omega
  rw [index_ok sets i hi', ok_bind, index_ok sets st hI, ok_bind]
  by_cases hlt : Go.len (sets.get ⟨i, hi'⟩) < Go.len (sets.get ⟨st, hI⟩)
  · rw [if_pos hlt]
    exact ⟨i, rfl, hi'⟩
  · rw [if_neg hlt]
    exact ⟨st, rfl, hI⟩

theorem Go_inAllOthers_ok [DecidableEq E] [Key E] (sets : List (Go.Set E)) (smallest : Nat)
    (e : E) (hh : Key.hashable e = true) : ∃ b, Go.inAllOthers sets smallest e = .ok b := by
  unfold Go.inAllOthers
  apply Go_loopAll_ok
  intro p _
  by_cases hp : p.1 = smallest
  · rw [if_pos hp]
    exact ⟨true, rfl⟩
  · rw [if_neg hp, Go_lookup_ok p.2 e hh]
    exact ⟨_, rfl⟩

/-- A loop that writes some of the keys of a map `src` into an allocated map, by a test that
does not panic, does not panic. -/
theorem Go_filterLoop_ok [DecidableEq E] [Key E] (src : Go.Set E)
    (test : Go.Set E → E → Except Panic Bool) (r : Go.Set E) (hn : r.isNil = false)
    (ht : ∀ r e, e ∈ src.keys → ∃ b, test r e = .ok b) :
    ∃ r', src.keys.foldlM (fun r e => do
        if (← test r e) then Go.store r e else pure r) r = .ok r' ∧ r'.isNil = false := by
  obtain ⟨r', h1, h2⟩ := foldlM_inv (fun r e => do
      if (← test r e) then Go.store r e else pure r)
    (fun _ (r : Go.Set E) => r.isNil = false) src.keys r hn (by
      intro done e rest st hxs hI
      have he : e ∈ src.keys := mem_of_split hxs
      obtain ⟨b, hb⟩ := ht st e he
      dsimp only
      rw [hb, ok_bind]
      cases b
      · exact ⟨st, rfl, hI⟩
      · obtain ⟨st', k1, k2, _⟩ := Go_store_ok st e hI (src.hashed e he)
        exact ⟨st', k1, k2⟩)
  exact ⟨r', h1, h2⟩

theorem Go_Intersection_ok [DecidableEq E] [Key E] (sets : List (Go.Set E)) :
    ∃ r, Go.Intersection sets = .ok r ∧ r.isNil = false := by
  unfold Go.Intersection
  by_cases h0 : sets.length = 0
  · rw [if_pos h0]
    exact ⟨Go.make 0, rfl, rfl⟩
  · rw [if_neg h0]
    have hpos : 0 < sets.length := Nat.pos_of_ne_zero h0
    by_cases h1 : sets.length = 1
    · rw [if_pos h1, index_ok sets 0 hpos, ok_bind, Go_New_ok _ (Int.natCast_nonneg _),
        ok_bind, ok_bind]
      obtain ⟨r, k1, k2, _⟩ := Go_copyLoop_ok (sets.get ⟨0, hpos⟩)
        (Go.make (Go.len (sets.get ⟨0, hpos⟩) : Int)) rfl
      exact ⟨r, k1, k2⟩
    · rw [if_neg h1]
      obtain ⟨i, hi, hlt⟩ := Go_smallestIndex_ok sets hpos
      rw [hi, ok_bind, index_ok sets i hlt, ok_bind, Go_New_ok _ (Int.natCast_nonneg _),
        ok_bind, ok_bind]
      exact Go_filterLoop_ok (sets.get ⟨i, hlt⟩) (fun _ e => Go.inAllOthers sets i e) _ rfl
        (fun _ e he => Go_inAllOthers_ok sets i e ((sets.get ⟨i, hlt⟩).hashed e he))

/-- A loop of map writes of keys none of which is found in the map when it is written: every
write adds its key at the end. -/
theorem Go_storeFresh [DecidableEq E] [Key E] (xs : List E) (r : Go.Set E)
    (hn : r.isNil = false) (hh : ∀ x ∈ xs, Key.hashable x = true)
    (hd : (r.keys ++ xs).Pairwise (fun a b => a ≠ b ∨ Key.selfEq a = false)) :
    ∃ r', xs.foldlM Go.store r = .ok r' ∧ r'.isNil = false ∧ r'.hint = r.hint ∧
      r'.keys = r.keys ++ xs := by
  induction xs generalizing r with
  | nil => exact ⟨r, rfl, hn, rfl, by simp⟩
  | cons x xs ih =>
    obtain ⟨r1, h1, h2, h3, _, _, h6⟩ := Go_store_ok r x hn (hh x (List.mem_cons_self x xs))
    have hnf : ¬ (Key.selfEq x = true ∧ x ∈ r.keys) := by
      rintro ⟨hs, hm⟩
      have := (List.pairwise_append.mp hd).2.2 x hm x (List.mem_cons_self x xs)
      rcases this with h | h
      · exact h rfl
      · rw [hs] at h
        cases h
    have hk := h6 hnf
    obtain ⟨r', k1, k2, k3, k4⟩ := ih r1 h2 (fun y hy => hh y (List.mem_cons_of_mem x hy))
      (by rw [hk, List.append_assoc]; exact hd)
    refine ⟨r', ?_, k2, k3.trans h3, ?_⟩
    · rw [List.foldlM_cons, h1, ok_bind]
      exact k1
    · rw [k4, hk, List.append_assoc]
      rfl

/-- The two loops of `CartesianProduct` are one loop over the pairs. -/
theorem Go_pairLoop_eq {E1 E2 : Type} [DecidableEq E1] [Key E1] [DecidableEq E2] [Key E2]
    (ks1 : List E1) (ks2 : List E2) (r : Go.Set (Pair E1 E2)) :
    ks1.foldlM (fun r e1 => ks2.foldlM (fun r e2 => Go.store r ⟨e1, e2⟩) r) r =
      ((ks1.map (fun e1 => ks2.map (fun e2 => (⟨e1, e2⟩ : Pair E1 E2)))).flatten).foldlM
        Go.store r := by
  induction ks1 generalizing r with
  | nil => rfl
  | cons e1 ks1 ih =>
    rw [List.foldlM_cons, List.map_cons, List.flatten_cons, List.foldlM_append]
    have e : ks2.foldlM (fun r e2 => Go.store r (⟨e1, e2⟩ : Pair E1 E2)) r =
        (ks2.map (fun e2 => (⟨e1, e2⟩ : Pair E1 E2))).foldlM Go.store r := by
      rw [List.foldlM_map]
    rw [e]
    congr 1
    funext r1
    exact ih r1

/-- The pairs of the keys of two maps, in the order of the two loops, are keys that a map can
hold together. -/
theorem Go_pairs_distinct {E1 E2 : Type} [DecidableEq E1] [Key E1] [DecidableEq E2] [Key E2]
    (set1 : Go.Set E1) (set2 : Go.Set E2) :
    ((set1.keys.map (fun e1 => set2.keys.map (fun e2 => (⟨e1, e2⟩ : Pair E1 E2)))).flatten).Pairwise
      (fun a b => a ≠ b ∨ Key.selfEq a = false) := by
  rw [List.pairwise_flatten]
  constructor
  · intro l hl
    obtain ⟨e1, _, rfl⟩ := List.mem_map.mp hl
    rw [List.pairwise_map]
    refine set2.distinct.imp ?_
    rintro a b (h | h)
    · left
      intro hab
      exact h (congrArg Pair.Second hab)
    · right
      show (Key.selfEq e1 && Key.selfEq a) = false
      rw [h, Bool.and_false]
  · rw [List.pairwise_map]
    refine set1.distinct.imp ?_
    intro a b hab p hp q hq
    obtain ⟨x, _, rfl⟩ := List.mem_map.mp hp
    obtain ⟨y, _, rfl⟩ := List.mem_map.mp hq
    rcases hab with h | h
    · left
      intro hpq
      exact h (congrArg Pair.First hpq)
    · right
      show (Key.selfEq a && Key.selfEq x) = false
      rw [h, Bool.false_and]

/-- `CartesianProduct` when the capacity it computes is not negative: the keys of the result are
the pairs, one key per pair, and the hint of the result is the capacity. -/
theorem Go_CartesianProduct_ok {E1 E2 : Type} [DecidableEq E1] [Key E1] [DecidableEq E2]
    [Key E2] (set1 : Go.Set E1) (set2 : Go.Set E2)
    (h : Go.len set1 = 0 ∨ Go.len set2 = 0 ∨
      0 ≤ intMul (Go.len set1 : Int) (Go.len set2 : Int)) :
    ∃ r, Go.CartesianProduct set1 set2 = .ok r ∧ r.isNil = false ∧
      r.keys = (set1.keys.map (fun e1 => set2.keys.map
        (fun e2 => (⟨e1, e2⟩ : Pair E1 E2)))).flatten ∧
      ((Go.len set1 = 0 ∨ Go.len set2 = 0) → r.hint = 0) ∧
      (¬ (Go.len set1 = 0 ∨ Go.len set2 = 0) →
        r.hint = intMul (Go.len set1 : Int) (Go.len set2 : Int)) := by
  unfold Go.CartesianProduct
  by_cases h0 : Go.len set1 = 0 ∨ Go.len set2 = 0
  · rw [if_pos (by simpa using h0)]
    refine ⟨Go.make 0, rfl, rfl, ?_, fun _ => rfl, fun hne => absurd h0 hne⟩
    rcases h0 with h0 | h0
    · rw [List.length_eq_zero.mp h0]
      rfl
    · rw [List.length_eq_zero.mp h0]
      simp [Go.make]
  · rw [if_neg (by simpa using h0)]
    have hpos : 0 ≤ intMul (Go.len set1 : Int) (Go.len set2 : Int) := by
      rcases h with h | h | h
      · exact absurd (Or.inl h) h0
      · exact absurd (Or.inr h) h0
      · exact h
    rw [Go_New_ok _ hpos, ok_bind, Go_pairLoop_eq]
    obtain ⟨r, h1, h2, h3, h4⟩ := Go_storeFresh
      ((set1.keys.map (fun e1 => set2.keys.map
        (fun e2 => (⟨e1, e2⟩ : Pair E1 E2)))).flatten)
      (Go.make (intMul (Go.len set1 : Int) (Go.len set2 : Int))) rfl
      (by
        intro p hp
        obtain ⟨l, hl, hpl⟩ := List.mem_flatten.mp hp
        obtain ⟨e1, he1, rfl⟩ := List.mem_map.mp hl
        obtain ⟨e2, he2, rfl⟩ := List.mem_map.mp hpl
        show (Key.hashable e1 && Key.hashable e2) = true
        rw [set1.hashed e1 he1, set2.hashed e2 he2]
        rfl)
      (by
        show ([] ++ _).Pairwise _
        rw [List.nil_append]
        exact Go_pairs_distinct set1 set2)
    refine ⟨r, h1, h2, ?_, fun hz => absurd hz h0, fun _ => h3⟩
    rw [h4]
    rfl

/-- `CartesianProduct` of two maps with keys panics in `New` when the capacity it computes is
negative. -/
theorem Go_CartesianProduct_neg {E1 E2 : Type} [DecidableEq E1] [Key E1] [DecidableEq E2]
    [Key E2] (set1 : Go.Set E1) (set2 : Go.Set E2) (h1 : Go.len set1 ≠ 0)
    (h2 : Go.len set2 ≠ 0) (h : intMul (Go.len set1 : Int) (Go.len set2 : Int) < 0) :
    Go.CartesianProduct set1 set2 = .error .cannotBeNegative := by
  unfold Go.CartesianProduct
  rw [if_neg (by simp [h1, h2]), Go_New_neg _ h]
  rfl

theorem length_pairs {E1 E2 : Type} (ks1 : List E1) (ks2 : List E2) :
    ((ks1.map (fun e1 => ks2.map (fun e2 => (⟨e1, e2⟩ : Pair E1 E2)))).flatten).length =
      ks1.length * ks2.length := by
  induction ks1 with
  | nil => simp
  | cons e1 ks1 ih =>
    rw [List.map_cons, List.flatten_cons, List.length_append, ih, List.length_map,
      List.length_cons, Nat.succ_mul, Nat.add_comm]

theorem Go_Difference_ok [DecidableEq E] [Key E] (minuend : Go.Set E)
    (subtrahends : List (Go.Set E))
    (h : Go.len minuend = 0 ∨ subtrahends.length ≤ 1 ∨ 0 ≤ Go.sizeSum subtrahends) :
    ∃ r, Go.Difference minuend subtrahends = .ok r ∧ r.isNil = false := by
  unfold Go.Difference
  by_cases hm : Go.len minuend = 0
  · rw [if_pos hm]
    exact ⟨Go.make 0, rfl, rfl⟩
  · rw [if_neg hm]
    by_cases h0 : subtrahends.length = 0
    · rw [if_pos h0, Go_New_ok _ (Int.natCast_nonneg _), ok_bind]
      obtain ⟨r, k1, k2, _⟩ := Go_copyLoop_ok minuend (Go.make (Go.len minuend : Int)) rfl
      exact ⟨r, k1, k2⟩
    · rw [if_neg h0]
      by_cases h1 : subtrahends.length = 1
      · rw [if_pos h1, Go_New_ok _ (Int.natCast_nonneg _), ok_bind]
        have hpos : 0 < subtrahends.length := by omega
        obtain ⟨r, k1, k2⟩ := foldlM_inv (fun r e => do
            let s0 ← index subtrahends 0
            if !(← Go.lookup s0 e) then Go.store r e else pure r)
          (fun _ (r : Go.Set E) => r.isNil = false) minuend.keys
          (Go.make (Go.len minuend : Int)) rfl (by
            intro done e rest st hxs hI
            have he : e ∈ minuend.keys := mem_of_split hxs
            dsimp only
            rw [index_ok subtrahends 0 hpos, ok_bind,
              Go_lookup_ok _ e (minuend.hashed e he), ok_bind]
            cases (Key.selfEq e && decide (e ∈ (subtrahends.get ⟨0, hpos⟩).keys))
            · obtain ⟨st', g1, g2, _⟩ := Go_store_ok st e hI (minuend.hashed e he)
              exact ⟨st', g1, g2⟩
            · exact ⟨st, rfl, hI⟩)
        exact ⟨r, k1, k2⟩
      · rw [if_neg h1]
        have hfit : 0 ≤ Go.sizeSum subtrahends := by
          rcases h with h | h | h
          · exact absurd h hm
          · omega
          · exact h
        dsimp only
        have hN := @Go_New_ok E _ _ (Go.sizeSum subtrahends) hfit
        unfold Go.sizeSum at hN
        rw [hN, ok_bind]
        obtain ⟨combined, c1, _, _, _⟩ :=
          Go_unionLoop_ok subtrahends (Go.make (Go.sizeSum subtrahends)) rfl
        unfold Go.sizeSum at c1
        rw [c1, ok_bind, Go_New_ok _ (Int.natCast_nonneg _), ok_bind]
        obtain ⟨r, k1, k2⟩ := foldlM_inv (fun r e => do
            if !(← Go.lookup combined e) then Go.store r e else pure r)
          (fun _ (r : Go.Set E) => r.isNil = false) minuend.keys
          (Go.make (Go.len minuend : Int)) rfl (by
            intro done e rest st hxs hI
            have he : e ∈ minuend.keys := mem_of_split hxs
            dsimp only
            rw [Go_lookup_ok _ e (minuend.hashed e he), ok_bind]
            cases (Key.selfEq e && decide (e ∈ combined.keys))
            · obtain ⟨st', g1, g2, _⟩ := Go_store_ok st e hI (minuend.hashed e he)
              exact ⟨st', g1, g2⟩
            · exact ⟨st, rfl, hI⟩)
        exact ⟨r, k1, k2⟩

/-- `Difference` with a minuend that has keys and two or more subtrahends panics in `New` when
the capacity it computes for the subtrahends is negative. -/
theorem Go_Difference_neg [DecidableEq E] [Key E] (minuend : Go.Set E)
    (subtrahends : List (Go.Set E)) (hm : Go.len minuend ≠ 0) (h2 : 2 ≤ subtrahends.length)
    (h : Go.sizeSum subtrahends < 0) :
    Go.Difference minuend subtrahends = .error .cannotBeNegative := by
  unfold Go.Difference
  rw [if_neg hm, if_neg (by omega), if_neg (by omega)]
  dsimp only
  have hN := @Go_New_neg E _ _ (Go.sizeSum subtrahends) h
  unfold Go.sizeSum at hN
  rw [hN]
  rfl

/-- The inner loop of `SymmetricDifference` does not panic and leaves the map allocated. -/
theorem Go_toggleLoop_ok [DecidableEq E] [Key E] (s : Go.Set E) (r : Go.Set E)
    (hn : r.isNil = false) :
    ∃ r', s.keys.foldlM (fun r e => do
        if (← Go.lookup r e) then Go.delete r e else Go.store r e) r = .ok r' ∧
      r'.isNil = false := by
  obtain ⟨r', h1, h2⟩ := foldlM_inv (fun r e => do
      if (← Go.lookup r e) then Go.delete r e else Go.store r e)
    (fun _ (r : Go.Set E) => r.isNil = false) s.keys r hn (by
      intro done e rest st hxs hI
      have he : e ∈ s.keys := mem_of_split hxs
      dsimp only
      rw [Go_lookup_ok _ e (s.hashed e he), ok_bind]
      cases (Key.selfEq e && decide (e ∈ st.keys))
      · obtain ⟨st', g1, g2, _⟩ := Go_store_ok st e hI (s.hashed e he)
        exact ⟨st', g1, g2⟩
      · obtain ⟨st', g1, g2, _⟩ := Go_delete_ok st e (s.hashed e he)
        exact ⟨st', g1, g2.trans hI⟩)
  exact ⟨r', h1, h2⟩

theorem Go_SymmetricDifference_ok [DecidableEq E] [Key E] (sets : List (Go.Set E))
    (h : sets.length ≤ 1 ∨ 0 ≤ Go.sizeSum sets) :
    ∃ r, Go.SymmetricDifference sets = .ok r ∧ r.isNil = false := by
  unfold Go.SymmetricDifference
  by_cases h0 : sets.length = 0
  · rw [if_pos h0]
    exact ⟨Go.make 0, rfl, rfl⟩
  · rw [if_neg h0]
    have hpos : 0 < sets.length := Nat.pos_of_ne_zero h0
    by_cases h1 : sets.length = 1
    · rw [if_pos h1, index_ok sets 0 hpos, ok_bind, Go_New_ok _ (Int.natCast_nonneg _),
        ok_bind, ok_bind]
      obtain ⟨r, k1, k2, _⟩ := Go_copyLoop_ok (sets.get ⟨0, hpos⟩)
        (Go.make (Go.len (sets.get ⟨0, hpos⟩) : Int)) rfl
      exact ⟨r, k1, k2⟩
    · rw [if_neg h1]
      have hfit : 0 ≤ Go.sizeSum sets := by
        rcases h with h | h
        · omega
        · exact h
      dsimp only
      have hN := @Go_New_ok E _ _ (Go.sizeSum sets) hfit
      unfold Go.sizeSum at hN
      rw [hN, ok_bind]
      obtain ⟨r, k1, k2⟩ := foldlM_inv (fun r (s : Go.Set E) => s.keys.foldlM (fun r e => do
          if (← Go.lookup r e) then Go.delete r e else Go.store r e) r)
        (fun _ (r : Go.Set E) => r.isNil = false) sets
        (Go.make (sets.foldl (fun maxSize s => intAdd maxSize (Go.len s)) 0)) rfl (by
          intro done s rest st _ hI
          exact Go_toggleLoop_ok s st hI)
      exact ⟨r, k1, k2⟩

/-- `SymmetricDifference` of two or more sets panics in `New` when the capacity it computes is
negative. -/
theorem Go_SymmetricDifference_neg [DecidableEq E] [Key E] (sets : List (Go.Set E))
    (h2 : 2 ≤ sets.length) (h : Go.sizeSum sets < 0) :
    Go.SymmetricDifference sets = .error .cannotBeNegative := by
  unfold Go.SymmetricDifference
  rw [if_neg (by omega), if_neg (by omega)]
  dsimp only
  have hN := @Go_New_neg E _ _ (Go.sizeSum sets) h
  unfold Go.sizeSum at hN
  rw [hN]
  rfl

theorem Go_Contains_ok [DecidableEq E] [Key E] (s : Go.Set E) (v : E)
    (hh : Key.hashable v = true) :
    Go.Contains s v = .ok (Key.selfEq v && decide (v ∈ s.keys)) :=
  Go_lookup_ok s v hh

theorem Go_ContainsAny_ok [DecidableEq E] [Key E] (s : Go.Set E) (v : List E)
    (hh : Go.len s = 0 ∨ ∀ e ∈ v, Key.hashable e = true) :
    ∃ b, Go.ContainsAny s v = .ok b := by
  unfold Go.ContainsAny
  by_cases h0 : Go.len s = 0
  · rw [if_pos h0]
    exact ⟨false, rfl⟩
  · rw [if_neg h0]
    have hv : ∀ e ∈ v, Key.hashable e = true := hh.resolve_left h0
    exact Go_loopAny_ok _ v (fun e he => ⟨_, Go_Contains_ok s e (hv e he)⟩)

theorem Go_ContainsAll_ok [DecidableEq E] [Key E] (s : Go.Set E) (v : List E)
    (hh : v = [] ∨ Go.len s = 0 ∨ ∀ e ∈ v, Key.hashable e = true) :
    ∃ b, Go.ContainsAll s v = .ok b := by
  unfold Go.ContainsAll
  by_cases hv : v.length = 0
  · rw [if_pos hv]
    exact ⟨true, rfl⟩
  · rw [if_neg hv]
    by_cases h0 : Go.len s = 0
    · rw [if_pos h0]
      exact ⟨false, rfl⟩
    · rw [if_neg h0]
      have hv' : ∀ e ∈ v, Key.hashable e = true := by
        rcases hh with h | h | h
        · exact absurd (by rw [h]; rfl) hv
        · exact absurd h h0
        · exact h
      exact Go_loopAll_ok _ v (fun e he => ⟨_, Go_Contains_ok s e (hv' e he)⟩)

/-- The map reads of the keys of one map in another one do not panic. -/
theorem Go_lookupKeys_ok [DecidableEq E] [Key E] (s1 s2 : Go.Set E) :
    ∀ e ∈ s1.keys, ∃ b, Go.lookup s2 e = .ok b :=
  fun e he => ⟨_, Go_lookup_ok s2 e (s1.hashed e he)⟩

theorem Go_Equal_ok [DecidableEq E] [Key E] (s1 s2 : Go.Set E) :
    ∃ b, Go.Equal s1 s2 = .ok b := by
  unfold Go.Equal
  by_cases h : Go.len s1 ≠ Go.len s2
  · rw [if_pos h]
    exact ⟨false, rfl⟩
  · rw [if_neg h]
    exact Go_loopAll_ok _ _ (Go_lookupKeys_ok s1 s2)

theorem Go_Subset_ok [DecidableEq E] [Key E] (s1 s2 : Go.Set E) :
    ∃ b, Go.Subset s1 s2 = .ok b := by
  unfold Go.Subset
  by_cases h : Go.len s1 = 0
  · rw [if_pos h]
    exact ⟨true, rfl⟩
  · rw [if_neg h]
    by_cases h' : Go.len s2 = 0
    · rw [if_pos h']
      exact ⟨false, rfl⟩
    · rw [if_neg h']
      exact Go_loopAll_ok _ _ (Go_lookupKeys_ok s1 s2)

theorem Go_ProperSubset_ok [DecidableEq E] [Key E] (s1 s2 : Go.Set E) :
    ∃ b, Go.ProperSubset s1 s2 = .ok b := by
  unfold Go.ProperSubset
  by_cases h : Go.len s1 ≥ Go.len s2
  · rw [if_pos h]
    exact ⟨false, rfl⟩
  · rw [if_neg h]
    exact Go_Subset_ok s1 s2

theorem Go_Overlaps_ok [DecidableEq E] [Key E] (s1 s2 : Go.Set E) :
    ∃ b, Go.Overlaps s1 s2 = .ok b := by
  unfold Go.Overlaps
  by_cases h : (Go.len s1 = 0 || Go.len s2 = 0) = true
  · rw [if_pos h]
    exact ⟨false, rfl⟩
  · rw [if_neg h]
    by_cases hgt : Go.len s1 > Go.len s2
    · rw [if_pos hgt]
      exact Go_loopAny_ok _ _ (Go_lookupKeys_ok s2 s1)
    · rw [if_neg hgt]
      exact Go_loopAny_ok _ _ (Go_lookupKeys_ok s1 s2)

theorem Go_Map_ok {To : Type} [DecidableEq E] [Key E] [DecidableEq To] [Key To] (s : Go.Set E)
    (f : E → To) (hh : ∀ e ∈ s.keys, Key.hashable (f e) = true) :
    ∃ r, Go.Map s f = .ok r ∧ r.isNil = false ∧ r.hint = (Go.len s : Int) ∧
      ∀ y, y ∈ r.keys ↔ ∃ e ∈ s.keys, f e = y := by
  obtain ⟨r, h1, h2, h3, h4⟩ := Go_storeLoop_ok s.keys f (fun _ => true)
    (Go.make (Go.len s : Int)) rfl (fun x hx _ => hh x hx)
  refine ⟨r, ?_, h2, h3, fun y => ?_⟩
  · unfold Go.Map
    rw [Go_New_ok _ (Int.natCast_nonneg _), ok_bind]
    simpa using h1
  · rw [h4]
    simp [Go.make]

theorem Go_Filter_ok [DecidableEq E] [Key E] (s : Go.Set E) (f : E → Bool) :
    ∃ r, Go.Filter s f = .ok r ∧ r.isNil = false ∧
      ∀ y, y ∈ r.keys ↔ y ∈ s.keys ∧ f y = true := by
  obtain ⟨r, h1, h2, _, h4⟩ := Go_storeLoop_ok s.keys (fun e => e) f
    (Go.make (Go.len s : Int)) rfl (fun x hx _ => s.hashed x hx)
  refine ⟨r, ?_, h2, fun y => ?_⟩
  · unfold Go.Filter
    rw [Go_New_ok _ (Int.natCast_nonneg _), ok_bind]
    exact h1
  · rw [h4]
    simp [Go.make]

/-- The iterator over a slice behaves. -/
theorem SafeSeq_slicesValues {V : Type} (xs : List V) : SafeSeq (fun v => v ∈ xs) (slicesValues xs) :=
  fun _ I yield st h0 hy => slicesValues_inv xs yield I st h0 hy

theorem Go_All_eq_slicesValues [DecidableEq E] [Key E] (s : Go.Set E) :
    Go.All s = slicesValues s.keys := rfl

theorem SafeSeq_mono {V : Type} (P Q : V → Prop) (seq : Seq V) (h : ∀ v, P v → Q v)
    (hs : SafeSeq P seq) : SafeSeq Q seq :=
  fun σ I yield st h0 hy => hs σ I yield st h0 (fun st v hI hP => hy st v hI (h v hP))

/-- The iterator of `All(s)` behaves; it yields keys of `s`, which can be hashed. -/
theorem Go_All_safe [DecidableEq E] [Key E] (s : Go.Set E) :
    SafeSeq (fun e => e ∈ s.keys ∧ Key.hashable e = true) (Go.All s) :=
  SafeSeq_mono _ _ _ (fun e he => ⟨he, s.hashed e he⟩) (SafeSeq_slicesValues s.keys)

/-- `InsertSeq` into an allocated map, from an iterator that behaves and yields values that can
be hashed, does not panic. -/
theorem Go_InsertSeq_ok [DecidableEq E] [Key E] (s : Go.Set E) (seq : Seq E)
    (hn : s.isNil = false) (hs : SafeSeq (fun e => Key.hashable e = true) seq) :
    ∃ r, Go.InsertSeq s seq = .ok r ∧ r.isNil = false := by
  unfold Go.InsertSeq
  refine hs (Go.Set E) (fun r => r.isNil = false) _ s hn ?_
  intro st v hI hv
  obtain ⟨st', h1, h2, _⟩ := Go_store_ok st v hI hv
  exact ⟨st', true, by rw [h1]; rfl, h2⟩

theorem Go_Collect_ok [DecidableEq E] [Key E] (seq : Seq E)
    (hs : SafeSeq (fun e => Key.hashable e = true) seq) :
    ∃ r, Go.Collect seq = .ok r ∧ r.isNil = false := by
  unfold Go.Collect
  rw [Go_New_ok 0 (le_refl 0), ok_bind]
  exact Go_InsertSeq_ok (Go.make 0) seq rfl hs

/-- `Chunk` with `n >= 1` returns an iterator that behaves; it yields allocated maps. -/
theorem Go_Chunk_safe [DecidableEq E] [Key E] (s : Go.Set E) (n : Int) (hn : 1 ≤ n) :
    ∃ seq, Go.Chunk s n = .ok seq ∧ SafeSeq (fun c => c.isNil = false) seq := by
  unfold Go.Chunk
  rw [if_neg (not_lt.mpr hn)]
  refine ⟨_, rfl, ?_⟩
  intro σ I yield st h0 hy
  dsimp only
  obtain ⟨⟨chunk, cnt, st1⟩, b, h1, h2, h3⟩ := rangeLoop_inv (fun (chunk, cnt, st) e => do
      let chunk ← Go.store chunk e
      let cnt := cnt + 1
      if cnt = n then
        let (st, more) ← yield st chunk
        if !more then pure ((chunk, cnt, st), false)
        else pure ((Go.make n, 0, st), true)
      else pure ((chunk, cnt, st), true))
    (fun (p : Go.Set E × Int × σ) => p.1.isNil = false ∧ I p.2.2) s.keys
    ((Go.make n : Go.Set E), (0 : Int), st) ⟨rfl, h0⟩ (by
      rintro ⟨chunk, cnt, st⟩ e ⟨hI1, hI2⟩ he
      obtain ⟨chunk', k1, k2, _⟩ := Go_store_ok chunk e hI1 (s.hashed e he)
      dsimp only
      rw [k1, ok_bind]
      by_cases hc : cnt + 1 = n
      · rw [if_pos hc]
        obtain ⟨st', b, g1, g2⟩ := hy st chunk' hI2 k2
        rw [g1, ok_bind]
        cases b
        · exact ⟨_, _, rfl, k2, g2⟩
        · exact ⟨_, _, rfl, rfl, g2⟩
      · rw [if_neg hc]
        exact ⟨_, _, rfl, k2, hI2⟩)
  rw [h1, ok_bind]
  dsimp only at h2 h3
  by_cases hfin : (b && decide (cnt > 0)) = true
  · rw [if_pos hfin]
    obtain ⟨st', b', g1, g2⟩ := hy st1 chunk h3 h2
    rw [g1]
    exact ⟨st', rfl, g2⟩
  · rw [if_neg hfin]
    exact ⟨st1, rfl, h3⟩

/-- On a sequence of sets that behaves, the iterator of `UnionSeq` behaves; it yields values
that can be hashed. -/
theorem Go_UnionSeq_safe [DecidableEq E] [Key E] (seq : Seq (Go.Set E))
    (hs : SafeSeq (fun _ => True) seq) :
    SafeSeq (fun e => Key.hashable e = true) (Go.UnionSeq seq) := by
  intro σ I yield st h0 hy
  unfold Go.UnionSeq
  dsimp only
  obtain ⟨⟨seen, st1⟩, h1, _, h3⟩ := hs (Go.Set E × σ)
    (fun p => p.1.isNil = false ∧ I p.2) (fun (seen, st) s =>
      rangeLoop (fun (seen, st) e => do
        if !(← Go.lookup seen e) then do
          let seen ← Go.store seen e
          let (st, more) ← yield st e
          if !more then pure ((seen, st), false) else pure ((seen, st), true)
        else pure ((seen, st), true)) s.keys (seen, st)) ((Go.make 0 : Go.Set E), st)
    ⟨rfl, h0⟩ (by
      rintro ⟨seen, st⟩ s ⟨hI1, hI2⟩ _
      obtain ⟨p, b, g1, g2⟩ := rangeLoop_inv (fun (seen, st) e => do
          if !(← Go.lookup seen e) then do
            let seen ← Go.store seen e
            let (st, more) ← yield st e
            if !more then pure ((seen, st), false) else pure ((seen, st), true)
          else pure ((seen, st), true))
        (fun (p : Go.Set E × σ) => p.1.isNil = false ∧ I p.2) s.keys (seen, st)
        ⟨hI1, hI2⟩ (by
          rintro ⟨seen, st⟩ e ⟨hJ1, hJ2⟩ he
          have hh := s.hashed e he
          dsimp only
          rw [Go_lookup_ok seen e hh, ok_bind]
          cases (Key.selfEq e && decide (e ∈ seen.keys))
          · obtain ⟨seen', k1, k2, _⟩ := Go_store_ok seen e hJ1 hh
            obtain ⟨st', b, y1, y2⟩ := hy st e hJ2 hh
            simp only [Bool.not_false, if_true, k1, ok_bind, y1]
            cases b
            · exact ⟨_, _, rfl, k2, y2⟩
            · exact ⟨_, _, rfl, k2, y2⟩
          · exact ⟨_, _, rfl, hJ1, hJ2⟩)
      exact ⟨p, b, g1, g2⟩)
  rw [h1]
  exact ⟨st1, rfl, h3⟩

/-! ## The keys of the results, on every key type -/

/-- A loop that writes those keys of a list that pass a test, where the keys of the list can be
held together with the keys of the map: the keys that pass are added at the end, in order. -/
theorem Go_filterLoop_keys [DecidableEq E] [Key E] (xs : List E) (t : E → Bool)
    (body : Go.Set E → E → Except Panic (Go.Set E)) (r0 : Go.Set E) (hn : r0.isNil = false)
    (hh : ∀ x ∈ xs, Key.hashable x = true)
    (hd : (r0.keys ++ xs).Pairwise (fun a b => a ≠ b ∨ Key.selfEq a = false))
    (hb : ∀ r e, e ∈ xs → body r e = if t e then Go.store r e else pure r) :
    ∃ r, xs.foldlM body r0 = .ok r ∧ r.isNil = false ∧ r.hint = r0.hint ∧
      r.keys = r0.keys ++ xs.filter t := by
  induction xs generalizing r0 with
  | nil => exact ⟨r0, rfl, hn, rfl, by simp⟩
  | cons x xs ih =>
    rw [List.foldlM_cons, hb r0 x (List.mem_cons_self x xs)]
    have hb' : ∀ r e, e ∈ xs → body r e = if t e then Go.store r e else pure r :=
      fun r e he => hb r e (List.mem_cons_of_mem x he)
    have hh' : ∀ y ∈ xs, Key.hashable y = true := fun y hy => hh y (List.mem_cons_of_mem x hy)
    by_cases ht : t x = true
    · obtain ⟨r1, h1, h2, h3, _, _, h6⟩ :=
        Go_store_ok r0 x hn (hh x (List.mem_cons_self x xs))
      have hnf : ¬ (Key.selfEq x = true ∧ x ∈ r0.keys) := by
        rintro ⟨hs, hm⟩
        rcases (List.pairwise_append.mp hd).2.2 x hm x (List.mem_cons_self x xs) with h | h
        · exact h rfl
        · rw [hs] at h
          cases h
      have hk := h6 hnf
      obtain ⟨r, k1, k2, k3, k4⟩ := ih r1 h2 hh' (by rw [hk, List.append_assoc]; exact hd) hb'
      rw [if_pos ht, h1, ok_bind]
      refine ⟨r, k1, k2, k3.trans h3, ?_⟩
      rw [k4, hk, List.filter_cons_of_pos ht, List.append_assoc]
      rfl
    · have hd' : (r0.keys ++ xs).Pairwise (fun a b => a ≠ b ∨ Key.selfEq a = false) := by
        rw [List.pairwise_append] at hd ⊢
        exact ⟨hd.1, (List.pairwise_cons.mp hd.2.1).2,
          fun a ha b hb => hd.2.2 a ha b (List.mem_cons_of_mem x hb)⟩
      obtain ⟨r, k1, k2, k3, k4⟩ := ih r0 hn hh' hd' hb'
      rw [if_neg ht]
      refine ⟨r, k1, k2, k3, ?_⟩
      rw [k4, List.filter_cons_of_neg ht]

/-- The keys of `Filter(s, f)` are the keys of `s` that satisfy `f`, in the order of `s`. -/
theorem Go_Filter_keys [DecidableEq E] [Key E] (s : Go.Set E) (f : E → Bool) :
    ∃ r, Go.Filter s f = .ok r ∧ r.isNil = false ∧ r.keys = s.keys.filter f := by
  obtain ⟨r, h1, h2, _, h4⟩ := Go_filterLoop_keys s.keys f
    (fun r e => if f e then Go.store r e else pure r) (Go.make (Go.len s : Int)) rfl
    s.hashed (by simpa [Go.make] using s.distinct) (fun _ _ _ => rfl)
  refine ⟨r, ?_, h2, ?_⟩
  · unfold Go.Filter
    rw [Go_New_ok _ (Int.natCast_nonneg _), ok_bind]
    exact h1
  · rw [h4]
    simp [Go.make]

/-- A copy of the keys of a map into a fresh map has the keys of the map, in order. -/
theorem Go_copyFresh_keys [DecidableEq E] [Key E] (s : Go.Set E) (hint : Int) :
    ∃ r, s.keys.foldlM Go.store (Go.make hint) = .ok r ∧ r.isNil = false ∧ r.hint = hint ∧
      r.keys = s.keys := by
  obtain ⟨r, h1, h2, h3, h4⟩ := Go_storeFresh s.keys (Go.make hint) rfl s.hashed
    (by simpa [Go.make] using s.distinct)
  exact ⟨r, h1, h2, h3, by simpa [Go.make] using h4⟩

/-- The builtin `delete` of a key that can be hashed and is equal to itself removes the key. -/
theorem Go_delete_mem [DecidableEq E] [Key E] (s : Go.Set E) (e : E)
    (hh : Key.hashable e = true) (hs : Key.selfEq e = true) :
    ∃ r, Go.delete s e = .ok r ∧ r.isNil = s.isNil ∧ r.hint = s.hint ∧
      r.keys = s.keys.erase e ∧ ∀ x, x ∈ r.keys ↔ x ∈ s.keys ∧ x ≠ e := by
  obtain ⟨r, h1, h2, h3, h4, _⟩ := Go_delete_ok s e hh
  refine ⟨r, h1, h2, h3, h4 hs, fun x => ?_⟩
  rw [h4 hs]
  by_cases hxe : x = e
  · subst hxe
    constructor
    · intro hx
      exfalso
      have hmem : x ∈ s.keys := List.mem_of_mem_erase hx
      obtain ⟨l1, l2, hnot, hk, he⟩ := List.exists_erase_eq hmem
      rw [he] at hx
      rcases List.mem_append.mp hx with h | h
      · exact hnot h
      · have hp := s.distinct
        rw [hk] at hp
        have := (List.pairwise_cons.mp (List.pairwise_append.mp hp).2.1).1 x h
        rcases this with h' | h'
        · exact h' rfl
        · rw [hs] at h'
          cases h'
    · rintro ⟨_, hne⟩
      exact absurd rfl hne
  · rw [List.mem_erase_of_ne hxe]
    exact ⟨fun h => ⟨h, hxe⟩, fun h => h.1⟩

/-! ## Union and CartesianProduct on every key type and on 64-bit sizes -/

theorem Go_Contains_iff [DecidableEq E] [Key E] (s : Go.Set E) (e : E)
    (hh : Key.hashable e = true) (hs : Key.selfEq e = true) :
    Go.Contains s e = .ok true ↔ e ∈ s.keys := by
  rw [Go_Contains_ok s e hh, hs]
  simp

/-- Counterexample to claim C4: the set `From(0, ..., 2^31 - 1)` has `2^31` elements; passed
`2^32` times to `Union`, the sum of the sizes is `2^63`, which is `-2^63` as an `int`, and
`Union` panics in `New`, although the union is the set itself. -/
theorem union_panics_when_the_size_sum_wraps :
    Go.len (rangeSet (2 ^ 31)) = 2 ^ 31 ∧
    Go.sizeSum (List.replicate (2 ^ 32) (rangeSet (2 ^ 31))) = -2 ^ 63 ∧
    Go.Union (List.replicate (2 ^ 32) (rangeSet (2 ^ 31))) = .error .cannotBeNegative := by
  have hs : Go.sizeSum (List.replicate (2 ^ 32) (rangeSet (2 ^ 31))) = -2 ^ 63 := by
    rw [sizeSum_replicate, len_rangeSet]
    unfold intAdd
    norm_num
  refine ⟨len_rangeSet _, hs, Go_Union_neg _ ?_⟩
  rw [hs]
  norm_num

/-- Claim C4, amended: `Union(sets...)` returns if and only if the capacity it computes, the
sum of the sizes in 64-bit `int` arithmetic, is not negative, which is the case whenever the
sizes sum to less than `2^63`; an element is among the keys of the result if and only if it is
among the keys of at least one set of the list (for an element that can be hashed and is equal to
itself this is what `Contains` tells); for the empty list the result is the empty set. -/
theorem union_mem_iff_exists_unless_the_size_sum_wraps [DecidableEq E] [Key E]
    (sets : List (Go.Set E)) :
    ((∃ r, Go.Union sets = .ok r) ↔ 0 ≤ Go.sizeSum sets) ∧
    ((sets.map Go.len).sum < 2 ^ 63 → 0 ≤ Go.sizeSum sets) ∧
    (∀ r, Go.Union sets = .ok r → r.isNil = false ∧
      (∀ e, e ∈ r.keys ↔ ∃ s ∈ sets, e ∈ s.keys) ∧
      ∀ e, Key.hashable e = true → Key.selfEq e = true →
        (Go.Contains r e = .ok true ↔ ∃ s ∈ sets, Go.Contains s e = .ok true)) ∧
    Go.Union ([] : List (Go.Set E)) = .ok (Go.make 0) := by
  refine ⟨⟨fun ⟨r, hr⟩ => ?_, fun h => ?_⟩, fun h => ?_, fun r hr => ?_, rfl⟩
  · by_contra hneg
    rw [Go_Union_neg sets (not_le.mp hneg)] at hr
    cases hr
  · obtain ⟨r, h1, _⟩ := Go_Union_ok sets h
    exact ⟨r, h1⟩
  · rw [sizeSum_of_fits sets h]
    exact Int.natCast_nonneg _
  · have hpos : 0 ≤ Go.sizeSum sets := by
      by_contra hneg
      rw [Go_Union_neg sets (not_le.mp hneg)] at hr
      cases hr
    obtain ⟨r', h1, h2, _, h4⟩ := Go_Union_ok sets hpos
    rw [hr] at h1
    cases h1
    refine ⟨h2, h4, fun e hh hs => ?_⟩
    rw [Go_Contains_iff r e hh hs, h4]
    simp only [Go_Contains_iff _ e hh hs]

/-- Counterexample to claim C34: for the set `From(0, ..., 3037000499)` and itself, the product
of the sizes, `3037000500 * 3037000500`, is negative as an `int`, and `CartesianProduct` panics
in `New`, before any pair is written. -/
theorem cartesianProduct_panics_when_the_product_wraps :
    Go.len (rangeSet 3037000500) = 3037000500 ∧
    intMul 3037000500 3037000500 = -9223372036709301616 ∧
    Go.CartesianProduct (rangeSet 3037000500) (rangeSet 3037000500) =
      .error .cannotBeNegative := by
  have hm : intMul 3037000500 3037000500 = -9223372036709301616 := by
    unfold intMul
    norm_num
  refine ⟨len_rangeSet _, hm, Go_CartesianProduct_neg _ _ ?_ ?_ ?_⟩
  · rw [len_rangeSet]
    norm_num
  · rw [len_rangeSet]
    norm_num
  · rw [len_rangeSet]
    norm_num [hm]

/-- Claim C34, amended: `CartesianProduct(set1, set2)` returns if and only if one of the sets
has no element or the capacity it computes, the product of the sizes in 64-bit `int` arithmetic,
is not negative, which is the case whenever the product of the sizes is less than `2^63`; the
pair of `a` and `b` is among the keys of the result if and only if `a` is among the keys of
`set1` and `b` among the keys of `set2`; the result has no element when one of the sets has
none. -/
theorem cartesianProduct_mem_iff_unless_the_product_wraps {A : Type} [DecidableEq E] [Key E]
    [DecidableEq A] [Key A] (set1 : Go.Set E) (set2 : Go.Set A) :
    ((∃ r, Go.CartesianProduct set1 set2 = .ok r) ↔
      (Go.len set1 = 0 ∨ Go.len set2 = 0 ∨
        0 ≤ intMul (Go.len set1 : Int) (Go.len set2 : Int))) ∧
    (Go.len set1 * Go.len set2 < 2 ^ 63 →
      0 ≤ intMul (Go.len set1 : Int) (Go.len set2 : Int)) ∧
    (∀ r, Go.CartesianProduct set1 set2 = .ok r → r.isNil = false ∧
      (∀ (a : E) (b : A), (⟨a, b⟩ : Pair E A) ∈ r.keys ↔ a ∈ set1.keys ∧ b ∈ set2.keys) ∧
      (Go.len set1 = 0 ∨ Go.len set2 = 0 → Go.len r = 0)) := by
  have hcases : ¬ (Go.len set1 = 0 ∨ Go.len set2 = 0 ∨
      0 ≤ intMul (Go.len set1 : Int) (Go.len set2 : Int)) →
      Go.CartesianProduct set1 set2 = .error .cannotBeNegative := by
    intro h
    simp only [not_or, not_le] at h
    exact Go_CartesianProduct_neg set1 set2 h.1 h.2.1 h.2.2
  refine ⟨⟨fun ⟨r, hr⟩ => ?_, fun h => ?_⟩, fun h => ?_, fun r hr => ?_⟩
  · by_contra hneg
    rw [hcases hneg] at hr
    cases hr
  · obtain ⟨r, h1, _⟩ := Go_CartesianProduct_ok set1 set2 h
    exact ⟨r, h1⟩
  · have h' : ((Go.len set1 : Int) * (Go.len set2 : Int)) < 2 ^ 63 := by exact_mod_cast h
    rw [intMul_of_fits _ _ (Int.mul_nonneg (Int.natCast_nonneg _) (Int.natCast_nonneg _)) h']
    exact Int.mul_nonneg (Int.natCast_nonneg _) (Int.natCast_nonneg _)
  · have hc : Go.len set1 = 0 ∨ Go.len set2 = 0 ∨
        0 ≤ intMul (Go.len set1 : Int) (Go.len set2 : Int) := by
      by_contra hneg
      rw [hcases hneg] at hr
      cases hr
    obtain ⟨r', h1, h2, h3, _⟩ := Go_CartesianProduct_ok set1 set2 hc
    rw [hr] at h1
    cases h1
    refine ⟨h2, fun a b => ?_, fun h0 => ?_⟩
    · rw [h3, List.mem_flatten]
      constructor
      · rintro ⟨l, hl, hp⟩
        obtain ⟨e1, he1, rfl⟩ := List.mem_map.mp hl
        obtain ⟨e2, he2, heq⟩ := List.mem_map.mp hp
        cases heq
        exact ⟨he1, he2⟩
      · rintro ⟨ha, hb⟩
        exact ⟨_, List.mem_map.mpr ⟨a, ha, rfl⟩, List.mem_map.mpr ⟨b, hb, rfl⟩⟩
    · unfold Go.len at h0 ⊢
      rw [h3, length_pairs]
      rcases h0 with h0 | h0
      · rw [h0, Nat.zero_mul]
      · rw [h0, Nat.mul_zero]

/-- Counterexample to claim C39: for the sets `From(0, ..., 2^31 - 1)` and
`From(0, ..., 2^32 - 1)` the capacity `len(set1) * len(set2)` is `-2^63` as an `int`, not the
number `2^63` of pairs, and `CartesianProduct` panics in `New`. -/
theorem cartesianProduct_capacity_wraps :
    Go.len (rangeSet (2 ^ 31)) * Go.len (rangeSet (2 ^ 32)) = 2 ^ 63 ∧
    intMul (Go.len (rangeSet (2 ^ 31)) : Int) (Go.len (rangeSet (2 ^ 32)) : Int) = -2 ^ 63 ∧
    Go.CartesianProduct (rangeSet (2 ^ 31)) (rangeSet (2 ^ 32)) = .error .cannotBeNegative := by
  have hm : intMul (Go.len (rangeSet (2 ^ 31)) : Int) (Go.len (rangeSet (2 ^ 32)) : Int) =
      -2 ^ 63 := by
    rw [len_rangeSet, len_rangeSet]
    unfold intMul
    norm_num
  refine ⟨?_, hm, Go_CartesianProduct_neg _ _ ?_ ?_ ?_⟩
  · rw [len_rangeSet, len_rangeSet]
    norm_num
  · rw [len_rangeSet]
    norm_num
  · rw [len_rangeSet]
    norm_num
  · rw [hm]
    norm_num

/-- Claim C39, amended: whenever `CartesianProduct(set1, set2)` returns, the result has
`|set1| * |set2|` elements; as long as this number is less than `2^63` it does return, and the
capacity that the result was made with (the hint handed to `make`) is the size of the result.
Beyond that the capacity, a product of `int`, is not the number of pairs. -/
theorem cartesianProduct_size_is_the_reserved_capacity_unless_it_wraps {A : Type}
    [DecidableEq E] [Key E] [DecidableEq A] [Key A] (set1 : Go.Set E) (set2 : Go.Set A) :
    (∀ r, Go.CartesianProduct set1 set2 = .ok r →
      Go.len r = Go.len set1 * Go.len set2 ∧
      r.hint = (if Go.len set1 = 0 ∨ Go.len set2 = 0 then 0
        else intMul (Go.len set1 : Int) (Go.len set2 : Int))) ∧
    (Go.len set1 * Go.len set2 < 2 ^ 63 →
      ∃ r, Go.CartesianProduct set1 set2 = .ok r ∧
        Go.len r = Go.len set1 * Go.len set2 ∧ r.hint = (Go.len r : Int)) := by
  have hcases : ¬ (Go.len set1 = 0 ∨ Go.len set2 = 0 ∨
      0 ≤ intMul (Go.len set1 : Int) (Go.len set2 : Int)) →
      Go.CartesianProduct set1 set2 = .error .cannotBeNegative := by
    intro h
    simp only [not_or, not_le] at h
    exact Go_CartesianProduct_neg set1 set2 h.1 h.2.1 h.2.2
  have key : ∀ r, Go.CartesianProduct set1 set2 = .ok r →
      Go.len r = Go.len set1 * Go.len set2 ∧
      r.hint = (if Go.len set1 = 0 ∨ Go.len set2 = 0 then 0
        else intMul (Go.len set1 : Int) (Go.len set2 : Int)) := by
    intro r hr
    have hc : Go.len set1 = 0 ∨ Go.len set2 = 0 ∨
        0 ≤ intMul (Go.len set1 : Int) (Go.len set2 : Int) := by
      by_contra hneg
      rw [hcases hneg] at hr
      cases hr
    obtain ⟨r', h1, _, h3, h4, h5⟩ := Go_CartesianProduct_ok set1 set2 hc
    rw [hr] at h1
    cases h1
    refine ⟨?_, ?_⟩
    · unfold Go.len
      rw [h3, length_pairs]
    · by_cases h0 : Go.len set1 = 0 ∨ Go.len set2 = 0
      · rw [if_pos h0, h4 h0]
      · rw [if_neg h0, h5 h0]
  refine ⟨key, fun hfit => ?_⟩
  have h' : ((Go.len set1 : Int) * (Go.len set2 : Int)) < 2 ^ 63 := by exact_mod_cast hfit
  have hnn : (0 : Int) ≤ (Go.len set1 : Int) * (Go.len set2 : Int) :=
    Int.mul_nonneg (Int.natCast_nonneg _) (Int.natCast_nonneg _)
  have hm := intMul_of_fits _ _ hnn h'
  obtain ⟨r, h1, _⟩ := Go_CartesianProduct_ok set1 set2 (Or.inr (Or.inr (by rw [hm]; exact hnn)))
  obtain ⟨k1, k2⟩ := key r h1
  refine ⟨r, h1, k1, ?_⟩
  rw [k2, k1]
  by_cases h0 : Go.len set1 = 0 ∨ Go.len set2 = 0
  · rw [if_pos h0]
    rcases h0 with h0 | h0
    · rw [h0, Nat.zero_mul]
      rfl
    · rw [h0, Nat.mul_zero]
      rfl
  · rw [if_neg h0, hm]
    push_cast
    rfl

/-! ## Operations on the nil set, on every key type -/

theorem Go_delete_nilSet [DecidableEq E] [Key E] (e : E) (hh : Key.hashable e = true) :
    Go.delete (Go.nilSet : Go.Set E) e = .ok Go.nilSet := by
  unfold Go.delete
  rw [if_neg (by simp [hh])]
  by_cases hs : Key.selfEq e = true
  · rw [if_pos hs]
    rfl
  · rw [if_neg hs]

/-- `Delete` from the nil set with keys that can be hashed returns and leaves the set nil. -/
theorem Go_Delete_nilSet [DecidableEq E] [Key E] (v : List E)
    (hh : ∀ e ∈ v, Key.hashable e = true) :
    Go.Delete (Go.nilSet : Go.Set E) v = .ok Go.nilSet := by
  unfold Go.Delete
  induction v with
  | nil => rfl
  | cons x xs ih =>
    rw [List.foldlM_cons, Go_delete_nilSet x (hh x (List.mem_cons_self x xs)), ok_bind]
    exact ih (fun y hy => hh y (List.mem_cons_of_mem x hy))

/-- `Delete` with a key that cannot be hashed panics, on every set, the nil set included. -/
theorem Go_Delete_unhashable [DecidableEq E] [Key E] (s : Go.Set E) (v : List E)
    (h : ∃ e ∈ v, Key.hashable e = false) :
    Go.Delete s v = .error .hashOfUnhashableType := by
  unfold Go.Delete
  induction v generalizing s with
  | nil =>
    obtain ⟨e, he, _⟩ := h
    exact absurd he (List.not_mem_nil e)
  | cons x xs ih =>
    rw [List.foldlM_cons]
    by_cases hx : Key.hashable x = true
    · obtain ⟨r, h1, _⟩ := Go_delete_ok s x hx
      rw [h1, ok_bind]
      apply ih
      obtain ⟨e, he, hne⟩ := h
      rcases List.mem_cons.mp he with rfl | he'
      · rw [hx] at hne
        cases hne
      · exact ⟨e, he', hne⟩
    · rw [Go_delete_unhashable s x (by simpa using hx)]
      rfl

/-- Claim C19, the failing input: `Delete` on the nil set of type `Set[any]` with the key
`any([]int{1})` panics in `delete`, which hashes the key before it looks at the map.  With keys
that can be hashed, `Delete` on the nil set returns and leaves the set nil, and so does
`DeleteFunc` with every `del`; with a key that cannot be hashed `Delete` panics on every nil
set. -/
theorem delete_on_the_nil_set_panics_on_an_unhashable_key :
    Go.Delete (Go.nilSet : Go.Set AnyValue) [AnyValue.ints [1]] =
      .error .hashOfUnhashableType ∧
    (∀ v : List AnyValue, (∀ e ∈ v, Key.hashable e = true) →
      Go.Delete (Go.nilSet : Go.Set AnyValue) v = .ok Go.nilSet) ∧
    (∀ v : List AnyValue, (∃ e ∈ v, Key.hashable e = false) →
      Go.Delete (Go.nilSet : Go.Set AnyValue) v = .error .hashOfUnhashableType) ∧
    (∀ del : AnyValue → Bool, Go.DeleteFunc (Go.nilSet : Go.Set AnyValue) del = .ok Go.nilSet) ∧
    (Go.nilSet : Go.Set AnyValue).isNil = true ∧ Go.len (Go.nilSet : Go.Set AnyValue) = 0 :=
  ⟨by decide, fun v hv => Go_Delete_nilSet v hv, fun v hv => Go_Delete_unhashable _ v hv,
    fun _ => rfl, rfl, rfl⟩

theorem Go_InsertSeq_slicesValues [DecidableEq E] [Key E] (s : Go.Set E) (xs : List E) :
    Go.InsertSeq s (slicesValues xs) = xs.foldlM Go.store s := by
  unfold Go.InsertSeq slicesValues
  induction xs generalizing s with
  | nil => rfl
  | cons x xs ih =>
    rw [List.foldlM_cons]
    cases h : Go.store s x with
    | error p =>
      simp only [rangeLoop, h]
      rfl
    | ok s' =>
      rw [ok_bind, ← ih s']
      simp only [rangeLoop, h, ok_bind, pure_eq_ok]
      rfl

/-- A write loop on the nil map panics at its first element, before the key is hashed. -/
theorem Go_storeLoop_nil [DecidableEq E] [Key E] (xs : List E) :
    (xs.foldlM Go.store (Go.nilSet : Go.Set E) = .error .assignmentToEntryInNilMap ↔
      xs ≠ []) ∧
    (xs = [] → xs.foldlM Go.store (Go.nilSet : Go.Set E) = .ok Go.nilSet) := by
  cases xs with
  | nil =>
    refine ⟨⟨fun h => ?_, fun h => absurd rfl h⟩, fun _ => rfl⟩
    cases h
  | cons x xs =>
    refine ⟨⟨fun _ => List.cons_ne_nil x xs, fun _ => ?_⟩,
      fun h => absurd h (List.cons_ne_nil x xs)⟩
    rw [List.foldlM_cons, Go_store_nil Go.nilSet x rfl]
    rfl

theorem Go_Replace_nilSet [DecidableEq E] [Key E] (old new : E)
    (ho : Key.hashable old = true) :
    Go.Replace (Go.nilSet : Go.Set E) old new = .ok Go.nilSet := by
  unfold Go.Replace
  rw [Go_lookup_ok _ old ho, ok_bind]
  simp only [Go.nilSet, List.not_mem_nil, decide_False, Bool.and_false, Bool.not_false, if_true]
  rfl

/-- Claim C40, the failing input: `Replace` on the nil set of type `Set[any]` with
`old = any([]int{1})` panics in its map read, which hashes the key before it looks at the map.
The rest of the claim holds on every key type: on the nil set `Insert`, `Copy` and `InsertSeq`
(on the iterator over a slice) panic, with the assignment to an entry in a nil map, if and only
if there is an element to write, and return with the set unchanged otherwise; `Replace` returns
with the set unchanged whenever `old` can be hashed, and `ReplaceFunc` always does. -/
theorem replace_on_the_nil_set_panics_on_an_unhashable_key [DecidableEq E] [Key E] :
    Go.Replace (Go.nilSet : Go.Set AnyValue) (AnyValue.ints [1]) (AnyValue.int 1) =
      .error .hashOfUnhashableType ∧
    (∀ v : List E,
      (Go.Insert (Go.nilSet : Go.Set E) v = .error .assignmentToEntryInNilMap ↔ v ≠ []) ∧
      (v = [] → Go.Insert (Go.nilSet : Go.Set E) v = .ok Go.nilSet)) ∧
    (∀ src : Go.Set E,
      (Go.Copy (Go.nilSet : Go.Set E) src = .error .assignmentToEntryInNilMap ↔
        Go.len src ≠ 0) ∧
      (Go.len src = 0 → Go.Copy (Go.nilSet : Go.Set E) src = .ok Go.nilSet)) ∧
    (∀ xs : List E,
      (Go.InsertSeq (Go.nilSet : Go.Set E) (slicesValues xs) =
        .error .assignmentToEntryInNilMap ↔ xs ≠ []) ∧
      (xs = [] → Go.InsertSeq (Go.nilSet : Go.Set E) (slicesValues xs) = .ok Go.nilSet)) ∧
    (∀ old new : E, Key.hashable old = true →
      Go.Replace (Go.nilSet : Go.Set E) old new = .ok Go.nilSet) ∧
    (∀ old new : E, Key.hashable old = false →
      Go.Replace (Go.nilSet : Go.Set E) old new = .error .hashOfUnhashableType) ∧
    (∀ f : E → E, Go.ReplaceFunc (Go.nilSet : Go.Set E) f = .ok Go.nilSet) := by
  refine ⟨by decide, fun v => Go_storeLoop_nil v, fun src => ?_, fun xs => ?_,
    fun old new ho => Go_Replace_nilSet old new ho,
    fun old new ho => Go_Replace_unhashable _ old new ho, fun f => rfl⟩
  · have hk := Go_storeLoop_nil src.keys
    unfold Go.Copy Go.len
    simp only [ne_eq, List.length_eq_zero]
    exact hk
  · rw [Go_InsertSeq_slicesValues]
    exact Go_storeLoop_nil xs

/-- Counterexample to claim C8: three calls with legal arguments that panic.  `Insert` on the
nil set writes to the nil map; `Contains` on a `Set[any]` (here the nil one) hashes its argument,
which panics for `any([]int{1})`; `Union` of `2^32` times the set `From(0, ..., 2^31 - 1)`
computes the capacity `-2^63` and panics in `New`. -/
theorem operations_panic_on_legal_arguments :
    Go.Insert (Go.nilSet : Go.Set Nat) [1] = .error .assignmentToEntryInNilMap ∧
    Go.Contains (Go.nilSet : Go.Set AnyValue) (AnyValue.ints [1]) =
      .error .hashOfUnhashableType ∧
    Go.Union (List.replicate (2 ^ 32) (rangeSet (2 ^ 31))) = .error .cannotBeNegative := by
  refine ⟨by decide, by decide, Go_Union_neg _ ?_⟩
  rw [sizeSum_replicate, len_rangeSet]
  unfold intAdd
  norm_num

/-- Claim C8, amended: every operation of the package returns without a panic, on nil sets as
on allocated ones, under these conditions: the capacity of `New` and the `n` of `Grow` are not
negative and the `n` of `Chunk` is at least 1; `Insert`, `Copy` and `InsertSeq` have an allocated
target or nothing to insert; every value that reaches a map read, write or `delete` as a key (an
element of `v` or of a slice, `old`, `new`, a value of `f`, an element of the input sequence) can
be hashed; the capacity that `Union`, `SymmetricDifference`, `Difference` and `CartesianProduct`
compute in `int` arithmetic is not negative; and an input sequence behaves.  The iterators of
`All`, `Chunk` and `UnionSeq` behave: they do not panic when the loop body of the consumer does
not.  `String`, `ToSlice`, `ToSliceFunc`, `Some`, `Every` and `Reduce` consist of `len`, `range`
and calls of their function argument only and are functions without a panic case. -/
theorem returns_apart_from_bad_arguments_nil_targets_unhashable_keys_and_wraps {E A : Type}
    [DecidableEq E] [Key E] [DecidableEq A] [Key A] :
    (∀ capacity : Int, 0 ≤ capacity → ∃ r : Go.Set E, Go.New capacity = .ok r) ∧
    (∀ vals : Slice E, (∀ e ∈ vals.elems, Key.hashable e = true) →
      ∃ r, Go.From vals = .ok r) ∧
    (∀ slice : Slice E, (∀ e ∈ slice.elems, Key.hashable e = true) →
      ∃ r, Go.FromSlice slice = .ok r) ∧
    (∀ (slice : Slice A) (f : A → E), (∀ a ∈ slice.elems, Key.hashable (f a) = true) →
      ∃ r, Go.FromSliceFunc slice f = .ok r) ∧
    (∀ s : Go.Set E, ∃ r, Go.Clone s = .ok r) ∧
    (∀ dst src : Go.Set E, dst.isNil = false ∨ Go.len src = 0 →
      ∃ r, Go.Copy dst src = .ok r) ∧
    (∀ (s : Go.Set E) (n : Int), 0 ≤ n → ∃ r, Go.Grow s n = .ok r) ∧
    (∀ (s : Go.Set E) (v : List E),
      (s.isNil = false ∧ ∀ e ∈ v, Key.hashable e = true) ∨ v = [] →
      ∃ r, Go.Insert s v = .ok r) ∧
    (∀ (s : Go.Set E) (v : List E), (∀ e ∈ v, Key.hashable e = true) →
      ∃ r, Go.Delete s v = .ok r) ∧
    (∀ (s : Go.Set E) (del : E → Bool), ∃ r, Go.DeleteFunc s del = .ok r) ∧
    (∀ (s : Go.Set E) (old new : E), Key.hashable old = true → Key.hashable new = true →
      ∃ r, Go.Replace s old new = .ok r) ∧
    (∀ (s : Go.Set E) (f : E → E), (∀ e ∈ s.keys, Key.hashable (f e) = true) →
      ∃ r, Go.ReplaceFunc s f = .ok r) ∧
    (∀ sets : List (Go.Set E), 0 ≤ Go.sizeSum sets → ∃ r, Go.Union sets = .ok r) ∧
    (∀ sets : List (Go.Set E), ∃ r, Go.Intersection sets = .ok r) ∧
    (∀ (minuend : Go.Set E) (subtrahends : List (Go.Set E)),
      Go.len minuend = 0 ∨ subtrahends.length ≤ 1 ∨ 0 ≤ Go.sizeSum subtrahends →
      ∃ r, Go.Difference minuend subtrahends = .ok r) ∧
    (∀ sets : List (Go.Set E), sets.length ≤ 1 ∨ 0 ≤ Go.sizeSum sets →
      ∃ r, Go.SymmetricDifference sets = .ok r) ∧
    (∀ (set1 : Go.Set E) (set2 : Go.Set A),
      Go.len set1 = 0 ∨ Go.len set2 = 0 ∨
        0 ≤ intMul (Go.len set1 : Int) (Go.len set2 : Int) →
      ∃ r, Go.CartesianProduct set1 set2 = .ok r) ∧
    (∀ sets : List (Go.Set E), (sets.map Go.len).sum < 2 ^ 63 → 0 ≤ Go.sizeSum sets) ∧
    (∀ (set1 : Go.Set E) (set2 : Go.Set A), Go.len set1 * Go.len set2 < 2 ^ 63 →
      0 ≤ intMul (Go.len set1 : Int) (Go.len set2 : Int)) ∧
    (∀ (s : Go.Set E) (v : E), Key.hashable v = true → ∃ b, Go.Contains s v = .ok b) ∧
    (∀ (s : Go.Set E) (v : List E), Go.len s = 0 ∨ (∀ e ∈ v, Key.hashable e = true) →
      ∃ b, Go.ContainsAny s v = .ok b) ∧
    (∀ (s : Go.Set E) (v : List E),
      v = [] ∨ Go.len s = 0 ∨ (∀ e ∈ v, Key.hashable e = true) →
      ∃ b, Go.ContainsAll s v = .ok b) ∧
    (∀ s1 s2 : Go.Set E, ∃ b, Go.Equal s1 s2 = .ok b) ∧
    (∀ s1 s2 : Go.Set E, ∃ b, Go.Overlaps s1 s2 = .ok b) ∧
    (∀ s1 s2 : Go.Set E, ∃ b, Go.Subset s1 s2 = .ok b) ∧
    (∀ s1 s2 : Go.Set E, ∃ b, Go.ProperSubset s1 s2 = .ok b) ∧
    (∀ (s : Go.Set E) (f : E → A), (∀ e ∈ s.keys, Key.hashable (f e) = true) →
      ∃ r, Go.Map s f = .ok r) ∧
    (∀ (s : Go.Set E) (f : E → Bool), ∃ r, Go.Filter s f = .ok r) ∧
    (∀ (s : Go.Set E) (seq : Seq E),
      s.isNil = false → SafeSeq (fun e => Key.hashable e = true) seq →
      ∃ r, Go.InsertSeq s seq = .ok r) ∧
    (∀ seq : Seq E, SafeSeq (fun e => Key.hashable e = true) seq →
      ∃ r, Go.Collect seq = .ok r) ∧
    (∀ s : Go.Set E, SafeSeq (fun e => e ∈ s.keys ∧ Key.hashable e = true) (Go.All s)) ∧
    (∀ (s : Go.Set E) (n : Int), 1 ≤ n →
      ∃ seq, Go.Chunk s n = .ok seq ∧ SafeSeq (fun c => c.isNil = false) seq) ∧
    (∀ seq : Seq (Go.Set E), SafeSeq (fun _ => True) seq →
      SafeSeq (fun e => Key.hashable e = true) (Go.UnionSeq seq)) ∧
    (∀ xs : List E, SafeSeq (fun e => e ∈ xs) (slicesValues xs)) := by
  refine ⟨?_, ?_, ?_, ?_, ?_, ?_, ?_, ?_, ?_, ?_, ?_, ?_, ?_, ?_, ?_, ?_, ?_, ?_, ?_, ?_, ?_,
    ?_, ?_, ?_, ?_, ?_, ?_, ?_, ?_, ?_, ?_, ?_, ?_, ?_⟩
  · exact fun c hc => ⟨_, Go_New_ok c hc⟩
  · intro vals hv
    obtain ⟨r, h, _⟩ := Go_FromSlice_ok vals hv
    exact ⟨r, h⟩
  · intro slice hv
    obtain ⟨r, h, _⟩ := Go_FromSlice_ok slice hv
    exact ⟨r, h⟩
  · intro slice f hv
    obtain ⟨r, h, _⟩ := Go_FromSliceFunc_ok slice f hv
    exact ⟨r, h⟩
  · intro s
    obtain ⟨r, h, _⟩ := Go_Clone_ok s
    exact ⟨r, h⟩
  · intro dst src h
    rcases h with h | h
    · obtain ⟨r, h1, _⟩ := Go_Copy_ok dst src h
      exact ⟨r, h1⟩
    · unfold Go.Copy
      rw [List.length_eq_zero.mp h]
      exact ⟨dst, rfl⟩
  · intro s n hn
    obtain ⟨r, h, _⟩ := Go_Grow_ok s n hn
    exact ⟨r, h⟩
  · intro s v h
    rcases h with ⟨h1, h2⟩ | h
    · obtain ⟨r, h, _⟩ := Go_Insert_ok s v h1 h2
      exact ⟨r, h⟩
    · subst h
      exact ⟨s, rfl⟩
  · intro s v hv
    obtain ⟨r, h, _⟩ := Go_Delete_ok s v hv
    exact ⟨r, h⟩
  · intro s del
    obtain ⟨r, h, _⟩ := Go_DeleteFunc_ok s del
    exact ⟨r, h⟩
  · intro s old new ho hw
    obtain ⟨r, h, _⟩ := Go_Replace_ok s old new ho hw
    exact ⟨r, h⟩
  · intro s f hf
    obtain ⟨r, h, _⟩ := Go_ReplaceFunc_ok s f hf
    exact ⟨r, h⟩
  · intro sets h
    obtain ⟨r, h1, _⟩ := Go_Union_ok sets h
    exact ⟨r, h1⟩
  · intro sets
    obtain ⟨r, h, _⟩ := Go_Intersection_ok sets
    exact ⟨r, h⟩
  · intro m subs h
    obtain ⟨r, h1, _⟩ := Go_Difference_ok m subs h
    exact ⟨r, h1⟩
  · intro sets h
    obtain ⟨r, h1, _⟩ := Go_SymmetricDifference_ok sets h
    exact ⟨r, h1⟩
  · intro set1 set2 h
    obtain ⟨r, h1, _⟩ := Go_CartesianProduct_ok set1 set2 h
    exact ⟨r, h1⟩
  · intro sets h
    rw [sizeSum_of_fits sets h]
    exact Int.natCast_nonneg _
  · intro set1 set2 h
    have h' : ((Go.len set1 : Int) * (Go.len set2 : Int)) < 2 ^ 63 := by exact_mod_cast h
    rw [intMul_of_fits _ _ (Int.mul_nonneg (Int.natCast_nonneg _) (Int.natCast_nonneg _)) h']
    exact Int.mul_nonneg (Int.natCast_nonneg _) (Int.natCast_nonneg _)
  · exact fun s v hv => ⟨_, Go_Contains_ok s v hv⟩
  · exact fun s v h => Go_ContainsAny_ok s v h
  · exact fun s v h => Go_ContainsAll_ok s v h
  · exact Go_Equal_ok
  · exact Go_Overlaps_ok
  · exact Go_Subset_ok
  · exact Go_ProperSubset_ok
  · intro s f hf
    obtain ⟨r, h, _⟩ := Go_Map_ok s f hf
    exact ⟨r, h⟩
  · intro s f
    obtain ⟨r, h, _⟩ := Go_Filter_ok s f
    exact ⟨r, h⟩
  · intro s seq hn hs
    obtain ⟨r, h, _⟩ := Go_InsertSeq_ok s seq hn hs
    exact ⟨r, h⟩
  · intro seq hs
    obtain ⟨r, h, _⟩ := Go_Collect_ok seq hs
    exact ⟨r, h⟩
  · exact Go_All_safe
  · exact Go_Chunk_safe
  · exact Go_UnionSeq_safe
  · exact SafeSeq_slicesValues

/-! ## Insert, Delete and the constructors on every key type -/

/-- The keys of a map that are equal to themselves are pairwise different. -/
theorem Go_nodup_of_selfEq [DecidableEq E] [Key E] (ks : List E)
    (hd : ks.Pairwise (fun a b => a ≠ b ∨ Key.selfEq a = false))
    (hs : ∀ k ∈ ks, Key.selfEq k = true) : ks.Nodup := by
  refine hd.imp_of_mem ?_
  intro a b ha _ hab
  rcases hab with h | h
  · exact h
  · rw [hs a ha] at h
    cases h

/-- A map holds a key that is equal to itself at most once. -/
theorem Go_count_le_one [DecidableEq E] [Key E] (s : Go.Set E) (e : E)
    (hs : Key.selfEq e = true) : s.keys.count e ≤ 1 := by
  have hn : (s.keys.filter (fun a => Key.selfEq a)).Nodup :=
    Go_nodup_of_selfEq _ (s.distinct.filter _) (fun k hk => (List.mem_filter.mp hk).2)
  have hc := List.nodup_iff_count_le_one.mp hn e
  rwa [List.count_filter hs] at hc

theorem Go_Regular_nodup [DecidableEq E] [Key E] (s : Go.Set E) (h : s.Regular) :
    s.keys.Nodup :=
  Go_nodup_of_selfEq s.keys s.distinct h

/-- Counterexample to claim C16: two writes of `math.NaN()` into the empty set add two
entries, so that duplicates in the input do not collapse, and `Contains` does not find the
element that was inserted. -/
theorem insert_of_nan_twice_adds_two_entries :
    (Go.Insert (Go.make 0 : Go.Set Float64) [Float64.nan, Float64.nan]).map Go.len = .ok 2 ∧
    (Go.Insert (Go.make 0 : Go.Set Float64) [Float64.nan]).bind
      (fun r => Go.Contains r Float64.nan) = .ok false := by
  decide

/-- Claim C16, amended: with an allocated target and elements that can be hashed, `Insert`,
`Copy` and `InsertSeq` (on the iterator over a slice, and on `All(src)`) return, and afterwards
an element is among the keys of the target if and only if it was before or occurs in the input;
an element that is equal to itself is held at most once (duplicates of it collapse), and for an
element that can be hashed and is equal to itself this membership is what `Contains` tells.  An
element that is not equal to itself (NaN) is added by every write of it. -/
theorem insert_copy_insertSeq_add_the_elements [DecidableEq E] [Key E] :
    (∀ (s : Go.Set E) (v : List E), s.isNil = false → (∀ e ∈ v, Key.hashable e = true) →
      ∃ r, Go.Insert s v = .ok r ∧ r.isNil = false ∧
        (∀ e, e ∈ r.keys ↔ e ∈ s.keys ∨ e ∈ v) ∧
        (∀ e, Key.selfEq e = true → r.keys.count e ≤ 1) ∧
        ∀ e, Key.hashable e = true → Key.selfEq e = true →
          (Go.Contains r e = .ok true ↔ Go.Contains s e = .ok true ∨ e ∈ v)) ∧
    (∀ dst src : Go.Set E, dst.isNil = false →
      ∃ r, Go.Copy dst src = .ok r ∧ r.isNil = false ∧
        (∀ e, e ∈ r.keys ↔ e ∈ dst.keys ∨ e ∈ src.keys) ∧
        (∀ e, Key.selfEq e = true → r.keys.count e ≤ 1) ∧
        ∀ e, Key.hashable e = true → Key.selfEq e = true →
          (Go.Contains r e = .ok true ↔
            Go.Contains dst e = .ok true ∨ Go.Contains src e = .ok true)) ∧
    (∀ (s : Go.Set E) (xs : List E), s.isNil = false → (∀ e ∈ xs, Key.hashable e = true) →
      ∃ r, Go.InsertSeq s (slicesValues xs) = .ok r ∧ r.isNil = false ∧
        (∀ e, e ∈ r.keys ↔ e ∈ s.keys ∨ e ∈ xs) ∧
        (∀ e, Key.selfEq e = true → r.keys.count e ≤ 1)) ∧
    (∀ s src : Go.Set E, s.isNil = false →
      ∃ r, Go.InsertSeq s (Go.All src) = .ok r ∧ r.isNil = false ∧
        (∀ e, e ∈ r.keys ↔ e ∈ s.keys ∨ e ∈ src.keys) ∧
        (∀ e, Key.selfEq e = true → r.keys.count e ≤ 1)) := by
  refine ⟨fun s v hn hv => ?_, fun dst src hn => ?_, fun s xs hn hv => ?_,
    fun s src hn => ?_⟩
  · obtain ⟨r, h1, h2, _, h4⟩ := Go_Insert_ok s v hn hv
    refine ⟨r, h1, h2, h4, fun e he => Go_count_le_one r e he, fun e hh hs => ?_⟩
    rw [Go_Contains_iff r e hh hs, Go_Contains_iff s e hh hs, h4]
  · obtain ⟨r, h1, h2, _, h4⟩ := Go_Copy_ok dst src hn
    refine ⟨r, h1, h2, h4, fun e he => Go_count_le_one r e he, fun e hh hs => ?_⟩
    rw [Go_Contains_iff r e hh hs, Go_Contains_iff dst e hh hs, Go_Contains_iff src e hh hs, h4]
  · obtain ⟨r, h1, h2, _, h4⟩ := Go_Insert_ok s xs hn hv
    refine ⟨r, ?_, h2, h4, fun e he => Go_count_le_one r e he⟩
    rw [Go_InsertSeq_slicesValues]
    exact h1
  · obtain ⟨r, h1, h2, _, h4⟩ := Go_Copy_ok s src hn
    refine ⟨r, ?_, h2, h4, fun e he => Go_count_le_one r e he⟩
    rw [Go_All_eq_slicesValues, Go_InsertSeq_slicesValues]
    exact h1

/-- `Delete` with keys that can be hashed and are equal to themselves removes the keys. -/
theorem Go_Delete_spec [DecidableEq E] [Key E] (s : Go.Set E) (v : List E)
    (hv : ∀ e ∈ v, Key.hashable e = true ∧ Key.selfEq e = true) :
    ∃ r, Go.Delete s v = .ok r ∧ r.isNil = s.isNil ∧ r.hint = s.hint ∧
      ∀ x, x ∈ r.keys ↔ x ∈ s.keys ∧ x ∉ v := by
  unfold Go.Delete
  induction v generalizing s with
  | nil => exact ⟨s, rfl, rfl, rfl, fun x => by simp⟩
  | cons e v ih =>
    obtain ⟨hh, hs⟩ := hv e (List.mem_cons_self e v)
    obtain ⟨r1, h1, h2, h3, _, h5⟩ := Go_delete_mem s e hh hs
    obtain ⟨r, k1, k2, k3, k4⟩ := ih r1 (fun y hy => hv y (List.mem_cons_of_mem e hy))
    refine ⟨r, ?_, k2.trans h2, k3.trans h3, fun x => ?_⟩
    · rw [List.foldlM_cons, h1, ok_bind]
      exact k1
    · rw [k4, h5, List.mem_cons, not_or]
      tauto

/-- Counterexample to claim C17: `Delete(s, math.NaN())` on `s = From(math.NaN())` removes
nothing: the element occurs in `v` and is still in `s`. -/
theorem delete_of_nan_removes_nothing :
    (Go.Delete nanSet [Float64.nan]).map (fun r => r.keys) = .ok [Float64.nan] := by
  decide

/-- `Delete` with keys that can be hashed removes the keys that are equal to themselves; a key
that is not equal to itself stays. -/
theorem Go_Delete_keys [DecidableEq E] [Key E] (s : Go.Set E) (v : List E)
    (hv : ∀ e ∈ v, Key.hashable e = true) :
    ∃ r, Go.Delete s v = .ok r ∧ r.isNil = s.isNil ∧
      ∀ x, x ∈ r.keys ↔ x ∈ s.keys ∧ (x ∉ v ∨ Key.selfEq x = false) := by
  unfold Go.Delete
  induction v generalizing s with
  | nil => exact ⟨s, rfl, rfl, fun x => by simp⟩
  | cons e v ih =>
    have hh := hv e (List.mem_cons_self e v)
    by_cases hs : Key.selfEq e = true
    · obtain ⟨r1, h1, h2, _, _, h5⟩ := Go_delete_mem s e hh hs
      obtain ⟨r, k1, k2, k4⟩ := ih r1 (fun y hy => hv y (List.mem_cons_of_mem e hy))
      refine ⟨r, ?_, k2.trans h2, fun x => ?_⟩
      · rw [List.foldlM_cons, h1, ok_bind]
        exact k1
      · rw [k4, h5, List.mem_cons, not_or]
        by_cases hxe : x = e
        · subst hxe
          simp [hs]
        · simp [hxe]
    · have hs' : Key.selfEq e = false := by simpa using hs
      obtain ⟨r1, h1, _, _, _, h5⟩ := Go_delete_ok s e hh
      have hr1 : r1 = s := h5 hs'
      subst hr1
      obtain ⟨r, k1, k2, k4⟩ := ih r1 (fun y hy => hv y (List.mem_cons_of_mem e hy))
      refine ⟨r, ?_, k2, fun x => ?_⟩
      · rw [List.foldlM_cons, h1, ok_bind]
        exact k1
      · rw [k4, List.mem_cons, not_or]
        by_cases hxe : x = e
        · subst hxe
          simp [hs']
        · simp [hxe]

/-- Claim C17, amended: for every set `s` and every list `v` of elements that can be hashed,
`Delete(s, v...)` returns and a nil set stays nil; afterwards an element that is equal to itself
is among the keys of `s` if and only if it was before and does not occur in `v`, and an element
that is not equal to itself (a NaN) if and only if it was before: `delete` does not find it.  So
for a list `v` without a NaN an element is in `s` if and only if it was before and does not
occur in `v`.  For an element that can be hashed and is equal to itself this membership is what
`Contains` tells. -/
theorem delete_mem_iff_for_self_equal_keys [DecidableEq E] [Key E] (s : Go.Set E)
    (v : List E) :
    (∀ e ∈ v, Key.hashable e = true) →
      ∃ r, Go.Delete s v = .ok r ∧ r.isNil = s.isNil ∧
        (∀ e, Key.selfEq e = true → (e ∈ r.keys ↔ e ∈ s.keys ∧ e ∉ v)) ∧
        (∀ e, Key.selfEq e = false → (e ∈ r.keys ↔ e ∈ s.keys)) ∧
        ((∀ e ∈ v, Key.selfEq e = true) → ∀ e, e ∈ r.keys ↔ e ∈ s.keys ∧ e ∉ v) ∧
        ∀ e, Key.hashable e = true → Key.selfEq e = true →
          (Go.Contains r e = .ok true ↔ Go.Contains s e = .ok true ∧ e ∉ v) := by
  intro hv
  obtain ⟨r, h1, h2, h4⟩ := Go_Delete_keys s v hv
  have hself : ∀ e, Key.selfEq e = true → (e ∈ r.keys ↔ e ∈ s.keys ∧ e ∉ v) := by
    intro e hs
    rw [h4, hs]
    simp
  refine ⟨r, h1, h2, hself, fun e hs => ?_, fun hall e => ?_, fun e hh hs => ?_⟩
  · rw [h4, hs]
    simp
  · rw [h4]
    constructor
    · rintro ⟨hm, hn | hn⟩
      · exact ⟨hm, hn⟩
      · refine ⟨hm, fun hev => ?_⟩
        rw [hall e hev] at hn
        cases hn
    · rintro ⟨hm, hn⟩
      exact ⟨hm, Or.inl hn⟩
  · rw [Go_Contains_iff r e hh hs, Go_Contains_iff s e hh hs, hself e hs]

/-- Witness of claim C17: `Delete(From(0, 1, 2), 1)`. -/
theorem delete_mem_iff_for_self_equal_keys_witness :
    (∀ e ∈ [1], Key.hashable e = true) ∧
    ∃ r, Go.Delete (rangeSet 3) [1] = .ok r ∧ r.isNil = (rangeSet 3).isNil ∧
      (∀ e, Key.selfEq e = true → (e ∈ r.keys ↔ e ∈ (rangeSet 3).keys ∧ e ∉ [1])) ∧
      (∀ e, Key.selfEq e = false → (e ∈ r.keys ↔ e ∈ (rangeSet 3).keys)) ∧
      ((∀ e ∈ [1], Key.selfEq e = true) → ∀ e, e ∈ r.keys ↔ e ∈ (rangeSet 3).keys ∧ e ∉ [1]) ∧
      ∀ e, Key.hashable e = true → Key.selfEq e = true →
        (Go.Contains r e = .ok true ↔ Go.Contains (rangeSet 3) e = .ok true ∧ e ∉ [1]) :=
  ⟨by decide, delete_mem_iff_for_self_equal_keys (rangeSet 3) [1] (by decide)⟩

/-! ## Equal, Subset and ProperSubset on every key type -/

theorem all_congr_mem {α : Type} (xs : List α) (f g : α → Bool)
    (h : ∀ x ∈ xs, f x = g x) : xs.all f = xs.all g := by
  induction xs with
  | nil => rfl
  | cons x xs ih =>
    rw [List.all_cons, List.all_cons, h x (List.mem_cons_self x xs),
      ih (fun y hy => h y (List.mem_cons_of_mem x hy))]

theorem Go_loopAll_eq {α : Type} (p : α → Except Panic Bool) (t : α → Bool) (xs : List α)
    (h : ∀ x ∈ xs, p x = .ok (t x)) : Go.loopAll p xs = .ok (xs.all t) := by
  induction xs with
  | nil => rfl
  | cons x xs ih =>
    unfold Go.loopAll
    rw [h x (List.mem_cons_self x xs), ok_bind, List.all_cons]
    cases t x
    · rfl
    · exact ih (fun y hy => h y (List.mem_cons_of_mem x hy))

theorem Go_loopAny_eq {α : Type} (p : α → Except Panic Bool) (t : α → Bool) (xs : List α)
    (h : ∀ x ∈ xs, p x = .ok (t x)) : Go.loopAny p xs = .ok (xs.any t) := by
  induction xs with
  | nil => rfl
  | cons x xs ih =>
    unfold Go.loopAny
    rw [h x (List.mem_cons_self x xs), ok_bind, List.any_cons]
    cases t x
    · exact ih (fun y hy => h y (List.mem_cons_of_mem x hy))
    · rfl

/-- The value of `Equal(s1, s2)`: the sizes agree and every key of `s1` is equal to itself and
a key of `s2`. -/
theorem Go_Equal_eq [DecidableEq E] [Key E] (s1 s2 : Go.Set E) :
    Go.Equal s1 s2 = .ok (decide (Go.len s1 = Go.len s2) &&
      s1.keys.all (fun e => Key.selfEq e && decide (e ∈ s2.keys))) := by
  unfold Go.Equal
  by_cases h : Go.len s1 = Go.len s2
  · rw [if_neg (by simpa using h),
      Go_loopAll_eq _ (fun e => Key.selfEq e && decide (e ∈ s2.keys)) s1.keys
        (fun e he => Go_lookup_ok s2 e (s1.hashed e he))]
    simp [h]
  · rw [if_pos h]
    simp only [h, decide_False, Bool.false_and]
    rfl

/-- The value of `Subset(subset, superset)`. -/
theorem Go_Subset_eq [DecidableEq E] [Key E] (s1 s2 : Go.Set E) :
    Go.Subset s1 s2 = .ok (s1.keys.all (fun e => Key.selfEq e && decide (e ∈ s2.keys))) := by
  unfold Go.Subset
  by_cases h1 : Go.len s1 = 0
  · rw [if_pos h1, List.length_eq_zero.mp h1]
    rfl
  · rw [if_neg h1]
    by_cases h2 : Go.len s2 = 0
    · rw [if_pos h2, List.length_eq_zero.mp h2]
      have hne : s1.keys ≠ [] := fun h => h1 (by unfold Go.len; rw [h]; rfl)
      obtain ⟨e, he⟩ := List.exists_mem_of_ne_nil _ hne
      have : s1.keys.all (fun e => Key.selfEq e && decide (e ∈ ([] : List E))) = false := by
        rw [List.all_eq_false]
        exact ⟨e, he, by simp⟩
      rw [this]
      rfl
    · rw [if_neg h2]
      exact Go_loopAll_eq _ _ s1.keys (fun e he => Go_lookup_ok s2 e (s1.hashed e he))

/-- Two sets without a NaN are compared by `Equal` as the sets with the same keys in the first
embedding are. -/
theorem Go_Equal_asSet [DecidableEq E] [Key E] (s1 s2 : Go.Set E) (h1 : s1.Regular)
    (h2 : s2.Regular) : Go.Equal s1 s2 = .ok (Equal (asSet s1) (asSet s2)) := by
  have k1 : (asSet s1).keys = s1.keys := (Go_Regular_nodup s1 h1).dedup
  have k2 : (asSet s2).keys = s2.keys := (Go_Regular_nodup s2 h2).dedup
  rw [Go_Equal_eq]
  unfold Equal len lookup
  rw [k1, k2]
  congr 1
  have e : s1.keys.all (fun e => Key.selfEq e && decide (e ∈ s2.keys)) =
      s1.keys.all (fun e => decide (e ∈ s2.keys)) := by
    apply all_congr_mem
    intro x hx
    rw [h1 x hx, Bool.true_and]
  rw [e]
  by_cases h : Go.len s1 = Go.len s2
  · have h' : s1.keys.length = s2.keys.length := h
    simp [h, h']
  · have h' : ¬ s1.keys.length = s2.keys.length := h
    simp [h, h']

theorem Go_Subset_asSet [DecidableEq E] [Key E] (s1 s2 : Go.Set E) (h1 : s1.Regular)
    (h2 : s2.Regular) : Go.Subset s1 s2 = .ok (Subset (asSet s1) (asSet s2)) := by
  have k1 : (asSet s1).keys = s1.keys := (Go_Regular_nodup s1 h1).dedup
  have k2 : (asSet s2).keys = s2.keys := (Go_Regular_nodup s2 h2).dedup
  rw [Go_Subset_eq]
  congr 1
  have e : s1.keys.all (fun e => Key.selfEq e && decide (e ∈ s2.keys)) =
      s1.keys.all (fun e => decide (e ∈ s2.keys)) := by
    apply all_congr_mem
    intro x hx
    rw [h1 x hx, Bool.true_and]
  rw [e]
  symm
  rw [Bool.eq_iff_iff, Subset_iff, k1, k2]
  simp

/-- Keys of `s1` that are all equal to themselves and keys of `s2`: `s1` is not larger than
`s2`, and when the sizes agree the two sets have the same keys. -/
theorem Go_len_le_of_found [DecidableEq E] [Key E] (s1 s2 : Go.Set E)
    (h : ∀ e ∈ s1.keys, Key.selfEq e = true ∧ e ∈ s2.keys) :
    Go.len s1 ≤ Go.len s2 ∧
    (Go.len s1 = Go.len s2 → ∀ e, e ∈ s1.keys ↔ e ∈ s2.keys) := by
  have hn : s1.keys.Nodup := Go_nodup_of_selfEq s1.keys s1.distinct (fun k hk => (h k hk).1)
  have hsub : List.Subperm s1.keys s2.keys := List.subperm_of_subset hn (fun e he => (h e he).2)
  refine ⟨hsub.length_le, fun hlen e => ?_⟩
  exact (hsub.perm_of_length_le (le_of_eq hlen.symm)).mem_iff

theorem Go_all_found_iff [DecidableEq E] [Key E] (s1 s2 : Go.Set E) :
    s1.keys.all (fun e => Key.selfEq e && decide (e ∈ s2.keys)) = true ↔
      ∀ e ∈ s1.keys, Key.selfEq e = true ∧ e ∈ s2.keys := by
  simp only [List.all_eq_true, Bool.and_eq_true, decide_eq_true_eq]

/-- `Equal(s1, s2)` is true exactly when the two sets have the same keys and no key of them is
a NaN. -/
theorem Go_Equal_iff [DecidableEq E] [Key E] (s1 s2 : Go.Set E) :
    Go.Equal s1 s2 = .ok true ↔ s1.Regular ∧ ∀ e, e ∈ s1.keys ↔ e ∈ s2.keys := by
  rw [Go_Equal_eq]
  simp only [Except.ok.injEq, Bool.and_eq_true, decide_eq_true_eq]
  rw [Go_all_found_iff]
  constructor
  · rintro ⟨hlen, hall⟩
    exact ⟨fun k hk => (hall k hk).1, (Go_len_le_of_found s1 s2 hall).2 hlen⟩
  · rintro ⟨hreg, hmem⟩
    have hall : ∀ e ∈ s1.keys, Key.selfEq e = true ∧ e ∈ s2.keys :=
      fun e he => ⟨hreg e he, (hmem e).mp he⟩
    have hall' : ∀ e ∈ s2.keys, Key.selfEq e = true ∧ e ∈ s1.keys :=
      fun e he => ⟨hreg e ((hmem e).mpr he), (hmem e).mpr he⟩
    exact ⟨le_antisymm (Go_len_le_of_found s1 s2 hall).1 (Go_len_le_of_found s2 s1 hall').1,
      hall⟩

/-- Counterexample to claim C5: for `A = From(math.NaN())`, `Equal(A, A)` is false, although
`A` and `A` have the same elements: the probe `s2[e]` of a NaN misses. -/
theorem equal_of_a_nan_set_with_itself_is_false :
    Go.Equal nanSet nanSet = .ok false ∧ ∀ e, e ∈ nanSet.keys ↔ e ∈ nanSet.keys :=
  ⟨by decide, fun _ => Iff.rfl⟩

/-- Claim C5, amended: `Equal(s1, s2)` returns; it is true if and only if `s1` and `s2` have
exactly the same elements and none of them is a NaN (an element that is not equal to itself).
Hence `Equal(A, A)` is true if and only if `A` holds no NaN, and `Equal(A, B) = Equal(B, A)`.
For an element that can be hashed and is equal to itself, being among the keys is what
`Contains` tells. -/
theorem equal_iff_same_elements_and_no_nan [DecidableEq E] [Key E] (s1 s2 : Go.Set E) :
    (∃ b, Go.Equal s1 s2 = .ok b) ∧
    (Go.Equal s1 s2 = .ok true ↔ s1.Regular ∧ ∀ e, e ∈ s1.keys ↔ e ∈ s2.keys) ∧
    (s1.Regular → s2.Regular →
      (Go.Equal s1 s2 = .ok true ↔
        ∀ e, Key.hashable e = true →
          (Go.Contains s1 e = .ok true ↔ Go.Contains s2 e = .ok true))) ∧
    (Go.Equal s1 s1 = .ok true ↔ s1.Regular) ∧
    Go.Equal s1 s2 = Go.Equal s2 s1 := by
  refine ⟨Go_Equal_ok s1 s2, Go_Equal_iff s1 s2, fun h1 h2 => ?_, ?_, ?_⟩
  · rw [Go_Equal_iff]
    constructor
    · rintro ⟨_, hmem⟩ e hh
      rw [Go_Contains_ok s1 e hh, Go_Contains_ok s2 e hh]
      simp only [Except.ok.injEq, Bool.and_eq_true, decide_eq_true_eq, hmem]
    · intro hc
      refine ⟨h1, fun e => ⟨fun he => ?_, fun he => ?_⟩⟩
      · have := (hc e (s1.hashed e he)).mp
          ((Go_Contains_iff s1 e (s1.hashed e he) (h1 e he)).mpr he)
        exact (Go_Contains_iff s2 e (s1.hashed e he) (h1 e he)).mp this
      · have := (hc e (s2.hashed e he)).mpr
          ((Go_Contains_iff s2 e (s2.hashed e he) (h2 e he)).mpr he)
        exact (Go_Contains_iff s1 e (s2.hashed e he) (h2 e he)).mp this
  · rw [Go_Equal_iff]
    exact ⟨fun h => h.1, fun h => ⟨h, fun _ => Iff.rfl⟩⟩
  · obtain ⟨a, ha⟩ := Go_Equal_ok s1 s2
    obtain ⟨b, hb⟩ := Go_Equal_ok s2 s1
    rw [ha, hb]
    congr 1
    rw [Bool.eq_iff_iff]
    constructor
    · intro h
      subst h
      obtain ⟨hreg, hmem⟩ := (Go_Equal_iff s1 s2).mp ha
      have := (Go_Equal_iff s2 s1).mpr
        ⟨fun k hk => hreg k ((hmem k).mpr hk), fun e => (hmem e).symm⟩
      rw [hb] at this
      exact Except.ok.inj this
    · intro h
      subst h
      obtain ⟨hreg, hmem⟩ := (Go_Equal_iff s2 s1).mp hb
      have := (Go_Equal_iff s1 s2).mpr
        ⟨fun k hk => hreg k ((hmem k).mpr hk), fun e => (hmem e).symm⟩
      rw [ha] at this
      exact Except.ok.inj this

/-- Counterexample to claim C6: for `A = From(math.NaN())`, `Subset(A, A)` is false, although
every element of `A` is an element of `A`. -/
theorem subset_of_a_nan_set_in_itself_is_false :
    Go.Subset nanSet nanSet = .ok false ∧ ∀ e, e ∈ nanSet.keys → e ∈ nanSet.keys :=
  ⟨by decide, fun _ h => h⟩

/-- Claim C6, amended: `Subset(subset, superset)` returns; it is true if and only if every
element of `subset` is an element of `superset` and is not a NaN (is equal to itself).  In
particular it is true whenever `subset` has no element, and false when `subset` has an element
and `superset` has none; for a `subset` without a NaN it is true if and only if every element of
`subset` is an element of `superset`. -/
theorem subset_iff_all_mem_and_no_nan [DecidableEq E] [Key E] (subset superset : Go.Set E) :
    (Go.Subset subset superset = .ok true ↔
      ∀ e ∈ subset.keys, Key.selfEq e = true ∧ e ∈ superset.keys) ∧
    (∃ b, Go.Subset subset superset = .ok b) ∧
    (subset.Regular →
      (Go.Subset subset superset = .ok true ↔ ∀ e ∈ subset.keys, e ∈ superset.keys)) ∧
    (Go.len subset = 0 → Go.Subset subset superset = .ok true) ∧
    (Go.len subset ≠ 0 ∧ Go.len superset = 0 → Go.Subset subset superset = .ok false) := by
  have key : Go.Subset subset superset = .ok true ↔
      ∀ e ∈ subset.keys, Key.selfEq e = true ∧ e ∈ superset.keys := by
    rw [Go_Subset_eq, Except.ok.injEq, Go_all_found_iff]
  refine ⟨key, Go_Subset_ok subset superset, fun hreg => ?_, fun h0 => ?_, fun h => ?_⟩
  · rw [key]
    exact ⟨fun h e he => (h e he).2, fun h e he => ⟨hreg e he, h e he⟩⟩
  · unfold Go.Subset
    rw [if_pos h0]
    rfl
  · unfold Go.Subset
    rw [if_neg h.1, if_pos h.2]
    rfl

/-- Counterexample to claim C7: for `A = From(math.NaN())`, `Subset(A, A)` is false. -/
theorem subset_of_itself_is_false_for_a_nan_set :
    Go.Subset nanSet nanSet = .ok false ∧ Go.ProperSubset nanSet nanSet = .ok false ∧
    Go.Equal nanSet nanSet = .ok false := by
  decide

/-- Claim C7, amended: for all sets, `ProperSubset(subset, superset)` is
`Subset(subset, superset)` and not `Equal(subset, superset)`; it is true if and only if every
element of `subset` is an element of `superset` and not a NaN, and the two sets do not have the
same elements.  `ProperSubset(A, A)` is false for every `A`; `Subset(A, A)` is true if and only
if `A` holds no NaN. -/
theorem properSubset_is_subset_and_not_equal [DecidableEq E] [Key E]
    (subset superset : Go.Set E) :
    (∃ p s e, Go.ProperSubset subset superset = .ok p ∧ Go.Subset subset superset = .ok s ∧
      Go.Equal subset superset = .ok e ∧ p = (s && !e)) ∧
    (Go.ProperSubset subset superset = .ok true ↔
      (∀ e ∈ subset.keys, Key.selfEq e = true ∧ e ∈ superset.keys) ∧
      ¬ ∀ e, e ∈ subset.keys ↔ e ∈ superset.keys) ∧
    (Go.Subset subset subset = .ok true ↔ subset.Regular) ∧
    Go.ProperSubset subset subset = .ok false := by
  have hS : Go.Subset subset superset = .ok true ↔
      ∀ e ∈ subset.keys, Key.selfEq e = true ∧ e ∈ superset.keys := by
    rw [Go_Subset_eq, Except.ok.injEq, Go_all_found_iff]
  have hP : Go.ProperSubset subset superset =
      if Go.len subset ≥ Go.len superset then .ok false else Go.Subset subset superset := rfl
  obtain ⟨s, hs⟩ := Go_Subset_ok subset superset
  obtain ⟨e, he⟩ := Go_Equal_ok subset superset
  have hval : Go.ProperSubset subset superset = .ok (s && !e) := by
    rw [hP]
    by_cases hge : Go.len subset ≥ Go.len superset
    · rw [if_pos hge]
      congr 1
      cases s
      · rfl
      · have hall := hS.mp hs
        have hlen := le_antisymm (Go_len_le_of_found subset superset hall).1 hge
        have heq := (Go_Equal_iff subset superset).mpr
          ⟨fun k hk => (hall k hk).1, (Go_len_le_of_found subset superset hall).2 hlen⟩
        rw [he] at heq
        cases heq
        rfl
    · rw [if_neg hge, hs]
      congr 1
      have hne : e = false := by
        cases e
        · rfl
        · have := (Go_Equal_iff subset superset).mp he
          rw [Go_Equal_eq] at he
          simp only [Except.ok.injEq, Bool.and_eq_true, decide_eq_true_eq] at he
          omega
      rw [hne]
      simp
  refine ⟨⟨_, s, e, hval, hs, he, rfl⟩, ?_, ?_, ?_⟩
  · rw [hval]
    simp only [Except.ok.injEq, Bool.and_eq_true, Bool.not_eq_true']
    constructor
    · rintro ⟨h1, h2⟩
      subst h1
      subst h2
      have hall := hS.mp hs
      refine ⟨hall, fun hmem => ?_⟩
      have := (Go_Equal_iff subset superset).mpr ⟨fun k hk => (hall k hk).1, hmem⟩
      rw [he] at this
      cases this
    · rintro ⟨hall, hnot⟩
      have h1 := hS.mpr hall
      rw [hs] at h1
      refine ⟨Except.ok.inj h1, ?_⟩
      cases e
      · rfl
      · exact absurd ((Go_Equal_iff subset superset).mp he).2 hnot
  · rw [Go_Subset_eq, Except.ok.injEq, Go_all_found_iff]
    exact ⟨fun h k hk => (h k hk).1, fun h k hk => ⟨h k hk, hk⟩⟩
  · unfold Go.ProperSubset
    rw [if_pos (le_refl _)]
    rfl

/-! ## The constructors, the round trips and ReplaceFunc on every key type -/

/-- Counterexample to claim C28: `FromSlice([]float64{NaN, NaN})` has two elements, while the
slice has one distinct value. -/
theorem fromSlice_of_nan_twice_has_two_elements :
    (Go.FromSlice (some [Float64.nan, Float64.nan])).map Go.len = .ok 2 ∧
    ([Float64.nan, Float64.nan] : List Float64).dedup.length = 1 := by
  decide

/-- Claim C28, amended: for a slice `xs` of elements that can be hashed (the nil slice
included), `FromSlice(xs)` returns an allocated set, and an element is among its keys if and only
if it occurs in `xs`; when the elements of `xs` are equal to themselves (no NaN), the size of the
set is the number of distinct values of `xs` (a NaN is added by every occurrence).
`From(vals...)` is `FromSlice(vals)`; and for `f` with values that can be hashed, an element is
among the keys of `FromSliceFunc(xs, f)` if and only if it is `f(x)` for an `x` of `xs`. -/
theorem fromSlice_holds_the_values [DecidableEq E] [Key E] {A : Type} :
    (∀ xs : Slice E, (∀ e ∈ xs.elems, Key.hashable e = true) →
      ∃ r, Go.FromSlice xs = .ok r ∧ r.isNil = false ∧
        (∀ e, e ∈ r.keys ↔ e ∈ xs.elems) ∧
        ((∀ e ∈ xs.elems, Key.selfEq e = true) →
          Go.len r = xs.elems.dedup.length ∧ Go.len r = xs.elems.toFinset.card)) ∧
    (∀ vals : Slice E, Go.From vals = Go.FromSlice vals) ∧
    (∀ (xs : Slice A) (f : A → E), (∀ a ∈ xs.elems, Key.hashable (f a) = true) →
      ∃ r, Go.FromSliceFunc xs f = .ok r ∧ r.isNil = false ∧
        ∀ e, e ∈ r.keys ↔ ∃ x ∈ xs.elems, f x = e) := by
  refine ⟨fun xs hh => ?_, fun _ => rfl, fun xs f hh => Go_FromSliceFunc_ok xs f hh⟩
  obtain ⟨r, h1, h2, _, h4⟩ := Go_FromSlice_ok xs hh
  refine ⟨r, h1, h2, h4, fun hs => ?_⟩
  have hn : r.keys.Nodup :=
    Go_nodup_of_selfEq r.keys r.distinct (fun k hk => hs k ((h4 k).mp hk))
  have hf : r.keys.toFinset = xs.elems.toFinset := by
    ext e
    rw [List.mem_toFinset, List.mem_toFinset, h4]
  have hc : Go.len r = xs.elems.toFinset.card := by
    rw [← hf, List.toFinset_card_of_nodup hn]
    rfl
  exact ⟨by rw [hc, List.card_toFinset], hc⟩

theorem Go_ToSlice_elems [DecidableEq E] [Key E] (s : Go.Set E) :
    (Go.ToSlice s).elems = s.keys := by
  unfold Go.ToSlice
  by_cases h : s.isNil = true
  · rw [if_pos h, s.nil_keys h]
    rfl
  · rw [if_neg h, foldl_append_singleton (fun e => e) s.keys [], List.map_id', List.nil_append]
    rfl

/-- `Collect(All(s))` has the keys of `s`. -/
theorem Go_Collect_All_keys [DecidableEq E] [Key E] (s : Go.Set E) :
    ∃ c, Go.Collect (Go.All s) = .ok c ∧ c.isNil = false ∧ c.keys = s.keys := by
  obtain ⟨c, h1, h2, _, h4⟩ := Go_copyFresh_keys s 0
  refine ⟨c, ?_, h2, h4⟩
  unfold Go.Collect
  rw [Go_New_ok 0 (le_refl 0), ok_bind, Go_All_eq_slicesValues, Go_InsertSeq_slicesValues]
  exact h1

/-- `FromSlice(ToSlice(s))` has the keys of `s`. -/
theorem Go_FromSlice_ToSlice_keys [DecidableEq E] [Key E] (s : Go.Set E) :
    ∃ r, Go.FromSlice (Go.ToSlice s) = .ok r ∧ r.isNil = false ∧ r.keys = s.keys := by
  obtain ⟨r, h1, h2, _, h4⟩ := Go_copyFresh_keys s ((Go.ToSlice s).elems.length : Int)
  refine ⟨r, ?_, h2, h4⟩
  unfold Go.FromSlice Go.Insert
  rw [Go_New_ok _ (Int.natCast_nonneg _), ok_bind]
  rw [Go_ToSlice_elems] at h1 ⊢
  exact h1

/-- A set with the keys of `s` is `Equal` to `s` exactly when `s` holds no NaN. -/
theorem Go_Equal_of_keys_eq [DecidableEq E] [Key E] (c s : Go.Set E) (h : c.keys = s.keys) :
    Go.Equal c s = .ok true ↔ s.Regular := by
  rw [Go_Equal_iff]
  unfold Go.Set.Regular
  rw [h]
  exact ⟨fun hh => hh.1, fun hh => ⟨hh, fun _ => Iff.rfl⟩⟩

/-- Counterexample to claim C23: for `A = From(math.NaN())`, `Equal(Collect(All(A)), A)` and
`Equal(FromSlice(ToSlice(A)), A)` are false. -/
theorem round_trips_of_a_nan_set_are_not_equal :
    (Go.Collect (Go.All nanSet)).bind (fun c => Go.Equal c nanSet) = .ok false ∧
    (Go.FromSlice (Go.ToSlice nanSet)).bind (fun r => Go.Equal r nanSet) = .ok false := by
  decide

/-- Claim C23, amended: for every set `A` (the nil set included), `Collect(All(A))` and
`FromSlice(ToSlice(A))` return sets with exactly the keys of `A`; `Equal` of such a set and `A`
is true if and only if `A` holds no NaN (no element that is not equal to itself). -/
theorem round_trips_keep_the_keys [DecidableEq E] [Key E] (A : Go.Set E) :
    (∃ c, Go.Collect (Go.All A) = .ok c ∧ c.keys = A.keys ∧
      (Go.Equal c A = .ok true ↔ A.Regular) ∧ ∃ b, Go.Equal c A = .ok b) ∧
    (∃ r, Go.FromSlice (Go.ToSlice A) = .ok r ∧ r.keys = A.keys ∧
      (Go.Equal r A = .ok true ↔ A.Regular) ∧ ∃ b, Go.Equal r A = .ok b) := by
  obtain ⟨c, h1, _, h3⟩ := Go_Collect_All_keys A
  obtain ⟨r, k1, _, k3⟩ := Go_FromSlice_ToSlice_keys A
  exact ⟨⟨c, h1, h3, Go_Equal_of_keys_eq c A h3, Go_Equal_ok c A⟩,
    ⟨r, k1, k3, Go_Equal_of_keys_eq r A k3, Go_Equal_ok r A⟩⟩

/-- A map write does the same to two maps with the same keys that are both nil or both
allocated. -/
theorem Go_store_congr [DecidableEq E] [Key E] (g1 g2 : Go.Set E) (e : E)
    (h1 : g1.isNil = g2.isNil) (h2 : g1.keys = g2.keys) :
    (Go.store g1 e).map (fun r => (r.isNil, r.keys)) =
      (Go.store g2 e).map (fun r => (r.isNil, r.keys)) := by
  unfold Go.store
  by_cases hn : g1.isNil = true
  · rw [if_pos hn, if_pos (h1 ▸ hn)]
  · rw [if_neg hn, if_neg (h1 ▸ hn)]
    by_cases hh : Key.hashable e = false
    · rw [dif_pos hh, dif_pos hh]
    · rw [dif_neg hh, dif_neg hh]
      by_cases hf : Key.selfEq e = true ∧ e ∈ g1.keys
      · rw [dif_pos hf, dif_pos (h2 ▸ hf)]
        simp only [Except.map, h1, h2]
      · rw [dif_neg hf, dif_neg (h2 ▸ hf)]
        simp only [Except.map, h2]

theorem Go_storeLoop_congr [DecidableEq E] [Key E] {α : Type} (xs : List α) (f : α → E)
    (g1 g2 : Go.Set E) (h1 : g1.isNil = g2.isNil) (h2 : g1.keys = g2.keys) :
    (xs.foldlM (fun r x => Go.store r (f x)) g1).map (fun r => (r.isNil, r.keys)) =
      (xs.foldlM (fun r x => Go.store r (f x)) g2).map (fun r => (r.isNil, r.keys)) := by
  induction xs generalizing g1 g2 with
  | nil => simp only [List.foldlM_nil, pure_eq_ok, Except.map, h1, h2]
  | cons x xs ih =>
    rw [List.foldlM_cons, List.foldlM_cons]
    have hc := Go_store_congr g1 g2 (f x) h1 h2
    cases hs1 : Go.store g1 (f x) with
    | error p =>
      cases hs2 : Go.store g2 (f x) with
      | error q =>
        rw [hs1, hs2] at hc
        exact hc
      | ok r2 =>
        rw [hs1, hs2] at hc
        cases hc
    | ok r1 =>
      cases hs2 : Go.store g2 (f x) with
      | error q =>
        rw [hs1, hs2] at hc
        cases hc
      | ok r2 =>
        rw [hs1, hs2] at hc
        simp only [Except.map, Except.ok.injEq, Prod.mk.injEq] at hc
        rw [ok_bind, ok_bind]
        exact ih r1 r2 hc.1 hc.2

theorem Except_map_snd {α β : Type} (x y : Except Panic (α × β))
    (h : x = y) : x.map Prod.snd = y.map Prod.snd := by
  rw [h]

theorem Except_map_map {α β γ : Type} (x : Except Panic α) (f : α → β) (g : β → γ) :
    (x.map f).map g = x.map (fun a => g (f a)) := by
  cases x <;> rfl

/-- Claim C14: for every set `A` and every function `f`, `ReplaceFunc(A, f)` and
`Map(A, f)` run the same loop of writes `s[f(e)] = struct{}{}` over the keys of `A` on an empty
map: either both panic (when a value of `f` cannot be hashed) or both return, and then `A` has
after `ReplaceFunc` exactly the keys of `Map(original A, f)`, the values of `f` on the keys of
`A`.  When the values of `f` can be hashed both return; the library's `Equal` of the two results
is true if and only if no value of `f` on `A` is a NaN. -/
theorem replaceFunc_has_the_keys_of_map [DecidableEq E] [Key E] (A : Go.Set E) (f : E → E) :
    (Go.ReplaceFunc A f).map (fun r => r.keys) = (Go.Map A f).map (fun r => r.keys) ∧
    ((∀ e ∈ A.keys, Key.hashable (f e) = true) →
      ∃ r m, Go.ReplaceFunc A f = .ok r ∧ Go.Map A f = .ok m ∧ r.keys = m.keys ∧
        r.isNil = A.isNil ∧
        (∀ y, y ∈ r.keys ↔ ∃ e ∈ A.keys, f e = y) ∧
        (Go.Equal r m = .ok true ↔ ∀ e ∈ A.keys, Key.selfEq (f e) = true)) := by
  have hkeys : (Go.ReplaceFunc A f).map (fun r => r.keys) =
      (Go.Map A f).map (fun r => r.keys) := by
    unfold Go.ReplaceFunc Go.Map
    dsimp only
    rw [foldl_append_singleton (fun e => e) A.keys [], List.map_id', List.nil_append,
      Go_New_ok _ (Int.natCast_nonneg _), ok_bind]
    by_cases hk : A.keys = []
    · rw [hk]
      rfl
    · have hn : A.isNil = false := by
        obtain ⟨e, he⟩ := List.exists_mem_of_ne_nil _ hk
        exact Go_isNil_of_mem A e he
      have h := Except_map_snd _ _ (Go_storeLoop_congr A.keys f (Go.clear A)
        (Go.make (Go.len A : Int)) hn rfl)
      rw [Except_map_map, Except_map_map] at h
      exact h
  refine ⟨hkeys, fun hh => ?_⟩
  obtain ⟨r, h1, h2, _, h4⟩ := Go_ReplaceFunc_ok A f hh
  obtain ⟨m, k1, _, _, k4⟩ := Go_Map_ok A f hh
  have hrm : r.keys = m.keys := by
    rw [h1, k1] at hkeys
    exact Except.ok.inj hkeys
  refine ⟨r, m, h1, k1, hrm, h2, h4, ?_⟩
  rw [Go_Equal_of_keys_eq r m hrm]
  unfold Go.Set.Regular
  constructor
  · intro h e he
    exact h (f e) ((k4 (f e)).mpr ⟨e, he, rfl⟩)
  · intro h y hy
    obtain ⟨e, he, rfl⟩ := (k4 y).mp hy
    exact h e he

/-! ## Difference and DeleteFunc on every key type -/

/-- The keys of `Difference(minuend, subtrahends...)`, when it returns: the keys of the minuend
that no map read finds in a subtrahend, in the order of the minuend.  A key that is not equal to
itself is never found. -/
theorem Go_Difference_keys [DecidableEq E] [Key E] (minuend : Go.Set E)
    (subtrahends : List (Go.Set E))
    (h : Go.len minuend = 0 ∨ subtrahends.length ≤ 1 ∨ 0 ≤ Go.sizeSum subtrahends) :
    ∃ r, Go.Difference minuend subtrahends = .ok r ∧ r.isNil = false ∧
      r.keys = minuend.keys.filter
        (fun e => !(Key.selfEq e && decide (∃ s ∈ subtrahends, e ∈ s.keys))) := by
  have hd0 : ∀ hint : Int, ((Go.make hint : Go.Set E).keys ++ minuend.keys).Pairwise
      (fun a b => a ≠ b ∨ Key.selfEq a = false) := by
    intro hint
    simpa [Go.make] using minuend.distinct
  unfold Go.Difference
  by_cases hm : Go.len minuend = 0
  · rw [if_pos hm]
    refine ⟨Go.make 0, rfl, rfl, ?_⟩
    rw [List.length_eq_zero.mp hm]
    rfl
  · rw [if_neg hm]
    by_cases h0 : subtrahends.length = 0
    · rw [if_pos h0, Go_New_ok _ (Int.natCast_nonneg _), ok_bind]
      obtain ⟨r, k1, k2, _, k4⟩ := Go_copyFresh_keys minuend (Go.len minuend : Int)
      refine ⟨r, k1, k2, ?_⟩
      rw [k4, List.length_eq_zero.mp h0]
      symm
      apply List.filter_eq_self.mpr
      intro a _
      simp
    · rw [if_neg h0]
      by_cases h1 : subtrahends.length = 1
      · rw [if_pos h1, Go_New_ok _ (Int.natCast_nonneg _), ok_bind]
        have hpos : 0 < subtrahends.length := by omega
        obtain ⟨s0, hs0⟩ := List.length_eq_one.mp h1
        obtain ⟨r, k1, k2, _, k4⟩ := Go_filterLoop_keys minuend.keys
          (fun e => !(Key.selfEq e && decide (e ∈ s0.keys)))
          (fun r e => do
            let s0 ← index subtrahends 0
            if !(← Go.lookup s0 e) then Go.store r e else pure r)
          (Go.make (Go.len minuend : Int)) rfl minuend.hashed (hd0 _) (by
            intro r e he
            dsimp only
            rw [index_ok subtrahends 0 hpos, ok_bind,
              Go_lookup_ok _ e (minuend.hashed e he), ok_bind]
            have : subtrahends.get ⟨0, hpos⟩ = s0 := by
              simp only [hs0, List.get_eq_getElem, List.getElem_cons_zero]
            rw [this])
        refine ⟨r, k1, k2, ?_⟩
        rw [k4, hs0]
        simp [Go.make]
      · rw [if_neg h1]
        have hfit : 0 ≤ Go.sizeSum subtrahends := by
          rcases h with h | h | h
          · exact absurd h hm
          · omega
          · exact h
        dsimp only
        have hN := @Go_New_ok E _ _ (Go.sizeSum subtrahends) hfit
        unfold Go.sizeSum at hN
        rw [hN, ok_bind]
        obtain ⟨combined, c1, _, _, c4⟩ :=
          Go_unionLoop_ok subtrahends (Go.make (Go.sizeSum subtrahends)) rfl
        unfold Go.sizeSum at c1
        rw [c1, ok_bind, Go_New_ok _ (Int.natCast_nonneg _), ok_bind]
        obtain ⟨r, k1, k2, _, k4⟩ := Go_filterLoop_keys minuend.keys
          (fun e => !(Key.selfEq e && decide (e ∈ combined.keys)))
          (fun r e => do
            if !(← Go.lookup combined e) then Go.store r e else pure r)
          (Go.make (Go.len minuend : Int)) rfl minuend.hashed (hd0 _) (by
            intro r e he
            dsimp only
            rw [Go_lookup_ok _ e (minuend.hashed e he), ok_bind])
        refine ⟨r, k1, k2, ?_⟩
        rw [k4]
        simp only [Go.make, List.nil_append]
        apply List.filter_congr
        intro e _
        have : (e ∈ combined.keys) ↔ ∃ s ∈ subtrahends, e ∈ s.keys := by
          rw [c4]
          simp [Go.make]
        simp only [this]

/-- Counterexample to claim C3: the NaN of `From(math.NaN())` is in
`Difference(From(NaN), From(NaN))`, although it is in the subtrahend; and with the set
`From(0, ..., 2^31 - 1)` passed `2^32` times as subtrahends, `Difference` panics in `New`. -/
theorem difference_keeps_a_nan_and_panics_when_the_size_sum_wraps :
    (Go.Difference nanSet [nanSet]).map (fun r => r.keys) = .ok [Float64.nan] ∧
    Go.Difference (rangeSet 1) (List.replicate (2 ^ 32) (rangeSet (2 ^ 31))) =
      .error .cannotBeNegative := by
  refine ⟨by decide, Go_Difference_neg _ _ ?_ ?_ ?_⟩
  · rw [len_rangeSet]
    norm_num
  · rw [List.length_replicate]
    norm_num
  · rw [sizeSum_replicate, len_rangeSet]
    unfold intAdd
    norm_num

/-- Claim C3, amended: `Difference(minuend, subtrahends...)` returns unless the minuend has
elements, there are two or more subtrahends, and the capacity computed for the subtrahends (the
sum of their sizes in `int` arithmetic) is negative.  An element that is equal to itself is among
the keys of the result if and only if it is among the keys of the minuend and of no subtrahend;
an element that is not equal to itself (a NaN) is among the keys of the result if and only if it
is among the keys of the minuend. -/
theorem difference_mem_iff_for_self_equal_keys [DecidableEq E] [Key E] (minuend : Go.Set E)
    (subtrahends : List (Go.Set E)) :
    ((∃ r, Go.Difference minuend subtrahends = .ok r) ↔
      (Go.len minuend = 0 ∨ subtrahends.length ≤ 1 ∨ 0 ≤ Go.sizeSum subtrahends)) ∧
    ((subtrahends.map Go.len).sum < 2 ^ 63 → 0 ≤ Go.sizeSum subtrahends) ∧
    (∀ r, Go.Difference minuend subtrahends = .ok r → r.isNil = false ∧
      (∀ e, Key.selfEq e = true →
        (e ∈ r.keys ↔ e ∈ minuend.keys ∧ ∀ s ∈ subtrahends, e ∉ s.keys)) ∧
      (∀ e, Key.selfEq e = false → (e ∈ r.keys ↔ e ∈ minuend.keys)) ∧
      (∀ e, Key.hashable e = true → Key.selfEq e = true →
        (Go.Contains r e = .ok true ↔
          Go.Contains minuend e = .ok true ∧
            ∀ s ∈ subtrahends, Go.Contains s e = .ok false))) := by
  have hcases : ¬ (Go.len minuend = 0 ∨ subtrahends.length ≤ 1 ∨ 0 ≤ Go.sizeSum subtrahends) →
      Go.Difference minuend subtrahends = .error .cannotBeNegative := by
    intro h
    simp only [not_or, not_le] at h
    exact Go_Difference_neg minuend subtrahends h.1 (by omega) h.2.2
  refine ⟨⟨fun ⟨r, hr⟩ => ?_, fun h => ?_⟩, fun h => ?_, fun r hr => ?_⟩
  · by_contra hneg
    rw [hcases hneg] at hr
    cases hr
  · obtain ⟨r, h1, _⟩ := Go_Difference_keys minuend subtrahends h
    exact ⟨r, h1⟩
  · rw [sizeSum_of_fits subtrahends h]
    exact Int.natCast_nonneg _
  · have hc : Go.len minuend = 0 ∨ subtrahends.length ≤ 1 ∨ 0 ≤ Go.sizeSum subtrahends := by
      by_contra hneg
      rw [hcases hneg] at hr
      cases hr
    obtain ⟨r', h1, h2, h3⟩ := Go_Difference_keys minuend subtrahends hc
    rw [hr] at h1
    cases h1
    have hself : ∀ e, Key.selfEq e = true →
        (e ∈ r.keys ↔ e ∈ minuend.keys ∧ ∀ s ∈ subtrahends, e ∉ s.keys) := by
      intro e hs
      rw [h3, List.mem_filter, hs]
      simp
    refine ⟨h2, hself, fun e hs => ?_, fun e hh hs => ?_⟩
    · rw [h3, List.mem_filter, hs]
      simp
    · rw [Go_Contains_iff r e hh hs, Go_Contains_iff minuend e hh hs, hself e hs]
      simp only [Go_Contains_ok _ e hh, hs, Bool.true_and, Except.ok.injEq,
        decide_eq_false_iff_not]

/-- Counterexample to claim C38: for the empty set as the minuend and the set
`From(0, ..., 2^31 - 1)` passed `2^32` times as subtrahends, `Difference` returns the empty set,
while `Union` of the subtrahends panics in `New`, so that there is no
`Difference(minuend, Union(subtrahends...))`. -/
theorem difference_returns_where_union_panics :
    Go.Difference (Go.make 0 : Go.Set Nat) (List.replicate (2 ^ 32) (rangeSet (2 ^ 31))) =
      .ok (Go.make 0) ∧
    Go.Union (List.replicate (2 ^ 32) (rangeSet (2 ^ 31))) = .error .cannotBeNegative := by
  refine ⟨rfl, Go_Union_neg _ ?_⟩
  rw [sizeSum_replicate, len_rangeSet]
  unfold intAdd
  norm_num

/-- Claim C38, amended: whenever `Union(subtrahends...)` returns (the capacity it computes,
the sum of the sizes in `int` arithmetic, is not negative), `Difference(minuend,
subtrahends...)` and `Difference(minuend, Union(subtrahends...))` return sets with the same keys,
for lists of every length; the library's `Equal` of the two results is true when the minuend
holds no NaN. -/
theorem difference_agrees_with_difference_of_union_unless_it_wraps [DecidableEq E] [Key E]
    (minuend : Go.Set E) (subtrahends : List (Go.Set E)) :
    ((subtrahends.map Go.len).sum < 2 ^ 63 → 0 ≤ Go.sizeSum subtrahends) ∧
    (0 ≤ Go.sizeSum subtrahends →
      ∃ r u r', Go.Difference minuend subtrahends = .ok r ∧ Go.Union subtrahends = .ok u ∧
        Go.Difference minuend [u] = .ok r' ∧ r.keys = r'.keys ∧
        (∀ e, e ∈ r.keys ↔ e ∈ r'.keys) ∧
        (minuend.Regular → Go.Equal r r' = .ok true)) := by
  refine ⟨fun h => ?_, fun hfit => ?_⟩
  · rw [sizeSum_of_fits subtrahends h]
    exact Int.natCast_nonneg _
  · obtain ⟨r, h1, _, h3⟩ :=
      Go_Difference_keys minuend subtrahends (Or.inr (Or.inr hfit))
    obtain ⟨u, k1, _, _, k4⟩ := Go_Union_ok subtrahends hfit
    obtain ⟨r', g1, _, g3⟩ := Go_Difference_keys minuend [u] (Or.inr (Or.inl (le_refl 1)))
    have hkeys : r.keys = r'.keys := by
      rw [h3, g3]
      apply List.filter_congr
      intro e _
      have : (∃ s ∈ [u], e ∈ s.keys) ↔ ∃ s ∈ subtrahends, e ∈ s.keys := by
        simp only [List.mem_singleton, exists_eq_left, k4]
      simp only [this]
    refine ⟨r, u, r', h1, k1, g1, hkeys, fun e => by rw [hkeys], fun hreg => ?_⟩
    rw [Go_Equal_of_keys_eq r r' hkeys]
    intro k hk
    rw [g3] at hk
    exact hreg k (List.mem_filter.mp hk).1

/-- The loop of `maps.DeleteFunc` over the keys that are still to visit: the keys that are to
delete and are equal to themselves go, the other ones stay, in order. -/
theorem Go_deleteFuncLoop_keys [DecidableEq E] [Key E] (del : E → Bool) (xs pre : List E)
    (acc : Go.Set E) (hk : acc.keys = pre ++ xs) :
    ∃ r, xs.foldlM (fun acc k => if del k then Go.delete acc k else pure acc) acc = .ok r ∧
      r.isNil = acc.isNil ∧ r.hint = acc.hint ∧
      r.keys = pre ++ xs.filter (fun e => !(del e && Key.selfEq e)) := by
  induction xs generalizing pre acc with
  | nil => exact ⟨acc, rfl, rfl, rfl, by simpa using hk⟩
  | cons x xs ih =>
    have hx : x ∈ acc.keys := by
      rw [hk]
      exact List.mem_append_right _ (List.mem_cons_self x xs)
    have hh := acc.hashed x hx
    rw [List.foldlM_cons]
    by_cases hgo : del x = true ∧ Key.selfEq x = true
    · obtain ⟨r1, h1, h2, h3, h4, _⟩ := Go_delete_mem acc x hh hgo.2
      have hnot : x ∉ pre := by
        intro hp
        have hd := acc.distinct
        rw [hk] at hd
        rcases (List.pairwise_append.mp hd).2.2 x hp x (List.mem_cons_self x xs) with h | h
        · exact h rfl
        · rw [hgo.2] at h
          cases h
      have hk1 : r1.keys = pre ++ xs := by
        rw [h4, hk, List.erase_append_right _ hnot, List.erase_cons_head]
      obtain ⟨r, k1, k2, k3, k4⟩ := ih pre r1 hk1
      rw [if_pos hgo.1, h1, ok_bind]
      refine ⟨r, k1, k2.trans h2, k3.trans h3, ?_⟩
      rw [k4, List.filter_cons, if_neg (by simp [hgo.1, hgo.2])]
    · have hstep : (if del x = true then Go.delete acc x else pure acc) = .ok acc := by
        by_cases hd : del x = true
        · rw [if_pos hd]
          have hs : Key.selfEq x = false := by
            by_contra hs
            exact hgo ⟨hd, by simpa using hs⟩
          obtain ⟨r1, h1, _, _, _, h5⟩ := Go_delete_ok acc x hh
          rw [h1, h5 hs]
        · rw [if_neg hd]
          rfl
      obtain ⟨r, k1, k2, k3, k4⟩ := ih (pre ++ [x]) acc (by rw [hk, List.append_assoc]; rfl)
      rw [hstep, ok_bind]
      refine ⟨r, k1, k2, k3, ?_⟩
      have hkeep : (!(del x && Key.selfEq x)) = true := by
        rw [Bool.not_eq_true', Bool.and_eq_false_iff]
        by_cases hd : del x = true
        · right
          by_contra hs
          exact hgo ⟨hd, by simpa using hs⟩
        · left
          simpa using hd
      rw [k4, List.filter_cons, if_pos hkeep, List.append_assoc]
      rfl

/-- The keys of `DeleteFunc(s, del)`: a key that is not equal to itself stays, whatever `del`
says. -/
theorem Go_DeleteFunc_keys [DecidableEq E] [Key E] (s : Go.Set E) (del : E → Bool) :
    ∃ r, Go.DeleteFunc s del = .ok r ∧ r.isNil = s.isNil ∧
      r.keys = s.keys.filter (fun e => !(del e && Key.selfEq e)) := by
  obtain ⟨r, h1, h2, _, h4⟩ := Go_deleteFuncLoop_keys (fun e => del e) s.keys [] s rfl
  exact ⟨r, h1, h2, by simpa using h4⟩

/-- Counterexample to claim C18: `DeleteFunc` with `del` always true leaves the NaN in
`From(math.NaN())`, while `Filter` with the negated predicate drops it; the library's `Equal` of
the two results is false. -/
theorem deleteFunc_cannot_delete_a_nan :
    (Go.DeleteFunc nanSet (fun _ => true)).map (fun r => r.keys) = .ok [Float64.nan] ∧
    (Go.Filter nanSet (fun e => !((fun _ => true) e))).map (fun r => r.keys) = .ok [] ∧
    (Go.DeleteFunc nanSet (fun _ => true)).bind (fun r =>
      (Go.Filter nanSet (fun e => !((fun _ => true) e))).bind (fun m => Go.Equal r m)) =
        .ok false := by
  decide

/-- Claim C18, amended: `DeleteFunc(s, del)` returns; afterwards an element that is equal to
itself is among the keys of `s` if and only if it was before and `del` is false of it, while a
NaN (an element that is not equal to itself) stays, whatever `del` says.  For a set `s` without
a NaN the result has the keys of `Filter(original s, not del)`, and the library's `Equal` of the
two is true. -/
theorem deleteFunc_mem_iff_for_self_equal_keys [DecidableEq E] [Key E] (s : Go.Set E)
    (del : E → Bool) :
    ∃ r m, Go.DeleteFunc s del = .ok r ∧ Go.Filter s (fun e => !del e) = .ok m ∧
      r.isNil = s.isNil ∧
      (∀ e, Key.selfEq e = true → (e ∈ r.keys ↔ e ∈ s.keys ∧ del e = false)) ∧
      (∀ e, Key.selfEq e = false → (e ∈ r.keys ↔ e ∈ s.keys)) ∧
      (∀ e, e ∈ m.keys ↔ e ∈ s.keys ∧ del e = false) ∧
      (s.Regular → r.keys = m.keys ∧ Go.Equal r m = .ok true) := by
  obtain ⟨r, h1, h2, h3⟩ := Go_DeleteFunc_keys s del
  obtain ⟨m, k1, _, k3⟩ := Go_Filter_keys s (fun e => !del e)
  refine ⟨r, m, h1, k1, h2, fun e hs => ?_, fun e hs => ?_, fun e => ?_, fun hreg => ?_⟩
  · rw [h3, List.mem_filter, hs]
    simp
  · rw [h3, List.mem_filter, hs]
    simp
  · rw [k3, List.mem_filter]
    simp
  · have hkeys : r.keys = m.keys := by
      rw [h3, k3]
      apply List.filter_congr
      intro e he
      rw [hreg e he, Bool.and_true]
    refine ⟨hkeys, ?_⟩
    rw [Go_Equal_of_keys_eq r m hkeys]
    intro k hk
    rw [k3] at hk
    exact hreg k (List.mem_filter.mp hk).1

/-! ## SymmetricDifference on every key type -/

/-- A key that is equal to itself does not occur before itself among the keys of a map. -/
theorem Go_not_mem_done [DecidableEq E] [Key E] (s : Go.Set E) (done rest : List E) (a : E)
    (hxs : s.keys = done ++ a :: rest) (hs : Key.selfEq a = true) : a ∉ done := by
  intro hp
  have hd := s.distinct
  rw [hxs] at hd
  rcases (List.pairwise_append.mp hd).2.2 a hp a (List.mem_cons_self a rest) with h | h
  · exact h rfl
  · rw [hs] at h
    cases h

/-- The inner loop of `SymmetricDifference`: every key of `s` that is equal to itself is
toggled once in `r`; every key of `s` that is not equal to itself is added; every key of the
result is a key of `r` or of `s`. -/
theorem Go_toggleLoop_spec [DecidableEq E] [Key E] (s : Go.Set E) (r : Go.Set E)
    (hr : r.isNil = false) :
    ∃ r', s.keys.foldlM (fun r e => do
        if (← Go.lookup r e) then Go.delete r e else Go.store r e) r = .ok r' ∧
      r'.isNil = false ∧
      (∀ x, Key.selfEq x = true → (x ∈ r'.keys ↔ (x ∈ r.keys ↔ x ∉ s.keys))) ∧
      (∀ x, Key.selfEq x = false → (x ∈ r'.keys ↔ x ∈ r.keys ∨ x ∈ s.keys)) ∧
      ∀ x, x ∈ r'.keys → x ∈ r.keys ∨ x ∈ s.keys := by
  refine foldlM_inv (fun r e => do
      if (← Go.lookup r e) then Go.delete r e else Go.store r e)
    (fun done (st : Go.Set E) => st.isNil = false ∧
      (∀ x, Key.selfEq x = true → (x ∈ st.keys ↔ (x ∈ r.keys ↔ x ∉ done))) ∧
      (∀ x, Key.selfEq x = false → (x ∈ st.keys ↔ x ∈ r.keys ∨ x ∈ done)) ∧
      ∀ x, x ∈ st.keys → x ∈ r.keys ∨ x ∈ done)
    s.keys r ⟨hr, fun x _ => by simp, fun x _ => by simp, fun x hx => Or.inl hx⟩ ?_
  intro done a rest st hxs hI
  obtain ⟨hst, hmem, hnan, hfrom⟩ := hI
  have ha : a ∈ s.keys := mem_of_split hxs
  have hh := s.hashed a ha
  dsimp only
  rw [Go_lookup_ok st a hh, ok_bind]
  by_cases hs : Key.selfEq a = true
  · have hnd : a ∉ done := Go_not_mem_done s done rest a hxs hs
    have hne : ∀ x, Key.selfEq x = false → x ≠ a := by
      intro x hx h
      rw [h, hs] at hx
      cases hx
    rw [hs, Bool.true_and]
    by_cases hl : a ∈ st.keys
    · obtain ⟨st', h1, h2, _, _, h5⟩ := Go_delete_mem st a hh hs
      have har : a ∈ r.keys := ((hmem a hs).mp hl).mpr hnd
      refine ⟨st', by simp only [hl, decide_True, if_true]; exact h1, h2.trans hst,
        fun x hx => ?_, fun x hx => ?_, fun x hx => ?_⟩
      · rw [h5, hmem x hx, List.mem_append, List.mem_singleton]
        by_cases hxa : x = a
        · subst hxa
          simp [har]
        · simp [hxa]
      · rw [h5, hnan x hx, List.mem_append, List.mem_singleton]
        simp [hne x hx]
      · rcases hfrom x ((h5 x).mp hx).1 with h | h
        · exact Or.inl h
        · exact Or.inr (List.mem_append_left _ h)
    · obtain ⟨st', h1, h2, _, h4, _⟩ := Go_store_ok st a hst hh
      have har : a ∉ r.keys := fun h => hl ((hmem a hs).mpr ⟨fun _ => hnd, fun _ => h⟩)
      refine ⟨st', by simp only [hl, decide_False, Bool.false_eq_true, if_false]; exact h1, h2,
        fun x hx => ?_, fun x hx => ?_, fun x hx => ?_⟩
      · rw [h4, hmem x hx, List.mem_append, List.mem_singleton]
        by_cases hxa : x = a
        · subst hxa
          simp [har]
        · simp [hxa]
      · rw [h4, hnan x hx, List.mem_append, List.mem_singleton]
        simp [hne x hx]
      · rcases (h4 x).mp hx with h | h
        · rcases hfrom x h with h' | h'
          · exact Or.inl h'
          · exact Or.inr (List.mem_append_left _ h')
        · exact Or.inr (List.mem_append_right _ (by rw [h]; exact List.mem_singleton_self a))
  · have hs' : Key.selfEq a = false := by simpa using hs
    obtain ⟨st', h1, h2, _, h4, _⟩ := Go_store_ok st a hst hh
    rw [hs', Bool.false_and]
    refine ⟨st', by simp only [Bool.false_eq_true, if_false]; exact h1, h2,
      fun x hx => ?_, fun x hx => ?_, fun x hx => ?_⟩
    · have hxa : x ≠ a := by
        intro h
        rw [h, hs'] at hx
        cases hx
      rw [h4, hmem x hx, List.mem_append, List.mem_singleton]
      simp [hxa]
    · rw [h4, hnan x hx, List.mem_append, List.mem_singleton, or_assoc]
    · rcases (h4 x).mp hx with h | h
      · rcases hfrom x h with h' | h'
        · exact Or.inl h'
        · exact Or.inr (List.mem_append_left _ h')
      · exact Or.inr (List.mem_append_right _ (by rw [h]; exact List.mem_singleton_self a))

/-- The outer loop of `SymmetricDifference` on an allocated, empty `r`: a key that is equal to
itself ends up in `r` exactly when an odd number of the sets hold it, a key that is not equal to
itself exactly when one of the sets holds it. -/
theorem Go_symDiffLoop_spec [DecidableEq E] [Key E] (sets : List (Go.Set E)) (r : Go.Set E)
    (hr : r.isNil = false) (hk : r.keys = []) :
    ∃ r', sets.foldlM (fun r s => s.keys.foldlM (fun r e => do
        if (← Go.lookup r e) then Go.delete r e else Go.store r e) r) r = .ok r' ∧
      r'.isNil = false ∧
      (∀ x, Key.selfEq x = true →
        (x ∈ r'.keys ↔ List.countP (fun s => decide (x ∈ s.keys)) sets % 2 = 1)) ∧
      (∀ x, Key.selfEq x = false → (x ∈ r'.keys ↔ ∃ s ∈ sets, x ∈ s.keys)) ∧
      ∀ x, x ∈ r'.keys → ∃ s ∈ sets, x ∈ s.keys := by
  refine foldlM_inv _
    (fun done (st : Go.Set E) => st.isNil = false ∧
      (∀ x, Key.selfEq x = true →
        (x ∈ st.keys ↔ List.countP (fun s => decide (x ∈ s.keys)) done % 2 = 1)) ∧
      (∀ x, Key.selfEq x = false → (x ∈ st.keys ↔ ∃ s ∈ done, x ∈ s.keys)) ∧
      ∀ x, x ∈ st.keys → ∃ s ∈ done, x ∈ s.keys)
    sets r ⟨hr, fun x _ => by simp [hk], fun x _ => by simp [hk],
      fun x hx => by rw [hk] at hx; cases hx⟩ ?_
  intro done s rest st _ hI
  obtain ⟨hst, hmem, hnan, hfrom⟩ := hI
  obtain ⟨st', h1, h2, h3, h3n, h4⟩ := Go_toggleLoop_spec s st hst
  refine ⟨st', h1, h2, fun x hx => ?_, fun x hx => ?_, fun x hx => ?_⟩
  · rw [h3 x hx, hmem x hx, List.countP_append]
    by_cases hxs : x ∈ s.keys
    · simp only [List.countP_cons, List.countP_nil, hxs, decide_True, if_true,
        not_true_eq_false, iff_false]
      omega
    · simp only [List.countP_cons, List.countP_nil, hxs, decide_False, not_false_eq_true,
        iff_true]
      simp
  · rw [h3n x hx, hnan x hx]
    simp only [List.mem_append, List.mem_singleton]
    constructor
    · rintro (⟨t, ht, hxt⟩ | h)
      · exact ⟨t, Or.inl ht, hxt⟩
      · exact ⟨s, Or.inr rfl, h⟩
    · rintro ⟨t, ht | ht, hxt⟩
      · exact Or.inl ⟨t, ht, hxt⟩
      · exact Or.inr (ht ▸ hxt)
  · rcases h4 x hx with h | h
    · obtain ⟨t, ht, hxt⟩ := hfrom x h
      exact ⟨t, List.mem_append_left _ ht, hxt⟩
    · exact ⟨s, List.mem_append_right _ (List.mem_singleton_self s), h⟩

/-- `SymmetricDifference`, when it returns: a key that is equal to itself is in the result
exactly when an odd number of the sets hold it, a key that is not equal to itself exactly when
one of the sets holds it, and every key of the result is a key of one of the sets. -/
theorem Go_SymmetricDifference_spec [DecidableEq E] [Key E] (sets : List (Go.Set E))
    (h : sets.length ≤ 1 ∨ 0 ≤ Go.sizeSum sets) :
    ∃ r, Go.SymmetricDifference sets = .ok r ∧ r.isNil = false ∧
      (∀ x, Key.selfEq x = true →
        (x ∈ r.keys ↔ List.countP (fun s => decide (x ∈ s.keys)) sets % 2 = 1)) ∧
      (∀ x, Key.selfEq x = false → (x ∈ r.keys ↔ ∃ s ∈ sets, x ∈ s.keys)) ∧
      ∀ x, x ∈ r.keys → ∃ s ∈ sets, x ∈ s.keys := by
  unfold Go.SymmetricDifference
  match sets, h with
  | [], _ =>
    exact ⟨Go.make 0, rfl, rfl, fun x _ => by simp [Go.make], fun x _ => by simp [Go.make],
      fun x hx => by cases hx⟩
  | [s], _ =>
    obtain ⟨r, h1, h2, _, h4⟩ := Go_copyFresh_keys s (Go.len s : Int)
    refine ⟨r, ?_, h2, fun x _ => ?_, fun x _ => ?_,
      fun x hx => ⟨s, List.mem_singleton_self s, h4 ▸ hx⟩⟩
    · simpa [index, Go_New_ok _ (Int.natCast_nonneg (Go.len s)), ok_bind] using h1
    · rw [h4]
      by_cases hx : x ∈ s.keys
      · simp [hx]
      · simp [hx]
    · rw [h4]
      simp
  | s :: t :: rest, h =>
    have hfit : 0 ≤ Go.sizeSum (s :: t :: rest) := by
      rcases h with h | h
      · simp at h
      · exact h
    obtain ⟨r, h1, h2, h3, h3n, h4⟩ := Go_symDiffLoop_spec (s :: t :: rest)
      (Go.make (Go.sizeSum (s :: t :: rest))) rfl rfl
    refine ⟨r, ?_, h2, h3, h3n, h4⟩
    rw [if_neg (by simp), if_neg (by simp)]
    dsimp only
    have hN := @Go_New_ok E _ _ (Go.sizeSum (s :: t :: rest)) hfit
    unfold Go.sizeSum at hN h1
    rw [hN, ok_bind]
    exact h1

/-- The number of the sets of `n` copies of `A` that hold `x`. -/
theorem countP_replicate_mem [DecidableEq E] [Key E] (n : Nat) (A : Go.Set E) (x : E) :
    List.countP (fun s => decide (x ∈ s.keys)) (List.replicate n A) =
      if x ∈ A.keys then n else 0 := by
  induction n with
  | zero => simp
  | succ n ih =>
    rw [List.replicate_succ, List.countP_cons, ih]
    by_cases hx : x ∈ A.keys
    · simp [hx]
    · simp [hx]

/-- Counterexample to claim C1: the symmetric difference of `From(math.NaN())` with itself
holds two keys, although each of them belongs to an even number of the sets; and with the set
`From(0, ..., 2^31 - 1)` passed `2^32` times, `SymmetricDifference` panics in `New`. -/
theorem symmetricDifference_of_a_nan_set_with_itself_is_not_empty :
    (Go.SymmetricDifference [nanSet, nanSet]).map (fun r => r.keys) =
      .ok [Float64.nan, Float64.nan] ∧
    List.countP (fun s => decide (Float64.nan ∈ s.keys)) [nanSet, nanSet] = 2 ∧
    Go.SymmetricDifference (List.replicate (2 ^ 32) (rangeSet (2 ^ 31))) =
      .error .cannotBeNegative := by
  refine ⟨by decide, by decide, Go_SymmetricDifference_neg _ ?_ ?_⟩
  · rw [List.length_replicate]
    norm_num
  · rw [sizeSum_replicate, len_rangeSet]
    unfold intAdd
    norm_num

/-- Claim C1, amended: `SymmetricDifference(sets...)` returns unless there are two or more sets
and the capacity it computes (the sum of their sizes in `int` arithmetic) is negative, which
does not happen when the sizes add up to less than `2^63`.  An element that is equal to itself
is among the keys of the result if and only if an odd number of the sets hold it; an element
that is not equal to itself (a NaN) is among the keys of the result if and only if one of the
sets holds it.  For copies of one set `A` whose elements are equal to themselves, the result is
empty for an even number of copies and has the elements of `A`, and is `Equal` to `A`, for an
odd number of copies. -/
theorem symmetricDifference_mem_iff_odd_for_self_equal_keys [DecidableEq E] [Key E]
    (sets : List (Go.Set E)) :
    ((∃ r, Go.SymmetricDifference sets = .ok r) ↔
      (sets.length ≤ 1 ∨ 0 ≤ Go.sizeSum sets)) ∧
    ((sets.map Go.len).sum < 2 ^ 63 → 0 ≤ Go.sizeSum sets) ∧
    (∀ r, Go.SymmetricDifference sets = .ok r → r.isNil = false ∧
      (∀ e, Key.selfEq e = true →
        (e ∈ r.keys ↔ List.countP (fun s => decide (e ∈ s.keys)) sets % 2 = 1)) ∧
      (∀ e, Key.selfEq e = false → (e ∈ r.keys ↔ ∃ s ∈ sets, e ∈ s.keys)) ∧
      (∀ e, Key.hashable e = true → Key.selfEq e = true →
        (Go.Contains r e = .ok true ↔
          List.countP (fun s => decide (Go.Contains s e = .ok true)) sets % 2 = 1)) ∧
      (∀ (A : Go.Set E) (n : Nat), sets = List.replicate n A → A.Regular →
        (n % 2 = 0 → Go.len r = 0) ∧
        (n % 2 = 1 → (∀ e, e ∈ r.keys ↔ e ∈ A.keys) ∧ Go.Equal r A = .ok true))) := by
  have hcases : ¬ (sets.length ≤ 1 ∨ 0 ≤ Go.sizeSum sets) →
      Go.SymmetricDifference sets = .error .cannotBeNegative := by
    intro h
    simp only [not_or, not_le] at h
    exact Go_SymmetricDifference_neg sets (by omega) h.2
  refine ⟨⟨fun ⟨r, hr⟩ => ?_, fun h => ?_⟩, fun h => ?_, fun r hr => ?_⟩
  · by_contra hneg
    rw [hcases hneg] at hr
    cases hr
  · obtain ⟨r, h1, _⟩ := Go_SymmetricDifference_spec sets h
    exact ⟨r, h1⟩
  · rw [sizeSum_of_fits sets h]
    exact Int.natCast_nonneg _
  · have hc : sets.length ≤ 1 ∨ 0 ≤ Go.sizeSum sets := by
      by_contra hneg
      rw [hcases hneg] at hr
      cases hr
    obtain ⟨r', h1, h2, h3, h3n, h4⟩ := Go_SymmetricDifference_spec sets hc
    have hrr : r' = r := by
      rw [h1] at hr
      exact Except.ok.inj hr
    subst hrr
    refine ⟨h2, h3, h3n, fun e hh hs => ?_, fun A n hrep hreg => ?_⟩
    · rw [Go_Contains_iff r' e hh hs, h3 e hs]
      have : (fun s : Go.Set E => decide (Go.Contains s e = .ok true)) =
          (fun s => decide (e ∈ s.keys)) := by
        funext s
        exact decide_eq_decide.mpr (Go_Contains_iff s e hh hs)
      rw [this]
    · subst hrep
      have hsub : ∀ x, x ∈ r'.keys → x ∈ A.keys := by
        intro x hx
        obtain ⟨s, hs, hxs⟩ := h4 x hx
        rw [List.eq_of_mem_replicate hs] at hxs
        exact hxs
      have hkey : ∀ x, x ∈ r'.keys ↔ n % 2 = 1 ∧ x ∈ A.keys := by
        intro x
        constructor
        · intro hx
          have hxA := hsub x hx
          have := (h3 x (hreg x hxA)).mp hx
          rw [countP_replicate_mem, if_pos hxA] at this
          exact ⟨this, hxA⟩
        · rintro ⟨hn, hxA⟩
          rw [h3 x (hreg x hxA), countP_replicate_mem, if_pos hxA]
          exact hn
      refine ⟨fun hn => ?_, fun hn => ?_⟩
      · unfold Go.len
        rw [List.length_eq_zero]
        apply List.eq_nil_iff_forall_not_mem.mpr
        intro x hx
        have := ((hkey x).mp hx).1
        omega
      · have hk : ∀ e, e ∈ r'.keys ↔ e ∈ A.keys := by
          intro e
          rw [hkey e]
          exact ⟨fun h => h.2, fun h => ⟨hn, h⟩⟩
        refine ⟨hk, (Go_Equal_iff r' A).mpr ⟨fun k hk' => hreg k ((hk k).mp hk'), hk⟩⟩

/-! ## Union and Intersection of two sets, in both orders -/

/-- The index that `Intersection` of two sets ranges over: the second set when it is smaller than
the first one, and the first set otherwise. -/
theorem Go_smallestIndex_pair [DecidableEq E] [Key E] (A B : Go.Set E) :
    Go.smallestIndex [A, B] = .ok (if Go.len B < Go.len A then 1 else 0) := by
  unfold Go.smallestIndex
  by_cases h : Go.len B < Go.len A
  · simp [index, h, List.range', pure_eq_ok, ok_bind]
  · simp [index, h, List.range', pure_eq_ok, ok_bind]

/-- The inner loop of `Intersection` of two sets probes the other set. -/
theorem Go_inAllOthers_pair [DecidableEq E] [Key E] (A B : Go.Set E) (e : E)
    (hh : Key.hashable e = true) :
    Go.inAllOthers [A, B] 0 e = .ok (Key.selfEq e && decide (e ∈ B.keys)) ∧
    Go.inAllOthers [A, B] 1 e = .ok (Key.selfEq e && decide (e ∈ A.keys)) := by
  unfold Go.inAllOthers
  constructor
  · simp only [List.enum, List.enumFrom, Go.loopAll, if_true, pure_eq_ok, ok_bind,
      Go_lookup_ok B e hh]
    cases (Key.selfEq e && decide (e ∈ B.keys)) <;> rfl
  · simp only [List.enum, List.enumFrom, Go.loopAll, pure_eq_ok, ok_bind,
      Go_lookup_ok A e hh]
    cases (Key.selfEq e && decide (e ∈ A.keys)) <;> rfl

/-- `Intersection` of two sets returns an allocated map; its keys are the keys of the set it
ranges over that are found in the other set, so an element is among them exactly when it is
equal to itself and a key of both sets. -/
theorem Go_Intersection_pair [DecidableEq E] [Key E] (A B : Go.Set E) :
    ∃ i, Go.Intersection [A, B] = .ok i ∧ i.isNil = false ∧
      ∀ e, e ∈ i.keys ↔ Key.selfEq e = true ∧ e ∈ A.keys ∧ e ∈ B.keys := by
  unfold Go.Intersection
  rw [if_neg (by simp), if_neg (by simp), Go_smallestIndex_pair, ok_bind]
  by_cases h : Go.len B < Go.len A
  · rw [if_pos h]
    have hidx : index [A, B] 1 = .ok B := rfl
    rw [hidx, ok_bind, Go_New_ok _ (Int.natCast_nonneg _), ok_bind, ok_bind]
    obtain ⟨r, h1, h2, _, h4⟩ := Go_filterLoop_keys B.keys
      (fun e => Key.selfEq e && decide (e ∈ A.keys))
      (fun r e => do
        if (← Go.inAllOthers [A, B] 1 e) then Go.store r e else pure r)
      (Go.make (Go.len B : Int)) rfl B.hashed (by simpa [Go.make] using B.distinct)
      (fun r e he => by
        dsimp only
        rw [(Go_inAllOthers_pair A B e (B.hashed e he)).2, ok_bind])
    refine ⟨r, h1, h2, fun e => ?_⟩
    rw [h4]
    simp only [Go.make, List.nil_append, List.mem_filter, Bool.and_eq_true, decide_eq_true_eq]
    tauto
  · rw [if_neg h]
    have hidx : index [A, B] 0 = .ok A := rfl
    rw [hidx, ok_bind, Go_New_ok _ (Int.natCast_nonneg _), ok_bind, ok_bind]
    obtain ⟨r, h1, h2, _, h4⟩ := Go_filterLoop_keys A.keys
      (fun e => Key.selfEq e && decide (e ∈ B.keys))
      (fun r e => do
        if (← Go.inAllOthers [A, B] 0 e) then Go.store r e else pure r)
      (Go.make (Go.len A : Int)) rfl A.hashed (by simpa [Go.make] using A.distinct)
      (fun r e he => by
        dsimp only
        rw [(Go_inAllOthers_pair A B e (A.hashed e he)).1, ok_bind])
    refine ⟨r, h1, h2, fun e => ?_⟩
    rw [h4]
    simp only [Go.make, List.nil_append, List.mem_filter, Bool.and_eq_true, decide_eq_true_eq]
    tauto

/-- The capacity that `Union` computes for two sets does not depend on their order. -/
theorem sizeSum_pair_comm [DecidableEq E] [Key E] (A B : Go.Set E) :
    Go.sizeSum [A, B] = Go.sizeSum [B, A] := by
  rw [sizeSum_eq, sizeSum_eq]
  simp only [List.map_cons, List.map_nil, List.sum_cons, List.sum_nil]
  rw [Nat.add_zero, Nat.add_zero, Nat.add_comm (Go.len A)]

/-- Claim C22: for all sets `A` and `B` (nil sets and sets with NaN keys included),
`Union(A, B)` and `Union(B, A)` have the same elements: both return, with the same keys, or both
panic in `New`, which takes two sets whose sizes add up to `2^63` or more; and
`Intersection(A, B)` and `Intersection(B, A)` return sets with the same elements, whichever
argument `Intersection` ranges over. -/
theorem union_and_intersection_have_the_same_elements_in_both_orders [DecidableEq E] [Key E]
    (A B : Go.Set E) :
    ((∃ u u', Go.Union [A, B] = .ok u ∧ Go.Union [B, A] = .ok u' ∧
        (∀ e, e ∈ u.keys ↔ e ∈ u'.keys) ∧
        ∀ e, Key.hashable e = true → Go.Contains u e = Go.Contains u' e) ∨
      (Go.Union [A, B] = .error .cannotBeNegative ∧
        Go.Union [B, A] = .error .cannotBeNegative ∧ 2 ^ 63 ≤ Go.len A + Go.len B)) ∧
    (Go.len A + Go.len B < 2 ^ 63 →
      ∃ u u', Go.Union [A, B] = .ok u ∧ Go.Union [B, A] = .ok u' ∧
        ∀ e, e ∈ u.keys ↔ e ∈ u'.keys) ∧
    (∃ i i', Go.Intersection [A, B] = .ok i ∧ Go.Intersection [B, A] = .ok i' ∧
      (∀ e, e ∈ i.keys ↔ e ∈ i'.keys) ∧
      (∀ e, Key.hashable e = true → Go.Contains i e = Go.Contains i' e) ∧
      Go.Equal i i' = .ok true) := by
  have hret : 0 ≤ Go.sizeSum [A, B] →
      ∃ u u', Go.Union [A, B] = .ok u ∧ Go.Union [B, A] = .ok u' ∧
        (∀ e, e ∈ u.keys ↔ e ∈ u'.keys) ∧
        ∀ e, Key.hashable e = true → Go.Contains u e = Go.Contains u' e := by
    intro h
    obtain ⟨u, h1, _, _, h4⟩ := Go_Union_ok [A, B] h
    obtain ⟨u', k1, _, _, k4⟩ := Go_Union_ok [B, A] (by rw [← sizeSum_pair_comm]; exact h)
    have hmem : ∀ e, e ∈ u.keys ↔ e ∈ u'.keys := by
      intro e
      rw [h4, k4]
      simp [or_comm]
    refine ⟨u, u', h1, k1, hmem, fun e hh => ?_⟩
    rw [Go_Contains_ok u e hh, Go_Contains_ok u' e hh,
      show decide (e ∈ u.keys) = decide (e ∈ u'.keys) from decide_eq_decide.mpr (hmem e)]
  have hfit : Go.len A + Go.len B < 2 ^ 63 → 0 ≤ Go.sizeSum [A, B] := by
    intro h
    have hs : ([A, B].map Go.len).sum = Go.len A + Go.len B := by
      simp only [List.map_cons, List.map_nil, List.sum_cons, List.sum_nil, Nat.add_zero]
    rw [sizeSum_of_fits [A, B] (by rw [hs]; exact h)]
    exact Int.natCast_nonneg _
  refine ⟨?_, fun h => ?_, ?_⟩
  · by_cases h : 0 ≤ Go.sizeSum [A, B]
    · exact Or.inl (hret h)
    · right
      have hlt : Go.sizeSum [A, B] < 0 := not_le.mp h
      exact ⟨Go_Union_neg [A, B] hlt,
        Go_Union_neg [B, A] (by rw [← sizeSum_pair_comm]; exact hlt),
        le_of_not_lt (fun hc => h (hfit hc))⟩
  · obtain ⟨u, u', h1, h2, h3, _⟩ := hret (hfit h)
    exact ⟨u, u', h1, h2, h3⟩
  · obtain ⟨i, h1, _, h3⟩ := Go_Intersection_pair A B
    obtain ⟨i', k1, _, k3⟩ := Go_Intersection_pair B A
    have hmem : ∀ e, e ∈ i.keys ↔ e ∈ i'.keys := by
      intro e
      rw [h3, k3]
      exact ⟨fun ⟨a, b, c⟩ => ⟨a, c, b⟩, fun ⟨a, b, c⟩ => ⟨a, c, b⟩⟩
    refine ⟨i, i', h1, k1, hmem, fun e hh => ?_,
      (Go_Equal_iff i i').mpr ⟨fun k hk => ((h3 k).mp hk).1, hmem⟩⟩
    rw [Go_Contains_ok i e hh, Go_Contains_ok i' e hh,
      show decide (e ∈ i.keys) = decide (e ∈ i'.keys) from decide_eq_decide.mpr (hmem e)]
/-! ## The chunks of `Chunk` on every key type -/

/-- `Overlaps` decides that one of the keys of the first set is found in the second set. -/
theorem Go_Overlaps_eq [DecidableEq E] [Key E] (s1 s2 : Go.Set E) :
    Go.Overlaps s1 s2 =
      .ok (decide (∃ e ∈ s1.keys, Key.selfEq e = true ∧ e ∈ s2.keys)) := by
  unfold Go.Overlaps
  by_cases c0 : (Go.len s1 = 0 || Go.len s2 = 0) = true
  · rw [if_pos c0]
    have hno : ¬ ∃ e ∈ s1.keys, Key.selfEq e = true ∧ e ∈ s2.keys := by
      rw [Bool.or_eq_true, decide_eq_true_eq, decide_eq_true_eq] at c0
      rintro ⟨e, h1, _, h2⟩
      rcases c0 with h | h
      · unfold Go.len at h
        rw [List.length_eq_zero] at h
        rw [h] at h1
        cases h1
      · unfold Go.len at h
        rw [List.length_eq_zero] at h
        rw [h] at h2
        cases h2
    rw [decide_eq_false hno]
    rfl
  · rw [if_neg c0]
    by_cases c1 : Go.len s1 > Go.len s2
    · rw [if_pos c1]
      show Go.loopAny (fun e => Go.lookup s1 e) s2.keys = _
      rw [Go_loopAny_eq _ (fun e => Key.selfEq e && decide (e ∈ s1.keys)) s2.keys
        (fun e he => Go_lookup_ok s1 e (s2.hashed e he))]
      congr 1
      rw [Bool.eq_iff_iff, List.any_eq_true, decide_eq_true_eq]
      constructor
      · rintro ⟨e, h1, h2⟩
        rw [Bool.and_eq_true, decide_eq_true_eq] at h2
        exact ⟨e, h2.2, h2.1, h1⟩
      · rintro ⟨e, h1, h2, h3⟩
        exact ⟨e, h3, by rw [Bool.and_eq_true, decide_eq_true_eq]; exact ⟨h2, h1⟩⟩
    · rw [if_neg c1]
      show Go.loopAny (fun e => Go.lookup s2 e) s1.keys = _
      rw [Go_loopAny_eq _ (fun e => Key.selfEq e && decide (e ∈ s2.keys)) s1.keys
        (fun e he => Go_lookup_ok s2 e (s1.hashed e he))]
      congr 1
      rw [Bool.eq_iff_iff, List.any_eq_true, decide_eq_true_eq]
      constructor
      · rintro ⟨e, h1, h2⟩
        rw [Bool.and_eq_true, decide_eq_true_eq] at h2
        exact ⟨e, h1, h2.1, h2.2⟩
      · rintro ⟨e, h1, h2, h3⟩
        exact ⟨e, h1, by rw [Bool.and_eq_true, decide_eq_true_eq]; exact ⟨h2, h3⟩⟩

/-- The two loops of `Union` are one loop over the keys of the sets, one set after the other. -/
theorem Go_unionLoop_eq [DecidableEq E] [Key E] (sets : List (Go.Set E)) (r : Go.Set E) :
    sets.foldlM (fun r s => s.keys.foldlM Go.store r) r =
      ((sets.map Go.Set.keys).flatten).foldlM Go.store r := by
  induction sets generalizing r with
  | nil => rfl
  | cons s sets ih =>
    rw [List.foldlM_cons, List.map_cons, List.flatten_cons, List.foldlM_append]
    congr 1
    funext r1
    exact ih r1

/-- The chunks that a fully consumed `Chunk(s, n)` yields, for `n >= 1`: all chunks are
allocated and hold at least one and at most `n` keys, and their keys, one chunk after the other,
are the keys of `s` in iteration order. -/
theorem Go_Chunk_collect [DecidableEq E] [Key E] (s : Go.Set E) (n : Int) (hn : 1 ≤ n) :
    ∃ seq, Go.Chunk s n = .ok seq ∧ ∃ chunks, slicesCollect seq = .ok chunks ∧
      (chunks.map Go.Set.keys).flatten = s.keys ∧
      ∀ c ∈ chunks, c.isNil = false ∧ 1 ≤ Go.len c ∧ (Go.len c : Int) ≤ n := by
  unfold Go.Chunk
  rw [if_neg (not_lt.mpr hn)]
  refine ⟨_, rfl, ?_⟩
  unfold slicesCollect
  dsimp only
  refine rangeLoop_done_bind _
    (fun done (p : Go.Set E × Int × List (Go.Set E)) =>
      p.1.isNil = false ∧ p.2.1 = (p.1.keys.length : Int) ∧ p.2.1 < n ∧
      (p.2.2.map Go.Set.keys).flatten ++ p.1.keys = done ∧
      ∀ c ∈ p.2.2, c.isNil = false ∧ 1 ≤ Go.len c ∧ (Go.len c : Int) ≤ n)
    s.keys _ _ _
    ⟨rfl, rfl, by dsimp only; omega, rfl, fun c hc => by simp at hc⟩ ?_ ?_
  · rintro done e rest ⟨chunk, cnt, acc⟩ hxs ⟨h1, h2, h3, h4, h5⟩
    dsimp only at h1 h2 h3 h4 h5
    have hh : Key.hashable e = true := s.hashed e (mem_of_split hxs)
    have he : ¬ (Key.selfEq e = true ∧ e ∈ chunk.keys) := by
      rintro ⟨hs, hmem⟩
      exact Go_not_mem_done s done rest e hxs hs
        (by rw [← h4]; exact List.mem_append_right _ hmem)
    obtain ⟨chunk', k1, k2, _, _, _, k6⟩ := Go_store_ok chunk e h1 hh
    have k3 := k6 he
    have hlen : (Go.len chunk' : Int) = cnt + 1 := by
      unfold Go.len
      rw [k3, List.length_append, List.length_singleton]
      push_cast
      omega
    dsimp only
    rw [k1, ok_bind]
    by_cases hc : cnt + 1 = n
    · rw [if_pos hc]
      refine ⟨_, rfl, rfl, rfl, ?_, ?_, ?_⟩
      · dsimp only
        omega
      · simp only [List.map_append, List.flatten_append, List.map_cons, List.map_nil,
          List.flatten_cons, List.flatten_nil, List.append_nil, k3, Go.make]
        rw [← List.append_assoc, h4]
      · intro c hc'
        rw [List.mem_append, List.mem_singleton] at hc'
        rcases hc' with hc' | rfl
        · exact h5 c hc'
        · exact ⟨k2, by omega, by omega⟩
    · rw [if_neg hc]
      refine ⟨_, rfl, k2, hlen.symm, ?_, ?_, h5⟩
      · dsimp only
        omega
      · show (acc.map Go.Set.keys).flatten ++ chunk'.keys = done ++ [e]
        rw [k3, ← List.append_assoc, h4]
  · rintro ⟨chunk, cnt, acc⟩ ⟨h1, h2, h3, h4, h5⟩
    dsimp only at h1 h2 h3 h4 h5 ⊢
    by_cases hpos : cnt > 0
    · refine ⟨acc ++ [chunk], ?_, ?_, ?_⟩
      · simp only [hpos, decide_True, Bool.and_self, if_true]
        rfl
      · simpa using h4
      · intro c hc'
        rw [List.mem_append, List.mem_singleton] at hc'
        rcases hc' with hc' | rfl
        · exact h5 c hc'
        · refine ⟨h1, ?_, ?_⟩
          · unfold Go.len
            omega
          · unfold Go.len
            omega
    · refine ⟨acc, ?_, ?_, h5⟩
      · simp only [hpos, decide_False, Bool.and_false, Bool.false_eq_true, if_false]
        rfl
      · have hk : chunk.keys = [] := List.length_eq_zero.mp (by omega)
        simpa [hk] using h4

/-- Keys that a map holds together, split into lists: a key that is equal to itself is in one
of the lists only. -/
theorem Go_flatten_disjoint [DecidableEq E] [Key E] (ls : List (List E))
    (hd : ls.flatten.Pairwise (fun a b => a ≠ b ∨ Key.selfEq a = false)) :
    ls.Pairwise (fun a b => ∀ e, Key.selfEq e = true → ¬ (e ∈ a ∧ e ∈ b)) := by
  rw [List.pairwise_flatten] at hd
  refine hd.2.imp ?_
  intro a b hab e hs ⟨ha, hb⟩
  rcases hab e ha e hb with h | h
  · exact h rfl
  · rw [hs] at h
    cases h

/-- Claim C12: for `n >= 1` the chunks that a fully consumed `Chunk(s, n)` yields form a
partition of `s`: the keys of the chunks, one chunk after the other, are the keys of `s`, so
that every entry of `s` is in one chunk; no two chunks overlap (no element is contained in two
of them); each chunk has at most `n` elements; the sizes add up to `|s|`; and `Union` of the
chunks returns a set with the keys of `s` (a size is an `int`, less than `2^63`), which is
`Equal` to `s` exactly when `s` is `Equal` to itself, that is, holds no NaN. -/
theorem chunks_partition_the_keys [DecidableEq E] [Key E] (s : Go.Set E) (n : Int)
    (hn : 1 ≤ n) :
    ∃ seq, Go.Chunk s n = .ok seq ∧ ∃ chunks, slicesCollect seq = .ok chunks ∧
      (chunks.map Go.Set.keys).flatten = s.keys ∧
      chunks.Pairwise (fun a b => Go.Overlaps a b = .ok false) ∧
      chunks.Pairwise (fun a b => ∀ e, Key.selfEq e = true → ¬ (e ∈ a.keys ∧ e ∈ b.keys)) ∧
      chunks.Pairwise
        (fun a b => ∀ e, ¬ (Go.Contains a e = .ok true ∧ Go.Contains b e = .ok true)) ∧
      (∀ c ∈ chunks, c.isNil = false ∧ 1 ≤ Go.len c ∧ (Go.len c : Int) ≤ n) ∧
      (chunks.map Go.len).sum = Go.len s ∧
      (∀ e, e ∈ s.keys ↔ ∃ c ∈ chunks, e ∈ c.keys) ∧
      (Go.len s < 2 ^ 63 → ∃ u, Go.Union chunks = .ok u ∧ u.keys = s.keys ∧
        (Go.Equal u s = .ok true ↔ Go.Equal s s = .ok true) ∧
        (s.Regular → Go.Equal u s = .ok true)) := by
  obtain ⟨seq, hseq, chunks, hcol, hkeys, hch⟩ := Go_Chunk_collect s n hn
  refine ⟨seq, hseq, chunks, hcol, hkeys, ?_⟩
  have hdisj : chunks.Pairwise
      (fun a b => ∀ e, Key.selfEq e = true → ¬ (e ∈ a.keys ∧ e ∈ b.keys)) :=
    List.pairwise_map.mp (Go_flatten_disjoint (chunks.map Go.Set.keys)
      (by rw [hkeys]; exact s.distinct))
  have hmem : ∀ e, e ∈ s.keys ↔ ∃ c ∈ chunks, e ∈ c.keys := by
    intro e
    rw [← hkeys, List.mem_flatten]
    constructor
    · rintro ⟨l, hl, he⟩
      obtain ⟨c, hc, rfl⟩ := List.mem_map.mp hl
      exact ⟨c, hc, he⟩
    · rintro ⟨c, hc, he⟩
      exact ⟨c.keys, List.mem_map.mpr ⟨c, hc, rfl⟩, he⟩
  have hlen : (chunks.map Go.len).sum = Go.len s := by
    unfold Go.len
    rw [← hkeys, List.length_flatten, List.map_map]
    rfl
  refine ⟨?_, hdisj, ?_, hch, hlen, hmem, fun hfit => ?_⟩
  · refine hdisj.imp ?_
    intro a b hab
    rw [Go_Overlaps_eq, decide_eq_false]
    rintro ⟨e, h1, h2, h3⟩
    exact hab e h2 ⟨h1, h3⟩
  · refine hdisj.imp ?_
    intro a b hab e ⟨ha, hb⟩
    unfold Go.Contains Go.lookup at ha hb
    by_cases hh : Key.hashable e = false
    · rw [if_pos hh] at ha
      cases ha
    · rw [if_neg hh] at ha hb
      have ha' := Except.ok.inj ha
      have hb' := Except.ok.inj hb
      rw [Bool.and_eq_true, decide_eq_true_eq] at ha' hb'
      exact hab e ha'.1 ⟨ha'.2, hb'.2⟩
  · have hsum : 0 ≤ Go.sizeSum chunks := by
      rw [sizeSum_of_fits chunks (by rw [hlen]; exact hfit)]
      exact Int.natCast_nonneg _
    obtain ⟨u, h1, h2, h3, h4⟩ := Go_storeFresh ((chunks.map Go.Set.keys).flatten)
      (Go.make (Go.sizeSum chunks)) rfl
      (by rw [hkeys]; exact s.hashed)
      (by rw [hkeys]; simpa [Go.make] using s.distinct)
    have hu : u.keys = s.keys := by
      rw [h4, hkeys]
      rfl
    have hue : Go.Equal u s = .ok true ↔ s.Regular := Go_Equal_of_keys_eq u s hu
    refine ⟨u, ?_, hu, ?_, hue.mpr⟩
    · unfold Go.Union
      dsimp only
      have hN := @Go_New_ok E _ _ (Go.sizeSum chunks) hsum
      unfold Go.sizeSum at hN h1
      rw [hN, ok_bind, Go_unionLoop_eq]
      exact h1
    · rw [hue, Go_Equal_of_keys_eq s s rfl]

/-- Witness of claim C12: the set `From(0, 1, 2, 3, 4, 5, 6)` with `n = 3`. -/
theorem chunks_partition_the_keys_witness :
    (1 : Int) ≤ 3 ∧
    ∃ seq, Go.Chunk (rangeSet 7) 3 = .ok seq ∧ ∃ chunks, slicesCollect seq = .ok chunks ∧
      (chunks.map Go.Set.keys).flatten = (rangeSet 7).keys ∧
      chunks.Pairwise (fun a b => Go.Overlaps a b = .ok false) ∧
      chunks.Pairwise (fun a b => ∀ e, Key.selfEq e = true → ¬ (e ∈ a.keys ∧ e ∈ b.keys)) ∧
      chunks.Pairwise
        (fun a b => ∀ e, ¬ (Go.Contains a e = .ok true ∧ Go.Contains b e = .ok true)) ∧
      (∀ c ∈ chunks, c.isNil = false ∧ 1 ≤ Go.len c ∧ (Go.len c : Int) ≤ 3) ∧
      (chunks.map Go.len).sum = Go.len (rangeSet 7) ∧
      (∀ e, e ∈ (rangeSet 7).keys ↔ ∃ c ∈ chunks, e ∈ c.keys) ∧
      (Go.len (rangeSet 7) < 2 ^ 63 → ∃ u, Go.Union chunks = .ok u ∧
        u.keys = (rangeSet 7).keys ∧
        (Go.Equal u (rangeSet 7) = .ok true ↔ Go.Equal (rangeSet 7) (rangeSet 7) = .ok true) ∧
        ((rangeSet 7).Regular → Go.Equal u (rangeSet 7) = .ok true)) :=
  ⟨by decide, chunks_partition_the_keys (rangeSet 7) 3 (by decide)⟩
/-! ## The stream of `UnionSeq` on every key type -/

/-- A map write of a key that is found keeps the map. -/
theorem Go_store_found [DecidableEq E] [Key E] (s : Go.Set E) (e : E) (hn : s.isNil = false)
    (hh : Key.hashable e = true) (hf : Key.selfEq e = true ∧ e ∈ s.keys) :
    Go.store s e = .ok s := by
  unfold Go.store
  rw [if_neg (by rw [hn]; decide), dif_neg (by rw [hh]; decide), dif_pos hf]

/-- A loop of map writes, then one more write. -/
theorem Go_storeLoop_snoc [DecidableEq E] [Key E] (xs : List E) (e : E) (r0 r : Go.Set E)
    (h : xs.foldlM Go.store r0 = .ok r) :
    (xs ++ [e]).foldlM Go.store r0 = Go.store r e := by
  rw [List.foldlM_append, h, ok_bind, List.foldlM_cons]
  cases Go.store r e <;> rfl

/-- A run of `UnionSeq` over a slice of sets with a loop body that never stops the iteration:
the map `seen` ends as the map that the writes of all keys of all sets build, and a relation
between `seen` and the state of the consumer that every yield keeps holds at the end.  The body
is run on the keys that are not found in `seen`, right after they are written to `seen`. -/
theorem Go_UnionSeq_run [DecidableEq E] [Key E] {σ : Type} (sets : List (Go.Set E))
    (yield : Yield σ E) (I : Go.Set E → σ → Prop) (st0 : σ) (h0 : I (Go.make 0) st0)
    (hy : ∀ (seen seen' : Go.Set E) (st : σ) (e : E), I seen st → seen.isNil = false →
      Key.hashable e = true → ¬ (Key.selfEq e = true ∧ e ∈ seen.keys) →
      seen'.isNil = false → seen'.keys = seen.keys ++ [e] →
      ∃ st', yield st e = .ok (st', true) ∧ I seen' st') :
    ∃ seen st, ((sets.map Go.Set.keys).flatten).foldlM Go.store (Go.make 0) = .ok seen ∧
      Go.UnionSeq (slicesValues sets) σ yield st0 = .ok st ∧ seen.isNil = false ∧
      I seen st := by
  obtain ⟨p, hp, hJ1, hJ2, hJ3⟩ := rangeLoop_inv_done
    (fun ((seen, st) : Go.Set E × σ) (s : Go.Set E) =>
      rangeLoop (fun (seen, st) e => do
        if !(← Go.lookup seen e) then do
          let seen ← Go.store seen e
          let (st, more) ← yield st e
          if !more then pure ((seen, st), false) else pure ((seen, st), true)
        else pure ((seen, st), true)) s.keys (seen, st))
    (fun done (p : Go.Set E × σ) => p.1.isNil = false ∧
      ((done.map Go.Set.keys).flatten).foldlM Go.store (Go.make 0) = .ok p.1 ∧ I p.1 p.2)
    sets ((Go.make 0 : Go.Set E), st0) ⟨rfl, rfl, h0⟩ (by
      rintro doneSets s restSets ⟨seen, st⟩ _ ⟨g1, g2, g3⟩
      dsimp only at g1 g2 g3
      obtain ⟨q, hq, hK1, hK2, hK3⟩ := rangeLoop_inv_done
        (fun ((seen, st) : Go.Set E × σ) (e : E) => do
          if !(← Go.lookup seen e) then do
            let seen ← Go.store seen e
            let (st, more) ← yield st e
            if !more then pure ((seen, st), false) else pure ((seen, st), true)
          else pure ((seen, st), true))
        (fun done (p : Go.Set E × σ) => p.1.isNil = false ∧
          ((doneSets.map Go.Set.keys).flatten ++ done).foldlM Go.store (Go.make 0) = .ok p.1 ∧
          I p.1 p.2)
        s.keys (seen, st) ⟨g1, by rw [List.append_nil]; exact g2, g3⟩ (by
          rintro done e rest ⟨seen1, st1⟩ hxs ⟨k1, k2, k3⟩
          dsimp only at k1 k2 k3
          have hh : Key.hashable e = true := s.hashed e (mem_of_split hxs)
          dsimp only
          rw [Go_lookup_ok seen1 e hh, ok_bind]
          by_cases hf : Key.selfEq e = true ∧ e ∈ seen1.keys
          · have hb : (Key.selfEq e && decide (e ∈ seen1.keys)) = true := by
              rw [Bool.and_eq_true, decide_eq_true_eq]
              exact hf
            rw [hb]
            refine ⟨(seen1, st1), rfl, k1, ?_, k3⟩
            rw [← List.append_assoc, Go_storeLoop_snoc _ e _ seen1 k2]
            exact Go_store_found seen1 e k1 hh hf
          · have hb : (Key.selfEq e && decide (e ∈ seen1.keys)) = false := by
              rw [← Bool.not_eq_true, Bool.and_eq_true, decide_eq_true_eq]
              exact hf
            obtain ⟨seen2, m1, m2, _, _, _, m6⟩ := Go_store_ok seen1 e k1 hh
            obtain ⟨st2, n1, n2⟩ := hy seen1 seen2 st1 e k3 k1 hh hf m2 (m6 hf)
            rw [hb]
            refine ⟨(seen2, st2), ?_, m2, ?_, n2⟩
            · simp only [Bool.not_false, if_true, m1, ok_bind, n1]
              rfl
            · rw [← List.append_assoc, Go_storeLoop_snoc _ e _ seen1 k2]
              exact m1)
      refine ⟨q, hq, hK1, ?_, hK3⟩
      rw [List.map_append, List.flatten_append]
      simpa using hK2)
  refine ⟨p.1, p.2, hJ2, ?_, hJ1, hJ3⟩
  unfold Go.UnionSeq
  dsimp only
  rw [slicesValues_eq_rangeLoop, hp]
  rfl

/-- A fully consumed `UnionSeq` over a slice of sets yields the keys of the map that the writes
of all keys of all sets build, and `Collect` of it returns a map with these keys. -/
theorem Go_UnionSeq_collect [DecidableEq E] [Key E] (sets : List (Go.Set E)) :
    ∃ seen c, ((sets.map Go.Set.keys).flatten).foldlM Go.store (Go.make 0) = .ok seen ∧
      slicesCollect (Go.UnionSeq (slicesValues sets)) = .ok seen.keys ∧
      Go.Collect (Go.UnionSeq (slicesValues sets)) = .ok c ∧ c.isNil = false ∧
      c.keys = seen.keys := by
  obtain ⟨seen, out, h1, h2, _, h4⟩ := Go_UnionSeq_run sets
    (fun (acc : List E) (v : E) => (pure (acc ++ [v], true) : Except Panic (List E × Bool)))
    (fun seen acc => acc = seen.keys) [] rfl (by
      intro seen seen' acc e hI _ _ _ _ hk
      refine ⟨acc ++ [e], rfl, ?_⟩
      show acc ++ [e] = seen'.keys
      rw [hk, hI])
  obtain ⟨seen', c, k1, k2, _, k4, k5⟩ := Go_UnionSeq_run sets
    (fun (s : Go.Set E) (e : E) => do
      let s ← Go.store s e
      pure (s, true))
    (fun seen c => c.isNil = false ∧ c.keys = seen.keys) (Go.make 0) ⟨rfl, rfl⟩ (by
      intro seen seen' c e hI _ hh hf _ hk
      obtain ⟨c', m1, m2, _, _, _, m6⟩ := Go_store_ok c e hI.1 hh
      refine ⟨c', ?_, m2, ?_⟩
      · dsimp only
        rw [m1]
        rfl
      · rw [m6 (by rw [hI.2]; exact hf), hk, hI.2])
  have hs : seen' = seen := by
    rw [h1] at k1
    exact (Except.ok.inj k1).symm
  subst hs
  subst h4
  refine ⟨seen', c, h1, h2, ?_, k4, k5⟩
  unfold Go.Collect Go.InsertSeq
  rw [Go_New_ok 0 (le_refl 0), ok_bind]
  exact k2

/-- The keys of `Union(sets...)` are the keys of the map that the writes of all keys of all
sets build from an empty map, whatever capacity it was made with. -/
theorem Go_Union_keys [DecidableEq E] [Key E] (sets : List (Go.Set E)) (u seen : Go.Set E)
    (hu : Go.Union sets = .ok u)
    (hs : ((sets.map Go.Set.keys).flatten).foldlM Go.store (Go.make 0) = .ok seen) :
    u.keys = seen.keys := by
  unfold Go.Union at hu
  dsimp only at hu
  by_cases hneg : sets.foldl (fun maxSize s => intAdd maxSize (Go.len s)) 0 < 0
  · rw [Go_New_neg _ hneg] at hu
    cases hu
  · rw [Go_New_ok _ (not_lt.mp hneg), ok_bind, Go_unionLoop_eq] at hu
    have h := Go_storeLoop_congr ((sets.map Go.Set.keys).flatten) (fun x => x)
      (Go.make (sets.foldl (fun maxSize s => intAdd maxSize (Go.len s)) 0)) (Go.make 0)
      rfl rfl
    have hu' : ((sets.map Go.Set.keys).flatten).foldlM (fun r x => Go.store r x)
        (Go.make (sets.foldl (fun maxSize s => intAdd maxSize (Go.len s)) 0)) = .ok u := hu
    have hs' : ((sets.map Go.Set.keys).flatten).foldlM (fun r x => Go.store r x)
        (Go.make 0) = .ok seen := hs
    rw [hu', hs'] at h
    exact congrArg Prod.snd (Except.ok.inj h)

/-- Counterexample to claim C13: over `From(math.NaN())` twice, `UnionSeq` yields the NaN
twice; `Collect(UnionSeq(seq))` over `From(math.NaN())` is not `Equal` to `Union` of the same
set; and over the set `From(0, ..., 2^31 - 1)` `2^32` times, `Collect(UnionSeq(seq))` returns
while `Union` of the same sets panics in `New`. -/
theorem unionSeq_yields_a_nan_twice_and_returns_where_union_panics :
    slicesCollect (Go.UnionSeq (slicesValues [nanSet, nanSet])) =
      .ok [Float64.nan, Float64.nan] ∧
    (Go.Collect (Go.UnionSeq (slicesValues [nanSet]))).bind
      (fun c => (Go.Union [nanSet]).bind (fun u => Go.Equal c u)) = .ok false ∧
    (∃ c, Go.Collect (Go.UnionSeq
      (slicesValues (List.replicate (2 ^ 32) (rangeSet (2 ^ 31))))) = .ok c) ∧
    Go.Union (List.replicate (2 ^ 32) (rangeSet (2 ^ 31))) = .error .cannotBeNegative := by
  refine ⟨by decide, by decide, ?_, Go_Union_neg _ ?_⟩
  · obtain ⟨_, c, _, _, h, _⟩ :=
      Go_UnionSeq_collect (List.replicate (2 ^ 32) (rangeSet (2 ^ 31)))
    exact ⟨c, h⟩
  · rw [sizeSum_replicate, len_rangeSet]
    unfold intAdd
    norm_num

/-- Claim C13, amended: for every finite sequence of sets (nil sets included), a fully consumed
`UnionSeq(seq)` yields a stream whose elements are the elements of the sets of the sequence, in
which every element that is equal to itself occurs once, so that the stream has no duplicates
when no set holds a NaN; `Collect(UnionSeq(seq))` returns a set with the elements of the
stream.  `Union` of the same sets returns exactly when the capacity it computes (the sum of the
sizes in `int` arithmetic) is not negative, which is the case when the sizes add up to less
than `2^63`; when it returns, it has the keys of `Collect(UnionSeq(seq))`, and the two sets are
`Equal` exactly when no set holds a NaN. -/
theorem unionSeq_stream_is_the_union_on_self_equal_keys [DecidableEq E] [Key E]
    (sets : List (Go.Set E)) :
    ∃ out c, slicesCollect (Go.UnionSeq (slicesValues sets)) = .ok out ∧
      Go.Collect (Go.UnionSeq (slicesValues sets)) = .ok c ∧ c.isNil = false ∧
      c.keys = out ∧
      (∀ e, e ∈ out ↔ ∃ s ∈ sets, e ∈ s.keys) ∧
      (∀ e, Key.selfEq e = true → out.count e ≤ 1) ∧
      ((∀ s ∈ sets, s.Regular) → out.Nodup) ∧
      ((∃ u, Go.Union sets = .ok u) ↔ 0 ≤ Go.sizeSum sets) ∧
      ((sets.map Go.len).sum < 2 ^ 63 → 0 ≤ Go.sizeSum sets) ∧
      (∀ u, Go.Union sets = .ok u → u.keys = c.keys ∧
        (∀ e, Key.hashable e = true → Go.Contains c e = Go.Contains u e) ∧
        (Go.Equal c u = .ok true ↔ ∀ s ∈ sets, s.Regular)) := by
  obtain ⟨seen, c, h1, h2, h3, h4, h5⟩ := Go_UnionSeq_collect sets
  have hmem : ∀ e, e ∈ seen.keys ↔ ∃ s ∈ sets, e ∈ s.keys := by
    obtain ⟨r, k1, _, _, k4⟩ := Go_unionLoop_ok sets (Go.make 0) rfl
    rw [Go_unionLoop_eq, h1] at k1
    have hr : seen = r := Except.ok.inj k1
    subst hr
    intro e
    rw [k4]
    simp [Go.make]
  have hreg : seen.Regular ↔ ∀ s ∈ sets, s.Regular := by
    unfold Go.Set.Regular
    constructor
    · intro h s hs k hk
      exact h k ((hmem k).mpr ⟨s, hs, hk⟩)
    · intro h k hk
      obtain ⟨s, hs, hks⟩ := (hmem k).mp hk
      exact h s hs k hks
  refine ⟨seen.keys, c, h2, h3, h4, h5, hmem, fun e hs => Go_count_le_one seen e hs,
    fun h => Go_Regular_nodup seen (hreg.mpr h), ⟨fun ⟨u, hu⟩ => ?_, fun h => ?_⟩, fun h => ?_,
    fun u hu => ?_⟩
  · by_contra hneg
    rw [Go_Union_neg sets (not_le.mp hneg)] at hu
    cases hu
  · obtain ⟨u, hu, _⟩ := Go_Union_ok sets h
    exact ⟨u, hu⟩
  · rw [sizeSum_of_fits sets h]
    exact Int.natCast_nonneg _
  · have hk : u.keys = seen.keys := Go_Union_keys sets u seen hu h1
    have hcu : c.keys = u.keys := by rw [h5, hk]
    refine ⟨hcu.symm, fun e hh => ?_, ?_⟩
    · rw [Go_Contains_ok c e hh, Go_Contains_ok u e hh, hcu]
    · rw [Go_Equal_of_keys_eq c u hcu, ← hreg]
      unfold Go.Set.Regular
      rw [hk]

end sets
